import Mathlib

/-!
# goson: a shallow embedding of the JSON parser and value model

Bytes are natural numbers (a Go `byte` is a number below 256), a Go `string`
is the list of its bytes, and a `float64` is its IEEE-754 bit pattern.  A Go
function returning `(x, error)` returns a pair whose second component is
`none` for a `nil` error.  A run-time panic (index or slice bounds out of
range) is the outcome `fault`.
-/

namespace goson

/-! ## type.go -/

/-- The `Type` tag of a value (`type.go`, `const ( NULL Type = iota ... )`). -/
inductive Type_ where
  | NULL | FALSE | TRUE | NUMBER | STRING | ARRAY | OBJECT
deriving DecidableEq, Repr

/-- The error values of `type.go`, and `Errorf` for the errors built with
`fmt.Errorf` (they are distinct from every sentinel error). -/
inductive Err where
  | ErrParseInvalidValue
  | ErrParseRootNotSingular
  | ErrParseNumberTooBig
  | ErrParseInvalidStringEscape
  | ErrParseMissQuotationMark
  | ErrParseInvalidStringChar
  | ErrParseInvalidUnicodeHex
  | ErrParseInvalidUnicodeSurrogate
  | ErrParseMissCommaOrSquareBracket
  | ErrParseMissKey
  | ErrParseMissColon
  | ErrParseMissCommaOrCurlyBracket
  | ErrKeyNotExist
  | Errorf (msg : String)
deriving DecidableEq, Repr

open Type_ Err

/-! ## value.go: the data model -/

/-- The struct `Value` of `value.go`: fields `s`, `n`, `a`, `o`, `t`.  An
entry of `o` is a `KV`, the pair of its key `k` and its value `v`. -/
inductive Value where
  | mk (s : List Nat) (n : Nat) (a : List Value) (o : List (List Nat × Value)) (t : Type_)

/-- The struct `KV` of `value.go`: `(k, v)`. -/
abbrev KV := List Nat × Value

/-- Field `s`. -/
def Value.s : Value → List Nat
  | .mk s _ _ _ _ => s

/-- Field `n`. -/
def Value.n : Value → Nat
  | .mk _ n _ _ _ => n

/-- Field `a`. -/
def Value.a : Value → List Value
  | .mk _ _ a _ _ => a

/-- Field `o`. -/
def Value.o : Value → List KV
  | .mk _ _ _ o _ => o

/-- Field `t`. -/
def Value.t : Value → Type_
  | .mk _ _ _ _ t => t

/-- The assignment `v.o = o`. -/
def Value.setO : Value → List KV → Value
  | .mk s n a _ t, o => .mk s n a o t

/-- The zero value, `var v Value` or `&Value{}`. -/
def Value.zero : Value := .mk [] 0 [] [] NULL

/-- Outcome of an operation that may panic. -/
inductive Exec (α : Type) where
  | done (x : α)
  | fault

/-- The loop of `getObjectValue`: the value of the first entry whose key is
`key`, or `none` when the loop runs to its end. -/
def getObjectValueLoop (key : List Nat) : List KV → Option Value
  | [] => none
  | kv :: rest => if kv.1 = key then some kv.2 else getObjectValueLoop key rest

/-- `func (v *Value) getObjectValue(key string) (*Value, error)`. -/
def getObjectValue (v : Value) (key : List Nat) : Value × Option Err :=
  if v.t ≠ OBJECT then (Value.zero, some (Errorf "value type is not object"))
  else
    match getObjectValueLoop key v.o with
    | some x => (x, none)
    | none => (Value.zero, some ErrKeyNotExist)

/-- The loop of `setObjectValue`: `some o'` when an entry matched (its value
has been replaced and the function returned), `none` when the loop runs to its
end. -/
def setObjectValueLoop (key : List Nat) (value : Value) : List KV → Option (List KV)
  | [] => none
  | kv :: rest =>
    if kv.1 = key then some ((kv.1, value) :: rest)
    else (setObjectValueLoop key value rest).map (fun r => kv :: r)

/-- `func (v *Value) setObjectValue(key string, value *Value) error`: the
receiver after the call, and the error. -/
def setObjectValue (v : Value) (key : List Nat) (value : Value) : Value × Option Err :=
  if v.t ≠ OBJECT then (v, some (Errorf "value type is not object"))
  else
    match setObjectValueLoop key value v.o with
    | some o => (v.setO o, none)
    | none => (v.setO (v.o ++ [(key, value)]), none)

/-- The loop of `removeObjectValue`, started at position `i`: the value of
`index` after the loop; `index` keeps its zero value when no key matches. -/
def removeObjectValueLoop (key : List Nat) : List KV → Nat → Nat
  | [], _ => 0
  | kv :: rest, i => if kv.1 = key then i else removeObjectValueLoop key rest (i + 1)

/-- `func (v *Value) removeObjectValue(key string) error`: the receiver after
the call, and the error.  `v.o[index+1:]` panics when `index+1 > len(v.o)`. -/
def removeObjectValue (v : Value) (key : List Nat) : Exec (Value × Option Err) :=
  if v.t ≠ OBJECT then .done (v, some (Errorf "value type is not object"))
  else
    let index := removeObjectValueLoop key v.o 0
    if index + 1 > v.o.length then .fault
    else .done (v.setO (v.o.take index ++ v.o.drop (index + 1)), none)


/-! ## parser.go -/

/-- The struct `Parser`: the unread text, the scratch buffer and its
occupancy counter. -/
structure Parser where
  json : List Nat
  stack : List Nat
  top : Nat
deriving DecidableEq, Repr

/-- The run-time panics the parser can raise. -/
inductive Panic where
  | IndexOutOfRange
  | SliceBoundsOutOfRange
  | StackNotEmpty
deriving DecidableEq, Repr

/-- Outcome of a parser method: it returns `(x, err)` and leaves the parser in
state `p`, or panics, or the model ran out of fuel. -/
inductive Res (α : Type) where
  | ret (x : α) (err : Option Err) (p : Parser)
  | fault (why : Panic)
  | timeout

/-- The errors of `strconv.ParseFloat`: `strconv.ErrRange` and
`strconv.ErrSyntax`. -/
inductive NumError where
  | ErrRange
  | ErrSyntax
deriving DecidableEq, Repr

/-- The functions of the Go library the code calls on numbers:
`strconv.ParseFloat(s, 64)` (the bits of the result, and the error or nil) and
`fmt.Sprintf("%.17g", n)`. -/
structure Strconv where
  ParseFloat : List Nat → Nat × Option NumError
  FormatG17 : Nat → List Nat

/-- `func (p *Parser) push(b byte)`. -/
def Parser.push (p : Parser) (b : Nat) : Parser :=
  { p with stack := p.stack ++ [b], top := p.top + 1 }

/-- `func (p *Parser) pushs(bs []byte)`. -/
def Parser.pushs (p : Parser) (bs : List Nat) : Parser :=
  { p with stack := p.stack ++ bs, top := p.top + bs.length }

/-- `func (p *Parser) pop(size int) []byte`: `p.stack[p.top-size:]` panics
unless `0 <= p.top-size <= len(p.stack)`. -/
def Parser.pop (p : Parser) (size : Nat) : Exec (List Nat × Parser) :=
  if size > p.top ∨ p.top - size > p.stack.length then .fault
  else .done (p.stack.drop (p.top - size),
    { p with stack := p.stack.take (p.top - size), top := p.top - size })

/-- The loop of `parseWhiteSpace` on the unread text. -/
def parseWhiteSpaceLoop : List Nat → List Nat
  | [] => []
  | c :: rest =>
    if c = 32 ∨ c = 9 ∨ c = 10 ∨ c = 13 then parseWhiteSpaceLoop rest else c :: rest

/-- `func (p *Parser) parseWhiteSpace()`. -/
def Parser.parseWhiteSpace (p : Parser) : Parser :=
  { p with json := parseWhiteSpaceLoop p.json }

/-- `func (p *Parser) parseLiteral(json string, t Type) (*Value, error)`. -/
def parseLiteral (p : Parser) (json : List Nat) (t : Type_) : Res Value :=
  if p.json.length < json.length ∨ p.json.take json.length ≠ json then
    .ret Value.zero (some ErrParseInvalidValue) p
  else
    .ret (Value.mk [] 0 [] [] t) none { p with json := p.json.drop json.length }

/-- `func isDigit1To9(b byte) bool`. -/
def isDigit1To9 (b : Nat) : Bool := decide (b ≥ 49) && decide (b ≤ 57)

/-- `func isDigit(b byte) bool`. -/
def isDigit (b : Nat) : Bool := b == 48 || isDigit1To9 b

/-- The loop `for ; i < len(json) && isDigit(json[i]); i++ {}`: the final `i`. -/
def digitsLoop (json : List Nat) (i : Nat) : Nat :=
  i + ((json.drop i).takeWhile isDigit).length

/-- The integer part of `parseNumber`, from index `i`: the index after it, or
`none` for the return of `ErrParseInvalidValue`. -/
def parseNumberInt (json : List Nat) (i : Nat) : Option Nat :=
  if json[i]? = some 48 then some (i + 1)
  else
    match json[i]? with
    | none => none
    | some b => if !isDigit1To9 b then none else some (digitsLoop json (i + 1))

/-- The fraction part of `parseNumber`, from index `i`. -/
def parseNumberFrac (json : List Nat) (i : Nat) : Option Nat :=
  if json[i]? = some 46 then
    match json[i + 1]? with
    | none => none
    | some b => if !isDigit b then none else some (digitsLoop json (i + 1 + 1))
  else some i

/-- The exponent part of `parseNumber`, from index `i`. -/
def parseNumberExp (json : List Nat) (i : Nat) : Option Nat :=
  if json[i]? = some 101 ∨ json[i]? = some 69 then
    let i := i + 1
    let i := if json[i]? = some 43 ∨ json[i]? = some 45 then i + 1 else i
    match json[i]? with
    | none => none
    | some b => if !isDigit b then none else some (digitsLoop json (i + 1))
  else some i

/-- `func (p *Parser) parseNumber() (*Value, error)`. -/
def parseNumber (lib : Strconv) (p : Parser) : Res Value :=
  let i := if p.json[0]? = some 45 then 1 else 0
  match ((parseNumberInt p.json i).bind (parseNumberFrac p.json)).bind (parseNumberExp p.json) with
  | none => .ret Value.zero (some ErrParseInvalidValue) p
  | some i =>
    match lib.ParseFloat (p.json.take i) with
    | (_, some NumError.ErrRange) => .ret Value.zero (some ErrParseNumberTooBig) p
    | (n, _) => .ret (Value.mk [] n [] [] NUMBER) none { p with json := p.json.drop i }

/-- The loop of `parseHex4` with `k` rounds left and accumulator `u`
(a `uint32`). -/
def parseHex4Loop : Nat → Nat → Parser → Res Nat
  | 0, u, p => .ret u none p
  | k + 1, u, p =>
    match p.json with
    | [] => .ret 0 (some ErrParseInvalidUnicodeHex) p
    | ch :: rest =>
      let p := { p with json := rest }
      let u := (u <<< 4) % 2 ^ 32
      if 48 ≤ ch ∧ ch ≤ 57 then parseHex4Loop k (u ||| (ch - 48)) p
      else if 65 ≤ ch ∧ ch ≤ 70 then parseHex4Loop k (u ||| (ch - 65 + 10)) p
      else if 97 ≤ ch ∧ ch ≤ 102 then parseHex4Loop k (u ||| (ch - 97 + 10)) p
      else .ret 0 (some ErrParseInvalidUnicodeHex) p

/-- `func (p *Parser) parseHex4() (uint32, error)`. -/
def parseHex4 (p : Parser) : Res Nat := parseHex4Loop 4 0 p

/-- Go's `utf8.EncodeRune`, the bytes written for the rune `r` (given as
`uint32(r)`); `byte(x)` is `x % 256`. -/
def EncodeRune (r : Nat) : List Nat :=
  if r ≤ 0x7F then [r % 256]
  else if r ≤ 0x7FF then
    [0xC0 ||| ((r >>> 6) % 256), 0x80 ||| ((r % 256) &&& 0x3F)]
  else if r > 0x10FFFF ∨ (0xD800 ≤ r ∧ r ≤ 0xDFFF) then [0xEF, 0xBF, 0xBD]
  else if r ≤ 0xFFFF then
    [0xE0 ||| ((r >>> 12) % 256), 0x80 ||| (((r >>> 6) % 256) &&& 0x3F),
      0x80 ||| ((r % 256) &&& 0x3F)]
  else
    [0xF0 ||| ((r >>> 18) % 256), 0x80 ||| (((r >>> 12) % 256) &&& 0x3F),
      0x80 ||| (((r >>> 6) % 256) &&& 0x3F), 0x80 ||| ((r % 256) &&& 0x3F)]

/-- `func (p *Parser) encodeUTF8(u uint32)`. -/
def Parser.encodeUTF8 (p : Parser) (u : Nat) : Parser := p.pushs (EncodeRune u)

/-- The low-surrogate branch of `parseStringRaw` (`if u >= 0xD800 && u <=
0xDBFF`), with `h` the high surrogate: the combined code point. -/
def parseSurrogate (head h : Nat) (p : Parser) : Res Nat :=
  match p.json with
  | [] => .fault .IndexOutOfRange
  | ch :: rest =>
    let p := { p with json := rest }
    if ch ≠ 92 then .ret 0 (some ErrParseInvalidUnicodeSurrogate) { p with top := head }
    else
      match p.json with
      | [] => .fault .IndexOutOfRange
      | ch :: rest =>
        let p := { p with json := rest }
        if ch ≠ 117 then .ret 0 (some ErrParseInvalidUnicodeSurrogate) { p with top := head }
        else
          match parseHex4 p with
          | .fault w => .fault w
          | .timeout => .timeout
          | .ret _ (some _) p =>
            .ret 0 (some ErrParseInvalidUnicodeSurrogate) { p with top := head }
          | .ret u none p =>
            if ¬ (0xDC00 ≤ u ∧ u ≤ 0xDFFF) then
              .ret 0 (some ErrParseInvalidUnicodeSurrogate) { p with top := head }
            else .ret ((0x10000 + (h - 0xD800) * 0x400 + (u - 0xDC00)) % 2 ^ 32) none p

/-- The escape branch of `parseStringRaw` (`case '\\'`) for the escape
character `ch`: the parser after the push, or the error return. -/
def parseEscape (head : Nat) (ch : Nat) (p : Parser) : Res Unit :=
  if ch = 34 then .ret () none (p.push 34)
  else if ch = 92 then .ret () none (p.push 92)
  else if ch = 47 then .ret () none (p.push 47)
  else if ch = 98 then .ret () none (p.push 8)
  else if ch = 102 then .ret () none (p.push 12)
  else if ch = 110 then .ret () none (p.push 10)
  else if ch = 114 then .ret () none (p.push 13)
  else if ch = 116 then .ret () none (p.push 9)
  else if ch = 117 then
    match parseHex4 p with
    | .fault w => .fault w
    | .timeout => .timeout
    | .ret _ (some err) p => .ret () (some err) { p with top := head }
    | .ret u none p =>
      if 0xD800 ≤ u ∧ u ≤ 0xDBFF then
        match parseSurrogate head u p with
        | .fault w => .fault w
        | .timeout => .timeout
        | .ret _ (some err) p => .ret () (some err) p
        | .ret u none p => .ret () none (p.encodeUTF8 u)
      else .ret () none (p.encodeUTF8 u)
  else .ret () (some ErrParseInvalidStringEscape) { p with top := head }

/-- The `for` loop of `parseStringRaw`, with `head` the mark taken at the
start of the string. -/
def parseStringRawLoop (head : Nat) : Nat → Parser → Res (List Nat)
  | 0, _ => .timeout
  | fuel + 1, p =>
    match p.json with
    | [] => .fault .IndexOutOfRange
    | ch :: rest =>
      let p := { p with json := rest }
      if p.json.length = 0 ∧ ch ≠ 34 then
        .ret [] (some ErrParseMissQuotationMark) { p with top := head }
      else if ch = 34 then
        match p.pop (p.top - head) with
        | .fault => .fault .SliceBoundsOutOfRange
        | .done (s, p) => .ret s none p
      else if ch = 92 then
        match p.json with
        | [] => .fault .IndexOutOfRange
        | ch :: rest =>
          match parseEscape head ch { p with json := rest } with
          | .fault w => .fault w
          | .timeout => .timeout
          | .ret _ (some err) p => .ret [] (some err) p
          | .ret _ none p => parseStringRawLoop head fuel p
      else if ch < 0x20 then
        .ret [] (some ErrParseInvalidStringChar) { p with top := head }
      else parseStringRawLoop head fuel (p.push ch)

/-- `func (p *Parser) parseStringRaw() (string, error)`. -/
def parseStringRaw (p : Parser) : Res (List Nat) :=
  if p.json.length ≠ 0 ∧ p.json.head? ≠ some 34 then
    .ret [] (some (Errorf "missing close \x27\"\x27")) p
  else
    match p.json with
    | [] => .fault .SliceBoundsOutOfRange
    | _ :: rest =>
      let p := { p with json := rest }
      if p.json.length = 0 then .ret [] (some ErrParseMissQuotationMark) p
      else parseStringRawLoop p.top (p.json.length + 1) p

/-- `func (p *Parser) parseString() (*Value, error)`. -/
def parseString (p : Parser) : Res Value :=
  match parseStringRaw p with
  | .fault w => .fault w
  | .timeout => .timeout
  | .ret _ (some err) p => .ret Value.zero (some err) p
  | .ret s none p => .ret (Value.mk s 0 [] [] STRING) none p

/-- The `for` loop of `parseArray`, with `a` the elements collected so far and
`pv` the method `parseValue`. -/
def parseArrayLoop (pv : Parser → Res Value) : Nat → Parser → List Value → Res Value
  | 0, _, _ => .timeout
  | fuel + 1, p, a =>
    match pv p with
    | .fault w => .fault w
    | .timeout => .timeout
    | .ret _ (some err) p => .ret Value.zero (some err) p
    | .ret e none p =>
      let a := a ++ [e]
      let p := p.parseWhiteSpace
      match p.json with
      | [] => .ret Value.zero (some ErrParseMissCommaOrSquareBracket) p
      | c :: rest =>
        if c = 44 then parseArrayLoop pv fuel ({ p with json := rest }).parseWhiteSpace a
        else if c = 93 then .ret (Value.mk [] 0 a [] ARRAY) none { p with json := rest }
        else .ret Value.zero (some ErrParseMissCommaOrSquareBracket) p

/-- `func (p *Parser) parseArray() (*Value, error)`, with `pv` the method
`parseValue`. -/
def parseArray (pv : Parser → Res Value) (p : Parser) : Res Value :=
  match p.json with
  | [] => .ret Value.zero (some (Errorf "missing close \x27[\x27")) p
  | c :: rest =>
    if c ≠ 91 then .ret Value.zero (some (Errorf "missing close \x27[\x27")) p
    else
      let p := ({ p with json := rest }).parseWhiteSpace
      if p.json.head? = some 93 then
        .ret (Value.mk [] 0 [] [] ARRAY) none { p with json := p.json.tail }
      else parseArrayLoop pv (p.json.length + 1) p []

/-- The `for` loop of `parseObject`, with `o` the entries collected so far and
`pv` the method `parseValue`. -/
def parseObjectLoop (pv : Parser → Res Value) : Nat → Parser → List KV → Res Value
  | 0, _, _ => .timeout
  | fuel + 1, p, o =>
    if p.json.head? ≠ some 34 then .ret Value.zero (some ErrParseMissKey) p
    else
      match parseStringRaw p with
      | .fault w => .fault w
      | .timeout => .timeout
      | .ret _ (some err) p => .ret Value.zero (some err) p
      | .ret s none p =>
        let p := p.parseWhiteSpace
        if p.json.head? ≠ some 58 then .ret Value.zero (some ErrParseMissColon) p
        else
          let p := ({ p with json := p.json.tail }).parseWhiteSpace
          match pv p with
          | .fault w => .fault w
          | .timeout => .timeout
          | .ret _ (some err) p => .ret Value.zero (some err) p
          | .ret vv none p =>
            let o := o ++ [(s, vv)]
            let p := p.parseWhiteSpace
            match p.json with
            | [] => .ret Value.zero (some ErrParseMissCommaOrCurlyBracket) p
            | c :: rest =>
              if c = 44 then
                parseObjectLoop pv fuel ({ p with json := rest }).parseWhiteSpace o
              else if c = 125 then .ret (Value.mk [] 0 [] o OBJECT) none { p with json := rest }
              else .ret Value.zero (some ErrParseMissCommaOrCurlyBracket) p

/-- `func (p *Parser) parseObject() (*Value, error)`, with `pv` the method
`parseValue`. -/
def parseObject (pv : Parser → Res Value) (p : Parser) : Res Value :=
  match p.json with
  | [] => .ret Value.zero (some (Errorf "missing close \x27\x7b\x27")) p
  | c :: rest =>
    if c ≠ 123 then .ret Value.zero (some (Errorf "missing close \x27\x7b\x27")) p
    else
      let p := ({ p with json := rest }).parseWhiteSpace
      if p.json.head? = some 125 then
        .ret (Value.mk [] 0 [] [] OBJECT) none { p with json := p.json.tail }
      else parseObjectLoop pv (p.json.length + 1) p []

/-- `func (p *Parser) parseValue() (*Value, error)`; the fuel bounds the
nesting depth. -/
def parseValue (lib : Strconv) : Nat → Parser → Res Value
  | 0, _ => .timeout
  | fuel + 1, p =>
    match p.json with
    | [] => .ret Value.zero none p
    | c :: _ =>
      if c = 116 then parseLiteral p [116, 114, 117, 101] TRUE
      else if c = 102 then parseLiteral p [102, 97, 108, 115, 101] FALSE
      else if c = 110 then parseLiteral p [110, 117, 108, 108] NULL
      else if c = 34 then parseString p
      else if c = 91 then parseArray (parseValue lib fuel) p
      else if c = 123 then parseObject (parseValue lib fuel) p
      else parseNumber lib p

/-- `func (p *Parser) Parse(s string) (*Value, error)` on the parser `p`. -/
def Parser.Parse (lib : Strconv) (p : Parser) (s : List Nat) : Res Value :=
  let p := ({ p with json := s }).parseWhiteSpace
  match parseValue lib (s.length + 1) p with
  | .fault w => .fault w
  | .timeout => .timeout
  | .ret v (some err) p =>
    if p.top ≠ 0 then .fault .StackNotEmpty else .ret v (some err) { p with stack := [] }
  | .ret v none p =>
    let p := p.parseWhiteSpace
    if p.json.length ≠ 0 then .ret Value.zero (some ErrParseRootNotSingular) p
    else if p.top ≠ 0 then .fault .StackNotEmpty
    else .ret v none { p with stack := [] }

/-- A fresh parser, `var p Parser`. -/
def Parser.zero : Parser := { json := [], stack := [], top := 0 }

/-- `Parse` on a fresh parser. -/
def Parse (lib : Strconv) (s : List Nat) : Res Value := Parser.zero.Parse lib s

/-! ## value.go: the stringifier -/

/-- The Go runtime's `decoderune(s, 0)`, which a `range` loop over a string
calls at a byte that is not ASCII: the rune and the number of bytes it takes
(`runeError` and 1 for an ill-formed sequence). -/
def decoderune (s : List Nat) : Nat × Nat :=
  match s with
  | [] => (0xFFFD, 1)
  | s0 :: rest =>
    if 0xC0 ≤ s0 ∧ s0 < 0xE0 then
      match rest with
      | s1 :: _ =>
        if 0x80 ≤ s1 ∧ s1 ≤ 0xBF then
          let r := ((s0 &&& 0x1F) <<< 6) ||| (s1 &&& 0x3F)
          if 0x7F < r then (r, 2) else (0xFFFD, 1)
        else (0xFFFD, 1)
      | _ => (0xFFFD, 1)
    else if 0xE0 ≤ s0 ∧ s0 < 0xF0 then
      match rest with
      | s1 :: s2 :: _ =>
        if (0x80 ≤ s1 ∧ s1 ≤ 0xBF) ∧ (0x80 ≤ s2 ∧ s2 ≤ 0xBF) then
          let r := ((s0 &&& 0x0F) <<< 12) ||| ((s1 &&& 0x3F) <<< 6) ||| (s2 &&& 0x3F)
          if 0x7FF < r ∧ ¬ (0xD800 ≤ r ∧ r ≤ 0xDFFF) then (r, 3) else (0xFFFD, 1)
        else (0xFFFD, 1)
      | _ => (0xFFFD, 1)
    else if 0xF0 ≤ s0 ∧ s0 < 0xF8 then
      match rest with
      | s1 :: s2 :: s3 :: _ =>
        if (0x80 ≤ s1 ∧ s1 ≤ 0xBF) ∧ (0x80 ≤ s2 ∧ s2 ≤ 0xBF) ∧ (0x80 ≤ s3 ∧ s3 ≤ 0xBF) then
          let r := ((s0 &&& 0x07) <<< 18) ||| ((s1 &&& 0x3F) <<< 12) |||
            ((s2 &&& 0x3F) <<< 6) ||| (s3 &&& 0x3F)
          if 0xFFFF < r ∧ r ≤ 0x10FFFF then (r, 4) else (0xFFFD, 1)
        else (0xFFFD, 1)
      | _ => (0xFFFD, 1)
    else (0xFFFD, 1)

/-- One step of `for _, ch := range s` on the non-empty rest `s` of the
string: the rune `ch` and the number of bytes the loop advances by. -/
def rangeRune (s : List Nat) : Nat × Nat :=
  match s with
  | [] => (0xFFFD, 1)
  | s0 :: _ => if s0 < 0x80 then (s0, 1) else decoderune s

/-- An uppercase hexadecimal digit, as `%X` prints it. -/
def upperHexDigit (d : Nat) : Nat := if d < 10 then 48 + d else 55 + d

/-- `fmt.Sprintf("\\u%04X", ch)` for `ch` below `0x10000`. -/
def sprintfU04X (ch : Nat) : List Nat :=
  [92, 117, upperHexDigit (ch / 4096 % 16), upperHexDigit (ch / 256 % 16),
    upperHexDigit (ch / 16 % 16), upperHexDigit (ch % 16)]

/-- The body of the loop of `stringifyString`: what is appended to `result`
for the rune `ch` (`string(ch)` is the UTF-8 encoding of `ch`). -/
def stringifyRune (ch : Nat) : List Nat :=
  if ch = 34 then [92, 34]
  else if ch = 92 then [92, 92]
  else if ch = 8 then [92, 98]
  else if ch = 12 then [92, 102]
  else if ch = 10 then [92, 110]
  else if ch = 13 then [92, 114]
  else if ch = 9 then [92, 116]
  else if ch < 0x20 then sprintfU04X ch
  else EncodeRune ch

/-- The loop of `stringifyString` over the rest of the string; `skip` counts
the bytes of the current rune that are still to be passed over. -/
def stringifyStringLoop : List Nat → Nat → List Nat
  | [], _ => []
  | _ :: rest, skip + 1 => stringifyStringLoop rest skip
  | b :: rest, 0 =>
    stringifyRune (rangeRune (b :: rest)).1 ++
      stringifyStringLoop rest ((rangeRune (b :: rest)).2 - 1)

/-- `func stringifyString(s string) string`. -/
def stringifyString (s : List Nat) : List Nat :=
  [34] ++ stringifyStringLoop s 0 ++ [34]

mutual
/-- `func (v *Value) stringifyValue() string`. -/
def stringifyValue (lib : Strconv) : Value → List Nat
  | .mk s n a o t =>
    match t with
    | NULL => [110, 117, 108, 108]
    | FALSE => [102, 97, 108, 115, 101]
    | TRUE => [116, 114, 117, 101]
    | NUMBER => lib.FormatG17 n
    | STRING => stringifyString s
    | ARRAY => [91] ++ stringifyArrayLoop lib 0 a ++ [93]
    | OBJECT => [123] ++ stringifyObjectLoop lib 0 o ++ [125]
/-- The loop `for i, e := range v.a` of `stringifyValue`, from index `i`. -/
def stringifyArrayLoop (lib : Strconv) : Nat → List Value → List Nat
  | _, [] => []
  | i, e :: rest =>
    (if i > 0 then [44] else []) ++ stringifyValue lib e ++ stringifyArrayLoop lib (i + 1) rest
/-- The loop `for i, kv := range v.o` of `stringifyValue`, from index `i`. -/
def stringifyObjectLoop (lib : Strconv) : Nat → List (List Nat × Value) → List Nat
  | _, [] => []
  | i, (k, v) :: rest =>
    (if i > 0 then [44] else []) ++ stringifyString k ++ [58] ++ stringifyValue lib v ++
      stringifyObjectLoop lib (i + 1) rest
end

/-! ## Notions the properties are stated with -/

/-- The keys of an object are pairwise distinct. -/
def distinctKeys (o : List KV) : Prop := (o.map Prod.fst).Nodup

/-- A hexadecimal digit as a character, in upper or lower case. -/
def hexChar (upper : Bool) (d : Nat) : Nat :=
  if d < 10 then 48 + d else if upper then 55 + d else 87 + d

/-- The code unit `u` written as four hexadecimal digits, each in the case
its flag gives. -/
def hex4 (c3 c2 c1 c0 : Bool) (u : Nat) : List Nat :=
  [hexChar c3 (u / 4096 % 16), hexChar c2 (u / 256 % 16), hexChar c1 (u / 16 % 16),
    hexChar c0 (u % 16)]

/-- The UTF-8 encoding of the code point `c`, by the arithmetic of the
Unicode standard. -/
def utf8Bytes (c : Nat) : List Nat :=
  if c < 0x80 then [c]
  else if c < 0x800 then [0xC0 + c / 64, 0x80 + c % 64]
  else if c < 0x10000 then [0xE0 + c / 4096, 0x80 + c / 64 % 64, 0x80 + c % 64]
  else [0xF0 + c / 262144, 0x80 + c / 4096 % 64, 0x80 + c / 64 % 64, 0x80 + c % 64]

/-- A Unicode scalar value: a code point that is not a surrogate. -/
def isScalar (c : Nat) : Prop := c ≤ 0x10FFFF ∧ ¬ (0xD800 ≤ c ∧ c ≤ 0xDFFF)

/-- Valid UTF-8: the text is the concatenation of the encodings of scalar
values. -/
inductive ValidUTF8 : List Nat → Prop where
  | nil : ValidUTF8 []
  | cons (c : Nat) (rest : List Nat) : isScalar c → ValidUTF8 rest →
      ValidUTF8 (utf8Bytes c ++ rest)

/-- A character the parser pushes as it is: not a control character, not the
quote, not the backslash. -/
def plainByte (b : Nat) : Prop := 0x20 ≤ b ∧ b ≠ 34 ∧ b ≠ 92

mutual
/-- A tree built from Null, True, False, String, Array and Object nodes, at
any depth, whose string payloads and keys are valid UTF-8 (no Number node). -/
def PlainTree : Value → Prop
  | .mk s _ a o t =>
    match t with
    | NULL => True
    | FALSE => True
    | TRUE => True
    | NUMBER => False
    | STRING => ValidUTF8 s
    | ARRAY => PlainArray a
    | OBJECT => PlainObject o
/-- The elements of an Array are plain trees. -/
def PlainArray : List Value → Prop
  | [] => True
  | e :: rest => PlainTree e ∧ PlainArray rest
/-- The entries of an Object have valid UTF-8 keys and plain trees as values. -/
def PlainObject : List (List Nat × Value) → Prop
  | [] => True
  | (k, v) :: rest => ValidUTF8 k ∧ PlainTree v ∧ PlainObject rest
end

mutual
/-- The value with the payload fields its tag does not use reset to zero, at
every node: the tag and the payload of the tag are kept. -/
def Value.normal : Value → Value
  | .mk s n a o t =>
    match t with
    | NULL => .mk [] 0 [] [] NULL
    | FALSE => .mk [] 0 [] [] FALSE
    | TRUE => .mk [] 0 [] [] TRUE
    | NUMBER => .mk [] n [] [] NUMBER
    | STRING => .mk s 0 [] [] STRING
    | ARRAY => .mk [] 0 (normalArray a) [] ARRAY
    | OBJECT => .mk [] 0 [] (normalObject o) OBJECT
/-- The elements, each normal. -/
def normalArray : List Value → List Value
  | [] => []
  | e :: rest => e.normal :: normalArray rest
/-- The entries, with the same keys and each value normal. -/
def normalObject : List (List Nat × Value) → List (List Nat × Value)
  | [] => []
  | (k, v) :: rest => (k, v.normal) :: normalObject rest
end

mutual
/-- Two values are the same tree: same tag and same payload for that tag,
with the same elements or entries (keys included) in the same order. -/
def sameTree : Value → Value → Prop
  | .mk s n a o t, w =>
    t = w.t ∧
    match t with
    | NULL => True
    | FALSE => True
    | TRUE => True
    | NUMBER => n = w.n
    | STRING => s = w.s
    | ARRAY => sameArray a w.a
    | OBJECT => sameObject o w.o
/-- Element by element the same trees. -/
def sameArray : List Value → List Value → Prop
  | [], ws => ws = []
  | e :: rest, ws =>
    match ws with
    | [] => False
    | w :: ws => sameTree e w ∧ sameArray rest ws
/-- Entry by entry the same keys and the same trees. -/
def sameObject : List (List Nat × Value) → List (List Nat × Value) → Prop
  | [], ws => ws = []
  | (k, v) :: rest, ws =>
    match ws with
    | [] => False
    | (k2, w) :: ws => k = k2 ∧ sameTree v w ∧ sameObject rest ws
end

/-- The first character of a text that opens a value other than a number. -/
def opensValue (c : Nat) : Prop :=
  c = 110 ∨ c = 102 ∨ c = 116 ∨ c = 34 ∨ c = 91 ∨ c = 123

/-- The method `pv` (`parseValue` with some fuel) reads back the text of the
plain tree `x`: whatever follows the text and whatever the scratch buffer
holds, it returns the normal form of `x` with no error, leaves what follows
unread and the buffer unchanged. -/
def readsBack (lib : Strconv) (pv : Parser → Res Value) (x : Value) : Prop :=
  PlainTree x ∧ ∀ (rest st : List Nat),
    pv ⟨stringifyValue lib x ++ rest, st, st.length⟩ = .ret x.normal none ⟨rest, st, st.length⟩

/-- The outcome `r` of a parser method is no timeout, and when the method
returned, at most `n` bytes of text are left unread. -/
def Res.within {α : Type} (n : Nat) : Res α → Prop
  | .ret _ _ q => q.json.length ≤ n
  | .fault _ => True
  | .timeout => False

end goson

namespace goson

open Type_ Err

/-! ## value.go: setters, array operations and copy

A Go `int` is taken 64 bits wide; `wrapInt` is what the result of an `int`
addition wraps to.  An index is an `Int`, so that a negative argument can be
passed as the code can receive it. -/

/-- The assignment `v.a = a`. -/
def Value.setA : Value → List Value → Value
  | .mk s n _ o t, a => .mk s n a o t

/-- The assignment `v.s = s`. -/
def Value.setS : Value → List Nat → Value
  | .mk _ n a o t, s => .mk s n a o t

/-- The assignment `v.n = n`. -/
def Value.setN : Value → Nat → Value
  | .mk s _ a o t, n => .mk s n a o t

/-- The assignment `v.t = t`. -/
def Value.setT : Value → Type_ → Value
  | .mk s n a o _, t => .mk s n a o t

/-- The value of the Go `int` expression whose exact result is `x`: 64-bit
two's complement wrap-around. -/
def wrapInt (x : Int) : Int := (x + 2 ^ 63) % 2 ^ 64 - 2 ^ 63

/-- `func (v *Value) setNull()`. -/
def Value.setNull (v : Value) : Value := (v.setS []).setT NULL

/-- `func (v *Value) free()`: the receiver after the call.  The children that
are freed are no longer reachable from the receiver. -/
def Value.free (v : Value) : Value :=
  match v.t with
  | STRING => (v.setS []).setNull
  | ARRAY => (v.setA []).setNull
  | OBJECT => (v.setO []).setNull
  | _ => v.setNull

/-- `func (v *Value) setBoolean(b bool)`. -/
def Value.setBoolean (v : Value) (b : Bool) : Value :=
  if b then v.free.setT TRUE else v.free.setT FALSE

/-- `func (v *Value) setNumber(n float64)`. -/
def Value.setNumber (v : Value) (n : Nat) : Value := (v.free.setT NUMBER).setN n

/-- `func (v *Value) setString(s string)`. -/
def Value.setString (v : Value) (s : List Nat) : Value := (v.free.setT STRING).setS s

/-- `func (v *Value) setArray(size int)`; `size` is the capacity of the new
slice, which the model does not keep. -/
def Value.setArray (v : Value) : Value := (v.free.setT ARRAY).setA []

/-- `func (v *Value) setObject(size int)`; `size` is the capacity of the new
slice, which the model does not keep. -/
def Value.setObject (v : Value) : Value := (v.free.setT OBJECT).setO []

/-- `func (v *Value) getArrayElement(index int) (*Value, error)`; `v.a[index]`
panics when `index` is negative. -/
def getArrayElement (v : Value) (index : Int) : Exec (Value × Option Err) :=
  if v.t ≠ ARRAY then .done (Value.zero, some (Errorf "value type is not array"))
  else if index ≥ v.a.length then .done (Value.zero, some (Errorf "index out of range"))
  else if index < 0 then .fault
  else
    match v.a[index.toNat]? with
    | some e => .done (e, none)
    | none => .fault

/-- Go's built-in `copy(dst, src)` on slices that do not share elements to be
read after they are written (the built-in copies as if through a buffer): the
contents of `dst` after the call. -/
def goCopy {α : Type} (dst src : List α) : List α :=
  src.take dst.length ++ dst.drop src.length

/-- `func (v *Value) insertArrayElement(e *Value, index int) error`: the
receiver after the call, and the error.  `v.a[index+1:]` and `v.a[index:]`
panic when the bound is negative or beyond the length.  The sum `index + 1`
does not wrap: it is computed past the check `index <= len(v.a)`, and a slice
has fewer than `2^63 - 1` elements. -/
def insertArrayElement (v : Value) (e : Value) (index : Int) : Exec (Value × Option Err) :=
  if v.t ≠ ARRAY then .done (v, some (Errorf "value type is not array"))
  else if index > v.a.length then .done (v, some (Errorf "index out of range"))
  else
    let a := v.a ++ [e]
    if index + 1 < 0 ∨ index + 1 > a.length then .fault
    else if index < 0 then .fault
    else
      let a := a.take (index + 1).toNat ++ goCopy (a.drop (index + 1).toNat) (a.drop index.toNat)
      if index.toNat < a.length then .done (v.setA (a.set index.toNat e), none)
      else .fault

/-- `func (v *Value) eraseArrayElement(index, count int) error`: the receiver
after the call, and the error.  `v.a[index+count:]` panics when the bound is
negative or beyond the length, `v.a[:index]` when `index` is negative or
beyond the capacity.  The model keeps no capacity: with `len(v.a) < index`
(which passes the check only with a negative `count` or after a wrap-around)
it gives `fault` as well. -/
def eraseArrayElement (v : Value) (index count : Int) : Exec (Value × Option Err) :=
  if v.t ≠ ARRAY then .done (v, some (Errorf "value type is not array"))
  else if wrapInt (index + count) > v.a.length then
    .done (v, some (Errorf "index out of range"))
  else if count = 0 then .done (v, none)
  else if index < 0 ∨ index > v.a.length then .fault
  else if wrapInt (index + count) < 0 then .fault
  else .done (v.setA (v.a.take index.toNat ++ v.a.drop (wrapInt (index + count)).toNat), none)

/-- `func (v *Value) clearArray() error`. -/
def clearArray (v : Value) : Exec (Value × Option Err) :=
  eraseArrayElement v 0 v.a.length

mutual
/-- `func (v *Value) copy() *Value`.  The errors of `insertArrayElement` and
`setObjectValue` are dropped (`_ =`), a panic of theirs is not. -/
def Value.copy : Value → Exec Value
  | .mk s n a o t =>
    match t with
    | FALSE => .done (Value.zero.setBoolean false)
    | TRUE => .done (Value.zero.setBoolean true)
    | STRING => .done (Value.zero.setString s)
    | NUMBER => .done (Value.zero.setNumber n)
    | ARRAY => copyArrayLoop Value.zero.setArray 0 a
    | OBJECT => copyObjectLoop Value.zero.setObject o
    | NULL => .done Value.zero
/-- The loop `for i := 0; i < len(v.a); i++` of `copy`, from index `i`, on the
elements `v.a[i:]`. -/
def copyArrayLoop (result : Value) (i : Nat) : List Value → Exec Value
  | [] => .done result
  | e :: rest =>
    match Value.copy e with
    | .fault => .fault
    | .done c =>
      match insertArrayElement result c i with
      | .fault => .fault
      | .done (result, _) => copyArrayLoop result (i + 1) rest
/-- The loop `for i := 0; i < len(v.o); i++` of `copy`, on the entries
`v.o[i:]`. -/
def copyObjectLoop (result : Value) : List (List Nat × Value) → Exec Value
  | [] => .done result
  | (k, v) :: rest =>
    match Value.copy v with
    | .fault => .fault
    | .done value => copyObjectLoop (setObjectValue result k value).1 rest
end

/-! ## util.go: isEqual -/

/-- Outcome of a function that returns a result, panics, or runs out of the
fuel of the model. -/
inductive Run (α : Type) where
  | val (x : α)
  | fault
  | timeout
deriving DecidableEq, Repr

/-- The bit pattern is a NaN: exponent bits all ones, fraction not zero. -/
def isNaN (b : Nat) : Bool := decide (b / 2 ^ 52 % 2 ^ 11 = 2047) && decide (b % 2 ^ 52 ≠ 0)

/-- Go's `==` on two `float64`, given by their bit patterns: a NaN equals
nothing, the two zeros are equal, otherwise the bits decide. -/
def float64Eq (a b : Nat) : Bool :=
  !isNaN a && !isNaN b &&
    (decide (a % 2 ^ 64 = b % 2 ^ 64) || (decide (a % 2 ^ 63 = 0) && decide (b % 2 ^ 63 = 0)))

/-- The loop of the `ARRAY` case of `isEqual` on `lhs.a[i:]` and `rhs.a[i:]`,
with `eq` the recursive call; `rhs.a[i]` panics beyond the length. -/
def isEqualArrayLoop (eq : Value → Value → Run Bool) : List Value → List Value → Run Bool
  | [], _ => .val true
  | _ :: _, [] => .fault
  | l :: ls, r :: rs =>
    match eq l r with
    | .val true => isEqualArrayLoop eq ls rs
    | out => out

/-- The loop of the `OBJECT` case of `isEqual` on the entries `lhs.o[i:]`,
with `eq` the recursive call. -/
def isEqualObjectLoop (eq : Value → Value → Run Bool) (lhs rhs : Value) : List KV → Run Bool
  | [] => .val true
  | kv :: rest =>
    match getObjectValue lhs kv.1 with
    | (_, some ErrKeyNotExist) => .val false
    | (lv, _) =>
      match getObjectValue rhs kv.1 with
      | (_, some ErrKeyNotExist) => .val false
      | (rv, _) =>
        match eq lv rv with
        | .val true => isEqualObjectLoop eq lhs rhs rest
        | out => out

/-- `func isEqual(lhs *Value, rhs *Value) bool`; the fuel bounds the depth of
the recursion. -/
def isEqualFuel : Nat → Value → Value → Run Bool
  | 0, _, _ => .timeout
  | fuel + 1, lhs, rhs =>
    if lhs.t ≠ rhs.t then .val false
    else
      match lhs.t with
      | STRING => .val (decide (lhs.s = rhs.s))
      | NUMBER => .val (float64Eq lhs.n rhs.n)
      | ARRAY =>
        if lhs.a.length ≠ rhs.a.length then .val false
        else isEqualArrayLoop (isEqualFuel fuel) lhs.a rhs.a
      | OBJECT =>
        if lhs.o.length ≠ rhs.o.length then .val false
        else isEqualObjectLoop (isEqualFuel fuel) lhs rhs lhs.o
      | _ => .val true

mutual
/-- The height of the tree under a value: 1 for a value without children. -/
def Value.depth : Value → Nat
  | .mk _ _ a o _ => 1 + max (depthArray a) (depthObject o)
/-- The greatest height among the elements. -/
def depthArray : List Value → Nat
  | [] => 0
  | e :: rest => max (Value.depth e) (depthArray rest)
/-- The greatest height among the values of the entries. -/
def depthObject : List (List Nat × Value) → Nat
  | [] => 0
  | (_, v) :: rest => max (Value.depth v) (depthObject rest)
end

/-- `isEqual` with fuel for the whole height of `lhs`. -/
def isEqual (lhs rhs : Value) : Run Bool := isEqualFuel lhs.depth lhs rhs

/-! ## More notions the properties are stated with -/

mutual
/-- Every Object node of the tree has pairwise distinct keys. -/
def uniqueKeys : Value → Prop
  | .mk _ _ a o t =>
    match t with
    | ARRAY => uniqueKeysArray a
    | OBJECT => distinctKeys o ∧ uniqueKeysObject o
    | _ => True
/-- Every element has unique keys at every Object node. -/
def uniqueKeysArray : List Value → Prop
  | [] => True
  | e :: rest => uniqueKeys e ∧ uniqueKeysArray rest
/-- Every entry value has unique keys at every Object node. -/
def uniqueKeysObject : List (List Nat × Value) → Prop
  | [] => True
  | (_, v) :: rest => uniqueKeys v ∧ uniqueKeysObject rest
end

mutual
/-- No Number node of the tree holds a NaN. -/
def noNaN : Value → Prop
  | .mk _ n a o t =>
    match t with
    | NUMBER => isNaN n = false
    | ARRAY => noNaNArray a
    | OBJECT => noNaNObject o
    | _ => True
/-- No element holds a NaN. -/
def noNaNArray : List Value → Prop
  | [] => True
  | e :: rest => noNaN e ∧ noNaNArray rest
/-- No entry value holds a NaN. -/
def noNaNObject : List (List Nat × Value) → Prop
  | [] => True
  | (_, v) :: rest => noNaN v ∧ noNaNObject rest
end

/-- A whitespace character of the parser: space, tab, line feed, carriage
return. -/
def isWhite (b : Nat) : Prop := b = 32 ∨ b = 9 ∨ b = 10 ∨ b = 13

/-- The text `r` does not continue a number: it is empty or begins with
something else than a digit, `.`, `e` or `E`. -/
def endsNumber (r : List Nat) : Prop :=
  ∀ b, r.head? = some b → isDigit b = false ∧ b ≠ 46 ∧ b ≠ 101 ∧ b ≠ 69

/-- The outcome `out2` of a parser method on a text `c ++ r2` follows its
outcome `out1` on the text `c ++ r1`: when the method returned without error
on the first text and left at least `r1` unread, then what it left is
`c2 ++ r1` for some `c2`, and on the second text it returned the same result
and left `c2 ++ r2` unread, with the same scratch buffer. -/
def Res.follows {α : Type} (r1 r2 : List Nat) (out1 out2 : Res α) : Prop :=
  ∀ (x : α) (q : Parser), out1 = .ret x none q → r1.length ≤ q.json.length →
    ∃ c2, q.json = c2 ++ r1 ∧ out2 = .ret x none ⟨c2 ++ r2, q.stack, q.top⟩

end goson

namespace goson

open Type_ Err

/-! ## value.go: getters and clearObject -/

/-- `func (v *Value) getBoolean() (bool, error)`. -/
def getBoolean (v : Value) : Bool × Option Err :=
  if v.t ≠ TRUE ∧ v.t ≠ FALSE then (false, some (Errorf "value type is not boolean"))
  else (decide (v.t = TRUE), none)

/-- `func (v *Value) getNumber() (float64, error)`; the `0` of the error
return is the float `+0`, whose bits are all zero. -/
def getNumber (v : Value) : Nat × Option Err :=
  if v.t ≠ NUMBER then (0, some (Errorf "value type is not number")) else (v.n, none)

/-- `func (v *Value) getString() (string, error)`. -/
def getString (v : Value) : List Nat × Option Err :=
  if v.t ≠ STRING then ([], some (Errorf "value type is not string")) else (v.s, none)

/-- `func (v *Value) clearObject() error`: the receiver after the call, and
the error.  `v.o[0:0]` keeps the capacity, which the model does not keep. -/
def clearObject (v : Value) : Value × Option Err :=
  if v.t ≠ OBJECT then (v, some (Errorf "value type is not object")) else (v.setO [], none)

/-! ## The escape map of the specification of `stringifyString` -/

/-- The image of the code point `c` under the escape map as the
specification words it: two-character escapes for the quote, the backslash,
backspace, form feed, line feed, carriage return and tab; `\u00XX` with four
uppercase hexadecimal digits for every other code point below `0x20`; the
code point itself, in UTF-8, for everything else. -/
def escapeMap (c : Nat) : List Nat :=
  if c = 34 then [92, 34]
  else if c = 92 then [92, 92]
  else if c = 8 then [92, 98]
  else if c = 12 then [92, 102]
  else if c = 10 then [92, 110]
  else if c = 13 then [92, 114]
  else if c = 9 then [92, 116]
  else if c < 0x20 then [92, 117, 48, 48, hexChar true (c / 16), hexChar true (c % 16)]
  else utf8Bytes c

/-- The text, read from the left, holds a quote that no backslash escapes: a
backslash escapes the character after it. -/
def unescapedQuote : List Nat → Bool
  | [] => false
  | [c] => c == 34
  | c :: d :: rest =>
    if c = 92 then unescapedQuote rest else c == 34 || unescapedQuote (d :: rest)

/-! ## The parser with an assertion where a string literal starts

The methods that reach `parseStringRaw`, each with `parseStringRaw` replaced
by `parseStringRawChecked`; everything else is as in the parser. -/

/-- `parseStringRaw` with the assertion, at its entry, that the scratch buffer
holds nothing (`p.top == 0`); a failed assertion is the panic `StackNotEmpty`. -/
def parseStringRawChecked (p : Parser) : Res (List Nat) :=
  if p.top ≠ 0 then .fault .StackNotEmpty else parseStringRaw p

/-- `parseString` over `parseStringRawChecked`. -/
def parseStringChecked (p : Parser) : Res Value :=
  match parseStringRawChecked p with
  | .fault w => .fault w
  | .timeout => .timeout
  | .ret _ (some err) p => .ret Value.zero (some err) p
  | .ret s none p => .ret (Value.mk s 0 [] [] STRING) none p

/-- The loop of `parseObject` over `parseStringRawChecked`. -/
def parseObjectLoopChecked (pv : Parser → Res Value) : Nat → Parser → List KV → Res Value
  | 0, _, _ => .timeout
  | fuel + 1, p, o =>
    if p.json.head? ≠ some 34 then .ret Value.zero (some ErrParseMissKey) p
    else
      match parseStringRawChecked p with
      | .fault w => .fault w
      | .timeout => .timeout
      | .ret _ (some err) p => .ret Value.zero (some err) p
      | .ret s none p =>
        let p := p.parseWhiteSpace
        if p.json.head? ≠ some 58 then .ret Value.zero (some ErrParseMissColon) p
        else
          let p := ({ p with json := p.json.tail }).parseWhiteSpace
          match pv p with
          | .fault w => .fault w
          | .timeout => .timeout
          | .ret _ (some err) p => .ret Value.zero (some err) p
          | .ret vv none p =>
            let o := o ++ [(s, vv)]
            let p := p.parseWhiteSpace
            match p.json with
            | [] => .ret Value.zero (some ErrParseMissCommaOrCurlyBracket) p
            | c :: rest =>
              if c = 44 then
                parseObjectLoopChecked pv fuel ({ p with json := rest }).parseWhiteSpace o
              else if c = 125 then .ret (Value.mk [] 0 [] o OBJECT) none { p with json := rest }
              else .ret Value.zero (some ErrParseMissCommaOrCurlyBracket) p

/-- `parseObject` over `parseObjectLoopChecked`. -/
def parseObjectChecked (pv : Parser → Res Value) (p : Parser) : Res Value :=
  match p.json with
  | [] => .ret Value.zero (some (Errorf "missing close \x27\x7b\x27")) p
  | c :: rest =>
    if c ≠ 123 then .ret Value.zero (some (Errorf "missing close \x27\x7b\x27")) p
    else
      let p := ({ p with json := rest }).parseWhiteSpace
      if p.json.head? = some 125 then
        .ret (Value.mk [] 0 [] [] OBJECT) none { p with json := p.json.tail }
      else parseObjectLoopChecked pv (p.json.length + 1) p []

/-- `parseValue` over `parseStringChecked` and `parseObjectChecked`. -/
def parseValueChecked (lib : Strconv) : Nat → Parser → Res Value
  | 0, _ => .timeout
  | fuel + 1, p =>
    match p.json with
    | [] => .ret Value.zero none p
    | c :: _ =>
      if c = 116 then parseLiteral p [116, 114, 117, 101] TRUE
      else if c = 102 then parseLiteral p [102, 97, 108, 115, 101] FALSE
      else if c = 110 then parseLiteral p [110, 117, 108, 108] NULL
      else if c = 34 then parseStringChecked p
      else if c = 91 then parseArray (parseValueChecked lib fuel) p
      else if c = 123 then parseObjectChecked (parseValueChecked lib fuel) p
      else parseNumber lib p

/-- `Parse` over `parseValueChecked`, on the parser `p`. -/
def Parser.ParseChecked (lib : Strconv) (p : Parser) (s : List Nat) : Res Value :=
  let p := ({ p with json := s }).parseWhiteSpace
  match parseValueChecked lib (s.length + 1) p with
  | .fault w => .fault w
  | .timeout => .timeout
  | .ret v (some err) p =>
    if p.top ≠ 0 then .fault .StackNotEmpty else .ret v (some err) { p with stack := [] }
  | .ret v none p =>
    let p := p.parseWhiteSpace
    if p.json.length ≠ 0 then .ret Value.zero (some ErrParseRootNotSingular) p
    else if p.top ≠ 0 then .fault .StackNotEmpty
    else .ret v none { p with stack := [] }

/-- `ParseChecked` on a fresh parser. -/
def ParseChecked (lib : Strconv) (s : List Nat) : Res Value := Parser.zero.ParseChecked lib s

/-- The method `pv` returns with the occupancy of the scratch buffer it was
called with, whether it returns an error or not; and when it returns no error
on a buffer that held as many bytes as were counted, the buffer is as it
was. -/
def keepsBuffer (pv : Parser → Res Value) : Prop :=
  ∀ (p : Parser) (x : Value) (e : Option Err) (q : Parser), pv p = .ret x e q →
    q.top = p.top ∧ (e = none → p.stack.length = p.top → q.stack = p.stack)

end goson

namespace goson

open Type_ Err

/-! ## Objects: lookup, update and removal -/

@[simp] theorem Value.t_setO (v : Value) (o : List KV) : (v.setO o).t = v.t := by
  cases v; rfl

@[simp] theorem Value.o_setO (v : Value) (o : List KV) : (v.setO o).o = o := by
  cases v; rfl

theorem getObjectValueLoop_eq_none (key : List Nat) (o : List KV) :
    getObjectValueLoop key o = none ↔ ∀ kv ∈ o, kv.1 ≠ key := by
  induction o with
  | nil => simp [getObjectValueLoop]
  | cons kv rest ih =>
    by_cases h : kv.1 = key
    · simp [getObjectValueLoop, h]
    · simp [getObjectValueLoop, h, ih]

theorem getObjectValueLoop_first (key : List Nat) (pre : List KV) (kv : KV) (post : List KV)
    (hk : kv.1 = key) (hpre : ∀ e ∈ pre, e.1 ≠ key) :
    getObjectValueLoop key (pre ++ kv :: post) = some kv.2 := by
  induction pre with
  | nil => simp [getObjectValueLoop, hk]
  | cons e pre ih =>
    have he : e.1 ≠ key := hpre e (List.mem_cons_self _ _)
    have := ih (fun x hx => hpre x (List.mem_cons_of_mem _ hx))
    simp [getObjectValueLoop, he, this]

/-- An object that carries `key` splits at the first entry with that key. -/
theorem exists_first_entry (key : List Nat) (o : List KV) (h : ∃ kv ∈ o, kv.1 = key) :
    ∃ pre kv post, o = pre ++ kv :: post ∧ kv.1 = key ∧ ∀ e ∈ pre, e.1 ≠ key := by
  induction o with
  | nil => simp at h
  | cons e rest ih =>
    by_cases he : e.1 = key
    · exact ⟨[], e, rest, rfl, he, by simp⟩
    · have h2 : ∃ kv ∈ rest, kv.1 = key := by
        obtain ⟨kv, hm, hkv⟩ := h
        rcases List.mem_cons.1 hm with rfl | hm
        · exact absurd hkv he
        · exact ⟨kv, hm, hkv⟩
      obtain ⟨pre, kv, post, hd, hk, hpre⟩ := ih h2
      refine ⟨e :: pre, kv, post, by simp [hd], hk, ?_⟩
      intro x hx
      rcases List.mem_cons.1 hx with rfl | hx
      · exact he
      · exact hpre x hx

theorem removeObjectValueLoop_first (key : List Nat) (pre : List KV) (kv : KV)
    (post : List KV) (i : Nat) (hk : kv.1 = key) (hpre : ∀ e ∈ pre, e.1 ≠ key) :
    removeObjectValueLoop key (pre ++ kv :: post) i = i + pre.length := by
  induction pre generalizing i with
  | nil => simp [removeObjectValueLoop, hk]
  | cons e pre ih =>
    have he : e.1 ≠ key := hpre e (List.mem_cons_self _ _)
    have := ih (i + 1) (fun x hx => hpre x (List.mem_cons_of_mem _ hx))
    simp [removeObjectValueLoop, he, this]
    omega

theorem setObjectValueLoop_first (key : List Nat) (x : Value) (pre : List KV) (kv : KV)
    (post : List KV) (hk : kv.1 = key) (hpre : ∀ e ∈ pre, e.1 ≠ key) :
    setObjectValueLoop key x (pre ++ kv :: post) = some (pre ++ (key, x) :: post) := by
  induction pre with
  | nil => simp [setObjectValueLoop, hk]
  | cons e pre ih =>
    have he : e.1 ≠ key := hpre e (List.mem_cons_self _ _)
    have := ih (fun y hy => hpre y (List.mem_cons_of_mem _ hy))
    simp [setObjectValueLoop, he, this]

theorem setObjectValueLoop_absent (key : List Nat) (x : Value) (o : List KV)
    (h : ∀ kv ∈ o, kv.1 ≠ key) : setObjectValueLoop key x o = none := by
  induction o with
  | nil => rfl
  | cons e rest ih =>
    have he : e.1 ≠ key := h e (List.mem_cons_self _ _)
    have := ih (fun y hy => h y (List.mem_cons_of_mem _ hy))
    simp [setObjectValueLoop, he, this]

theorem getObjectValueLoop_append_absent (key : List Nat) (o more : List KV)
    (h : ∀ kv ∈ o, kv.1 ≠ key) :
    getObjectValueLoop key (o ++ more) = getObjectValueLoop key more := by
  induction o with
  | nil => rfl
  | cons e rest ih =>
    have he : e.1 ≠ key := h e (List.mem_cons_self _ _)
    have := ih (fun y hy => h y (List.mem_cons_of_mem _ hy))
    simp [getObjectValueLoop, he, this]

theorem getObjectValueLoop_append_present (key : List Nat) (o more : List KV)
    (h : ∃ kv ∈ o, kv.1 = key) :
    getObjectValueLoop key (o ++ more) = getObjectValueLoop key o := by
  obtain ⟨pre, kv, post, hd, hk, hpre⟩ := exists_first_entry key o h
  subst hd
  rw [List.append_assoc, List.cons_append, getObjectValueLoop_first key pre kv _ hk hpre,
    getObjectValueLoop_first key pre kv _ hk hpre]

theorem getObjectValueLoop_replace_other (key k : List Nat) (x : Value) (pre : List KV)
    (kv : KV) (post : List KV) (hkv : kv.1 = key) (hne : k ≠ key) :
    getObjectValueLoop k (pre ++ (key, x) :: post) = getObjectValueLoop k (pre ++ kv :: post) := by
  induction pre with
  | nil =>
    have h1 : ¬ key = k := fun h => hne h.symm
    have h2 : ¬ kv.1 = k := fun h => hne (by rw [← h, hkv])
    simp [getObjectValueLoop, h1, h2]
  | cons e pre ih => simp [getObjectValueLoop, ih]

/-- The entries of the receiver after `setObjectValue` on an object. -/
theorem setObjectValue_entries (v : Value) (key : List Nat) (x : Value) (ht : v.t = OBJECT) :
    setObjectValue v key x =
      (v.setO ((setObjectValueLoop key x v.o).getD (v.o ++ [(key, x)])), none) := by
  unfold setObjectValue
  rw [if_neg (by simp [ht])]
  cases setObjectValueLoop key x v.o <;> rfl

/-- C5. On an object, `getObjectValue(k)` fails with `ErrKeyNotExist` exactly
when no entry has key `k`, and otherwise returns, with no error, the value of
the first entry whose key is `k`; on a value that is not an object it fails
with an error other than `ErrKeyNotExist`. -/
theorem getObjectValue_spec (v : Value) (key : List Nat) :
    (v.t = OBJECT →
      ((getObjectValue v key).2 = some ErrKeyNotExist ↔ ∀ kv ∈ v.o, kv.1 ≠ key) ∧
      (∀ pre kv post, v.o = pre ++ kv :: post → kv.1 = key → (∀ e ∈ pre, e.1 ≠ key) →
        getObjectValue v key = (kv.2, none))) ∧
    (v.t ≠ OBJECT → ∃ e, (getObjectValue v key).2 = some e ∧ e ≠ ErrKeyNotExist) := by
  refine ⟨fun ht => ⟨?_, ?_⟩, fun ht => ?_⟩
  · rw [← getObjectValueLoop_eq_none]
    unfold getObjectValue
    rw [if_neg (by simp [ht])]
    cases getObjectValueLoop key v.o <;> simp
  · intro pre kv post hd hk hpre
    unfold getObjectValue
    rw [if_neg (by simp [ht]), hd, getObjectValueLoop_first key pre kv post hk hpre]
  · refine ⟨Errorf "value type is not object", ?_, by simp⟩
    unfold getObjectValue
    rw [if_pos ht]

/-- Instance of `getObjectValue_spec`: the key `b` of the object
`(a, null), (b, true)`. -/
theorem getObjectValue_spec_witness :
    getObjectValue (Value.mk [] 0 [] [([97], Value.zero), ([98], Value.mk [] 0 [] [] TRUE)] OBJECT)
      [98] = (Value.mk [] 0 [] [] TRUE, none) :=
  ((getObjectValue_spec
      (Value.mk [] 0 [] [([97], Value.zero), ([98], Value.mk [] 0 [] [] TRUE)] OBJECT) [98]).1
    rfl).2 [([97], Value.zero)] ([98], Value.mk [] 0 [] [] TRUE) [] rfl rfl (by simp)

/-- C3. On an object that carries the key `k`, `removeObjectValue(k)` returns
no error and deletes exactly the first entry whose key is `k`: the other
entries keep their keys, values and order, and the length drops by one.  When
the keys are pairwise distinct, `getObjectValue(k)` then fails with
`ErrKeyNotExist`. -/
theorem removeObjectValue_present (v : Value) (key : List Nat) (ht : v.t = OBJECT)
    (hk : ∃ kv ∈ v.o, kv.1 = key) :
    ∃ pre kv post, v.o = pre ++ kv :: post ∧ kv.1 = key ∧ (∀ e ∈ pre, e.1 ≠ key) ∧
      removeObjectValue v key = .done (v.setO (pre ++ post), none) ∧
      (pre ++ post).length + 1 = v.o.length ∧
      (distinctKeys v.o →
        getObjectValue (v.setO (pre ++ post)) key = (Value.zero, some ErrKeyNotExist)) := by
  obtain ⟨pre, kv, post, hd, hkv, hpre⟩ := exists_first_entry key v.o hk
  refine ⟨pre, kv, post, hd, hkv, hpre, ?_, ?_, ?_⟩
  · unfold removeObjectValue
    rw [if_neg (by simp [ht])]
    simp only [hd, removeObjectValueLoop_first key pre kv post 0 hkv hpre, Nat.zero_add]
    rw [if_neg (by simp)]
    simp
  · simp [hd]; omega
  · intro hnd
    have hnone : getObjectValueLoop key (pre ++ post) = none := by
      rw [getObjectValueLoop_eq_none]
      intro e he
      rcases List.mem_append.1 he with h | h
      · exact hpre e h
      · intro hek
        unfold distinctKeys at hnd
        rw [hd, List.map_append, List.map_cons] at hnd
        have h2 := (List.nodup_append.1 hnd).2.1
        have h3 := (List.nodup_cons.1 h2).1
        apply h3
        rw [hkv, ← hek]
        exact List.mem_map_of_mem _ h
    unfold getObjectValue
    rw [if_neg (by simp [ht])]
    simp [hnone]

/-- Instance of `removeObjectValue_present`: removing `a` from the object
`(a, null), (b, true)` leaves one entry. -/
theorem removeObjectValue_present_witness :
    ∃ pre kv post,
      (Value.mk [] 0 [] [([97], Value.zero), ([98], Value.mk [] 0 [] [] TRUE)] OBJECT).o =
        pre ++ kv :: post ∧ kv.1 = [97] ∧ (∀ e ∈ pre, e.1 ≠ [97]) ∧
      removeObjectValue
          (Value.mk [] 0 [] [([97], Value.zero), ([98], Value.mk [] 0 [] [] TRUE)] OBJECT) [97] =
        .done ((Value.mk [] 0 [] [([97], Value.zero), ([98], Value.mk [] 0 [] [] TRUE)]
          OBJECT).setO (pre ++ post), none) ∧
      (pre ++ post).length + 1 =
        (Value.mk [] 0 [] [([97], Value.zero), ([98], Value.mk [] 0 [] [] TRUE)] OBJECT).o.length ∧
      (distinctKeys
          (Value.mk [] 0 [] [([97], Value.zero), ([98], Value.mk [] 0 [] [] TRUE)] OBJECT).o →
        getObjectValue
          ((Value.mk [] 0 [] [([97], Value.zero), ([98], Value.mk [] 0 [] [] TRUE)]
            OBJECT).setO (pre ++ post)) [97] = (Value.zero, some ErrKeyNotExist)) :=
  removeObjectValue_present
    (Value.mk [] 0 [] [([97], Value.zero), ([98], Value.mk [] 0 [] [] TRUE)] OBJECT) [97] rfl
    ⟨([97], Value.zero), by simp [Value.o], rfl⟩

/-- C4. On an object, `setObjectValue(k, x)` returns no error.  If some entry
has key `k`, the first such entry now holds `x` and nothing else changes
(same length, same positions); if none has, the entry `(k, x)` is appended at
the end.  Afterwards `getObjectValue(k)` returns `x`, and `getObjectValue` of
any other key returns what it returned before. -/
theorem setObjectValue_spec (v : Value) (key : List Nat) (x : Value) (ht : v.t = OBJECT) :
    (setObjectValue v key x).2 = none ∧
    ((∃ kv ∈ v.o, kv.1 = key) →
      ∃ pre kv post, v.o = pre ++ kv :: post ∧ kv.1 = key ∧ (∀ e ∈ pre, e.1 ≠ key) ∧
        (setObjectValue v key x).1 = v.setO (pre ++ (key, x) :: post)) ∧
    ((∀ kv ∈ v.o, kv.1 ≠ key) →
      (setObjectValue v key x).1 = v.setO (v.o ++ [(key, x)])) ∧
    getObjectValue (setObjectValue v key x).1 key = (x, none) ∧
    ∀ k, k ≠ key → getObjectValue (setObjectValue v key x).1 k = getObjectValue v k := by
  have hpresent : (∃ kv ∈ v.o, kv.1 = key) →
      ∃ pre kv post, v.o = pre ++ kv :: post ∧ kv.1 = key ∧ (∀ e ∈ pre, e.1 ≠ key) ∧
        (setObjectValue v key x).1 = v.setO (pre ++ (key, x) :: post) := by
    intro hk
    obtain ⟨pre, kv, post, hd, hkv, hpre⟩ := exists_first_entry key v.o hk
    refine ⟨pre, kv, post, hd, hkv, hpre, ?_⟩
    rw [setObjectValue_entries v key x ht, hd, setObjectValueLoop_first key x pre kv post hkv hpre]
    rfl
  have habsent : (∀ kv ∈ v.o, kv.1 ≠ key) →
      (setObjectValue v key x).1 = v.setO (v.o ++ [(key, x)]) := by
    intro hk
    rw [setObjectValue_entries v key x ht, setObjectValueLoop_absent key x v.o hk]
    rfl
  refine ⟨by rw [setObjectValue_entries v key x ht], hpresent, habsent, ?_, ?_⟩
  · by_cases hk : ∃ kv ∈ v.o, kv.1 = key
    · obtain ⟨pre, kv, post, _, _, hpre, hres⟩ := hpresent hk
      rw [hres]
      unfold getObjectValue
      rw [if_neg (by simp [ht])]
      simp only [Value.o_setO]
      rw [getObjectValueLoop_first key pre (key, x) post rfl hpre]
    · have hk2 : ∀ kv ∈ v.o, kv.1 ≠ key := fun kv hm he => hk ⟨kv, hm, he⟩
      rw [habsent hk2]
      unfold getObjectValue
      rw [if_neg (by simp [ht])]
      simp only [Value.o_setO]
      rw [getObjectValueLoop_append_absent key v.o _ hk2]
      simp [getObjectValueLoop]
  · intro k hne
    have hloop : getObjectValueLoop k (setObjectValue v key x).1.o = getObjectValueLoop k v.o := by
      by_cases hk : ∃ kv ∈ v.o, kv.1 = key
      · obtain ⟨pre, kv, post, hd, hkv, _, hres⟩ := hpresent hk
        rw [hres, hd]
        simp only [Value.o_setO]
        exact getObjectValueLoop_replace_other key k x pre kv post hkv hne
      · have hk2 : ∀ kv ∈ v.o, kv.1 ≠ key := fun kv hm he => hk ⟨kv, hm, he⟩
        rw [habsent hk2]
        simp only [Value.o_setO]
        by_cases hp : ∃ kv ∈ v.o, kv.1 = k
        · rw [getObjectValueLoop_append_present k v.o _ hp]
        · have hp2 : ∀ kv ∈ v.o, kv.1 ≠ k := fun kv hm he => hp ⟨kv, hm, he⟩
          rw [getObjectValueLoop_append_absent k v.o _ hp2,
            (getObjectValueLoop_eq_none k v.o).2 hp2]
          have h1 : ¬ key = k := fun h => hne h.symm
          simp [getObjectValueLoop, h1]
    have ht2 : (setObjectValue v key x).1.t = OBJECT := by
      rw [setObjectValue_entries v key x ht]; simp [ht]
    unfold getObjectValue
    rw [if_neg (by simp [ht2]), if_neg (by simp [ht]), hloop]

/-- Instance of `setObjectValue_spec`: setting `b` on the object `(a, null)`
returns no error. -/
theorem setObjectValue_spec_witness :
    (setObjectValue (Value.mk [] 0 [] [([97], Value.zero)] OBJECT) [98]
      (Value.mk [] 0 [] [] TRUE)).2 = none :=
  (setObjectValue_spec (Value.mk [] 0 [] [([97], Value.zero)] OBJECT) [98]
    (Value.mk [] 0 [] [] TRUE) rfl).1

/-- C2. The code on a key that no entry carries: from the object `(a, null)`,
`removeObjectValue` of the key `b` deletes the entry `a`, and on the empty
object it panics (`v.o[1:]` with `len(v.o) == 0`). -/
theorem removeObjectValue_absent_key :
    removeObjectValue (Value.mk [] 0 [] [([97], Value.zero)] OBJECT) [98] =
      .done (Value.mk [] 0 [] [] OBJECT, none) ∧
    removeObjectValue (Value.mk [] 0 [] [] OBJECT) [98] = .fault :=
  ⟨rfl, rfl⟩

end goson

namespace goson

open Type_ Err

/-! ## The parser on truncated string literals -/

/-- C1. The code on the text made of a quote, a backslash and `n`: after the
escape the loop of `parseStringRaw` reads `p.json[0]` of the empty rest and
panics; `Parse` does not return. -/
theorem Parse_truncated_after_escape (lib : Strconv) :
    Parse lib [34, 92, 110] = .fault .IndexOutOfRange :=
  rfl

/-- C8. The code on a high surrogate with nothing after it, and with a lone
backslash after it (the texts `"\uD800` and `"\uD800\`): `parseStringRaw`
reads `p.json[0]` of the empty rest and panics instead of returning
`ErrParseInvalidUnicodeSurrogate`. -/
theorem Parse_truncated_after_high_surrogate (lib : Strconv) :
    Parse lib [34, 92, 117, 68, 56, 48, 48] = .fault .IndexOutOfRange ∧
    Parse lib [34, 92, 117, 68, 56, 48, 48, 92] = .fault .IndexOutOfRange :=
  ⟨rfl, rfl⟩

/-! ## Objects built by the parser -/

/-- The loop of `parseObject` keeps every member: when it is entered with the
entries `o` collected so far and returns without error, the result is an
Object whose entries are `o` unchanged, followed by the member just scanned
(the key `parseStringRaw` decoded and the value `parseValue` returned),
followed by the later members. -/
theorem parseObjectLoop_keeps (pv : Parser → Res Value) (fuel : Nat) (p : Parser)
    (o : List KV) (v : Value) (q : Parser)
    (h : parseObjectLoop pv fuel p o = .ret v none q) :
    ∃ s p1 vv p2 more,
      parseStringRaw p = .ret s none p1 ∧
      pv (Parser.mk p1.parseWhiteSpace.json.tail p1.parseWhiteSpace.stack
          p1.parseWhiteSpace.top).parseWhiteSpace = .ret vv none p2 ∧
      v = Value.mk [] 0 [] (o ++ (s, vv) :: more) OBJECT := by
  induction fuel generalizing p o with
  | zero => simp [parseObjectLoop] at h
  | succ fuel ih =>
    unfold parseObjectLoop at h
    split at h
    · simp at h
    · split at h
      · simp at h
      · simp at h
      · simp at h
      · rename_i s p1 hs
        dsimp only at h
        split at h
        · simp at h
        · split at h
          · simp at h
          · simp at h
          · simp at h
          · rename_i vv p2 hv
            split at h
            · simp at h
            · rename_i c rest hj
              split at h
              · obtain ⟨s2, q1, vv2, q2, more, _, _, hres⟩ := ih _ _ h
                exact ⟨s, p1, vv, p2, (s2, vv2) :: more, hs, hv, by simp [hres]⟩
              · split at h
                · simp only [Res.ret.injEq, true_and] at h
                  exact ⟨s, p1, vv, p2, [], hs, hv, by simp [← h.1]⟩
                · simp at h

end goson

namespace goson

open Type_ Err

/-! ## Bit operations as arithmetic -/

theorem lor_eq_add (i a b : Nat) (hb : b < 2 ^ i) : (2 ^ i * a) ||| b = 2 ^ i * a + b :=
  (Nat.mul_add_lt_is_or hb a).symm

theorem and_0x3F (x : Nat) : x &&& 0x3F = x % 64 :=
  Nat.and_pow_two_sub_one_eq_mod x 6

theorem and_0x1F (x : Nat) : x &&& 0x1F = x % 32 :=
  Nat.and_pow_two_sub_one_eq_mod x 5

theorem and_0x0F (x : Nat) : x &&& 0x0F = x % 16 :=
  Nat.and_pow_two_sub_one_eq_mod x 4

theorem and_0x07 (x : Nat) : x &&& 0x07 = x % 8 :=
  Nat.and_pow_two_sub_one_eq_mod x 3

theorem lor_0x80 (b : Nat) (hb : b < 64) : 0x80 ||| b = 0x80 + b :=
  lor_eq_add 6 2 b hb

theorem lor_0xC0 (b : Nat) (hb : b < 32) : 0xC0 ||| b = 0xC0 + b :=
  lor_eq_add 5 6 b hb

theorem lor_0xE0 (b : Nat) (hb : b < 16) : 0xE0 ||| b = 0xE0 + b :=
  lor_eq_add 4 14 b hb

theorem lor_0xF0 (b : Nat) (hb : b < 8) : 0xF0 ||| b = 0xF0 + b :=
  lor_eq_add 3 30 b hb

theorem shl4_lor (x d : Nat) (hx : x < 2 ^ 28) (hd : d < 16) :
    ((x <<< 4) % 2 ^ 32) ||| d = 16 * x + d := by
  rw [Nat.shiftLeft_eq, Nat.mod_eq_of_lt (by omega), Nat.mul_comm]
  exact lor_eq_add 4 x d hd

/-- On a scalar value, `EncodeRune` writes the UTF-8 encoding. -/
theorem EncodeRune_eq_utf8Bytes (c : Nat) (hc : isScalar c) : EncodeRune c = utf8Bytes c := by
  obtain ⟨h1, h2⟩ := hc
  unfold EncodeRune utf8Bytes
  simp only [Nat.shiftRight_eq_div_pow, and_0x3F]
  split_ifs
  all_goals try omega
  · rw [Nat.mod_eq_of_lt (by omega)]
  · rw [lor_0xC0 _ (by omega), lor_0x80 _ (by omega)]
    congr 1
    · omega
    · congr 1; omega
  · rw [lor_0xE0 _ (by omega), lor_0x80 _ (by omega), lor_0x80 _ (by omega)]
    congr 1
    · omega
    · congr 1
      · omega
      · congr 1; omega
  · rw [lor_0xF0 _ (by omega), lor_0x80 _ (by omega), lor_0x80 _ (by omega),
      lor_0x80 _ (by omega)]
    congr 1
    · omega
    · congr 1
      · omega
      · congr 1
        · omega
        · congr 1; omega

/-- On a surrogate, `EncodeRune` writes the encoding of U+FFFD. -/
theorem EncodeRune_surrogate (c : Nat) (h1 : 0xD800 ≤ c) (h2 : c ≤ 0xDFFF) :
    EncodeRune c = [0xEF, 0xBF, 0xBD] := by
  unfold EncodeRune
  rw [if_neg (by omega), if_neg (by omega), if_pos (Or.inr ⟨h1, h2⟩)]

/-! ## `\uXXXX` escapes -/

theorem parseHex4Loop_hexChar (k u : Nat) (c : Bool) (d : Nat) (hd : d < 16)
    (rest st : List Nat) (top : Nat) :
    parseHex4Loop (k + 1) u ⟨hexChar c d :: rest, st, top⟩ =
      parseHex4Loop k (((u <<< 4) % 2 ^ 32) ||| d) ⟨rest, st, top⟩ := by
  unfold hexChar
  by_cases h10 : d < 10
  · rw [if_pos h10]
    simp only [parseHex4Loop]
    rw [if_pos (by omega)]
    congr 2
    omega
  · rw [if_neg h10]
    cases c
    · simp only [Bool.false_eq_true, if_false, parseHex4Loop]
      rw [if_neg (by omega), if_neg (by omega), if_pos (by omega)]
      congr 2
      omega
    · simp only [if_true, parseHex4Loop]
      rw [if_neg (by omega), if_pos (by omega)]
      congr 2
      omega

/-- `parseHex4` reads a code unit written as four hexadecimal digits. -/
theorem parseHex4_hex4 (c3 c2 c1 c0 : Bool) (u : Nat) (hu : u < 0x10000)
    (rest st : List Nat) (top : Nat) :
    parseHex4 ⟨hex4 c3 c2 c1 c0 u ++ rest, st, top⟩ = .ret u none ⟨rest, st, top⟩ := by
  unfold parseHex4 hex4
  simp only [List.cons_append, List.nil_append]
  rw [parseHex4Loop_hexChar _ _ _ _ (by omega), parseHex4Loop_hexChar _ _ _ _ (by omega),
    parseHex4Loop_hexChar _ _ _ _ (by omega), parseHex4Loop_hexChar _ _ _ _ (by omega)]
  rw [shl4_lor 0 (u / 4096 % 16) (by norm_num) (by omega)]
  rw [shl4_lor (16 * 0 + u / 4096 % 16) (u / 256 % 16) (by norm_num; omega) (by omega)]
  rw [shl4_lor (16 * (16 * 0 + u / 4096 % 16) + u / 256 % 16) (u / 16 % 16)
    (by norm_num; omega) (by omega)]
  rw [shl4_lor (16 * (16 * (16 * 0 + u / 4096 % 16) + u / 256 % 16) + u / 16 % 16) (u % 16)
    (by norm_num; omega) (by omega)]
  simp only [parseHex4Loop]
  congr 1
  omega

/-! ## The loop of `parseStringRaw`, step by step -/

@[simp] theorem hex4_length (c3 c2 c1 c0 : Bool) (u : Nat) :
    (hex4 c3 c2 c1 c0 u).length = 4 := rfl

/-- The closing quote: the bytes pushed since `head` are popped and returned. -/
theorem parseStringRawLoop_quote (head fuel : Nat) (rest st : List Nat) (top : Nat)
    (h1 : head ≤ top) (h2 : head ≤ st.length) :
    parseStringRawLoop head (fuel + 1) ⟨34 :: rest, st, top⟩ =
      .ret (st.drop head) none ⟨rest, st.take head, head⟩ := by
  have e : top - (top - head) = head := by omega
  have n1 : ¬ (top < top - head) := by omega
  have n2 : ¬ (st.length < head) := by omega
  simp [parseStringRawLoop, Parser.pop, e, n1, n2]

/-- A backslash: the escape is decoded by `parseEscape`. -/
theorem parseStringRawLoop_escape (head fuel e : Nat) (rest st : List Nat) (top : Nat) :
    parseStringRawLoop head (fuel + 1) ⟨92 :: e :: rest, st, top⟩ =
      match parseEscape head e ⟨rest, st, top⟩ with
      | .fault w => .fault w
      | .timeout => .timeout
      | .ret _ (some err) p => .ret [] (some err) p
      | .ret _ none p => parseStringRawLoop head fuel p := by
  simp only [parseStringRawLoop]
  rw [if_neg (by simp), if_neg (by decide)]
  exact if_pos trivial

/-- An ordinary character, not the last of the text, is pushed. -/
theorem parseStringRawLoop_char (head fuel ch : Nat) (rest st : List Nat) (top : Nat)
    (h1 : 0x20 ≤ ch) (h2 : ch ≠ 34) (h3 : ch ≠ 92) (h4 : rest ≠ []) :
    parseStringRawLoop head (fuel + 1) ⟨ch :: rest, st, top⟩ =
      parseStringRawLoop head fuel ⟨rest, st ++ [ch], top + 1⟩ := by
  have h5 : ¬ ch < 32 := by omega
  simp [parseStringRawLoop, h2, h3, h4, h5, Parser.push]

/-- A `\uXXXX` escape that is not a high surrogate is encoded by `EncodeRune`. -/
theorem parseEscape_unicode (head : Nat) (c3 c2 c1 c0 : Bool) (u : Nat) (hu : u < 0x10000)
    (hh : ¬ (0xD800 ≤ u ∧ u ≤ 0xDBFF)) (rest st : List Nat) (top : Nat) :
    parseEscape head 117 ⟨hex4 c3 c2 c1 c0 u ++ rest, st, top⟩ =
      .ret () none ⟨rest, st ++ EncodeRune u, top + (EncodeRune u).length⟩ := by
  simp only [parseEscape]
  rw [parseHex4_hex4 c3 c2 c1 c0 u hu]
  simp [hh, Parser.encodeUTF8, Parser.pushs]

/-- A high surrogate followed by a low surrogate is combined and encoded. -/
theorem parseEscape_pair (head : Nat) (c7 c6 c5 c4 c3 c2 c1 c0 : Bool) (h l : Nat)
    (h1 : 0xD800 ≤ h) (h2 : h ≤ 0xDBFF) (l1 : 0xDC00 ≤ l) (l2 : l ≤ 0xDFFF)
    (rest st : List Nat) (top : Nat) :
    parseEscape head 117
        ⟨hex4 c7 c6 c5 c4 h ++ (92 :: 117 :: (hex4 c3 c2 c1 c0 l ++ rest)), st, top⟩ =
      .ret () none ⟨rest, st ++ EncodeRune (0x10000 + (h - 0xD800) * 0x400 + (l - 0xDC00)),
        top + (EncodeRune (0x10000 + (h - 0xD800) * 0x400 + (l - 0xDC00))).length⟩ := by
  have e : (0x10000 + (h - 0xD800) * 0x400 + (l - 0xDC00)) % 4294967296 =
      0x10000 + (h - 0xD800) * 0x400 + (l - 0xDC00) := Nat.mod_eq_of_lt (by omega)
  simp only [parseEscape]
  rw [parseHex4_hex4 c7 c6 c5 c4 h (by omega)]
  simp only [parseSurrogate]
  rw [parseHex4_hex4 c3 c2 c1 c0 l (by omega)]
  simp [h1, h2, l1, l2, Parser.encodeUTF8, Parser.pushs, e]

/-- `Parse` on a text that opens with a quote runs the loop of
`parseStringRaw` on the rest. -/
theorem Parse_string (lib : Strconv) (body : List Nat) (hb : body ≠ []) :
    Parse lib (34 :: body) =
      match parseStringRawLoop 0 (body.length + 1) ⟨body, [], 0⟩ with
      | .fault w => .fault w
      | .timeout => .timeout
      | .ret _ (some err) p =>
        if p.top ≠ 0 then .fault .StackNotEmpty
        else .ret Value.zero (some err) { p with stack := [] }
      | .ret s none p =>
        if p.parseWhiteSpace.json.length ≠ 0 then
          .ret Value.zero (some ErrParseRootNotSingular) p.parseWhiteSpace
        else if p.parseWhiteSpace.top ≠ 0 then .fault .StackNotEmpty
        else .ret (Value.mk s 0 [] [] STRING) none { p.parseWhiteSpace with stack := [] } := by
  cases body with
  | nil => exact absurd rfl hb
  | cons b body =>
    simp only [Parse, Parser.Parse, Parser.zero, Parser.parseWhiteSpace, parseWhiteSpaceLoop,
      parseValue, parseString, parseStringRaw]
    simp
    cases parseStringRawLoop 0 (body.length + 1 + 1) ⟨b :: body, [], 0⟩ with
    | fault w => rfl
    | timeout => rfl
    | ret s e p =>
      cases e <;> rfl

/-- `Parse` of a quote, one escape and a quote, when `parseEscape` pushes the
bytes `enc` for the escape: the String holds `enc`. -/
theorem Parse_one_escape (lib : Strconv) (e : Nat) (rest enc : List Nat)
    (hx : parseEscape 0 e ⟨rest, [], 0⟩ = .ret () none ⟨[34], [] ++ enc, 0 + enc.length⟩) :
    Parse lib (34 :: 92 :: e :: rest) =
      .ret (Value.mk enc 0 [] [] STRING) none ⟨[], [], 0⟩ := by
  rw [Parse_string lib _ (by simp)]
  simp only [List.length_cons]
  rw [parseStringRawLoop_escape, hx]
  simp only []
  rw [parseStringRawLoop_quote 0 _ _ _ _ (by omega) (by omega)]
  simp [Parser.parseWhiteSpace, parseWhiteSpaceLoop]

/-- `Parse` of a quote, `\uXXXX` and a quote, for a code unit that is not a
high surrogate: the String holds what `EncodeRune` writes. -/
theorem Parse_unicode_escape_EncodeRune (lib : Strconv) (c3 c2 c1 c0 : Bool) (u : Nat)
    (hu : u < 0x10000) (hh : ¬ (0xD800 ≤ u ∧ u ≤ 0xDBFF)) :
    Parse lib (34 :: 92 :: 117 :: (hex4 c3 c2 c1 c0 u ++ [34])) =
      .ret (Value.mk (EncodeRune u) 0 [] [] STRING) none ⟨[], [], 0⟩ :=
  Parse_one_escape lib 117 _ _ (parseEscape_unicode 0 c3 c2 c1 c0 u hu hh [34] [] 0)

/-- `Parse` of a quote, a surrogate pair `\uHHHH\uLLLL` and a quote: the
String holds what `EncodeRune` writes for the combined code point. -/
theorem Parse_surrogate_pair_EncodeRune (lib : Strconv) (c7 c6 c5 c4 c3 c2 c1 c0 : Bool)
    (h l : Nat) (h1 : 0xD800 ≤ h) (h2 : h ≤ 0xDBFF) (l1 : 0xDC00 ≤ l) (l2 : l ≤ 0xDFFF) :
    Parse lib (34 :: 92 :: 117 :: (hex4 c7 c6 c5 c4 h ++
        (92 :: 117 :: (hex4 c3 c2 c1 c0 l ++ [34])))) =
      .ret (Value.mk (EncodeRune (0x10000 + (h - 0xD800) * 0x400 + (l - 0xDC00))) 0 [] []
        STRING) none ⟨[], [], 0⟩ :=
  Parse_one_escape lib 117 _ _
    (parseEscape_pair 0 c7 c6 c5 c4 c3 c2 c1 c0 h l h1 h2 l1 l2 [34] [] 0)

/-- C9. A surrogate pair `\uHHHH\uLLLL` between quotes, in either case of the
hexadecimal digits, parses to the String whose bytes are the 4-byte UTF-8
encoding of `0x10000 + (h-0xD800)*0x400 + (l-0xDC00)`; a single `\uUUUU` with
`u` not a surrogate parses to the UTF-8 encoding of `u`, of 1, 2 or 3 bytes. -/
theorem Parse_unicode_escape (lib : Strconv) (c7 c6 c5 c4 c3 c2 c1 c0 : Bool) (h l u : Nat) :
    (0xD800 ≤ h ∧ h ≤ 0xDBFF → 0xDC00 ≤ l ∧ l ≤ 0xDFFF →
      Parse lib (34 :: 92 :: 117 :: (hex4 c7 c6 c5 c4 h ++
          (92 :: 117 :: (hex4 c3 c2 c1 c0 l ++ [34])))) =
        .ret (Value.mk (utf8Bytes (0x10000 + (h - 0xD800) * 0x400 + (l - 0xDC00))) 0 [] []
          STRING) none ⟨[], [], 0⟩ ∧
      (utf8Bytes (0x10000 + (h - 0xD800) * 0x400 + (l - 0xDC00))).length = 4) ∧
    (u ≤ 0xFFFF → ¬ (0xD800 ≤ u ∧ u ≤ 0xDFFF) →
      Parse lib (34 :: 92 :: 117 :: (hex4 c3 c2 c1 c0 u ++ [34])) =
        .ret (Value.mk (utf8Bytes u) 0 [] [] STRING) none ⟨[], [], 0⟩ ∧
      1 ≤ (utf8Bytes u).length ∧ (utf8Bytes u).length ≤ 3) := by
  refine ⟨fun hh hl => ⟨?_, ?_⟩, fun hu hs => ⟨?_, ?_⟩⟩
  · rw [Parse_surrogate_pair_EncodeRune lib c7 c6 c5 c4 c3 c2 c1 c0 h l hh.1 hh.2 hl.1 hl.2,
      EncodeRune_eq_utf8Bytes _ ⟨by omega, by omega⟩]
  · unfold utf8Bytes
    rw [if_neg (by omega), if_neg (by omega), if_neg (by omega)]
    simp
  · rw [Parse_unicode_escape_EncodeRune lib c3 c2 c1 c0 u (by omega) (by omega),
      EncodeRune_eq_utf8Bytes u ⟨by omega, hs⟩]
  · unfold utf8Bytes
    split_ifs
    · simp
    · simp
    · simp
    · omega

/-- Instance of `Parse_unicode_escape`: the texts `"𝄞"` (U+1D11E)
and `"€"`. -/
theorem Parse_unicode_escape_witness :
    (Parse (Strconv.mk (fun _ => (0, none)) (fun _ => []))
        [34, 92, 117, 68, 56, 51, 52, 92, 117, 100, 100, 49, 101, 34] =
      .ret (Value.mk [0xF0, 0x9D, 0x84, 0x9E] 0 [] [] STRING) none ⟨[], [], 0⟩) ∧
    (Parse (Strconv.mk (fun _ => (0, none)) (fun _ => []))
        [34, 92, 117, 50, 48, 65, 67, 34] =
      .ret (Value.mk [0xE2, 0x82, 0xAC] 0 [] [] STRING) none ⟨[], [], 0⟩) :=
  ⟨((Parse_unicode_escape (Strconv.mk (fun _ => (0, none)) (fun _ => []))
      true true true true false false false false 0xD834 0xDD1E 0).1
      (by decide) (by decide)).1,
   ((Parse_unicode_escape (Strconv.mk (fun _ => (0, none)) (fun _ => []))
      true true true true true true true true 0 0 0x20AC).2
      (by decide) (by decide)).1⟩

/-- C7. The code on a low surrogate that no high surrogate precedes: for
every `l` in `0xDC00..0xDFFF`, in either case of the hexadecimal digits, the
text quote, `\uLLLL`, quote parses without error to the String `EF BF BD`
(U+FFFD); `ErrParseInvalidUnicodeSurrogate` is not returned. -/
theorem Parse_lone_low_surrogate (lib : Strconv) (c3 c2 c1 c0 : Bool) (l : Nat)
    (h1 : 0xDC00 ≤ l) (h2 : l ≤ 0xDFFF) :
    Parse lib (34 :: 92 :: 117 :: (hex4 c3 c2 c1 c0 l ++ [34])) =
      .ret (Value.mk [0xEF, 0xBF, 0xBD] 0 [] [] STRING) none ⟨[], [], 0⟩ := by
  rw [Parse_unicode_escape_EncodeRune lib c3 c2 c1 c0 l (by omega) (by omega),
    EncodeRune_surrogate l (by omega) h2]

/-- Instance of `Parse_lone_low_surrogate`: the text `"\uDC00"`. -/
theorem Parse_lone_low_surrogate_witness :
    Parse (Strconv.mk (fun _ => (0, none)) (fun _ => [])) [34, 92, 117, 68, 67, 48, 48, 34] =
      .ret (Value.mk [0xEF, 0xBF, 0xBD] 0 [] [] STRING) none ⟨[], [], 0⟩ :=
  Parse_lone_low_surrogate (Strconv.mk (fun _ => (0, none)) (fun _ => []))
    true true true true 0xDC00 (by decide) (by decide)

end goson

namespace goson

open Type_ Err

/-! ## Decoding UTF-8: the `range` loop of `stringifyString` -/

theorem shl6_lor (a b : Nat) (hb : b < 64) : (a <<< 6) ||| b = 64 * a + b := by
  rw [Nat.shiftLeft_eq, Nat.mul_comm]
  exact lor_eq_add 6 a b hb

theorem shl12_lor (a b c : Nat) (hb : b < 64) (hc : c < 64) :
    (a <<< 12) ||| (b <<< 6) ||| c = 4096 * a + 64 * b + c := by
  have e1 : (a <<< 12) ||| (b <<< 6) = 4096 * a + 64 * b := by
    rw [Nat.shiftLeft_eq, Nat.shiftLeft_eq, Nat.mul_comm a]
    exact lor_eq_add 12 a (b * 2 ^ 6) (by omega) |>.trans (by omega)
  rw [e1]
  have e2 : 4096 * a + 64 * b = 2 ^ 6 * (64 * a + b) := by omega
  rw [e2, lor_eq_add 6 _ c hc]

theorem shl18_lor (a b c d : Nat) (hb : b < 64) (hc : c < 64) (hd : d < 64) :
    (a <<< 18) ||| (b <<< 12) ||| (c <<< 6) ||| d = 262144 * a + 4096 * b + 64 * c + d := by
  have e1 : (a <<< 18) ||| (b <<< 12) = 262144 * a + 4096 * b := by
    rw [Nat.shiftLeft_eq, Nat.shiftLeft_eq, Nat.mul_comm a]
    exact lor_eq_add 18 a (b * 2 ^ 12) (by omega) |>.trans (by omega)
  have e2 : (262144 * a + 4096 * b) ||| (c <<< 6) = 262144 * a + 4096 * b + 64 * c := by
    have e : 262144 * a + 4096 * b = 2 ^ 12 * (64 * a + b) := by omega
    rw [e, Nat.shiftLeft_eq]
    exact lor_eq_add 12 _ (c * 2 ^ 6) (by omega) |>.trans (by omega)
  rw [e1, e2]
  have e3 : 262144 * a + 4096 * b + 64 * c = 2 ^ 6 * (4096 * a + 64 * b + c) := by omega
  rw [e3, lor_eq_add 6 _ d hd]

/-- The `range` loop decodes the encoding of a scalar value to that value and
advances by the length of the encoding. -/
theorem rangeRune_utf8Bytes (c : Nat) (hc : isScalar c) (rest : List Nat) :
    rangeRune (utf8Bytes c ++ rest) = (c, (utf8Bytes c).length) := by
  obtain ⟨h1, h2⟩ := hc
  unfold utf8Bytes
  split_ifs with a1 a2 a3
  · simp [rangeRune, a1]
  · have n1 : ¬ (0xC0 + c / 64 < 0x80) := by omega
    have r1 : 0xC0 ≤ 0xC0 + c / 64 ∧ 0xC0 + c / 64 < 0xE0 := by omega
    have r2 : 0x80 ≤ 0x80 + c % 64 ∧ 0x80 + c % 64 ≤ 0xBF := by omega
    have e : (((0xC0 + c / 64) &&& 0x1F) <<< 6) ||| ((0x80 + c % 64) &&& 0x3F) = c := by
      rw [and_0x1F, and_0x3F, shl6_lor _ _ (by omega)]
      omega
    have n2 : 0x7F < c := by omega
    simp only [rangeRune, List.cons_append, List.nil_append, if_neg n1, decoderune, if_pos r1,
      if_pos r2, e, if_pos n2, List.length_cons, List.length_nil]
  · have n1 : ¬ (0xE0 + c / 4096 < 0x80) := by omega
    have n0 : ¬ (0xC0 ≤ 0xE0 + c / 4096 ∧ 0xE0 + c / 4096 < 0xE0) := by omega
    have r1 : 0xE0 ≤ 0xE0 + c / 4096 ∧ 0xE0 + c / 4096 < 0xF0 := by omega
    have r2 : (0x80 ≤ 0x80 + c / 64 % 64 ∧ 0x80 + c / 64 % 64 ≤ 0xBF) ∧
        (0x80 ≤ 0x80 + c % 64 ∧ 0x80 + c % 64 ≤ 0xBF) := by omega
    have e : (((0xE0 + c / 4096) &&& 0x0F) <<< 12) ||| (((0x80 + c / 64 % 64) &&& 0x3F) <<< 6) |||
        ((0x80 + c % 64) &&& 0x3F) = c := by
      rw [and_0x0F, and_0x3F, and_0x3F, shl12_lor _ _ _ (by omega) (by omega)]
      omega
    have n2 : 0x7FF < c ∧ ¬ (0xD800 ≤ c ∧ c ≤ 0xDFFF) := ⟨by omega, h2⟩
    simp only [rangeRune, List.cons_append, List.nil_append, if_neg n1, decoderune, if_neg n0,
      if_pos r1, if_pos r2, e, if_pos n2, List.length_cons, List.length_nil]
  · have n1 : ¬ (0xF0 + c / 262144 < 0x80) := by omega
    have n0 : ¬ (0xC0 ≤ 0xF0 + c / 262144 ∧ 0xF0 + c / 262144 < 0xE0) := by omega
    have n3 : ¬ (0xE0 ≤ 0xF0 + c / 262144 ∧ 0xF0 + c / 262144 < 0xF0) := by omega
    have r1 : 0xF0 ≤ 0xF0 + c / 262144 ∧ 0xF0 + c / 262144 < 0xF8 := by omega
    have r2 : (0x80 ≤ 0x80 + c / 4096 % 64 ∧ 0x80 + c / 4096 % 64 ≤ 0xBF) ∧
        (0x80 ≤ 0x80 + c / 64 % 64 ∧ 0x80 + c / 64 % 64 ≤ 0xBF) ∧
        (0x80 ≤ 0x80 + c % 64 ∧ 0x80 + c % 64 ≤ 0xBF) := by omega
    have e : (((0xF0 + c / 262144) &&& 0x07) <<< 18) |||
        (((0x80 + c / 4096 % 64) &&& 0x3F) <<< 12) |||
        (((0x80 + c / 64 % 64) &&& 0x3F) <<< 6) ||| ((0x80 + c % 64) &&& 0x3F) = c := by
      rw [and_0x07, and_0x3F, and_0x3F, and_0x3F,
        shl18_lor _ _ _ _ (by omega) (by omega) (by omega)]
      omega
    have n2 : 0xFFFF < c ∧ c ≤ 0x10FFFF := by omega
    simp only [rangeRune, List.cons_append, List.nil_append, if_neg n1, decoderune, if_neg n0,
      if_neg n3, if_pos r1, if_pos r2, e, if_pos n2, List.length_cons, List.length_nil]

theorem utf8Bytes_length_pos (c : Nat) : 1 ≤ (utf8Bytes c).length := by
  unfold utf8Bytes
  split_ifs <;> simp

theorem stringifyStringLoop_skip (xs s : List Nat) :
    stringifyStringLoop (xs ++ s) xs.length = stringifyStringLoop s 0 := by
  induction xs with
  | nil => rfl
  | cons x xs ih => simpa [stringifyStringLoop] using ih

/-- On the encoding of a scalar value the loop of `stringifyString` appends
the image of that value and goes on with the rest. -/
theorem stringifyStringLoop_utf8Bytes (c : Nat) (hc : isScalar c) (s : List Nat) :
    stringifyStringLoop (utf8Bytes c ++ s) 0 = stringifyRune c ++ stringifyStringLoop s 0 := by
  have hr := rangeRune_utf8Bytes c hc s
  have hl := utf8Bytes_length_pos c
  cases hb : utf8Bytes c with
  | nil => rw [hb] at hl; simp at hl
  | cons b bs =>
    rw [hb] at hr
    rw [List.cons_append] at hr ⊢
    rw [stringifyStringLoop, hr]
    simp only [List.length_cons, Nat.add_sub_cancel]
    rw [stringifyStringLoop_skip]

/-! ## The parser on the output of `stringifyString` -/

theorem parseStringRawLoop_plain (head : Nat) (bs : List Nat) (hbs : ∀ b ∈ bs, plainByte b)
    (more : List Nat) (hm : more ≠ []) (fuel : Nat) (st : List Nat) (top : Nat) :
    parseStringRawLoop head (fuel + bs.length) ⟨bs ++ more, st, top⟩ =
      parseStringRawLoop head fuel ⟨more, st ++ bs, top + bs.length⟩ := by
  induction bs generalizing st top with
  | nil => simp
  | cons b bs ih =>
    obtain ⟨p1, p2, p3⟩ := hbs b (List.mem_cons_self _ _)
    have hne : bs ++ more ≠ [] := by simp [hm]
    rw [List.length_cons, ← Nat.add_assoc, List.cons_append,
      parseStringRawLoop_char head _ b _ st top p1 p2 p3 hne,
      ih (fun x hx => hbs x (List.mem_cons_of_mem _ hx))]
    simp [Nat.add_assoc, Nat.add_comm 1]

theorem utf8Bytes_plain (c : Nat) (hc : isScalar c) (h1 : 0x20 ≤ c) (h2 : c ≠ 34)
    (h3 : c ≠ 92) : ∀ b ∈ utf8Bytes c, plainByte b := by
  obtain ⟨s1, s2⟩ := hc
  unfold utf8Bytes plainByte
  split_ifs <;> intro b hb <;> simp at hb <;> omega

theorem sprintfU04X_eq (c : Nat) :
    sprintfU04X c = 92 :: 117 :: hex4 true true true true c := by
  simp [sprintfU04X, hex4, hexChar, upperHexDigit]

theorem parseStringRawLoop_simple_escape (head fuel e b : Nat) (more st : List Nat) (top : Nat)
    (he : parseEscape head e ⟨more, st, top⟩ = .ret () none ⟨more, st ++ [b], top + 1⟩) :
    parseStringRawLoop head (fuel + 1) ⟨[92, e] ++ more, st, top⟩ =
      parseStringRawLoop head fuel ⟨more, st ++ [b], top + 1⟩ := by
  rw [List.cons_append, List.cons_append, List.nil_append, parseStringRawLoop_escape, he]

/-- The parser reads back the image of one scalar value: it pushes the
encoding of the value, in at most as many rounds of the loop as the image has
bytes. -/
theorem parseStringRawLoop_stringifyRune (c : Nat) (hc : isScalar c) (more : List Nat)
    (hm : more ≠ []) :
    ∃ k, 1 ≤ k ∧ k ≤ (stringifyRune c).length ∧ ∀ head fuel st top,
      parseStringRawLoop head (fuel + k) ⟨stringifyRune c ++ more, st, top⟩ =
        parseStringRawLoop head fuel ⟨more, st ++ utf8Bytes c, top + (utf8Bytes c).length⟩ := by
  unfold stringifyRune
  split_ifs with a1 a2 a3 a4 a5 a6 a7 a8
  · subst a1
    exact ⟨1, le_refl _, by simp, fun head fuel st top =>
      parseStringRawLoop_simple_escape head fuel 34 34 more st top rfl⟩
  · subst a2
    exact ⟨1, le_refl _, by simp, fun head fuel st top =>
      parseStringRawLoop_simple_escape head fuel 92 92 more st top rfl⟩
  · subst a3
    exact ⟨1, le_refl _, by simp, fun head fuel st top =>
      parseStringRawLoop_simple_escape head fuel 98 8 more st top rfl⟩
  · subst a4
    exact ⟨1, le_refl _, by simp, fun head fuel st top =>
      parseStringRawLoop_simple_escape head fuel 102 12 more st top rfl⟩
  · subst a5
    exact ⟨1, le_refl _, by simp, fun head fuel st top =>
      parseStringRawLoop_simple_escape head fuel 110 10 more st top rfl⟩
  · subst a6
    exact ⟨1, le_refl _, by simp, fun head fuel st top =>
      parseStringRawLoop_simple_escape head fuel 114 13 more st top rfl⟩
  · subst a7
    exact ⟨1, le_refl _, by simp, fun head fuel st top =>
      parseStringRawLoop_simple_escape head fuel 116 9 more st top rfl⟩
  · refine ⟨1, le_refl _, by simp [sprintfU04X], fun head fuel st top => ?_⟩
    have hu : utf8Bytes c = [c] := by
      unfold utf8Bytes
      rw [if_pos (by omega)]
    have he : EncodeRune c = [c] := by
      rw [EncodeRune_eq_utf8Bytes c hc, hu]
    rw [sprintfU04X_eq, List.cons_append, List.cons_append, parseStringRawLoop_escape,
      parseEscape_unicode head true true true true c (by omega) (by omega), he, hu]
  · refine ⟨(utf8Bytes c).length, utf8Bytes_length_pos c, ?_, fun head fuel st top => ?_⟩
    · rw [EncodeRune_eq_utf8Bytes c hc]
    · rw [EncodeRune_eq_utf8Bytes c hc]
      exact parseStringRawLoop_plain head _
        (utf8Bytes_plain c hc (by omega) a1 a2) more hm fuel st top

/-- The loop of `parseStringRaw` on the body `stringifyString` writes for a
valid UTF-8 string, followed by the closing quote: the string is pushed and
popped again. -/
theorem parseStringRawLoop_stringifyStringLoop (s : List Nat) (hs : ValidUTF8 s) :
    ∀ (fuel head : Nat) (st rest : List Nat), head ≤ st.length →
      (stringifyStringLoop s 0).length < fuel →
      parseStringRawLoop head fuel ⟨stringifyStringLoop s 0 ++ 34 :: rest, st, st.length⟩ =
        .ret ((st ++ s).drop head) none ⟨rest, (st ++ s).take head, head⟩ := by
  induction hs with
  | nil =>
    intro fuel head st rest hh hf
    obtain ⟨f, rfl⟩ : ∃ f, fuel = f + 1 := ⟨fuel - 1, by omega⟩
    simp only [stringifyStringLoop, List.nil_append, List.append_nil]
    exact parseStringRawLoop_quote head f rest st st.length hh hh
  | cons c s hc _ ih =>
    intro fuel head st rest hh hf
    rw [stringifyStringLoop_utf8Bytes c hc s] at hf ⊢
    obtain ⟨k, _, hk2, hstep⟩ := parseStringRawLoop_stringifyRune c hc
      (stringifyStringLoop s 0 ++ 34 :: rest) (by simp)
    rw [List.length_append] at hf
    obtain ⟨f, rfl⟩ : ∃ f, fuel = f + k := ⟨fuel - k, by omega⟩
    rw [List.append_assoc, hstep head f st st.length]
    have hlen : st.length + (utf8Bytes c).length = (st ++ utf8Bytes c).length := by simp
    rw [hlen, ih f head (st ++ utf8Bytes c) rest (by simp; omega) (by omega),
      List.append_assoc]

/-- `parseStringRaw` reads back what `stringifyString` writes for a valid
UTF-8 string, whatever follows, and leaves the scratch buffer as it was. -/
theorem parseStringRaw_stringifyString (s : List Nat) (hs : ValidUTF8 s) (st rest : List Nat) :
    parseStringRaw ⟨stringifyString s ++ rest, st, st.length⟩ =
      .ret s none ⟨rest, st, st.length⟩ := by
  unfold parseStringRaw stringifyString
  simp only [List.cons_append, List.nil_append, List.append_assoc, List.head?_cons]
  rw [if_neg (by simp)]
  rw [if_neg (by simp), parseStringRawLoop_stringifyStringLoop s hs _ st.length st rest
    (le_refl _) (by simp; omega)]
  simp

end goson

namespace goson

open Type_ Err

/-! ## The parser on the output of `stringifyValue` -/

theorem parseWhiteSpaceLoop_cons (c : Nat) (tl : List Nat)
    (hc : ¬ (c = 32 ∨ c = 9 ∨ c = 10 ∨ c = 13)) :
    parseWhiteSpaceLoop (c :: tl) = c :: tl := by
  simp only [parseWhiteSpaceLoop, if_neg hc]

theorem stringifyValue_head (lib : Strconv) (v : Value) (hv : PlainTree v) :
    ∃ c tl, stringifyValue lib v = c :: tl ∧ opensValue c := by
  cases v with
  | mk s n a o t =>
    cases t
    · exact ⟨110, _, by simp only [stringifyValue]; rfl, by simp [opensValue]⟩
    · exact ⟨102, _, by simp only [stringifyValue]; rfl, by simp [opensValue]⟩
    · exact ⟨116, _, by simp only [stringifyValue]; rfl, by simp [opensValue]⟩
    · simp [PlainTree] at hv
    · exact ⟨34, _, by simp only [stringifyValue, stringifyString]; rfl, by simp [opensValue]⟩
    · exact ⟨91, _, by simp only [stringifyValue]; rfl, by simp [opensValue]⟩
    · exact ⟨123, _, by simp only [stringifyValue]; rfl, by simp [opensValue]⟩

theorem stringifyArrayLoop_succ (lib : Strconv) (i : Nat) (a : List Value) :
    stringifyArrayLoop lib (i + 1) a = stringifyArrayLoop lib 1 a := by
  induction a generalizing i with
  | nil => simp [stringifyArrayLoop]
  | cons e es ih =>
    simp only [stringifyArrayLoop]
    rw [ih (i + 1), ih 1]
    simp

theorem stringifyObjectLoop_succ (lib : Strconv) (i : Nat) (o : List KV) :
    stringifyObjectLoop lib (i + 1) o = stringifyObjectLoop lib 1 o := by
  induction o generalizing i with
  | nil => simp [stringifyObjectLoop]
  | cons e es ih =>
    obtain ⟨k, v⟩ := e
    simp only [stringifyObjectLoop]
    rw [ih (i + 1), ih 1]
    simp

theorem stringifyArrayLoop_cons_zero (lib : Strconv) (e : Value) (es : List Value) :
    stringifyArrayLoop lib 0 (e :: es) = stringifyValue lib e ++ stringifyArrayLoop lib 1 es := by
  simp [stringifyArrayLoop]

theorem stringifyArrayLoop_cons_one (lib : Strconv) (e : Value) (es : List Value) :
    stringifyArrayLoop lib 1 (e :: es) =
      44 :: (stringifyValue lib e ++ stringifyArrayLoop lib 1 es) := by
  simp only [stringifyArrayLoop]
  rw [stringifyArrayLoop_succ lib 1 es]
  simp

theorem stringifyObjectLoop_cons_zero (lib : Strconv) (k : List Nat) (v : Value)
    (es : List KV) :
    stringifyObjectLoop lib 0 ((k, v) :: es) =
      stringifyString k ++ 58 :: (stringifyValue lib v ++ stringifyObjectLoop lib 1 es) := by
  simp [stringifyObjectLoop]

theorem stringifyObjectLoop_cons_one (lib : Strconv) (k : List Nat) (v : Value)
    (es : List KV) :
    stringifyObjectLoop lib 1 ((k, v) :: es) =
      44 :: (stringifyString k ++ 58 :: (stringifyValue lib v ++
        stringifyObjectLoop lib 1 es)) := by
  simp only [stringifyObjectLoop]
  rw [stringifyObjectLoop_succ lib 1 es]
  simp

theorem parseWhiteSpace_stringifyValue (lib : Strconv) (v : Value) (hv : PlainTree v)
    (r st : List Nat) (top : Nat) :
    Parser.parseWhiteSpace ⟨stringifyValue lib v ++ r, st, top⟩ =
      ⟨stringifyValue lib v ++ r, st, top⟩ := by
  obtain ⟨c, tl, hc, ho⟩ := stringifyValue_head lib v hv
  have hw : ¬ (c = 32 ∨ c = 9 ∨ c = 10 ∨ c = 13) := by
    unfold opensValue at ho
    omega
  simp only [Parser.parseWhiteSpace, hc, List.cons_append, parseWhiteSpaceLoop_cons c _ hw]

/-- The loop of `parseArray` on the texts of the elements `e, es...` separated
by commas and closed by a bracket: the Array of their normal forms, after the
elements `acc` collected before. -/
theorem parseArrayLoop_stringify (lib : Strconv) (pv : Parser → Res Value) (es : List Value) :
    ∀ (e : Value) (acc : List Value) (lf : Nat) (rest st : List Nat),
      readsBack lib pv e → (∀ x ∈ es, readsBack lib pv x) → es.length < lf →
      parseArrayLoop pv lf
          ⟨stringifyValue lib e ++ (stringifyArrayLoop lib 1 es ++ 93 :: rest), st, st.length⟩
          acc =
        .ret (Value.mk [] 0 (acc ++ e.normal :: normalArray es) [] ARRAY) none
          ⟨rest, st, st.length⟩ := by
  induction es with
  | nil =>
    intro e acc lf rest st he _ hlf
    obtain ⟨f, rfl⟩ : ∃ f, lf = f + 1 := ⟨lf - 1, by omega⟩
    simp [parseArrayLoop, he.2, stringifyArrayLoop, Parser.parseWhiteSpace, parseWhiteSpaceLoop,
      normalArray]
  | cons e2 es2 ih =>
    intro e acc lf rest st he hes hlf
    obtain ⟨f, rfl⟩ : ∃ f, lf = f + 1 := ⟨lf - 1, by simp at hlf; omega⟩
    have he2 := hes e2 (List.mem_cons_self _ _)
    rw [stringifyArrayLoop_cons_one]
    simp only [parseArrayLoop, he.2, List.cons_append]
    have hw : Parser.parseWhiteSpace
        ⟨44 :: (stringifyValue lib e2 ++ stringifyArrayLoop lib 1 es2 ++ 93 :: rest), st,
          st.length⟩ =
        ⟨44 :: (stringifyValue lib e2 ++ stringifyArrayLoop lib 1 es2 ++ 93 :: rest), st,
          st.length⟩ := by
      simp [Parser.parseWhiteSpace, parseWhiteSpaceLoop]
    rw [hw]
    simp only [if_pos]
    rw [List.append_assoc, parseWhiteSpace_stringifyValue lib e2 he2.1,
      ih e2 (acc ++ [e.normal]) f rest st he2
        (fun x hx => hes x (List.mem_cons_of_mem _ hx)) (by simp at hlf; omega)]
    simp [normalArray]

/-- The loop of `parseObject` on the texts of the members `(k, v), es...`
separated by commas and closed by a brace: the Object of the same keys and the
normal forms of the values, after the entries `acc` collected before. -/
theorem parseObjectLoop_stringify (lib : Strconv) (pv : Parser → Res Value) (es : List KV) :
    ∀ (k : List Nat) (v : Value) (acc : List KV) (lf : Nat) (rest st : List Nat),
      ValidUTF8 k → readsBack lib pv v →
      (∀ x ∈ es, ValidUTF8 x.1 ∧ readsBack lib pv x.2) → es.length < lf →
      parseObjectLoop pv lf
          ⟨stringifyString k ++ 58 :: (stringifyValue lib v ++
            (stringifyObjectLoop lib 1 es ++ 125 :: rest)), st, st.length⟩ acc =
        .ret (Value.mk [] 0 [] (acc ++ (k, v.normal) :: normalObject es) OBJECT) none
          ⟨rest, st, st.length⟩ := by
  induction es with
  | nil =>
    intro k v acc lf rest st hk hv _ hlf
    obtain ⟨f, rfl⟩ : ∃ f, lf = f + 1 := ⟨lf - 1, by omega⟩
    have hh : (stringifyString k ++ 58 :: (stringifyValue lib v ++
        (stringifyObjectLoop lib 1 [] ++ 125 :: rest))).head? = some 34 := by
      simp [stringifyString]
    simp only [parseObjectLoop]
    rw [if_neg (by simp [hh]), parseStringRaw_stringifyString k hk]
    simp only []
    have hw : Parser.parseWhiteSpace
        ⟨58 :: (stringifyValue lib v ++ (stringifyObjectLoop lib 1 [] ++ 125 :: rest)), st,
          st.length⟩ =
        ⟨58 :: (stringifyValue lib v ++ (stringifyObjectLoop lib 1 [] ++ 125 :: rest)), st,
          st.length⟩ := by
      simp [Parser.parseWhiteSpace, parseWhiteSpaceLoop]
    rw [hw]
    simp only [List.head?_cons, List.tail_cons]
    rw [if_neg (by simp), parseWhiteSpace_stringifyValue lib v hv.1, hv.2]
    simp [stringifyObjectLoop, Parser.parseWhiteSpace, parseWhiteSpaceLoop, normalObject]
  | cons e2 es2 ih =>
    intro k v acc lf rest st hk hv hes hlf
    obtain ⟨f, rfl⟩ : ∃ f, lf = f + 1 := ⟨lf - 1, by simp at hlf; omega⟩
    obtain ⟨k2, v2⟩ := e2
    have he2 := hes (k2, v2) (List.mem_cons_self _ _)
    have hh : (stringifyString k ++ 58 :: (stringifyValue lib v ++
        (stringifyObjectLoop lib 1 ((k2, v2) :: es2) ++ 125 :: rest))).head? = some 34 := by
      simp [stringifyString]
    simp only [parseObjectLoop]
    rw [if_neg (by simp [hh]), parseStringRaw_stringifyString k hk]
    simp only []
    have hw : Parser.parseWhiteSpace
        ⟨58 :: (stringifyValue lib v ++
          (stringifyObjectLoop lib 1 ((k2, v2) :: es2) ++ 125 :: rest)), st, st.length⟩ =
        ⟨58 :: (stringifyValue lib v ++
          (stringifyObjectLoop lib 1 ((k2, v2) :: es2) ++ 125 :: rest)), st, st.length⟩ := by
      simp [Parser.parseWhiteSpace, parseWhiteSpaceLoop]
    rw [hw]
    simp only [List.head?_cons, List.tail_cons]
    rw [if_neg (by simp), parseWhiteSpace_stringifyValue lib v hv.1, hv.2]
    simp only []
    rw [stringifyObjectLoop_cons_one]
    have hw2 : Parser.parseWhiteSpace
        ⟨44 :: (stringifyString k2 ++ 58 :: (stringifyValue lib v2 ++
          stringifyObjectLoop lib 1 es2)) ++ 125 :: rest, st, st.length⟩ =
        ⟨44 :: (stringifyString k2 ++ 58 :: (stringifyValue lib v2 ++
          stringifyObjectLoop lib 1 es2)) ++ 125 :: rest, st, st.length⟩ := by
      simp [Parser.parseWhiteSpace, parseWhiteSpaceLoop]
    rw [hw2]
    simp only [List.cons_append, if_pos]
    have hw3 : Parser.parseWhiteSpace
        ⟨(stringifyString k2 ++ 58 :: (stringifyValue lib v2 ++
          stringifyObjectLoop lib 1 es2)) ++ 125 :: rest, st, st.length⟩ =
        ⟨stringifyString k2 ++ 58 :: (stringifyValue lib v2 ++
          (stringifyObjectLoop lib 1 es2 ++ 125 :: rest)), st, st.length⟩ := by
      simp [Parser.parseWhiteSpace, parseWhiteSpaceLoop, stringifyString]
    rw [hw3, ih k2 v2 (acc ++ [(k, v.normal)]) f rest st he2.1 he2.2
        (fun x hx => hes x (List.mem_cons_of_mem _ hx)) (by simp at hlf; omega)]
    simp [normalObject]

theorem PlainArray_mem (a : List Value) (ha : PlainArray a) : ∀ e ∈ a, PlainTree e := by
  induction a with
  | nil => intro e he; simp at he
  | cons x xs ih =>
    simp only [PlainArray] at ha
    intro e he
    rcases List.mem_cons.1 he with rfl | he
    · exact ha.1
    · exact ih ha.2 e he

theorem PlainObject_mem (o : List KV) (ho : PlainObject o) :
    ∀ x ∈ o, ValidUTF8 x.1 ∧ PlainTree x.2 := by
  induction o with
  | nil => intro e he; simp at he
  | cons x xs ih =>
    obtain ⟨k, v⟩ := x
    simp only [PlainObject] at ho
    intro e he
    rcases List.mem_cons.1 he with rfl | he
    · exact ⟨ho.1, ho.2.1⟩
    · exact ih ho.2.2 e he

theorem stringifyArrayLoop_length_mem (lib : Strconv) (a : List Value) :
    ∀ (i : Nat), ∀ e ∈ a, (stringifyValue lib e).length ≤ (stringifyArrayLoop lib i a).length := by
  induction a with
  | nil => intro i e he; simp at he
  | cons x xs ih =>
    intro i e he
    simp only [stringifyArrayLoop, List.length_append]
    rcases List.mem_cons.1 he with rfl | he
    · omega
    · have := ih (i + 1) e he
      omega

theorem stringifyObjectLoop_length_mem (lib : Strconv) (o : List KV) :
    ∀ (i : Nat), ∀ x ∈ o,
      (stringifyValue lib x.2).length ≤ (stringifyObjectLoop lib i o).length := by
  induction o with
  | nil => intro i e he; simp at he
  | cons x xs ih =>
    obtain ⟨k, v⟩ := x
    intro i e he
    simp only [stringifyObjectLoop, List.length_append]
    rcases List.mem_cons.1 he with rfl | he
    · simp only []
      omega
    · have := ih (i + 1) e he
      omega

theorem stringifyArrayLoop_length (lib : Strconv) (a : List Value) :
    a.length ≤ (stringifyArrayLoop lib 1 a).length := by
  induction a with
  | nil => simp
  | cons x xs ih =>
    rw [stringifyArrayLoop_cons_one]
    simp only [List.length_cons, List.length_append]
    omega

theorem stringifyObjectLoop_length (lib : Strconv) (o : List KV) :
    o.length ≤ (stringifyObjectLoop lib 1 o).length := by
  induction o with
  | nil => simp
  | cons x xs ih =>
    obtain ⟨k, v⟩ := x
    rw [stringifyObjectLoop_cons_one]
    simp only [List.length_cons, List.length_append]
    omega

theorem opensValue_ne (c : Nat) (h : opensValue c) : c ≠ 93 ∧ c ≠ 125 := by
  unfold opensValue at h
  omega

/-- `parseValue` reads back the text `stringifyValue` writes for a plain
tree, whatever follows it, when the fuel exceeds the length of the text. -/
theorem parseValue_stringifyValue (lib : Strconv) :
    ∀ (fuel : Nat) (v : Value), PlainTree v → (stringifyValue lib v).length < fuel →
      ∀ (rest st : List Nat),
        parseValue lib fuel ⟨stringifyValue lib v ++ rest, st, st.length⟩ =
          .ret v.normal none ⟨rest, st, st.length⟩ := by
  intro fuel
  induction fuel with
  | zero => intro v _ hl; omega
  | succ fuel ih =>
    intro v hv hl rest st
    cases v with
    | mk s n a o t =>
      cases t
      · simp [stringifyValue, parseValue, parseLiteral, Value.normal]
      · simp [stringifyValue, parseValue, parseLiteral, Value.normal]
      · simp [stringifyValue, parseValue, parseLiteral, Value.normal]
      · simp [PlainTree] at hv
      · simp only [PlainTree] at hv
        have hq : stringifyString s ++ rest = 34 :: (stringifyStringLoop s 0 ++ [34] ++ rest) := by
          simp [stringifyString]
        simp only [stringifyValue, parseValue, List.nil_append]
        rw [hq]
        simp only []
        rw [if_neg (by decide), if_neg (by decide), if_neg (by decide), if_pos trivial, ← hq]
        simp only [parseString, parseStringRaw_stringifyString s hv, Value.normal]
      · simp only [PlainTree] at hv
        cases a with
        | nil =>
          simp [stringifyValue, stringifyArrayLoop, parseValue, parseArray,
            Parser.parseWhiteSpace, parseWhiteSpaceLoop, Value.normal, normalArray]
        | cons e es =>
          have hmem := PlainArray_mem (e :: es) hv
          have hrb : ∀ x ∈ e :: es, readsBack lib (parseValue lib fuel) x := by
            intro x hx
            refine ⟨hmem x hx, ih x (hmem x hx) ?_⟩
            have h1 := stringifyArrayLoop_length_mem lib (e :: es) 0 x hx
            simp only [stringifyValue, List.length_append, List.length_cons,
              List.length_nil] at hl
            omega
          obtain ⟨c, tl, hc, ho⟩ := stringifyValue_head lib e (hmem e (List.mem_cons_self _ _))
          have hne := (opensValue_ne c ho).1
          simp only [stringifyValue, stringifyArrayLoop_cons_zero, parseValue, List.cons_append,
            List.nil_append, List.append_assoc]
          rw [if_neg (by decide), if_neg (by decide), if_neg (by decide), if_neg (by decide),
            if_pos trivial]
          simp only [parseArray]
          rw [if_neg (by simp), parseWhiteSpace_stringifyValue lib e
            (hmem e (List.mem_cons_self _ _))]
          simp only []
          rw [if_neg (by simp [hc, hne])]
          have hfuel : es.length < (stringifyValue lib e ++
              (stringifyArrayLoop lib 1 es ++ 93 :: rest)).length + 1 := by
            have := stringifyArrayLoop_length lib es
            simp only [List.length_append, List.length_cons]
            omega
          have hloop := parseArrayLoop_stringify lib (parseValue lib fuel) es e [] _ rest st
            (hrb e (List.mem_cons_self _ _))
            (fun x hx => hrb x (List.mem_cons_of_mem _ hx)) hfuel
          simp only [List.singleton_append] at hloop ⊢
          rw [hloop]
          simp [Value.normal, normalArray]
      · simp only [PlainTree] at hv
        cases o with
        | nil =>
          simp [stringifyValue, stringifyObjectLoop, parseValue, parseObject,
            Parser.parseWhiteSpace, parseWhiteSpaceLoop, Value.normal, normalObject]
        | cons e es =>
          obtain ⟨k, x⟩ := e
          have hmem := PlainObject_mem ((k, x) :: es) hv
          have hrb : ∀ y ∈ (k, x) :: es,
              ValidUTF8 y.1 ∧ readsBack lib (parseValue lib fuel) y.2 := by
            intro y hy
            refine ⟨(hmem y hy).1, (hmem y hy).2, ih y.2 (hmem y hy).2 ?_⟩
            have h1 := stringifyObjectLoop_length_mem lib ((k, x) :: es) 0 y hy
            simp only [stringifyValue, List.length_append, List.length_cons,
              List.length_nil] at hl
            omega
          have hk := hrb (k, x) (List.mem_cons_self _ _)
          have hws : Parser.parseWhiteSpace
              ⟨stringifyString k ++ 58 :: (stringifyValue lib x ++
                (stringifyObjectLoop lib 1 es ++ 125 :: rest)), st, st.length⟩ =
              ⟨stringifyString k ++ 58 :: (stringifyValue lib x ++
                (stringifyObjectLoop lib 1 es ++ 125 :: rest)), st, st.length⟩ := by
            simp [Parser.parseWhiteSpace, parseWhiteSpaceLoop, stringifyString]
          simp only [stringifyValue, stringifyObjectLoop_cons_zero, parseValue, List.cons_append,
            List.nil_append, List.append_assoc]
          rw [if_neg (by decide), if_neg (by decide), if_neg (by decide), if_neg (by decide),
            if_neg (by decide), if_pos trivial]
          simp only [parseObject]
          rw [if_neg (by simp), hws]
          simp only []
          rw [if_neg (by simp [stringifyString])]
          have hfuel : es.length < (stringifyString k ++ 58 :: (stringifyValue lib x ++
              (stringifyObjectLoop lib 1 es ++ 125 :: rest))).length + 1 := by
            have := stringifyObjectLoop_length lib es
            simp only [List.length_append, List.length_cons]
            omega
          have hloop := parseObjectLoop_stringify lib (parseValue lib fuel) es k x [] _ rest st
            hk.1 hk.2 (fun y hy => hrb y (List.mem_cons_of_mem _ hy)) hfuel
          rw [hloop]
          simp [Value.normal, normalObject]

end goson

namespace goson

open Type_ Err

/-! ## Round trip -/

mutual
/-- The normal form has the same text. -/
theorem stringifyValue_normal (lib : Strconv) :
    ∀ v : Value, stringifyValue lib v.normal = stringifyValue lib v
  | .mk s n a o t => by
    cases t
    · simp [Value.normal, stringifyValue]
    · simp [Value.normal, stringifyValue]
    · simp [Value.normal, stringifyValue]
    · simp [Value.normal, stringifyValue]
    · simp [Value.normal, stringifyValue]
    · simp [Value.normal, stringifyValue, stringifyArrayLoop_normal lib 0 a]
    · simp [Value.normal, stringifyValue, stringifyObjectLoop_normal lib 0 o]
/-- The normal forms of the elements have the same text. -/
theorem stringifyArrayLoop_normal (lib : Strconv) :
    ∀ (i : Nat) (a : List Value),
      stringifyArrayLoop lib i (normalArray a) = stringifyArrayLoop lib i a
  | _, [] => by simp [normalArray]
  | i, e :: es => by
    simp [normalArray, stringifyArrayLoop, stringifyValue_normal lib e,
      stringifyArrayLoop_normal lib (i + 1) es]
/-- The normal forms of the entries have the same text. -/
theorem stringifyObjectLoop_normal (lib : Strconv) :
    ∀ (i : Nat) (o : List (List Nat × Value)),
      stringifyObjectLoop lib i (normalObject o) = stringifyObjectLoop lib i o
  | _, [] => by simp [normalObject]
  | i, (k, v) :: es => by
    simp [normalObject, stringifyObjectLoop, stringifyValue_normal lib v,
      stringifyObjectLoop_normal lib (i + 1) es]
end

mutual
/-- The normal form is the same tree. -/
theorem sameTree_normal : ∀ v : Value, sameTree v v.normal
  | .mk s n a o t => by
    cases t
    · simp [Value.normal, sameTree, Value.t]
    · simp [Value.normal, sameTree, Value.t]
    · simp [Value.normal, sameTree, Value.t]
    · simp [Value.normal, sameTree, Value.t, Value.n]
    · simp [Value.normal, sameTree, Value.t, Value.s]
    · simp [Value.normal, sameTree, Value.t, Value.a, sameArray_normal a]
    · simp [Value.normal, sameTree, Value.t, Value.o, sameObject_normal o]
/-- The normal forms of the elements are the same trees. -/
theorem sameArray_normal : ∀ a : List Value, sameArray a (normalArray a)
  | [] => by simp [normalArray, sameArray]
  | e :: es => by simp [normalArray, sameArray, sameTree_normal e, sameArray_normal es]
/-- The normal forms of the entries are the same entries. -/
theorem sameObject_normal : ∀ o : List (List Nat × Value), sameObject o (normalObject o)
  | [] => by simp [normalObject, sameObject]
  | (k, v) :: es => by simp [normalObject, sameObject, sameTree_normal v, sameObject_normal es]
end

/-- `Parse` reads back the text of a plain tree. -/
theorem Parse_stringifyValue_normal (lib : Strconv) (v : Value) (hv : PlainTree v) :
    Parse lib (stringifyValue lib v) = .ret v.normal none ⟨[], [], 0⟩ := by
  have hp := parseValue_stringifyValue lib ((stringifyValue lib v).length + 1) v hv
    (Nat.lt_succ_self _) [] []
  have hw := parseWhiteSpace_stringifyValue lib v hv [] [] 0
  simp only [List.append_nil, List.length_nil] at hp hw
  simp only [Parse, Parser.Parse, Parser.zero, hw, hp]
  simp [Parser.parseWhiteSpace, parseWhiteSpaceLoop]

theorem normalObject_keys (o : List KV) : (normalObject o).map Prod.fst = o.map Prod.fst := by
  induction o with
  | nil => rfl
  | cons e es ih =>
    obtain ⟨k, v⟩ := e
    simp [normalObject, ih]

/-- C10. Round trip on canonical text: for every tree `v` built from Null,
True, False, String, Array and Object nodes whose strings and keys are valid
UTF-8, `Parse` of `stringifyValue(v)` succeeds on a fresh parser and consumes
the whole text; the parsed tree is `v` with the unused payload fields at zero,
so it has the same tags, payloads, keys and element and entry order as `v`;
and `stringifyValue` of the parsed tree is the text again. -/
theorem Parse_stringifyValue (lib : Strconv) (v : Value) (hv : PlainTree v) :
    Parse lib (stringifyValue lib v) = .ret v.normal none ⟨[], [], 0⟩ ∧
    sameTree v v.normal ∧
    stringifyValue lib v.normal = stringifyValue lib v :=
  ⟨Parse_stringifyValue_normal lib v hv, sameTree_normal v, stringifyValue_normal lib v⟩

/-- Instance of `Parse_stringifyValue`: the Object with the entries
`("k", ["é", true])` and `("k", null)`, whose text is
`{"k":["é",true],"k":null}`. -/
theorem Parse_stringifyValue_witness :
    Parse (Strconv.mk (fun _ => (0, none)) (fun _ => []))
        [123, 34, 107, 34, 58, 91, 34, 195, 169, 34, 44, 116, 114, 117, 101, 93, 44,
          34, 107, 34, 58, 110, 117, 108, 108, 125] =
      .ret (Value.mk [] 0 []
        [([107], Value.mk [] 0 [Value.mk [195, 169] 0 [] [] STRING, Value.mk [] 0 [] [] TRUE] []
            ARRAY),
          ([107], Value.mk [] 0 [] [] NULL)] OBJECT) none ⟨[], [], 0⟩ :=
  (Parse_stringifyValue (Strconv.mk (fun _ => (0, none)) (fun _ => []))
    (Value.mk [] 0 []
      [([107], Value.mk [] 0 [Value.mk [195, 169] 0 [] [] STRING, Value.mk [] 0 [] [] TRUE] []
          ARRAY),
        ([107], Value.mk [] 0 [] [] NULL)] OBJECT)
    ⟨ValidUTF8.cons 107 [] ⟨by decide, by decide⟩ ValidUTF8.nil,
      ⟨ValidUTF8.cons 233 [] ⟨by decide, by decide⟩ ValidUTF8.nil, trivial, trivial⟩,
      ValidUTF8.cons 107 [] ⟨by decide, by decide⟩ ValidUTF8.nil, trivial, trivial⟩).1

end goson

namespace goson

open Type_ Err

/-! ## The fuel of the embedding is enough

`Parse` gives `parseValue` and the loops more fuel than the text has bytes;
no call runs out of it. -/

theorem parseWhiteSpaceLoop_length (l : List Nat) :
    (parseWhiteSpaceLoop l).length ≤ l.length := by
  induction l with
  | nil => simp [parseWhiteSpaceLoop]
  | cons c tl ih =>
    simp only [parseWhiteSpaceLoop]
    split_ifs
    · simp only [List.length_cons]; omega
    · exact le_refl _

theorem parseWhiteSpace_length (p : Parser) :
    p.parseWhiteSpace.json.length ≤ p.json.length :=
  parseWhiteSpaceLoop_length p.json

theorem Res.within_mono {α : Type} {n m : Nat} (h : n ≤ m) (r : Res α) (hr : r.within n) :
    r.within m := by
  cases r with
  | ret x e q => exact Nat.le_trans hr h
  | fault w => trivial
  | timeout => exact hr

theorem parseHex4Loop_within (k u : Nat) (p : Parser) :
    (parseHex4Loop k u p).within p.json.length := by
  induction k generalizing u p with
  | zero => simp [parseHex4Loop, Res.within]
  | succ k ih =>
    obtain ⟨json, st, top⟩ := p
    cases json with
    | nil => simp [parseHex4Loop, Res.within]
    | cons ch rest =>
      simp only [parseHex4Loop]
      split_ifs
      · exact Res.within_mono (by simp) _ (ih _ ⟨rest, st, top⟩)
      · exact Res.within_mono (by simp) _ (ih _ ⟨rest, st, top⟩)
      · exact Res.within_mono (by simp) _ (ih _ ⟨rest, st, top⟩)
      · simp [Res.within]

theorem parseHex4_within (p : Parser) : (parseHex4 p).within p.json.length :=
  parseHex4Loop_within 4 0 p

theorem parseSurrogate_within (head h : Nat) (p : Parser) :
    (parseSurrogate head h p).within p.json.length := by
  obtain ⟨json, st, top⟩ := p
  cases json with
  | nil => simp [parseSurrogate, Res.within]
  | cons ch rest =>
    simp only [parseSurrogate]
    split_ifs
    · simp [Res.within]
    · cases rest with
      | nil => simp [Res.within]
      | cons ch2 rest2 =>
        simp only []
        split_ifs
        · simp only [Res.within, List.length_cons]; omega
        · have hx := parseHex4_within ⟨rest2, st, top⟩
          cases hr : parseHex4 ⟨rest2, st, top⟩ with
          | fault w => simp [Res.within]
          | timeout => rw [hr] at hx; exact hx.elim
          | ret u e q =>
            rw [hr] at hx
            simp only [Res.within, List.length_cons] at hx ⊢
            cases e with
            | some err => simp only [Res.within]; omega
            | none =>
              simp only []
              split_ifs
              · simp only [Res.within]; omega
              · simp only [Res.within]; omega

theorem parseEscape_within (head ch : Nat) (p : Parser) :
    (parseEscape head ch p).within p.json.length := by
  by_cases h : ch = 117
  · subst h
    have e : parseEscape head 117 p = (match parseHex4 p with
      | .fault w => .fault w
      | .timeout => .timeout
      | .ret _ (some err) p => .ret () (some err) { p with top := head }
      | .ret u none p =>
        if 0xD800 ≤ u ∧ u ≤ 0xDBFF then
          match parseSurrogate head u p with
          | .fault w => .fault w
          | .timeout => .timeout
          | .ret _ (some err) p => .ret () (some err) p
          | .ret u none p => .ret () none (p.encodeUTF8 u)
        else .ret () none (p.encodeUTF8 u)) := rfl
    rw [e]
    have hx := parseHex4_within p
    cases hr : parseHex4 p with
    | fault w => simp [Res.within]
    | timeout => rw [hr] at hx; exact hx.elim
    | ret u e q =>
      rw [hr] at hx
      simp only [Res.within] at hx
      cases e with
      | some err => simpa [Res.within] using hx
      | none =>
        simp only []
        split_ifs
        · have hy := parseSurrogate_within head u q
          cases hs : parseSurrogate head u q with
          | fault w => simp [Res.within]
          | timeout => rw [hs] at hy; exact hy.elim
          | ret u2 e2 q2 =>
            rw [hs] at hy
            simp only [Res.within] at hy
            cases e2 with
            | some err => simp only [Res.within]; omega
            | none => simp only [Res.within, Parser.encodeUTF8, Parser.pushs]; omega
        · simpa [Res.within, Parser.encodeUTF8, Parser.pushs] using hx
  · unfold parseEscape
    rw [if_neg h]
    split_ifs <;> simp only [Res.within, Parser.push] <;> exact le_refl _

theorem parseStringRawLoop_within (head : Nat) :
    ∀ (fuel : Nat) (p : Parser), p.json.length < fuel →
      (parseStringRawLoop head fuel p).within p.json.length := by
  intro fuel
  induction fuel with
  | zero => intro p h; omega
  | succ fuel ih =>
    intro p h
    obtain ⟨json, st, top⟩ := p
    cases json with
    | nil => simp [parseStringRawLoop, Res.within]
    | cons ch rest =>
      simp only [List.length_cons] at h
      simp only [parseStringRawLoop]
      split_ifs
      · simp [Res.within]
      · simp only [Parser.pop]
        split_ifs <;> simp [Res.within]
      · cases rest with
        | nil => simp [Res.within]
        | cons ch2 rest2 =>
          simp only []
          have hx := parseEscape_within head ch2 ⟨rest2, st, top⟩
          cases hr : parseEscape head ch2 ⟨rest2, st, top⟩ with
          | fault w => simp [Res.within]
          | timeout => rw [hr] at hx; exact hx.elim
          | ret u e q =>
            rw [hr] at hx
            simp only [Res.within, List.length_cons] at hx h ⊢
            cases e with
            | some err => simp only [Res.within]; omega
            | none =>
              exact Res.within_mono (by omega) _ (ih q (by omega))
      · simp [Res.within]
      · exact Res.within_mono (by simp [Parser.push]) _
          (ih _ (by simp only [Parser.push]; omega))

theorem parseStringRaw_within (p : Parser) : (parseStringRaw p).within p.json.length := by
  obtain ⟨json, st, top⟩ := p
  unfold parseStringRaw
  split_ifs
  · simp [Res.within]
  · cases json with
    | nil => simp [Res.within]
    | cons c rest =>
      simp only []
      split_ifs
      · simp [Res.within]
      · exact Res.within_mono (by simp) _
          (parseStringRawLoop_within top _ ⟨rest, st, top⟩ (Nat.lt_succ_self _))

theorem parseString_within (p : Parser) : (parseString p).within p.json.length := by
  have hx := parseStringRaw_within p
  unfold parseString
  cases hr : parseStringRaw p with
  | fault w => simp [Res.within]
  | timeout => rw [hr] at hx; exact hx.elim
  | ret s e q =>
    rw [hr] at hx
    cases e <;> simpa [Res.within] using hx

theorem parseLiteral_within (p : Parser) (json : List Nat) (t : Type_) :
    (parseLiteral p json t).within p.json.length := by
  unfold parseLiteral
  split_ifs <;> simp [Res.within]

theorem parseNumber_within (lib : Strconv) (p : Parser) :
    (parseNumber lib p).within p.json.length := by
  unfold parseNumber
  simp only []
  split
  · simp [Res.within]
  · split <;> simp [Res.within]

theorem parseArrayLoop_within (pv : Parser → Res Value) (n : Nat)
    (hpv : ∀ q : Parser, q.json.length ≤ n → (pv q).within q.json.length) :
    ∀ (fuel : Nat) (p : Parser) (a : List Value), p.json.length ≤ n → p.json.length < fuel →
      (parseArrayLoop pv fuel p a).within p.json.length := by
  intro fuel
  induction fuel with
  | zero => intro p a _ h; omega
  | succ fuel ih =>
    intro p a hn h
    simp only [parseArrayLoop]
    have hx := hpv p hn
    cases hr : pv p with
    | fault w => simp [Res.within]
    | timeout => rw [hr] at hx; exact hx.elim
    | ret e err q =>
      rw [hr] at hx
      simp only [Res.within] at hx
      cases err with
      | some er => simpa [Res.within] using hx
      | none =>
        simp only []
        have hw := parseWhiteSpace_length q
        split
        · simp only [Res.within]; omega
        · rename_i c rest hj
          have hw0 := hw
          rw [hj, List.length_cons] at hw0
          have hw2 := parseWhiteSpace_length ⟨rest, q.parseWhiteSpace.stack, q.parseWhiteSpace.top⟩
          simp only at hw2
          split_ifs
          · exact Res.within_mono (by omega) _ (ih _ _ (by omega) (by omega))
          · simp only [Res.within]; omega
          · simp only [Res.within]; omega

theorem parseArray_within (pv : Parser → Res Value) (p : Parser)
    (hpv : ∀ q : Parser, q.json.length < p.json.length → (pv q).within q.json.length) :
    (parseArray pv p).within p.json.length := by
  obtain ⟨json, st, top⟩ := p
  cases json with
  | nil => simp [parseArray, Res.within]
  | cons c rest =>
    simp only [parseArray]
    have hw := parseWhiteSpace_length ⟨rest, st, top⟩
    simp only [List.length_cons] at hpv hw ⊢
    split_ifs
    · simp [Res.within]
    · simp only [Res.within, List.length_tail]; omega
    · exact Res.within_mono (by omega) _
        (parseArrayLoop_within pv rest.length (fun q hq => hpv q (by omega)) _ _ _ hw
          (Nat.lt_succ_self _))

theorem parseObjectLoop_within (pv : Parser → Res Value) (n : Nat)
    (hpv : ∀ q : Parser, q.json.length ≤ n → (pv q).within q.json.length) :
    ∀ (fuel : Nat) (p : Parser) (o : List KV), p.json.length ≤ n → p.json.length < fuel →
      (parseObjectLoop pv fuel p o).within p.json.length := by
  intro fuel
  induction fuel with
  | zero => intro p o _ h; omega
  | succ fuel ih =>
    intro p o hn h
    simp only [parseObjectLoop]
    split_ifs
    · simp [Res.within]
    · have hx := parseStringRaw_within p
      cases hr : parseStringRaw p with
      | fault w => simp [Res.within]
      | timeout => rw [hr] at hx; exact hx.elim
      | ret s err q =>
        rw [hr] at hx
        simp only [Res.within] at hx
        cases err with
        | some er => simpa [Res.within] using hx
        | none =>
          simp only []
          have hw := parseWhiteSpace_length q
          split_ifs
          · simp only [Res.within]; omega
          · have hw1 := parseWhiteSpace_length
              ⟨q.parseWhiteSpace.json.tail, q.parseWhiteSpace.stack, q.parseWhiteSpace.top⟩
            simp only [List.length_tail] at hw1
            have hy := hpv (Parser.parseWhiteSpace
              ⟨q.parseWhiteSpace.json.tail, q.parseWhiteSpace.stack, q.parseWhiteSpace.top⟩)
              (by omega)
            cases hr2 : pv (Parser.parseWhiteSpace
              ⟨q.parseWhiteSpace.json.tail, q.parseWhiteSpace.stack, q.parseWhiteSpace.top⟩) with
            | fault w => simp [Res.within]
            | timeout => rw [hr2] at hy; exact hy.elim
            | ret vv err2 q2 =>
              rw [hr2] at hy
              simp only [Res.within] at hy
              cases err2 with
              | some er => simp only [Res.within]; omega
              | none =>
                simp only []
                have hw3 := parseWhiteSpace_length q2
                split
                · simp only [Res.within]; omega
                · rename_i c rest hj
                  have hw0 := hw3
                  rw [hj, List.length_cons] at hw0
                  have hw4 := parseWhiteSpace_length
                    ⟨rest, q2.parseWhiteSpace.stack, q2.parseWhiteSpace.top⟩
                  simp only at hw4
                  split_ifs
                  · exact Res.within_mono (by omega) _ (ih _ _ (by omega) (by omega))
                  · simp only [Res.within]; omega
                  · simp only [Res.within]; omega

theorem parseObject_within (pv : Parser → Res Value) (p : Parser)
    (hpv : ∀ q : Parser, q.json.length < p.json.length → (pv q).within q.json.length) :
    (parseObject pv p).within p.json.length := by
  obtain ⟨json, st, top⟩ := p
  cases json with
  | nil => simp [parseObject, Res.within]
  | cons c rest =>
    simp only [parseObject]
    have hw := parseWhiteSpace_length ⟨rest, st, top⟩
    simp only [List.length_cons] at hpv hw ⊢
    split_ifs
    · simp [Res.within]
    · simp only [Res.within, List.length_tail]; omega
    · exact Res.within_mono (by omega) _
        (parseObjectLoop_within pv rest.length (fun q hq => hpv q (by omega)) _ _ _ hw
          (Nat.lt_succ_self _))

/-- With more fuel than the text has bytes, `parseValue` returns or panics,
and what it leaves unread is no longer than what it was given. -/
theorem parseValue_within (lib : Strconv) :
    ∀ (fuel : Nat) (p : Parser), p.json.length < fuel →
      (parseValue lib fuel p).within p.json.length := by
  intro fuel
  induction fuel with
  | zero => intro p h; omega
  | succ fuel ih =>
    intro p h
    cases hj : p.json with
    | nil => simp [parseValue, hj, Res.within]
    | cons c rest =>
      have hl : p.json.length = rest.length + 1 := by rw [hj]; rfl
      have hg : ∀ q : Parser, q.json.length < p.json.length →
          (parseValue lib fuel q).within q.json.length := fun q hq => ih q (by omega)
      simp only [parseValue, hj]
      rw [← hj]
      split_ifs
      · exact parseLiteral_within p _ _
      · exact parseLiteral_within p _ _
      · exact parseLiteral_within p _ _
      · exact parseString_within p
      · exact parseArray_within _ p hg
      · exact parseObject_within _ p hg
      · exact parseNumber_within lib p

/-- The fuel `Parse` gives is enough: `Parse` returns or panics on every
text. -/
theorem Parse_ne_timeout (lib : Strconv) (s : List Nat) : Parse lib s ≠ .timeout := by
  have hw := parseWhiteSpace_length ⟨s, [], 0⟩
  have hx := parseValue_within lib (s.length + 1) (Parser.parseWhiteSpace ⟨s, [], 0⟩)
    (Nat.lt_succ_of_le hw)
  unfold Parse Parser.Parse Parser.zero
  simp only []
  cases hr : parseValue lib (s.length + 1) (Parser.parseWhiteSpace ⟨s, [], 0⟩) with
  | fault w => simp
  | timeout => rw [hr] at hx; exact hx.elim
  | ret v err q =>
    cases err with
    | some er => simp only []; split_ifs <;> simp
    | none => simp only []; split_ifs <;> simp

end goson

namespace goson

open Type_ Err

/-! ## Array operations -/

theorem wrapInt_eq (x : Int) (h1 : -2 ^ 63 ≤ x) (h2 : x < 2 ^ 63) : wrapInt x = x := by
  unfold wrapInt
  omega

theorem Value.a_setA (v : Value) (a : List Value) : (v.setA a).a = a := by
  cases v; rfl

theorem Value.t_setA (v : Value) (a : List Value) : (v.setA a).t = v.t := by
  cases v; rfl

/-- The three statements of `insertArrayElement` after the checks (`append`,
`copy` of the tail one place to the right, assignment at `index`) put `e`
between the first `k` elements and the rest. -/
theorem insert_shift (e : Value) :
    ∀ (l : List Value) (k : Nat), k ≤ l.length →
      (((l ++ [e]).take (k + 1) ++
          goCopy ((l ++ [e]).drop (k + 1)) ((l ++ [e]).drop k)).set k e) =
        l.take k ++ e :: l.drop k := by
  intro l
  induction l with
  | nil =>
    intro k hk
    have : k = 0 := by simpa using hk
    subst this
    simp [goCopy]
  | cons x t ih =>
    intro k hk
    cases k with
    | zero => simp [goCopy]
    | succ k =>
      have hk2 : k ≤ t.length := by simpa using hk
      have := ih k hk2
      simpa using this

theorem insert_shift_length (e : Value) (l : List Value) (k : Nat) (hk : k ≤ l.length) :
    k < ((l ++ [e]).take (k + 1) ++
      goCopy ((l ++ [e]).drop (k + 1)) ((l ++ [e]).drop k)).length := by
  simp [goCopy]
  omega

/-- Inside its range `insertArrayElement` puts `e` at place `k`. -/
theorem insertArrayElement_at (v e : Value) (k : Nat) (ht : v.t = ARRAY)
    (hk : k ≤ v.a.length) :
    insertArrayElement v e k = .done (v.setA (v.a.take k ++ e :: v.a.drop k), none) := by
  have hw : ((k : Int) + 1).toNat = k + 1 := by omega
  unfold insertArrayElement
  rw [if_neg (by simp [ht]), if_neg (by omega)]
  simp only []
  rw [if_neg (by simp; omega), if_neg (by omega)]
  simp only [Int.toNat_ofNat, hw]
  rw [if_pos (insert_shift_length e v.a k hk), insert_shift e v.a k hk]

/-- C14. On an Array with elements `a`, `insertArrayElement(e, i)` with
`0 <= i <= len(a)` returns no error and leaves `a[0..i)`, then `e`, then
`a[i..n)`, a sequence one longer; with `i > len(a)` it returns the
index-out-of-range error and leaves the value unchanged; on a value that is no
Array it returns the type error. -/
theorem insertArrayElement_spec (v e : Value) (i : Int) (ht : v.t = ARRAY) :
    (0 ≤ i → i ≤ v.a.length →
      insertArrayElement v e i =
          .done (v.setA (v.a.take i.toNat ++ e :: v.a.drop i.toNat), none) ∧
        (v.a.take i.toNat ++ e :: v.a.drop i.toNat).length = v.a.length + 1) ∧
    ((v.a.length : Int) < i →
      insertArrayElement v e i = .done (v, some (Errorf "index out of range"))) ∧
    (∀ w : Value, w.t ≠ ARRAY →
      insertArrayElement w e i = .done (w, some (Errorf "value type is not array"))) := by
  refine ⟨?_, ?_, ?_⟩
  · intro h0 hi
    obtain ⟨k, rfl⟩ := Int.eq_ofNat_of_zero_le h0
    have hk : k ≤ v.a.length := by exact_mod_cast hi
    refine ⟨?_, ?_⟩
    · simp only [Int.toNat_ofNat]
      exact insertArrayElement_at v e k ht hk
    · simp only [Int.toNat_ofNat, List.length_append, List.length_take, List.length_cons,
        List.length_drop]
      omega
  · intro hi
    unfold insertArrayElement
    rw [if_neg (by simp [ht]), if_pos hi]
  · intro w hw
    unfold insertArrayElement
    rw [if_pos hw]

/-- Instance of `insertArrayElement_spec`: inserting `null` at index 1 of
`[true, false]` gives `[true, null, false]`, and index 3 is refused. -/
theorem insertArrayElement_spec_witness :
    insertArrayElement
        (Value.mk [] 0 [Value.mk [] 0 [] [] TRUE, Value.mk [] 0 [] [] FALSE] [] ARRAY)
        Value.zero 1 =
      .done (Value.mk [] 0 [Value.mk [] 0 [] [] TRUE, Value.zero, Value.mk [] 0 [] [] FALSE] []
        ARRAY, none) ∧
    insertArrayElement
        (Value.mk [] 0 [Value.mk [] 0 [] [] TRUE, Value.mk [] 0 [] [] FALSE] [] ARRAY)
        Value.zero 3 =
      .done (Value.mk [] 0 [Value.mk [] 0 [] [] TRUE, Value.mk [] 0 [] [] FALSE] [] ARRAY,
        some (Errorf "index out of range")) :=
  ⟨((insertArrayElement_spec
      (Value.mk [] 0 [Value.mk [] 0 [] [] TRUE, Value.mk [] 0 [] [] FALSE] [] ARRAY)
      Value.zero 1 rfl).1 (by decide) (by decide)).1,
    (insertArrayElement_spec
      (Value.mk [] 0 [Value.mk [] 0 [] [] TRUE, Value.mk [] 0 [] [] FALSE] [] ARRAY)
      Value.zero 3 rfl).2.1 (by decide)⟩

/-- Within the range of `int`, `eraseArrayElement` does what its bounds check
promises: with `0 <= index`, `0 <= count` and `index + count` below `2^63`,
the elements `[index, index+count)` are removed when `index + count <=
len(a)`, and the call is refused when `index + count > len(a)`. -/
theorem eraseArrayElement_in_range (v : Value) (index count : Int) (ht : v.t = ARRAY)
    (h0 : 0 ≤ index) (hc : 0 ≤ count) (hsum : index + count < 2 ^ 63) :
    (index + count ≤ v.a.length →
      eraseArrayElement v index count =
        .done (v.setA (v.a.take index.toNat ++ v.a.drop (index + count).toNat), none)) ∧
    ((v.a.length : Int) < index + count →
      eraseArrayElement v index count = .done (v, some (Errorf "index out of range"))) := by
  have hw : wrapInt (index + count) = index + count := wrapInt_eq _ (by omega) hsum
  refine ⟨?_, ?_⟩
  · intro hle
    unfold eraseArrayElement
    rw [if_neg (by simp [ht]), hw, if_neg (by omega)]
    by_cases hz : count = 0
    · rw [if_pos hz]
      subst hz
      obtain ⟨k, rfl⟩ := Int.eq_ofNat_of_zero_le h0
      simp only [add_zero, Int.toNat_ofNat, List.take_append_drop]
      cases v; rfl
    · rw [if_neg hz, if_neg (by omega), if_neg (by omega)]
  · intro hgt
    unfold eraseArrayElement
    rw [if_neg (by simp [ht]), hw, if_pos hgt]

/-- On an Array `clearArray` leaves no element, as `eraseArrayElement(0, n)`
does. -/
theorem clearArray_spec (v : Value) (ht : v.t = ARRAY)
    (hlen : (v.a.length : Int) < 2 ^ 63) :
    clearArray v = .done (v.setA [], none) := by
  unfold clearArray
  rw [(eraseArrayElement_in_range v 0 v.a.length ht (le_refl _) (by omega) (by omega)).1
    (by omega)]
  simp

/-- C15, failing input. On the Array `[null]`, `eraseArrayElement(1,
9223372036854775807)`: the sum `index + count` wraps to `-2^63`, the bounds
check lets it pass, and `v.a[index+count:]` panics; so does
`eraseArrayElement(9223372036854775807, 1)` at `v.a[:index]`. -/
theorem eraseArrayElement_overflow :
    eraseArrayElement (Value.mk [] 0 [Value.zero] [] ARRAY) 1 9223372036854775807 = .fault ∧
    eraseArrayElement (Value.mk [] 0 [Value.zero] [] ARRAY) 9223372036854775807 1 = .fault := by
  constructor <;> rfl

/-- Inside its range `getArrayElement` returns the element at `index`, and at
or past the length the index-out-of-range error. -/
theorem getArrayElement_in_range (v : Value) (index : Int) (ht : v.t = ARRAY) :
    (∀ k : Nat, index = k → ∀ h : k < v.a.length,
      getArrayElement v index = .done (v.a.get ⟨k, h⟩, none)) ∧
    ((v.a.length : Int) ≤ index →
      getArrayElement v index = .done (Value.zero, some (Errorf "index out of range"))) := by
  refine ⟨?_, ?_⟩
  · intro k hk h
    subst hk
    unfold getArrayElement
    rw [if_neg (by simp [ht]), if_neg (by omega), if_neg (by omega)]
    simp [List.getElem?_eq_getElem h]
  · intro h
    unfold getArrayElement
    rw [if_neg (by simp [ht]), if_pos h]

/-- C16, failing input. On the Array `[null]`, `getArrayElement(-1)` panics:
the check `index >= len(v.a)` does not stop a negative index before
`v.a[index]`; so it is on every Array and with every negative index. -/
theorem getArrayElement_negative_index :
    getArrayElement (Value.mk [] 0 [Value.zero] [] ARRAY) (-1) = .fault ∧
    ∀ (v : Value) (index : Int), v.t = ARRAY → index < 0 → getArrayElement v index = .fault := by
  refine ⟨rfl, ?_⟩
  intro v index ht hneg
  unfold getArrayElement
  rw [if_neg (by simp [ht]), if_neg (by omega), if_pos hneg]

/-! ## Parse: empty documents and error returns -/

theorem parseWhiteSpaceLoop_white (s : List Nat) (h : ∀ b ∈ s, isWhite b) :
    parseWhiteSpaceLoop s = [] := by
  induction s with
  | nil => rfl
  | cons c tl ih =>
    have hc : c = 32 ∨ c = 9 ∨ c = 10 ∨ c = 13 := h c (List.mem_cons_self _ _)
    simp only [parseWhiteSpaceLoop, if_pos hc]
    exact ih (fun b hb => h b (List.mem_cons_of_mem _ hb))

/-- C18. On a text of whitespace characters only (space, tab, line feed,
carriage return), the empty text included, `Parse` returns the zero value,
whose tag is `NULL`, and no error. -/
theorem Parse_whitespace (lib : Strconv) (s : List Nat) (h : ∀ b ∈ s, isWhite b) :
    Parse lib s = .ret Value.zero none ⟨[], [], 0⟩ ∧ Value.zero.t = NULL := by
  refine ⟨?_, rfl⟩
  unfold Parse Parser.Parse Parser.zero
  simp only [Parser.parseWhiteSpace, parseWhiteSpaceLoop_white s h, parseValue]
  simp [parseWhiteSpaceLoop]

/-- Instance of `Parse_whitespace`: the text of a space, a tab, a line feed
and a carriage return. -/
theorem Parse_whitespace_witness :
    Parse (Strconv.mk (fun _ => (0, none)) (fun _ => [])) [32, 9, 10, 13] =
      .ret Value.zero none ⟨[], [], 0⟩ ∧ Value.zero.t = NULL :=
  Parse_whitespace (Strconv.mk (fun _ => (0, none)) (fun _ => [])) [32, 9, 10, 13]
    (by simp [isWhite])

theorem parseLiteral_error (p : Parser) (json : List Nat) (t : Type_) (v : Value) (e : Err)
    (q : Parser) (h : parseLiteral p json t = .ret v (some e) q) : v = Value.zero := by
  unfold parseLiteral at h
  split_ifs at h
  · simp only [Res.ret.injEq] at h; exact h.1.symm
  · simp at h

theorem parseNumber_error (lib : Strconv) (p : Parser) (v : Value) (e : Err) (q : Parser)
    (h : parseNumber lib p = .ret v (some e) q) : v = Value.zero := by
  unfold parseNumber at h
  simp only [] at h
  split at h
  · simp only [Res.ret.injEq] at h; exact h.1.symm
  · split at h
    · simp only [Res.ret.injEq] at h; exact h.1.symm
    · simp at h

theorem parseString_error (p : Parser) (v : Value) (e : Err) (q : Parser)
    (h : parseString p = .ret v (some e) q) : v = Value.zero := by
  unfold parseString at h
  split at h
  · simp at h
  · simp at h
  · simp only [Res.ret.injEq] at h; exact h.1.symm
  · simp at h

theorem parseArrayLoop_error (pv : Parser → Res Value) :
    ∀ (fuel : Nat) (p : Parser) (a : List Value) (v : Value) (e : Err) (q : Parser),
      parseArrayLoop pv fuel p a = .ret v (some e) q → v = Value.zero := by
  intro fuel
  induction fuel with
  | zero => intro p a v e q h; simp [parseArrayLoop] at h
  | succ fuel ih =>
    intro p a v e q h
    simp only [parseArrayLoop] at h
    split at h
    · simp at h
    · simp at h
    · simp only [Res.ret.injEq] at h; exact h.1.symm
    · split at h
      · simp only [Res.ret.injEq] at h; exact h.1.symm
      · split_ifs at h
        · exact ih _ _ _ _ _ h
        · simp at h
        · simp only [Res.ret.injEq] at h; exact h.1.symm

theorem parseArray_error (pv : Parser → Res Value) (p : Parser) (v : Value) (e : Err)
    (q : Parser) (h : parseArray pv p = .ret v (some e) q) : v = Value.zero := by
  unfold parseArray at h
  split at h
  · simp only [Res.ret.injEq] at h; exact h.1.symm
  · simp only [] at h
    split_ifs at h
    · simp only [Res.ret.injEq] at h; exact h.1.symm
    · simp at h
    · exact parseArrayLoop_error pv _ _ _ _ _ _ h

theorem parseObjectLoop_error (pv : Parser → Res Value) :
    ∀ (fuel : Nat) (p : Parser) (o : List KV) (v : Value) (e : Err) (q : Parser),
      parseObjectLoop pv fuel p o = .ret v (some e) q → v = Value.zero := by
  intro fuel
  induction fuel with
  | zero => intro p o v e q h; simp [parseObjectLoop] at h
  | succ fuel ih =>
    intro p o v e q h
    simp only [parseObjectLoop] at h
    split_ifs at h
    · simp only [Res.ret.injEq] at h; exact h.1.symm
    · split at h
      · simp at h
      · simp at h
      · simp only [Res.ret.injEq] at h; exact h.1.symm
      · split_ifs at h
        · simp only [Res.ret.injEq] at h; exact h.1.symm
        · split at h
          · simp at h
          · simp at h
          · simp only [Res.ret.injEq] at h; exact h.1.symm
          · split at h
            · simp only [Res.ret.injEq] at h; exact h.1.symm
            · split_ifs at h
              · exact ih _ _ _ _ _ h
              · simp at h
              · simp only [Res.ret.injEq] at h; exact h.1.symm

theorem parseObject_error (pv : Parser → Res Value) (p : Parser) (v : Value) (e : Err)
    (q : Parser) (h : parseObject pv p = .ret v (some e) q) : v = Value.zero := by
  unfold parseObject at h
  split at h
  · simp only [Res.ret.injEq] at h; exact h.1.symm
  · simp only [] at h
    split_ifs at h
    · simp only [Res.ret.injEq] at h; exact h.1.symm
    · simp at h
    · exact parseObjectLoop_error pv _ _ _ _ _ _ h

theorem parseValue_error (lib : Strconv) (fuel : Nat) (p : Parser) (v : Value) (e : Err)
    (q : Parser) (h : parseValue lib fuel p = .ret v (some e) q) : v = Value.zero := by
  cases fuel with
  | zero => simp [parseValue] at h
  | succ fuel =>
    simp only [parseValue] at h
    split at h
    · simp at h
    · split_ifs at h
      · exact parseLiteral_error _ _ _ _ _ _ h
      · exact parseLiteral_error _ _ _ _ _ _ h
      · exact parseLiteral_error _ _ _ _ _ _ h
      · exact parseString_error _ _ _ _ h
      · exact parseArray_error _ _ _ _ _ h
      · exact parseObject_error _ _ _ _ _ h
      · exact parseNumber_error _ _ _ _ _ h

/-- C17. When `Parse` returns an error, the value it returns with it is the
zero value, of tag `NULL`: no array, object, string or number built so far is
handed out, whatever the error and the depth at which it arose. -/
theorem Parse_error_null (lib : Strconv) (s : List Nat) (v : Value) (e : Err) (p : Parser)
    (h : Parse lib s = .ret v (some e) p) : v = Value.zero ∧ v.t = NULL := by
  have hv : v = Value.zero := by
    unfold Parse Parser.Parse at h
    simp only [] at h
    split at h
    · simp at h
    · simp at h
    · rename_i v2 err p2 hpv
      split_ifs at h
      simp only [Res.ret.injEq] at h
      rw [← h.1]
      exact parseValue_error lib _ _ _ _ _ hpv
    · split_ifs at h
      · simp only [Res.ret.injEq] at h; exact h.1.symm
      · simp at h
  exact ⟨hv, by rw [hv]; rfl⟩

/-- Instance of `Parse_error_null`: the text `[true,]` with an element parsed
before the error. -/
theorem Parse_error_null_witness :
    Parse (Strconv.mk (fun _ => (0, none)) (fun _ => [])) [91, 116, 114, 117, 101, 44, 93] =
        .ret Value.zero (some ErrParseInvalidValue) ⟨[93], [], 0⟩ ∧
      Value.zero = Value.zero ∧ Value.zero.t = NULL :=
  ⟨rfl, Parse_error_null (Strconv.mk (fun _ => (0, none)) (fun _ => []))
    [91, 116, 114, 117, 101, 44, 93] Value.zero ErrParseInvalidValue ⟨[93], [], 0⟩ rfl⟩

end goson

namespace goson

open Type_ Err

/-! ## isEqual: the fuel is enough, and what one call does -/

theorem depth_pos (v : Value) : 1 ≤ v.depth := by
  cases v
  simp only [Value.depth]
  omega

theorem depthArray_mem : ∀ (a : List Value) (e : Value), e ∈ a → e.depth ≤ depthArray a
  | [], _, h => by simp at h
  | x :: rest, e, h => by
    simp only [depthArray]
    rcases List.mem_cons.1 h with rfl | h
    · exact le_max_left _ _
    · exact le_trans (depthArray_mem rest e h) (le_max_right _ _)

theorem depthObject_mem : ∀ (o : List KV) (kv : KV), kv ∈ o → kv.2.depth ≤ depthObject o
  | [], _, h => by simp at h
  | (k, x) :: rest, kv, h => by
    simp only [depthObject]
    rcases List.mem_cons.1 h with rfl | h
    · exact le_max_left _ _
    · exact le_trans (depthObject_mem rest kv h) (le_max_right _ _)

theorem depth_elem (v e : Value) (h : e ∈ v.a) : e.depth < v.depth := by
  cases v with
  | mk s n a o t =>
    have := depthArray_mem a e h
    simp only [Value.depth]
    have := le_max_left (depthArray a) (depthObject o)
    omega

theorem depth_entry (v : Value) (kv : KV) (h : kv ∈ v.o) : kv.2.depth < v.depth := by
  cases v with
  | mk s n a o t =>
    have := depthObject_mem o kv h
    simp only [Value.depth]
    have := le_max_right (depthArray a) (depthObject o)
    omega

theorem getObjectValueLoop_mem (key : List Nat) :
    ∀ (o : List KV) (x : Value), getObjectValueLoop key o = some x → (key, x) ∈ o
  | [], x, h => by simp [getObjectValueLoop] at h
  | kv :: rest, x, h => by
    simp only [getObjectValueLoop] at h
    split_ifs at h with hk
    · simp only [Option.some.injEq] at h
      have : kv = (key, x) := by rw [← hk, ← h]
      rw [this]
      exact List.mem_cons_self _ _
    · exact List.mem_cons_of_mem _ (getObjectValueLoop_mem key rest x h)

theorem getObjectValue_object (v : Value) (key : List Nat) (ht : v.t = OBJECT) :
    getObjectValue v key =
      match getObjectValueLoop key v.o with
      | some x => (x, none)
      | none => (Value.zero, some ErrKeyNotExist) := by
  unfold getObjectValue
  exact if_neg (by simp [ht])

/-- One round of the loop of the `OBJECT` case, on two objects. -/
theorem isEqualObjectLoop_cons (eq : Value → Value → Run Bool) (lhs rhs : Value) (kv : KV)
    (rest : List KV) (hl : lhs.t = OBJECT) (hr : rhs.t = OBJECT) :
    isEqualObjectLoop eq lhs rhs (kv :: rest) =
      match getObjectValueLoop kv.1 lhs.o, getObjectValueLoop kv.1 rhs.o with
      | some lv, some rv =>
        (match eq lv rv with
        | .val true => isEqualObjectLoop eq lhs rhs rest
        | out => out)
      | _, _ => .val false := by
  simp only [isEqualObjectLoop, getObjectValue_object lhs kv.1 hl,
    getObjectValue_object rhs kv.1 hr]
  cases getObjectValueLoop kv.1 lhs.o <;> cases getObjectValueLoop kv.1 rhs.o <;> rfl

theorem isEqualArrayLoop_congr (eq1 eq2 : Value → Value → Run Bool) :
    ∀ (ls rs : List Value), (∀ l ∈ ls, ∀ r, eq1 l r = eq2 l r) →
      isEqualArrayLoop eq1 ls rs = isEqualArrayLoop eq2 ls rs
  | [], _, _ => by simp [isEqualArrayLoop]
  | _ :: _, [], _ => by simp [isEqualArrayLoop]
  | l :: ls, r :: rs, h => by
    simp only [isEqualArrayLoop]
    rw [h l (List.mem_cons_self _ _) r,
      isEqualArrayLoop_congr eq1 eq2 ls rs (fun x hx => h x (List.mem_cons_of_mem _ hx))]

theorem isEqualObjectLoop_congr (eq1 eq2 : Value → Value → Run Bool) (lhs rhs : Value)
    (hl : lhs.t = OBJECT) (hr : rhs.t = OBJECT)
    (h : ∀ kv ∈ lhs.o, ∀ r, eq1 kv.2 r = eq2 kv.2 r) :
    ∀ entries : List KV,
      isEqualObjectLoop eq1 lhs rhs entries = isEqualObjectLoop eq2 lhs rhs entries
  | [] => by simp [isEqualObjectLoop]
  | kv :: rest => by
    rw [isEqualObjectLoop_cons eq1 lhs rhs kv rest hl hr,
      isEqualObjectLoop_cons eq2 lhs rhs kv rest hl hr,
      isEqualObjectLoop_congr eq1 eq2 lhs rhs hl hr h rest]
    cases hlv : getObjectValueLoop kv.1 lhs.o with
    | none => rfl
    | some lv =>
      cases hrv : getObjectValueLoop kv.1 rhs.o with
      | none => rfl
      | some rv =>
        simp only []
        rw [h _ (getObjectValueLoop_mem _ _ _ hlv) rv]

/-- Any fuel that reaches the height of `lhs` gives the same outcome. -/
theorem isEqualFuel_eq :
    ∀ (f1 f2 : Nat) (l r : Value), l.depth ≤ f1 → l.depth ≤ f2 →
      isEqualFuel f1 l r = isEqualFuel f2 l r := by
  intro f1
  induction f1 with
  | zero =>
    intro f2 l r h1
    have := depth_pos l
    omega
  | succ f1 ih =>
    intro f2 l r h1 h2
    cases f2 with
    | zero =>
      have := depth_pos l
      omega
    | succ f2 =>
      by_cases ht : l.t = r.t
      · have hne : ¬ (l.t ≠ r.t) := by simp [ht]
        simp only [isEqualFuel, if_neg hne]
        have harr : isEqualArrayLoop (isEqualFuel f1) l.a r.a =
            isEqualArrayLoop (isEqualFuel f2) l.a r.a :=
          isEqualArrayLoop_congr _ _ _ _ (fun e he x => by
            have := depth_elem l e he
            exact ih f2 e x (by omega) (by omega))
        cases hlt : l.t with
        | OBJECT =>
          have hobj : isEqualObjectLoop (isEqualFuel f1) l r l.o =
              isEqualObjectLoop (isEqualFuel f2) l r l.o :=
            isEqualObjectLoop_congr _ _ l r hlt (by rw [← ht, hlt]) (fun kv hkv x => by
              have := depth_entry l kv hkv
              exact ih f2 kv.2 x (by omega) (by omega)) _
          simp only [hobj]
        | ARRAY => simp only [harr]
        | _ => rfl
      · simp only [isEqualFuel, if_pos ht]

/-- What a call of `isEqual` does, with the recursive calls as calls of
`isEqual`. -/
theorem isEqual_eq (l r : Value) :
    isEqual l r =
      if l.t ≠ r.t then .val false
      else
        match l.t with
        | STRING => .val (decide (l.s = r.s))
        | NUMBER => .val (float64Eq l.n r.n)
        | ARRAY =>
          if l.a.length ≠ r.a.length then .val false
          else isEqualArrayLoop isEqual l.a r.a
        | OBJECT =>
          if l.o.length ≠ r.o.length then .val false
          else isEqualObjectLoop isEqual l r l.o
        | _ => .val true := by
  unfold isEqual
  obtain ⟨d, hd⟩ : ∃ d, l.depth = d + 1 := ⟨l.depth - 1, by have := depth_pos l; omega⟩
  rw [hd]
  by_cases ht : l.t = r.t
  · have hne : ¬ (l.t ≠ r.t) := by simp [ht]
    simp only [isEqualFuel, if_neg hne]
    have harr : isEqualArrayLoop (isEqualFuel d) l.a r.a =
        isEqualArrayLoop (fun x y => isEqualFuel x.depth x y) l.a r.a :=
      isEqualArrayLoop_congr _ _ _ _ (fun e he x => by
        have := depth_elem l e he
        exact isEqualFuel_eq d e.depth e x (by omega) (le_refl _))
    cases hlt : l.t with
    | OBJECT =>
      have hobj : isEqualObjectLoop (isEqualFuel d) l r l.o =
          isEqualObjectLoop (fun x y => isEqualFuel x.depth x y) l r l.o :=
        isEqualObjectLoop_congr _ _ l r hlt (by rw [← ht, hlt]) (fun kv hkv x => by
          have := depth_entry l kv hkv
          exact isEqualFuel_eq d kv.2.depth kv.2 x (by omega) (le_refl _)) _
      simp only [hobj]
    | ARRAY => simp only [harr]
    | _ => rfl
  · simp only [isEqualFuel, if_pos ht]

theorem isEqual_tag_ne (l r : Value) (h : l.t ≠ r.t) : isEqual l r = .val false := by
  rw [isEqual_eq, if_pos h]

theorem isEqual_array (l r : Value) (hl : l.t = ARRAY) (hr : r.t = ARRAY) :
    isEqual l r =
      if l.a.length ≠ r.a.length then .val false else isEqualArrayLoop isEqual l.a r.a := by
  have hne : ¬ (l.t ≠ r.t) := by simp [hl, hr]
  rw [isEqual_eq, if_neg hne]
  simp only [hl]

theorem isEqual_object (l r : Value) (hl : l.t = OBJECT) (hr : r.t = OBJECT) :
    isEqual l r =
      if l.o.length ≠ r.o.length then .val false else isEqualObjectLoop isEqual l r l.o := by
  have hne : ¬ (l.t ≠ r.t) := by simp [hl, hr]
  rw [isEqual_eq, if_neg hne]
  simp only [hl]

/-- The loop of the `ARRAY` case answers `true` exactly when every pair of
elements at the same place does. -/
theorem isEqualArrayLoop_true (eq : Value → Value → Run Bool) :
    ∀ (ls rs : List Value), ls.length = rs.length →
      (isEqualArrayLoop eq ls rs = .val true ↔
        List.Forall₂ (fun l r => eq l r = .val true) ls rs)
  | [], [], _ => by simp [isEqualArrayLoop]
  | [], _ :: _, h => by simp at h
  | _ :: _, [], h => by simp at h
  | l :: ls, r :: rs, h => by
    have ih := isEqualArrayLoop_true eq ls rs (by simpa using h)
    simp only [isEqualArrayLoop, List.forall₂_cons]
    cases hlr : eq l r with
    | val b =>
      cases b with
      | true => simp [ih]
      | false => simp
    | fault => simp
    | timeout => simp

/-- The loop of the `OBJECT` case answers `true` exactly when every key it
goes through is found on both sides, with values that compare equal. -/
theorem isEqualObjectLoop_true (eq : Value → Value → Run Bool) (lhs rhs : Value)
    (hl : lhs.t = OBJECT) (hr : rhs.t = OBJECT) :
    ∀ entries : List KV,
      (isEqualObjectLoop eq lhs rhs entries = .val true ↔
        ∀ kv ∈ entries, ∃ lv rv, getObjectValueLoop kv.1 lhs.o = some lv ∧
          getObjectValueLoop kv.1 rhs.o = some rv ∧ eq lv rv = .val true)
  | [] => by simp [isEqualObjectLoop]
  | kv :: rest => by
    have ih := isEqualObjectLoop_true eq lhs rhs hl hr rest
    rw [isEqualObjectLoop_cons eq lhs rhs kv rest hl hr]
    simp only [List.forall_mem_cons]
    cases hlv : getObjectValueLoop kv.1 lhs.o with
    | none => simp
    | some lv =>
      cases hrv : getObjectValueLoop kv.1 rhs.o with
      | none => simp
      | some rv =>
        simp only [Option.some.injEq, exists_and_left, exists_eq_left']
        cases hlr : eq lv rv with
        | val b =>
          cases b with
          | true => simpa using ih
          | false => simp
        | fault => simp
        | timeout => simp

theorem isEqualArrayLoop_total (eq : Value → Value → Run Bool) :
    ∀ (ls rs : List Value), ls.length = rs.length →
      (∀ l ∈ ls, ∀ r, ∃ b, eq l r = .val b) → ∃ b, isEqualArrayLoop eq ls rs = .val b
  | [], _, _, _ => ⟨true, by simp [isEqualArrayLoop]⟩
  | _ :: _, [], h, _ => by simp at h
  | l :: ls, r :: rs, h, ht => by
    obtain ⟨b, hb⟩ := ht l (List.mem_cons_self _ _) r
    simp only [isEqualArrayLoop, hb]
    cases b with
    | true =>
      exact isEqualArrayLoop_total eq ls rs (by simpa using h)
        (fun x hx => ht x (List.mem_cons_of_mem _ hx))
    | false => exact ⟨false, rfl⟩

theorem isEqualObjectLoop_total (eq : Value → Value → Run Bool) (lhs rhs : Value)
    (hl : lhs.t = OBJECT) (hr : rhs.t = OBJECT)
    (ht : ∀ kv ∈ lhs.o, ∀ r, ∃ b, eq kv.2 r = .val b) :
    ∀ entries : List KV, ∃ b, isEqualObjectLoop eq lhs rhs entries = .val b
  | [] => ⟨true, by simp [isEqualObjectLoop]⟩
  | kv :: rest => by
    rw [isEqualObjectLoop_cons eq lhs rhs kv rest hl hr]
    cases hlv : getObjectValueLoop kv.1 lhs.o with
    | none => exact ⟨false, rfl⟩
    | some lv =>
      cases hrv : getObjectValueLoop kv.1 rhs.o with
      | none => exact ⟨false, rfl⟩
      | some rv =>
        obtain ⟨b, hb⟩ := ht _ (getObjectValueLoop_mem _ _ _ hlv) rv
        simp only [hb]
        cases b with
        | true => exact isEqualObjectLoop_total eq lhs rhs hl hr ht rest
        | false => exact ⟨false, rfl⟩

/-- The fuel `isEqual` gives is enough, and no index is out of range:
`isEqual` returns `true` or `false` on every pair of values. -/
theorem isEqual_total : ∀ (n : Nat) (l r : Value), l.depth ≤ n → ∃ b, isEqual l r = .val b := by
  intro n
  induction n with
  | zero =>
    intro l r h
    have := depth_pos l
    omega
  | succ n ih =>
    intro l r h
    by_cases ht : l.t = r.t
    · have hne : ¬ (l.t ≠ r.t) := by simp [ht]
      cases hlt : l.t with
      | ARRAY =>
        rw [isEqual_array l r hlt (by rw [← ht, hlt])]
        split_ifs with hlen
        · exact ⟨false, rfl⟩
        · exact isEqualArrayLoop_total _ _ _ (by simpa using hlen) (fun e he x => by
            have := depth_elem l e he
            exact ih e x (by omega))
      | OBJECT =>
        rw [isEqual_object l r hlt (by rw [← ht, hlt])]
        split_ifs with hlen
        · exact ⟨false, rfl⟩
        · exact isEqualObjectLoop_total _ l r hlt (by rw [← ht, hlt]) (fun kv hkv x => by
            have := depth_entry l kv hkv
            exact ih kv.2 x (by omega)) _
      | STRING => rw [isEqual_eq, if_neg hne]; simp only [hlt]; exact ⟨_, rfl⟩
      | NUMBER => rw [isEqual_eq, if_neg hne]; simp only [hlt]; exact ⟨_, rfl⟩
      | NULL => rw [isEqual_eq, if_neg hne]; simp only [hlt]; exact ⟨_, rfl⟩
      | TRUE => rw [isEqual_eq, if_neg hne]; simp only [hlt]; exact ⟨_, rfl⟩
      | FALSE => rw [isEqual_eq, if_neg hne]; simp only [hlt]; exact ⟨_, rfl⟩
    · exact ⟨false, isEqual_tag_ne l r ht⟩

/-- With distinct keys, the entry found for a key is the entry that has it. -/
theorem getObjectValueLoop_of_mem :
    ∀ (o : List KV), distinctKeys o → ∀ (k : List Nat) (x : Value), (k, x) ∈ o →
      getObjectValueLoop k o = some x
  | [], _, _, _, h => by simp at h
  | kv :: rest, hd, k, x, h => by
    have hd2 : kv.1 ∉ rest.map Prod.fst ∧ (rest.map Prod.fst).Nodup := by
      simpa [distinctKeys] using hd
    simp only [getObjectValueLoop]
    rcases List.mem_cons.1 h with heq | hmem
    · rw [← heq]; simp
    · have hne : kv.1 ≠ k := by
        intro hk
        apply hd2.1
        rw [hk]
        exact List.mem_map.2 ⟨(k, x), hmem, rfl⟩
      rw [if_neg hne]
      exact getObjectValueLoop_of_mem rest hd2.2 k x hmem

theorem mem_keys_iff (o : List KV) (k : List Nat) :
    k ∈ o.map Prod.fst ↔ ∃ x, getObjectValueLoop k o = some x := by
  constructor
  · intro h
    cases hl : getObjectValueLoop k o with
    | some x => exact ⟨x, rfl⟩
    | none =>
      obtain ⟨kv, hkv, hk⟩ := List.mem_map.1 h
      exact absurd hk ((getObjectValueLoop_eq_none k o).1 hl kv hkv)
  · rintro ⟨x, hx⟩
    exact List.mem_map.2 ⟨(k, x), getObjectValueLoop_mem k o x hx, rfl⟩

/-- Two objects with distinct keys compare equal exactly when they have as
many entries, the same keys, and values that compare equal under each key. -/
theorem isEqual_object_char (l r : Value) (hl : l.t = OBJECT) (hr : r.t = OBJECT)
    (hdl : distinctKeys l.o) (hdr : distinctKeys r.o) :
    isEqual l r = .val true ↔
      l.o.length = r.o.length ∧
      (∀ k, k ∈ l.o.map Prod.fst ↔ k ∈ r.o.map Prod.fst) ∧
      (∀ k lv rv, (k, lv) ∈ l.o → (k, rv) ∈ r.o → isEqual lv rv = .val true) := by
  rw [isEqual_object l r hl hr]
  constructor
  · intro h
    by_cases hlen2 : l.o.length = r.o.length
    swap
    · rw [if_pos hlen2] at h
      simp at h
    rw [if_neg (by simp [hlen2])] at h
    have hloop := (isEqualObjectLoop_true isEqual l r hl hr l.o).1 h
    have hsub : l.o.map Prod.fst ⊆ r.o.map Prod.fst := by
      intro k hk
      obtain ⟨kv, hkv, hkk⟩ := List.mem_map.1 hk
      obtain ⟨lv, rv, _, h2, _⟩ := hloop kv hkv
      rw [← hkk]
      exact (mem_keys_iff r.o kv.1).2 ⟨rv, h2⟩
    have hperm : (l.o.map Prod.fst).Perm (r.o.map Prod.fst) :=
      (List.subperm_of_subset hdl hsub).perm_of_length_le (by simp [hlen2])
    refine ⟨hlen2, fun k => hperm.mem_iff, ?_⟩
    intro k lv rv hlv hrv
    obtain ⟨lv2, rv2, h1, h2, h3⟩ := hloop (k, lv) hlv
    have e1 := getObjectValueLoop_of_mem l.o hdl k lv hlv
    have e2 := getObjectValueLoop_of_mem r.o hdr k rv hrv
    simp only at h1 h2
    rw [e1] at h1
    rw [e2] at h2
    simp only [Option.some.injEq] at h1 h2
    rw [h1, h2]
    exact h3
  · rintro ⟨hlen, hkeys, hvals⟩
    rw [if_neg (by simp [hlen])]
    refine (isEqualObjectLoop_true isEqual l r hl hr l.o).2 ?_
    intro kv hkv
    have hk : kv.1 ∈ r.o.map Prod.fst := (hkeys kv.1).1 (List.mem_map.2 ⟨kv, hkv, rfl⟩)
    obtain ⟨rv, hrv⟩ := (mem_keys_iff r.o kv.1).1 hk
    exact ⟨kv.2, rv, getObjectValueLoop_of_mem l.o hdl kv.1 kv.2 hkv, hrv,
      hvals kv.1 kv.2 rv hkv (getObjectValueLoop_mem _ _ _ hrv)⟩

/-- Two arrays compare equal exactly when they are as long and their
elements compare equal place by place. -/
theorem isEqual_array_char (l r : Value) (hl : l.t = ARRAY) (hr : r.t = ARRAY) :
    isEqual l r = .val true ↔
      List.Forall₂ (fun x y => isEqual x y = .val true) l.a r.a := by
  rw [isEqual_array l r hl hr]
  constructor
  · intro h
    by_cases hlen : l.a.length = r.a.length
    · rw [if_neg (by simp [hlen])] at h
      exact (isEqualArrayLoop_true isEqual l.a r.a hlen).1 h
    · rw [if_pos hlen] at h
      simp at h
  · intro h
    have hlen := h.length_eq
    rw [if_neg (by simp [hlen])]
    exact (isEqualArrayLoop_true isEqual l.a r.a hlen).2 h

/-! ## Trees with unique keys and without NaN -/

theorem uniqueKeysArray_mem : ∀ (a : List Value) (e : Value),
    uniqueKeysArray a → e ∈ a → uniqueKeys e
  | [], _, _, h => by simp at h
  | x :: rest, e, hu, h => by
    simp only [uniqueKeysArray] at hu
    rcases List.mem_cons.1 h with rfl | h
    · exact hu.1
    · exact uniqueKeysArray_mem rest e hu.2 h

theorem uniqueKeysObject_mem : ∀ (o : List KV) (kv : KV),
    uniqueKeysObject o → kv ∈ o → uniqueKeys kv.2
  | [], _, _, h => by simp at h
  | (k, x) :: rest, kv, hu, h => by
    simp only [uniqueKeysObject] at hu
    rcases List.mem_cons.1 h with rfl | h
    · exact hu.1
    · exact uniqueKeysObject_mem rest kv hu.2 h

theorem uniqueKeys_array (v : Value) (ht : v.t = ARRAY) :
    uniqueKeys v ↔ uniqueKeysArray v.a := by
  cases v with
  | mk s n a o t =>
    simp only [Value.t] at ht
    subst ht
    simp [uniqueKeys, Value.a]

theorem uniqueKeys_object (v : Value) (ht : v.t = OBJECT) :
    uniqueKeys v ↔ distinctKeys v.o ∧ uniqueKeysObject v.o := by
  cases v with
  | mk s n a o t =>
    simp only [Value.t] at ht
    subst ht
    simp [uniqueKeys, Value.o]

theorem noNaNArray_mem : ∀ (a : List Value) (e : Value), noNaNArray a → e ∈ a → noNaN e
  | [], _, _, h => by simp at h
  | x :: rest, e, hu, h => by
    simp only [noNaNArray] at hu
    rcases List.mem_cons.1 h with rfl | h
    · exact hu.1
    · exact noNaNArray_mem rest e hu.2 h

theorem noNaNObject_mem : ∀ (o : List KV) (kv : KV), noNaNObject o → kv ∈ o → noNaN kv.2
  | [], _, _, h => by simp at h
  | (k, x) :: rest, kv, hu, h => by
    simp only [noNaNObject] at hu
    rcases List.mem_cons.1 h with rfl | h
    · exact hu.1
    · exact noNaNObject_mem rest kv hu.2 h

theorem float64Eq_self (n : Nat) (h : isNaN n = false) : float64Eq n n = true := by
  simp [float64Eq, h]

theorem float64Eq_comm (a b : Nat) : float64Eq a b = float64Eq b a := by
  unfold float64Eq
  rw [show decide (a % 2 ^ 64 = b % 2 ^ 64) = decide (b % 2 ^ 64 = a % 2 ^ 64) from
    decide_eq_decide.2 eq_comm]
  generalize decide (b % 2 ^ 64 = a % 2 ^ 64) = x
  generalize decide (a % 2 ^ 63 = 0) = y
  generalize decide (b % 2 ^ 63 = 0) = z
  cases isNaN a <;> cases isNaN b <;> cases x <;> cases y <;> cases z <;> rfl

mutual
/-- A value is the same tree as itself. -/
theorem sameTree_refl : ∀ v : Value, sameTree v v
  | .mk s n a o t => by
    cases t
    · simp [sameTree, Value.t]
    · simp [sameTree, Value.t]
    · simp [sameTree, Value.t]
    · simp [sameTree, Value.t, Value.n]
    · simp [sameTree, Value.t, Value.s]
    · simp [sameTree, Value.t, Value.a, sameArray_refl a]
    · simp [sameTree, Value.t, Value.o, sameObject_refl o]
/-- The elements are the same trees as themselves. -/
theorem sameArray_refl : ∀ a : List Value, sameArray a a
  | [] => by simp [sameArray]
  | e :: es => by simp [sameArray, sameTree_refl e, sameArray_refl es]
/-- The entries are the same entries as themselves. -/
theorem sameObject_refl : ∀ o : List (List Nat × Value), sameObject o o
  | [] => by simp [sameObject]
  | (k, v) :: es => by simp [sameObject, sameTree_refl v, sameObject_refl es]
end

theorem sameArray_forall₂ (P : Value → Value → Prop) :
    ∀ (a b : List Value), sameArray a b → (∀ e ∈ a, ∀ w, sameTree e w → P e w) →
      List.Forall₂ P a b
  | [], b, h, _ => by
    simp only [sameArray] at h
    subst h
    exact List.Forall₂.nil
  | e :: es, [], h, _ => by simp [sameArray] at h
  | e :: es, w :: ws, h, hp => by
    simp only [sameArray] at h
    exact List.Forall₂.cons (hp e (List.mem_cons_self _ _) w h.1)
      (sameArray_forall₂ P es ws h.2 (fun x hx => hp x (List.mem_cons_of_mem _ hx)))

theorem sameObject_length : ∀ (o o2 : List KV), sameObject o o2 → o.length = o2.length
  | [], o2, h => by
    simp only [sameObject] at h
    subst h
    rfl
  | (k, v) :: es, [], h => by simp [sameObject] at h
  | (k, v) :: es, (k2, w) :: ws, h => by
    simp only [sameObject] at h
    simp [sameObject_length es ws h.2.2]

/-- Under a key, two objects with the same entries both have nothing, or
have values that are the same tree. -/
theorem sameObject_lookup : ∀ (o o2 : List KV), sameObject o o2 → ∀ key : List Nat,
    (getObjectValueLoop key o = none ∧ getObjectValueLoop key o2 = none) ∨
    ∃ lv rv, getObjectValueLoop key o = some lv ∧ getObjectValueLoop key o2 = some rv ∧
      sameTree lv rv
  | [], o2, h, key => by
    simp only [sameObject] at h
    subst h
    exact Or.inl ⟨rfl, rfl⟩
  | (k, v) :: es, [], h, _ => by simp [sameObject] at h
  | (k, v) :: es, (k2, w) :: ws, h, key => by
    simp only [sameObject] at h
    obtain ⟨hk, hvw, hrest⟩ := h
    subst hk
    by_cases hkey : k = key
    · exact Or.inr ⟨v, w, by simp [getObjectValueLoop, hkey], by simp [getObjectValueLoop, hkey],
        hvw⟩
    · simpa [getObjectValueLoop, hkey] using sameObject_lookup es ws hrest key

/-- A value compares equal to every value that is the same tree, when it
holds no NaN. -/
theorem isEqual_sameTree : ∀ (n : Nat) (l r : Value), l.depth ≤ n → sameTree l r → noNaN l →
    isEqual l r = .val true := by
  intro n
  induction n with
  | zero =>
    intro l r h
    have := depth_pos l
    omega
  | succ n ih =>
    intro l r hd hs hn
    cases l with
    | mk s m a o t =>
      simp only [sameTree] at hs
      obtain ⟨ht, hs⟩ := hs
      have hne : ¬ ((Value.mk s m a o t).t ≠ r.t) := by simp [Value.t, ht]
      cases t with
      | NULL => rw [isEqual_eq, if_neg hne]; rfl
      | FALSE => rw [isEqual_eq, if_neg hne]; rfl
      | TRUE => rw [isEqual_eq, if_neg hne]; rfl
      | NUMBER =>
        simp only [noNaN] at hn
        simp only at hs
        rw [isEqual_eq, if_neg hne]
        show Run.val (float64Eq m r.n) = Run.val true
        rw [← hs, float64Eq_self m hn]
      | STRING =>
        simp only at hs
        rw [isEqual_eq, if_neg hne]
        simp [Value.t, Value.s, hs]
      | ARRAY =>
        simp only at hs
        simp only [noNaN] at hn
        refine (isEqual_array_char (Value.mk s m a o ARRAY) r rfl ht.symm).2 ?_
        refine sameArray_forall₂ _ a r.a hs ?_
        intro e he w hew
        have := depth_elem (Value.mk s m a o ARRAY) e he
        exact ih e w (by omega) hew (noNaNArray_mem a e hn he)
      | OBJECT =>
        simp only at hs
        simp only [noNaN] at hn
        rw [isEqual_object (Value.mk s m a o OBJECT) r rfl ht.symm,
          if_neg (by simp [Value.o, sameObject_length o r.o hs])]
        refine (isEqualObjectLoop_true isEqual (Value.mk s m a o OBJECT) r rfl ht.symm _).2 ?_
        intro kv hkv
        rcases sameObject_lookup o r.o hs kv.1 with ⟨h1, _⟩ | ⟨lv, rv, h1, h2, h3⟩
        · exact absurd rfl ((getObjectValueLoop_eq_none kv.1 o).1 h1 kv hkv)
        · have hm := getObjectValueLoop_mem kv.1 o lv h1
          have := depth_entry (Value.mk s m a o OBJECT) (kv.1, lv) hm
          exact ⟨lv, rv, h1, h2, ih lv rv (by simp only at this; omega) h3
            (noNaNObject_mem o (kv.1, lv) hn hm)⟩

/-- A value without NaN compares equal to itself. -/
theorem isEqual_refl (v : Value) (h : noNaN v) : isEqual v v = .val true :=
  isEqual_sameTree v.depth v v (le_refl _) (sameTree_refl v) h

/-! ## isEqual on objects and arrays, symmetry -/

/-- C11, counterexample. The object with the one entry `a` of value NaN has
distinct keys and is a permutation of itself, and `isEqual` of it and itself
is `false`. -/
theorem isEqual_permutation_nan :
    ∃ l r : Value, l.t = OBJECT ∧ r.t = OBJECT ∧ distinctKeys l.o ∧ distinctKeys r.o ∧
      r.o.Perm l.o ∧ isEqual l r = .val false :=
  ⟨Value.mk [] 0 [] [([97], Value.mk [] 0x7FF8000000000000 [] [] NUMBER)] OBJECT,
    Value.mk [] 0 [] [([97], Value.mk [] 0x7FF8000000000000 [] [] NUMBER)] OBJECT,
    rfl, rfl, by simp [distinctKeys, Value.o], by simp [distinctKeys, Value.o],
    List.Perm.refl _, rfl⟩

/-- C11, amended. For two Objects `l`, `r` with pairwise distinct keys,
`isEqual` returns, and returns `true` exactly when they have as many entries,
the same set of keys, and under every key values for which `isEqual` is
`true`.  So it is `true` when the entries of `r` are a permutation of the
entries of `l`, provided no value of `l` holds a NaN.  For two Arrays
`isEqual` is `true` exactly when they are as long and `isEqual` is `true` on
the elements place by place. -/
theorem isEqual_object_spec (l r : Value) (hl : l.t = OBJECT) (hr : r.t = OBJECT)
    (hdl : distinctKeys l.o) (hdr : distinctKeys r.o) :
    (∃ b, isEqual l r = .val b) ∧
    (isEqual l r = .val true ↔
      l.o.length = r.o.length ∧
      (∀ k, k ∈ l.o.map Prod.fst ↔ k ∈ r.o.map Prod.fst) ∧
      (∀ k lv rv, (k, lv) ∈ l.o → (k, rv) ∈ r.o → isEqual lv rv = .val true)) ∧
    (noNaNObject l.o → r.o.Perm l.o → isEqual l r = .val true) ∧
    (∀ x y : Value, x.t = ARRAY → y.t = ARRAY →
      (isEqual x y = .val true ↔
        x.a.length = y.a.length ∧
        ∀ (i : Nat) (hi : i < x.a.length) (hj : i < y.a.length),
          isEqual (x.a.get ⟨i, hi⟩) (y.a.get ⟨i, hj⟩) = .val true)) := by
  refine ⟨isEqual_total l.depth l r (le_refl _), isEqual_object_char l r hl hr hdl hdr, ?_, ?_⟩
  · intro hn hp
    refine (isEqual_object_char l r hl hr hdl hdr).2 ⟨hp.length_eq.symm, ?_, ?_⟩
    · intro k
      exact ((hp.map Prod.fst).mem_iff).symm
    · intro k lv rv hlv hrv
      have hrv2 : (k, rv) ∈ l.o := hp.mem_iff.1 hrv
      have e1 := getObjectValueLoop_of_mem l.o hdl k lv hlv
      have e2 := getObjectValueLoop_of_mem l.o hdl k rv hrv2
      rw [e1] at e2
      simp only [Option.some.injEq] at e2
      rw [← e2]
      exact isEqual_refl lv (noNaNObject_mem l.o (k, lv) hn hlv)
  · intro x y hx hy
    rw [isEqual_array_char x y hx hy, List.forall₂_iff_get]

/-- Instance of `isEqual_object_spec`: `{"a":true,"b":false}` and
`{"b":false,"a":true}` compare equal. -/
theorem isEqual_object_spec_witness :
    isEqual
        (Value.mk [] 0 [] [([97], Value.mk [] 0 [] [] TRUE), ([98], Value.mk [] 0 [] [] FALSE)]
          OBJECT)
        (Value.mk [] 0 [] [([98], Value.mk [] 0 [] [] FALSE), ([97], Value.mk [] 0 [] [] TRUE)]
          OBJECT) = .val true :=
  (isEqual_object_spec
    (Value.mk [] 0 [] [([97], Value.mk [] 0 [] [] TRUE), ([98], Value.mk [] 0 [] [] FALSE)]
      OBJECT)
    (Value.mk [] 0 [] [([98], Value.mk [] 0 [] [] FALSE), ([97], Value.mk [] 0 [] [] TRUE)]
      OBJECT) rfl rfl (by simp [distinctKeys, Value.o]) (by simp [distinctKeys, Value.o])).2.2.1
    (by simp [noNaNObject, noNaN, Value.o])
    (List.Perm.swap ([97], Value.mk [] 0 [] [] TRUE) ([98], Value.mk [] 0 [] [] FALSE) [])

theorem forall₂_swap (P Q : Value → Value → Prop) (ls rs : List Value)
    (h : List.Forall₂ P ls rs) :
    (∀ l ∈ ls, ∀ r ∈ rs, P l r → Q r l) → List.Forall₂ Q rs ls := by
  induction h with
  | nil => intro _; exact List.Forall₂.nil
  | cons hab _ ih =>
    intro hpq
    exact List.Forall₂.cons (hpq _ (List.mem_cons_self _ _) _ (List.mem_cons_self _ _) hab)
      (ih (fun l hl r hr => hpq l (List.mem_cons_of_mem _ hl) r (List.mem_cons_of_mem _ hr)))

/-- On trees with unique keys, `isEqual` is `true` one way round exactly when
it is the other way round. -/
theorem isEqual_true_symm : ∀ (n : Nat) (l r : Value), l.depth ≤ n → uniqueKeys l →
    uniqueKeys r → (isEqual l r = .val true ↔ isEqual r l = .val true) := by
  intro n
  induction n with
  | zero =>
    intro l r h
    have := depth_pos l
    omega
  | succ n ih =>
    intro l r hd hul hur
    by_cases ht : l.t = r.t
    swap
    · rw [isEqual_tag_ne l r ht, isEqual_tag_ne r l (fun h => ht h.symm)]
    have hne : ¬ (l.t ≠ r.t) := by simp [ht]
    have hne2 : ¬ (r.t ≠ l.t) := by simp [ht]
    cases hlt : l.t with
    | ARRAY =>
      have hrt : r.t = ARRAY := by rw [← ht, hlt]
      have hla := (uniqueKeys_array l hlt).1 hul
      have hra := (uniqueKeys_array r hrt).1 hur
      rw [isEqual_array_char l r hlt hrt, isEqual_array_char r l hrt hlt]
      constructor
      · intro h
        refine forall₂_swap _ _ _ _ h ?_
        intro e he w hw hew
        have := depth_elem l e he
        exact (ih e w (by omega) (uniqueKeysArray_mem _ e hla he)
          (uniqueKeysArray_mem _ w hra hw)).1 hew
      · intro h
        refine forall₂_swap _ _ _ _ h ?_
        intro w hw e he hwe
        have := depth_elem l e he
        exact (ih e w (by omega) (uniqueKeysArray_mem _ e hla he)
          (uniqueKeysArray_mem _ w hra hw)).2 hwe
    | OBJECT =>
      have hrt : r.t = OBJECT := by rw [← ht, hlt]
      have hlo := (uniqueKeys_object l hlt).1 hul
      have hro := (uniqueKeys_object r hrt).1 hur
      rw [isEqual_object_char l r hlt hrt hlo.1 hro.1, isEqual_object_char r l hrt hlt hro.1 hlo.1]
      constructor
      · rintro ⟨h1, h2, h3⟩
        refine ⟨h1.symm, fun k => (h2 k).symm, ?_⟩
        intro k rv lv hrv hlv
        have := depth_entry l (k, lv) hlv
        exact (ih lv rv (by simp only at this; omega) (uniqueKeysObject_mem _ (k, lv) hlo.2 hlv)
          (uniqueKeysObject_mem _ (k, rv) hro.2 hrv)).1 (h3 k lv rv hlv hrv)
      · rintro ⟨h1, h2, h3⟩
        refine ⟨h1.symm, fun k => (h2 k).symm, ?_⟩
        intro k lv rv hlv hrv
        have := depth_entry l (k, lv) hlv
        exact (ih lv rv (by simp only at this; omega) (uniqueKeysObject_mem _ (k, lv) hlo.2 hlv)
          (uniqueKeysObject_mem _ (k, rv) hro.2 hrv)).2 (h3 k rv lv hrv hlv)
    | STRING =>
      rw [isEqual_eq l r, isEqual_eq r l, if_neg hne, if_neg hne2]
      have hrt : r.t = STRING := by rw [← ht, hlt]
      simp only [hlt, hrt, Run.val.injEq, decide_eq_true_eq]
      exact eq_comm
    | NUMBER =>
      rw [isEqual_eq l r, isEqual_eq r l, if_neg hne, if_neg hne2]
      have hrt : r.t = NUMBER := by rw [← ht, hlt]
      simp only [hlt, hrt, float64Eq_comm l.n r.n]
    | NULL =>
      rw [isEqual_eq l r, isEqual_eq r l, if_neg hne, if_neg hne2]
      have hrt : r.t = NULL := by rw [← ht, hlt]
      simp only [hlt, hrt]
    | TRUE =>
      rw [isEqual_eq l r, isEqual_eq r l, if_neg hne, if_neg hne2]
      have hrt : r.t = TRUE := by rw [← ht, hlt]
      simp only [hlt, hrt]
    | FALSE =>
      rw [isEqual_eq l r, isEqual_eq r l, if_neg hne, if_neg hne2]
      have hrt : r.t = FALSE := by rw [← ht, hlt]
      simp only [hlt, hrt]

/-- C12. On trees in which every Object node has pairwise distinct keys,
`isEqual` is symmetric: `isEqual(l, r)` and `isEqual(r, l)` return the same
boolean. -/
theorem isEqual_symm (l r : Value) (hl : uniqueKeys l) (hr : uniqueKeys r) :
    isEqual l r = isEqual r l ∧ ∃ b, isEqual l r = .val b := by
  obtain ⟨b1, h1⟩ := isEqual_total l.depth l r (le_refl _)
  obtain ⟨b2, h2⟩ := isEqual_total r.depth r l (le_refl _)
  have hs := isEqual_true_symm l.depth l r (le_refl _) hl hr
  refine ⟨?_, b1, h1⟩
  rw [h1, h2] at hs
  rw [h1, h2]
  cases b1 <;> cases b2 <;> simp at hs ⊢

/-- Instance of `isEqual_symm`: `{"a":true,"b":false}` and
`{"b":false,"a":true}`, both ways round. -/
theorem isEqual_symm_witness :
    isEqual
        (Value.mk [] 0 [] [([97], Value.mk [] 0 [] [] TRUE), ([98], Value.mk [] 0 [] [] FALSE)]
          OBJECT)
        (Value.mk [] 0 [] [([98], Value.mk [] 0 [] [] FALSE), ([97], Value.mk [] 0 [] [] TRUE)]
          OBJECT) =
      isEqual
        (Value.mk [] 0 [] [([98], Value.mk [] 0 [] [] FALSE), ([97], Value.mk [] 0 [] [] TRUE)]
          OBJECT)
        (Value.mk [] 0 [] [([97], Value.mk [] 0 [] [] TRUE), ([98], Value.mk [] 0 [] [] FALSE)]
          OBJECT) :=
  (isEqual_symm
    (Value.mk [] 0 [] [([97], Value.mk [] 0 [] [] TRUE), ([98], Value.mk [] 0 [] [] FALSE)]
      OBJECT)
    (Value.mk [] 0 [] [([98], Value.mk [] 0 [] [] FALSE), ([97], Value.mk [] 0 [] [] TRUE)]
      OBJECT)
    (by simp [uniqueKeys, uniqueKeysObject, distinctKeys])
    (by simp [uniqueKeys, uniqueKeysObject, distinctKeys])).1

/-! ## copy -/

theorem setObjectValue_new (acc : List KV) (k : List Nat) (x : Value)
    (h : ∀ kv ∈ acc, kv.1 ≠ k) :
    setObjectValue (Value.mk [] 0 [] acc OBJECT) k x =
      (Value.mk [] 0 [] (acc ++ [(k, x)]) OBJECT, none) := by
  rw [setObjectValue_entries (Value.mk [] 0 [] acc OBJECT) k x rfl]
  simp only [Value.o, setObjectValueLoop_absent k x acc h]
  rfl

mutual
/-- On a tree with unique keys, `copy` returns the tree with the payload
fields its tags do not use left at zero. -/
theorem copy_normal : ∀ v : Value, uniqueKeys v → v.copy = .done v.normal
  | .mk s n a o t, hu => by
    cases t
    · rfl
    · rfl
    · rfl
    · rfl
    · rfl
    · simp only [uniqueKeys] at hu
      simp only [Value.copy, Value.normal]
      exact copyArrayLoop_normal a [] hu
    · simp only [uniqueKeys] at hu
      simp only [Value.copy, Value.normal]
      exact copyObjectLoop_normal o [] hu.2 (by simpa [distinctKeys] using hu.1)
/-- The loop of `copy` over the elements appends their copies. -/
theorem copyArrayLoop_normal : ∀ (a acc : List Value), uniqueKeysArray a →
    copyArrayLoop (Value.mk [] 0 acc [] ARRAY) acc.length a =
      .done (Value.mk [] 0 (acc ++ normalArray a) [] ARRAY)
  | [], acc, _ => by simp [copyArrayLoop, normalArray]
  | e :: es, acc, hu => by
    simp only [uniqueKeysArray] at hu
    have h1 := insertArrayElement_at (Value.mk [] 0 acc [] ARRAY) e.normal acc.length rfl
      (le_refl _)
    have h2 := copyArrayLoop_normal es (acc ++ [e.normal]) hu.2
    simp only [Value.a, List.take_length, List.drop_length, Value.setA] at h1
    simp only [List.length_append, List.length_singleton, List.append_assoc,
      List.singleton_append] at h2
    simp only [copyArrayLoop, copy_normal e hu.1, h1, normalArray, h2]
/-- The loop of `copy` over the entries appends the keys with the copies of
their values, as long as no key comes twice. -/
theorem copyObjectLoop_normal : ∀ (o acc : List (List Nat × Value)), uniqueKeysObject o →
    (acc.map Prod.fst ++ o.map Prod.fst).Nodup →
    copyObjectLoop (Value.mk [] 0 [] acc OBJECT) o =
      .done (Value.mk [] 0 [] (acc ++ normalObject o) OBJECT)
  | [], acc, _, _ => by simp [copyObjectLoop, normalObject]
  | (k, v) :: es, acc, hu, hd => by
    simp only [uniqueKeysObject] at hu
    have hk : ∀ kv ∈ acc, kv.1 ≠ k := by
      intro kv hkv hkk
      have hd2 := List.disjoint_of_nodup_append hd
      exact hd2 (List.mem_map.2 ⟨kv, hkv, rfl⟩) (by simp [hkk])
    have hd3 : ((acc ++ [(k, v.normal)]).map Prod.fst ++ es.map Prod.fst).Nodup := by
      simpa using hd
    have h2 := copyObjectLoop_normal es (acc ++ [(k, v.normal)]) hu.2 hd3
    simp only [List.append_assoc, List.singleton_append] at h2
    simp only [copyObjectLoop, copy_normal v hu.1, setObjectValue_new acc k v.normal hk,
      normalObject, h2]
end

/-- C13, counterexample. The tree `Parse` returns for `{"a":true,"a":false}`
has two entries, its copy has one, and `isEqual` of the two is `false`; the
Number NaN is not `isEqual` to its copy either. -/
theorem copy_not_isEqual :
    (∃ v p c, (∀ lib : Strconv,
        Parse lib [123, 34, 97, 34, 58, 116, 114, 117, 101, 44, 34, 97, 34, 58,
          102, 97, 108, 115, 101, 125] = .ret v none p) ∧
      v.copy = .done c ∧ isEqual v c = .val false) ∧
    (∃ c, (Value.mk [] 0x7FF8000000000000 [] [] NUMBER).copy = .done c ∧
      isEqual (Value.mk [] 0x7FF8000000000000 [] [] NUMBER) c = .val false) :=
  ⟨⟨Value.mk [] 0 [] [([97], Value.mk [] 0 [] [] TRUE), ([97], Value.mk [] 0 [] [] FALSE)]
      OBJECT, { json := [], stack := [], top := 0 },
      Value.mk [] 0 [] [([97], Value.mk [] 0 [] [] FALSE)] OBJECT, fun _ => rfl, rfl, rfl⟩,
    ⟨Value.mk [] 0x7FF8000000000000 [] [] NUMBER, rfl, rfl⟩⟩

/-- C13, amended. For every tree in which every Object node has pairwise
distinct keys and no Number node holds a NaN, `copy` returns a tree (the same
tree, with the unused payload fields at zero) and `isEqual` of the tree and
its copy is `true`. -/
theorem copy_isEqual (v : Value) (hu : uniqueKeys v) (hn : noNaN v) :
    v.copy = .done v.normal ∧ sameTree v v.normal ∧ isEqual v v.normal = .val true :=
  ⟨copy_normal v hu, sameTree_normal v,
    isEqual_sameTree v.depth v v.normal (le_refl _) (sameTree_normal v) hn⟩

/-- Instance of `copy_isEqual`: the tree of `{"t":true,"a":[null,"x"]}`. -/
theorem copy_isEqual_witness :
    (Value.mk [] 0 [] [([116], Value.mk [] 0 [] [] TRUE),
        ([97], Value.mk [] 0 [Value.zero, Value.mk [120] 0 [] [] STRING] [] ARRAY)] OBJECT).copy =
      .done (Value.mk [] 0 [] [([116], Value.mk [] 0 [] [] TRUE),
        ([97], Value.mk [] 0 [Value.zero, Value.mk [120] 0 [] [] STRING] [] ARRAY)] OBJECT) ∧
    isEqual
        (Value.mk [] 0 [] [([116], Value.mk [] 0 [] [] TRUE),
          ([97], Value.mk [] 0 [Value.zero, Value.mk [120] 0 [] [] STRING] [] ARRAY)] OBJECT)
        (Value.mk [] 0 [] [([116], Value.mk [] 0 [] [] TRUE),
          ([97], Value.mk [] 0 [Value.zero, Value.mk [120] 0 [] [] STRING] [] ARRAY)] OBJECT) =
      .val true :=
  ⟨(copy_isEqual
      (Value.mk [] 0 [] [([116], Value.mk [] 0 [] [] TRUE),
        ([97], Value.mk [] 0 [Value.zero, Value.mk [120] 0 [] [] STRING] [] ARRAY)] OBJECT)
      (by simp [uniqueKeys, uniqueKeysObject, uniqueKeysArray, distinctKeys, Value.zero])
      (by simp [noNaN, noNaNObject, noNaNArray, Value.zero])).1,
    (copy_isEqual
      (Value.mk [] 0 [] [([116], Value.mk [] 0 [] [] TRUE),
        ([97], Value.mk [] 0 [Value.zero, Value.mk [120] 0 [] [] STRING] [] ARRAY)] OBJECT)
      (by simp [uniqueKeys, uniqueKeysObject, uniqueKeysArray, distinctKeys, Value.zero])
      (by simp [noNaN, noNaNObject, noNaNArray, Value.zero])).2.2⟩

end goson

namespace goson

open Type_ Err

/-! ## What follows a value in the text

A parser method that returns without error and stays inside a part `c` of the
text does the same whatever follows `c`, as long as what follows does not
continue a number. -/

theorem parseWhiteSpaceLoop_append (c r : List Nat) :
    parseWhiteSpaceLoop (c ++ r) =
      if parseWhiteSpaceLoop c = [] then parseWhiteSpaceLoop r
      else parseWhiteSpaceLoop c ++ r := by
  induction c with
  | nil => simp [parseWhiteSpaceLoop]
  | cons x t ih =>
    by_cases hx : x = 32 ∨ x = 9 ∨ x = 10 ∨ x = 13
    · rw [List.cons_append]
      simp only [parseWhiteSpaceLoop, if_pos hx]
      exact ih
    · rw [List.cons_append]
      simp only [parseWhiteSpaceLoop, if_neg hx]
      simp

theorem within_ret {α : Type} {n : Nat} {r : Res α} (h : r.within n) {x : α} {e : Option Err}
    {q : Parser} (hr : r = .ret x e q) : q.json.length ≤ n := by
  subst hr
  exact h

theorem parseLiteral_follows (r1 r2 c st : List Nat) (top : Nat) (json : List Nat) (t : Type_) :
    Res.follows r1 r2 (parseLiteral ⟨c ++ r1, st, top⟩ json t)
      (parseLiteral ⟨c ++ r2, st, top⟩ json t) := by
  intro x q h hlen
  unfold parseLiteral at h
  split_ifs at h with hc
  · simp at h
  simp only [Res.ret.injEq, true_and] at h
  obtain ⟨hx, hq⟩ := h
  subst hq
  simp only [not_or, not_lt, ne_eq, not_not] at hc
  simp only [List.length_drop, List.length_append] at hlen hc
  have hn : json.length ≤ c.length := by omega
  refine ⟨c.drop json.length, by simp [List.drop_append_of_le_length hn], ?_⟩
  unfold parseLiteral
  have htake : List.take json.length (c ++ r2) = json :=
    (List.take_append_of_le_length hn).trans
      ((List.take_append_of_le_length hn).symm.trans hc.2)
  rw [if_neg (by simp [htake]; omega)]
  simp [hx, List.drop_append_of_le_length hn]

theorem parseHex4Loop_follows (r1 r2 : List Nat) :
    ∀ (k u : Nat) (c st : List Nat) (top : Nat),
      Res.follows r1 r2 (parseHex4Loop k u ⟨c ++ r1, st, top⟩)
        (parseHex4Loop k u ⟨c ++ r2, st, top⟩) := by
  intro k
  induction k with
  | zero =>
    intro u c st top x q h _
    simp only [parseHex4Loop, Res.ret.injEq, true_and] at h
    obtain ⟨hx, hq⟩ := h
    subst hq
    exact ⟨c, rfl, by simp [parseHex4Loop, hx]⟩
  | succ k ih =>
    intro u c st top x q h hlen
    cases c with
    | nil =>
      exfalso
      cases r1 with
      | nil => simp [parseHex4Loop] at h
      | cons ch rest =>
        simp only [List.nil_append, parseHex4Loop] at h
        have hw : q.json.length ≤ rest.length → False := by
          intro hq
          simp only [List.length_cons] at hlen
          omega
        split_ifs at h
        · exact hw (within_ret (parseHex4Loop_within k _ ⟨rest, st, top⟩) h)
        · exact hw (within_ret (parseHex4Loop_within k _ ⟨rest, st, top⟩) h)
        · exact hw (within_ret (parseHex4Loop_within k _ ⟨rest, st, top⟩) h)
        · simp at h
    | cons ch ct =>
      simp only [List.cons_append, parseHex4Loop] at h ⊢
      split_ifs at h ⊢
      · exact ih _ ct st top x q h hlen
      · exact ih _ ct st top x q h hlen
      · exact ih _ ct st top x q h hlen
      · simp at h

theorem parseHex4_follows (r1 r2 c st : List Nat) (top : Nat) :
    Res.follows r1 r2 (parseHex4 ⟨c ++ r1, st, top⟩) (parseHex4 ⟨c ++ r2, st, top⟩) :=
  parseHex4Loop_follows r1 r2 4 0 c st top

theorem follows_ret {α : Type} (r1 r2 c s : List Nat) (t : Nat) (x : α) :
    Res.follows r1 r2 (.ret x none ⟨c ++ r1, s, t⟩) (.ret x none ⟨c ++ r2, s, t⟩) := by
  intro y q h _
  simp only [Res.ret.injEq, true_and] at h
  obtain ⟨hx, hq⟩ := h
  subst hq
  subst hx
  exact ⟨c, rfl, rfl⟩

theorem follows_err {α : Type} (r1 r2 : List Nat) (x : α) (e : Err) (p : Parser)
    (out2 : Res α) : Res.follows r1 r2 (.ret x (some e) p) out2 := by
  intro y q h _
  simp at h

theorem parser_eq (q : Parser) (j : List Nat) (h : q.json = j) : q = ⟨j, q.stack, q.top⟩ := by
  cases q
  simp only at h
  subst h
  rfl

/-- A successful `parseSurrogate` reads at least two bytes. -/
theorem parseSurrogate_lt (head h : Nat) (p : Parser) (x : Nat) (q : Parser)
    (hr : parseSurrogate head h p = .ret x none q) : q.json.length + 2 ≤ p.json.length := by
  obtain ⟨json, st, top⟩ := p
  cases json with
  | nil => simp [parseSurrogate] at hr
  | cons ch rest =>
    simp only [parseSurrogate] at hr
    split_ifs at hr
    · simp at hr
    · cases rest with
      | nil => simp at hr
      | cons ch2 rest2 =>
        simp only [] at hr
        split_ifs at hr
        · simp at hr
        · have hx := parseHex4_within ⟨rest2, st, top⟩
          cases hh : parseHex4 ⟨rest2, st, top⟩ with
          | fault w => rw [hh] at hr; simp at hr
          | timeout => rw [hh] at hr; simp at hr
          | ret u e q1 =>
            rw [hh] at hr hx
            simp only [Res.within] at hx
            cases e with
            | some err => simp at hr
            | none =>
              simp only [] at hr
              by_cases hlow : ¬ (0xDC00 ≤ u ∧ u ≤ 0xDFFF)
              · rw [if_pos hlow] at hr
                simp at hr
              · rw [if_neg hlow] at hr
                simp only [Res.ret.injEq, true_and] at hr
                rw [← hr.2]
                simp only [List.length_cons]
                omega

theorem parseSurrogate_follows (r1 r2 : List Nat) (head h : Nat) (c st : List Nat)
    (top : Nat) :
    Res.follows r1 r2 (parseSurrogate head h ⟨c ++ r1, st, top⟩)
      (parseSurrogate head h ⟨c ++ r2, st, top⟩) := by
  intro x q hr hlen
  have hlt := parseSurrogate_lt head h _ x q hr
  simp only [List.length_append] at hlt
  cases c with
  | nil => simp only [List.length_nil] at hlt; omega
  | cons ch ct =>
    cases ct with
    | nil => simp only [List.length_cons, List.length_nil] at hlt; omega
    | cons ch2 ct2 =>
      simp only [List.cons_append, parseSurrogate] at hr ⊢
      split_ifs at hr ⊢ with h92 h117
      · simp at hr
      · simp at hr
      · cases hh : parseHex4 ⟨ct2 ++ r1, st, top⟩ with
        | fault w => rw [hh] at hr; simp at hr
        | timeout => rw [hh] at hr; simp at hr
        | ret u e q1 =>
          rw [hh] at hr
          cases e with
          | some err => simp at hr
          | none =>
            simp only [] at hr
            by_cases hlow : ¬ (0xDC00 ≤ u ∧ u ≤ 0xDFFF)
            · rw [if_pos hlow] at hr
              simp at hr
            · rw [if_neg hlow] at hr
              simp only [Res.ret.injEq, true_and] at hr
              obtain ⟨hx, hq⟩ := hr
              subst hq
              obtain ⟨c2, hc2, hrun⟩ := parseHex4_follows r1 r2 ct2 st top u q1 hh hlen
              refine ⟨c2, hc2, ?_⟩
              rw [hrun]
              simp only []
              rw [if_neg hlow, hx]

theorem parseEscape_u (head : Nat) (p : Parser) :
    parseEscape head 117 p =
      match parseHex4 p with
      | .fault w => .fault w
      | .timeout => .timeout
      | .ret _ (some err) p => .ret () (some err) { p with top := head }
      | .ret u none p =>
        if 0xD800 ≤ u ∧ u ≤ 0xDBFF then
          match parseSurrogate head u p with
          | .fault w => .fault w
          | .timeout => .timeout
          | .ret _ (some err) p => .ret () (some err) p
          | .ret u none p => .ret () none (p.encodeUTF8 u)
        else .ret () none (p.encodeUTF8 u) := rfl

theorem parseEscape_follows (r1 r2 : List Nat) (head ch : Nat) (c st : List Nat) (top : Nat) :
    Res.follows r1 r2 (parseEscape head ch ⟨c ++ r1, st, top⟩)
      (parseEscape head ch ⟨c ++ r2, st, top⟩) := by
  by_cases hu : ch = 117
  · subst hu
    intro x q hr hlen
    rw [parseEscape_u] at hr ⊢
    cases hh : parseHex4 ⟨c ++ r1, st, top⟩ with
    | fault w => rw [hh] at hr; simp at hr
    | timeout => rw [hh] at hr; simp at hr
    | ret u e q1 =>
      rw [hh] at hr
      cases e with
      | some err => simp at hr
      | none =>
        simp only [] at hr
        by_cases hhi : 0xD800 ≤ u ∧ u ≤ 0xDBFF
        · rw [if_pos hhi] at hr
          cases hs : parseSurrogate head u q1 with
          | fault w => rw [hs] at hr; simp at hr
          | timeout => rw [hs] at hr; simp at hr
          | ret u2 e2 q2 =>
            rw [hs] at hr
            cases e2 with
            | some err => simp at hr
            | none =>
              injection hr with _ _ hq
              subst hq
              have hl2 : r1.length ≤ q2.json.length := by
                simpa [Parser.encodeUTF8, Parser.pushs] using hlen
              have hw2 := parseSurrogate_lt head u q1 u2 q2 hs
              obtain ⟨c1, hc1, hrun1⟩ := parseHex4_follows r1 r2 c st top u q1 hh (by omega)
              rw [parser_eq q1 _ hc1] at hs
              obtain ⟨c2, hc2, hrun2⟩ :=
                parseSurrogate_follows r1 r2 head u c1 q1.stack q1.top u2 q2 hs hl2
              refine ⟨c2, by simpa [Parser.encodeUTF8, Parser.pushs] using hc2, ?_⟩
              rw [hrun1]
              simp only []
              rw [if_pos hhi, hrun2]
              simp [Parser.encodeUTF8, Parser.pushs]
        · rw [if_neg hhi] at hr
          injection hr with _ _ hq
          subst hq
          have hl1 : r1.length ≤ q1.json.length := by
            simpa [Parser.encodeUTF8, Parser.pushs] using hlen
          obtain ⟨c1, hc1, hrun1⟩ := parseHex4_follows r1 r2 c st top u q1 hh hl1
          refine ⟨c1, by simpa [Parser.encodeUTF8, Parser.pushs] using hc1, ?_⟩
          rw [hrun1]
          simp only []
          rw [if_neg hhi]
          simp [Parser.encodeUTF8, Parser.pushs]
  · unfold parseEscape
    rw [if_neg hu, if_neg hu]
    split_ifs
    · exact follows_ret r1 r2 c _ _ _
    · exact follows_ret r1 r2 c _ _ _
    · exact follows_ret r1 r2 c _ _ _
    · exact follows_ret r1 r2 c _ _ _
    · exact follows_ret r1 r2 c _ _ _
    · exact follows_ret r1 r2 c _ _ _
    · exact follows_ret r1 r2 c _ _ _
    · exact follows_ret r1 r2 c _ _ _
    · exact follows_err r1 r2 _ _ _ _

/-- Every return of the loop of `parseStringRaw` comes after a byte was
read. -/
theorem parseStringRawLoop_lt (head : Nat) :
    ∀ (fuel : Nat) (p : Parser) (x : List Nat) (e : Option Err) (q : Parser),
      parseStringRawLoop head fuel p = .ret x e q → q.json.length < p.json.length := by
  intro fuel
  induction fuel with
  | zero => intro p x e q h; simp [parseStringRawLoop] at h
  | succ fuel ih =>
    intro p x e q h
    obtain ⟨json, st, top⟩ := p
    cases json with
    | nil => simp [parseStringRawLoop] at h
    | cons ch rest =>
      simp only [parseStringRawLoop] at h
      split_ifs at h
      · injection h with _ _ hq
        subst hq
        simp
      · simp only [Parser.pop] at h
        split_ifs at h
        simp only [Res.ret.injEq] at h
        obtain ⟨_, _, hq⟩ := h
        subst hq
        simp
      · cases rest with
        | nil => simp at h
        | cons ch2 rest2 =>
          simp only [] at h
          have hx := parseEscape_within head ch2 ⟨rest2, st, top⟩
          cases hr : parseEscape head ch2 ⟨rest2, st, top⟩ with
          | fault w => rw [hr] at h; simp at h
          | timeout => rw [hr] at h; simp at h
          | ret u e1 q1 =>
            rw [hr] at h hx
            simp only [Res.within] at hx
            cases e1 with
            | some err =>
              injection h with _ _ hq
              subst hq
              simp only [List.length_cons]
              omega
            | none =>
              have := ih q1 x e q h
              simp only [List.length_cons]
              omega
      · injection h with _ _ hq
        subst hq
        simp
      · have := ih _ x e q h
        simp only [Parser.push, List.length_cons] at this ⊢
        omega

/-- A loop of `parseStringRaw` that returns without error and starts at
another byte than the quote reads that byte and at least one more. -/
theorem parseStringRawLoop_lt2 (head fuel ch : Nat) (rest st : List Nat) (top : Nat)
    (x : List Nat) (q : Parser) (h34 : ch ≠ 34)
    (h : parseStringRawLoop head fuel ⟨ch :: rest, st, top⟩ = .ret x none q) :
    q.json.length < rest.length := by
  cases fuel with
  | zero => simp [parseStringRawLoop] at h
  | succ fuel =>
    simp only [parseStringRawLoop] at h
    split_ifs at h
    · simp at h
    · cases rest with
      | nil => simp at h
      | cons ch2 rest2 =>
        simp only [] at h
        have hx := parseEscape_within head ch2 ⟨rest2, st, top⟩
        cases hr : parseEscape head ch2 ⟨rest2, st, top⟩ with
        | fault w => rw [hr] at h; simp at h
        | timeout => rw [hr] at h; simp at h
        | ret u e1 q1 =>
          rw [hr] at h hx
          simp only [Res.within] at hx
          cases e1 with
          | some err => simp at h
          | none =>
            have := parseStringRawLoop_lt head fuel q1 x none q h
            simp only [List.length_cons]
            omega
    · simp at h
    · have := parseStringRawLoop_lt head fuel _ x none q h
      simpa [Parser.push] using this

theorem parseStringRawLoop_follows (r1 r2 : List Nat) (head : Nat) :
    ∀ (fuel1 fuel2 : Nat) (c st : List Nat) (top : Nat), c.length < fuel2 →
      Res.follows r1 r2 (parseStringRawLoop head fuel1 ⟨c ++ r1, st, top⟩)
        (parseStringRawLoop head fuel2 ⟨c ++ r2, st, top⟩) := by
  intro fuel1
  induction fuel1 with
  | zero => intro fuel2 c st top _ x q h _; simp [parseStringRawLoop] at h
  | succ fuel1 ih =>
    intro fuel2 c st top hf x q h hlen
    have hlt := parseStringRawLoop_lt head _ _ x none q h
    simp only [List.length_append] at hlt
    cases c with
    | nil => simp only [List.length_nil] at hlt; omega
    | cons ch ct =>
      simp only [List.length_cons] at hf
      obtain ⟨f2, rfl⟩ : ∃ f2, fuel2 = f2 + 1 := ⟨fuel2 - 1, by omega⟩
      have h0 := h
      simp only [List.cons_append, parseStringRawLoop] at h ⊢
      by_cases h34 : ch = 34
      · have hc1 : ¬ ((ct ++ r1).length = 0 ∧ ch ≠ 34) := by simp [h34]
        have hc2 : ¬ ((ct ++ r2).length = 0 ∧ ch ≠ 34) := by simp [h34]
        rw [if_neg hc1, if_pos h34] at h
        rw [if_neg hc2, if_pos h34]
        simp only [Parser.pop] at h ⊢
        split_ifs at h ⊢
        simp only [Res.ret.injEq, true_and] at h
        obtain ⟨hx, hq⟩ := h
        subst hx
        subst hq
        exact ⟨ct, rfl, rfl⟩
      · have hl2 := parseStringRawLoop_lt2 head _ ch (ct ++ r1) st top x q h34 h0
        have hct : ct ≠ [] := by
          intro hz
          subst hz
          simp only [List.nil_append] at hl2
          omega
        obtain ⟨ch2, ct2, rfl⟩ := List.exists_cons_of_ne_nil hct
        have hc1 : ¬ ((ch2 :: ct2 ++ r1).length = 0 ∧ ch ≠ 34) := by simp
        have hc2 : ¬ ((ch2 :: ct2 ++ r2).length = 0 ∧ ch ≠ 34) := by simp
        rw [if_neg hc1, if_neg h34] at h
        rw [if_neg hc2, if_neg h34]
        simp only [List.length_cons] at hf
        by_cases h92 : ch = 92
        · rw [if_pos h92] at h ⊢
          simp only [List.cons_append] at h ⊢
          cases hr : parseEscape head ch2 ⟨ct2 ++ r1, st, top⟩ with
          | fault w => rw [hr] at h; simp at h
          | timeout => rw [hr] at h; simp at h
          | ret u e1 q1 =>
            rw [hr] at h
            cases e1 with
            | some err => simp at h
            | none =>
              simp only [] at h
              have hlt1 := parseStringRawLoop_lt head fuel1 q1 x none q h
              have hw := within_ret (parseEscape_within head ch2 ⟨ct2 ++ r1, st, top⟩) hr
              obtain ⟨c1, hc1', hrun⟩ :=
                parseEscape_follows r1 r2 head ch2 ct2 st top u q1 hr (by omega)
              rw [hrun]
              simp only []
              rw [parser_eq q1 _ hc1'] at h
              have hc1len : c1.length ≤ ct2.length := by
                rw [hc1'] at hw
                simp only [List.length_append] at hw
                omega
              exact ih f2 c1 q1.stack q1.top (by omega) x q h hlen
        · rw [if_neg h92] at h ⊢
          by_cases hctl : ch < 0x20
          · rw [if_pos hctl] at h
            simp at h
          · rw [if_neg hctl] at h ⊢
            exact ih f2 (ch2 :: ct2) _ _ (by simp only [List.length_cons]; omega) x q h hlen

/-- A `parseStringRaw` that returns without error reads at least the two
quotes. -/
theorem parseStringRaw_lt (p : Parser) (x : List Nat) (q : Parser)
    (h : parseStringRaw p = .ret x none q) : q.json.length + 2 ≤ p.json.length := by
  obtain ⟨json, st, top⟩ := p
  unfold parseStringRaw at h
  split_ifs at h
  · simp at h
  · cases json with
    | nil => simp at h
    | cons c rest =>
      simp only [] at h
      split_ifs at h
      · simp at h
      · have := parseStringRawLoop_lt top _ _ x none q h
        simp only [List.length_cons] at this ⊢
        omega

theorem parseStringRaw_quote (ch2 : Nat) (rest st : List Nat) (top : Nat) :
    parseStringRaw ⟨34 :: ch2 :: rest, st, top⟩ =
      parseStringRawLoop top ((ch2 :: rest).length + 1) ⟨ch2 :: rest, st, top⟩ := by
  simp [parseStringRaw]

theorem parseStringRaw_no_quote (ch : Nat) (rest st : List Nat) (top : Nat) (h34 : ch ≠ 34) :
    parseStringRaw ⟨ch :: rest, st, top⟩ =
      .ret [] (some (Errorf "missing close \x27\"\x27")) ⟨ch :: rest, st, top⟩ := by
  simp [parseStringRaw, h34]

theorem parseStringRaw_follows (r1 r2 c st : List Nat) (top : Nat) :
    Res.follows r1 r2 (parseStringRaw ⟨c ++ r1, st, top⟩)
      (parseStringRaw ⟨c ++ r2, st, top⟩) := by
  intro x q h hlen
  have hlt := parseStringRaw_lt _ x q h
  simp only [List.length_append] at hlt
  cases c with
  | nil => simp only [List.length_nil] at hlt; omega
  | cons ch ct =>
    cases ct with
    | nil => simp only [List.length_cons, List.length_nil] at hlt; omega
    | cons ch2 ct2 =>
      simp only [List.cons_append] at h ⊢
      by_cases h34 : ch = 34
      · subst h34
        rw [parseStringRaw_quote] at h ⊢
        exact parseStringRawLoop_follows r1 r2 top _ _ (ch2 :: ct2) st top
          (by simp only [List.length_cons, List.length_append]; omega) x q h hlen
      · rw [parseStringRaw_no_quote _ _ _ _ h34] at h
        simp at h

theorem parseString_follows (r1 r2 c st : List Nat) (top : Nat) :
    Res.follows r1 r2 (parseString ⟨c ++ r1, st, top⟩) (parseString ⟨c ++ r2, st, top⟩) := by
  intro x q h hlen
  unfold parseString at h ⊢
  cases hr : parseStringRaw ⟨c ++ r1, st, top⟩ with
  | fault w => rw [hr] at h; simp at h
  | timeout => rw [hr] at h; simp at h
  | ret s e q1 =>
    rw [hr] at h
    cases e with
    | some err => simp at h
    | none =>
      injection h with hx _ hq
      subst hq
      obtain ⟨c2, hc2, hrun⟩ := parseStringRaw_follows r1 r2 c st top s q1 hr hlen
      exact ⟨c2, hc2, by rw [hrun]; simp only []; rw [hx]⟩

theorem takeWhile_append_stable (p : Nat → Bool) (r1 r2 : List Nat)
    (h2 : ∀ b, r2.head? = some b → p b = false) :
    ∀ l : List Nat, ((l ++ r1).takeWhile p).length ≤ l.length →
      (l ++ r2).takeWhile p = (l ++ r1).takeWhile p := by
  intro l
  induction l with
  | nil =>
    intro h
    simp only [List.nil_append, List.length_nil, Nat.le_zero, List.length_eq_zero] at h ⊢
    rw [h]
    cases r2 with
    | nil => rfl
    | cons b t => simp [List.takeWhile_cons, h2 b rfl]
  | cons a l ih =>
    intro h
    simp only [List.cons_append, List.takeWhile_cons] at h ⊢
    cases hp : p a with
    | true =>
      simp only [hp, if_true, List.length_cons] at h ⊢
      rw [ih (by omega)]
    | false => simp [hp]

theorem digitsLoop_ge (json : List Nat) (j : Nat) : j ≤ digitsLoop json j := by
  unfold digitsLoop
  omega

theorem digitsLoop_stable (c r1 r2 : List Nat) (h2 : endsNumber r2) (j : Nat)
    (h : digitsLoop (c ++ r1) j ≤ c.length) :
    digitsLoop (c ++ r2) j = digitsLoop (c ++ r1) j := by
  have hj : j ≤ c.length := le_trans (digitsLoop_ge _ _) h
  unfold digitsLoop at h ⊢
  rw [List.drop_append_of_le_length hj] at h
  rw [List.drop_append_of_le_length hj, List.drop_append_of_le_length hj]
  rw [takeWhile_append_stable isDigit r1 r2 (fun b hb => (h2 b hb).1) (c.drop j)
    (by rw [List.length_drop]; omega)]

theorem getElem?_append_both (c r1 r2 : List Nat) (m : Nat) (hm : m < c.length) :
    (c ++ r2)[m]? = (c ++ r1)[m]? := by
  rw [List.getElem?_append_left hm, List.getElem?_append_left hm]

theorem parseNumberInt_gt (json : List Nat) (j k : Nat) (h : parseNumberInt json j = some k) :
    j + 1 ≤ k := by
  unfold parseNumberInt at h
  by_cases h48 : json[j]? = some 48
  · rw [if_pos h48] at h
    simp only [Option.some.injEq] at h
    omega
  · rw [if_neg h48] at h
    cases hc : json[j]? with
    | none => rw [hc] at h; simp at h
    | some b =>
      rw [hc] at h
      cases hd : isDigit1To9 b
      · simp [hd] at h
      · simp only [hd, Bool.not_true, Bool.false_eq_true, if_false, Option.some.injEq] at h
        have := digitsLoop_ge json (j + 1)
        omega

theorem parseNumberFrac_ge (json : List Nat) (j k : Nat) (h : parseNumberFrac json j = some k) :
    j ≤ k := by
  unfold parseNumberFrac at h
  by_cases h46 : json[j]? = some 46
  · rw [if_pos h46] at h
    cases hc : json[j + 1]? with
    | none => rw [hc] at h; simp at h
    | some b =>
      rw [hc] at h
      cases hd : isDigit b
      · simp [hd] at h
      · simp only [hd, Bool.not_true, Bool.false_eq_true, if_false, Option.some.injEq] at h
        have := digitsLoop_ge json (j + 1 + 1)
        omega
  · rw [if_neg h46] at h
    simp only [Option.some.injEq] at h
    omega

theorem parseNumberExp_ge (json : List Nat) (j k : Nat) (h : parseNumberExp json j = some k) :
    j ≤ k := by
  unfold parseNumberExp at h
  by_cases he : json[j]? = some 101 ∨ json[j]? = some 69
  · rw [if_pos he] at h
    simp only [] at h
    generalize hi : (if json[j + 1]? = some 43 ∨ json[j + 1]? = some 45 then j + 1 + 1
      else j + 1) = i at h
    have hij : j + 1 ≤ i := by
      rw [← hi]
      split_ifs <;> omega
    cases hc : json[i]? with
    | none => rw [hc] at h; simp at h
    | some b =>
      rw [hc] at h
      cases hd : isDigit b
      · simp [hd] at h
      · simp only [hd, Bool.not_true, Bool.false_eq_true, if_false, Option.some.injEq] at h
        have := digitsLoop_ge json (i + 1)
        omega
  · rw [if_neg he] at h
    simp only [Option.some.injEq] at h
    omega

theorem lt_of_getElem? (l : List Nat) (j b : Nat) (h : l[j]? = some b) : j < l.length := by
  by_contra hh
  rw [List.getElem?_eq_none (by omega)] at h
  simp at h

theorem takeWhile_length_le (p : Nat → Bool) :
    ∀ l : List Nat, (l.takeWhile p).length ≤ l.length := by
  intro l
  induction l with
  | nil => simp
  | cons a l ih =>
    simp only [List.takeWhile_cons]
    split_ifs
    · simp only [List.length_cons]
      omega
    · simp

theorem digitsLoop_le (json : List Nat) (j : Nat) (hj : j ≤ json.length) :
    digitsLoop json j ≤ json.length := by
  unfold digitsLoop
  have h1 := takeWhile_length_le isDigit (json.drop j)
  rw [List.length_drop] at h1
  omega

theorem parseNumberInt_le (json : List Nat) (j k : Nat) (h : parseNumberInt json j = some k) :
    k ≤ json.length := by
  unfold parseNumberInt at h
  by_cases h48 : json[j]? = some 48
  · rw [if_pos h48] at h
    simp only [Option.some.injEq] at h
    have := lt_of_getElem? _ _ _ h48
    omega
  · rw [if_neg h48] at h
    cases hc : json[j]? with
    | none => rw [hc] at h; simp at h
    | some b =>
      rw [hc] at h
      cases hd : isDigit1To9 b
      · simp [hd] at h
      · simp only [hd, Bool.not_true, Bool.false_eq_true, if_false, Option.some.injEq] at h
        have h1 := lt_of_getElem? _ _ _ hc
        have := digitsLoop_le json (j + 1) (by omega)
        omega

theorem parseNumberFrac_le (json : List Nat) (j k : Nat) (h : parseNumberFrac json j = some k)
    (hj : j ≤ json.length) : k ≤ json.length := by
  unfold parseNumberFrac at h
  by_cases h46 : json[j]? = some 46
  · rw [if_pos h46] at h
    cases hc : json[j + 1]? with
    | none => rw [hc] at h; simp at h
    | some b =>
      rw [hc] at h
      cases hd : isDigit b
      · simp [hd] at h
      · simp only [hd, Bool.not_true, Bool.false_eq_true, if_false, Option.some.injEq] at h
        have h1 := lt_of_getElem? _ _ _ hc
        have := digitsLoop_le json (j + 1 + 1) (by omega)
        omega
  · rw [if_neg h46] at h
    simp only [Option.some.injEq] at h
    omega

theorem parseNumberExp_le (json : List Nat) (j k : Nat) (h : parseNumberExp json j = some k)
    (hj : j ≤ json.length) : k ≤ json.length := by
  unfold parseNumberExp at h
  by_cases he : json[j]? = some 101 ∨ json[j]? = some 69
  · rw [if_pos he] at h
    simp only [] at h
    generalize hi : (if json[j + 1]? = some 43 ∨ json[j + 1]? = some 45 then j + 1 + 1
      else j + 1) = i at h
    cases hc : json[i]? with
    | none => rw [hc] at h; simp at h
    | some b =>
      rw [hc] at h
      cases hd : isDigit b
      · simp [hd] at h
      · simp only [hd, Bool.not_true, Bool.false_eq_true, if_false, Option.some.injEq] at h
        have h1 := lt_of_getElem? _ _ _ hc
        have := digitsLoop_le json (i + 1) (by omega)
        omega
  · rw [if_neg he] at h
    simp only [Option.some.injEq] at h
    omega

theorem parseNumberInt_stable (c r1 r2 : List Nat) (h2 : endsNumber r2) (j k : Nat)
    (h : parseNumberInt (c ++ r1) j = some k) (hk : k ≤ c.length) :
    parseNumberInt (c ++ r2) j = some k := by
  have hj := parseNumberInt_gt _ _ _ h
  have e2 := getElem?_append_both c r1 r2 j (by omega)
  unfold parseNumberInt at h ⊢
  rw [e2]
  by_cases h48 : (c ++ r1)[j]? = some 48
  · rw [if_pos h48] at h ⊢
    exact h
  · rw [if_neg h48] at h ⊢
    cases hc : (c ++ r1)[j]? with
    | none => rw [hc] at h; simp at h
    | some b =>
      rw [hc] at h
      cases hd : isDigit1To9 b
      · simp [hd] at h
      · simp only [hd, Bool.not_true, Bool.false_eq_true, if_false, Option.some.injEq] at h ⊢
        rw [digitsLoop_stable c r1 r2 h2 (j + 1) (by omega)]
        exact h

theorem parseNumberFrac_stable (c r1 r2 : List Nat) (h2 : endsNumber r2) (j k : Nat)
    (h : parseNumberFrac (c ++ r1) j = some k) (hk : k ≤ c.length) :
    parseNumberFrac (c ++ r2) j = some k := by
  unfold parseNumberFrac at h ⊢
  by_cases h46 : (c ++ r1)[j]? = some 46
  · rw [if_pos h46] at h
    cases hc : (c ++ r1)[j + 1]? with
    | none => rw [hc] at h; simp at h
    | some b =>
      rw [hc] at h
      cases hd : isDigit b
      · simp [hd] at h
      · simp only [hd, Bool.not_true, Bool.false_eq_true, if_false, Option.some.injEq] at h
        have hge := digitsLoop_ge (c ++ r1) (j + 1 + 1)
        rw [getElem?_append_both c r1 r2 j (by omega), if_pos h46,
          getElem?_append_both c r1 r2 (j + 1) (by omega), hc]
        simp only [hd, Bool.not_true, Bool.false_eq_true, if_false, Option.some.injEq]
        rw [digitsLoop_stable c r1 r2 h2 (j + 1 + 1) (by omega)]
        exact h
  · rw [if_neg h46] at h
    simp only [Option.some.injEq] at h
    subst h
    have h46b : (c ++ r2)[j]? ≠ some 46 := by
      rcases Nat.lt_or_ge j c.length with hlt | hge
      · rw [getElem?_append_both c r1 r2 j hlt]
        exact h46
      · have hjc : j = c.length := by omega
        subst hjc
        rw [List.getElem?_append_right (le_refl _), Nat.sub_self]
        intro hh
        exact (h2 46 (by rw [List.head?_eq_getElem?]; exact hh)).2.1 rfl
    rw [if_neg h46b]

theorem parseNumberExp_stable (c r1 r2 : List Nat) (h2 : endsNumber r2) (j k : Nat)
    (h : parseNumberExp (c ++ r1) j = some k) (hk : k ≤ c.length) :
    parseNumberExp (c ++ r2) j = some k := by
  unfold parseNumberExp at h ⊢
  by_cases he : (c ++ r1)[j]? = some 101 ∨ (c ++ r1)[j]? = some 69
  · rw [if_pos he] at h
    simp only [] at h
    generalize hi : (if (c ++ r1)[j + 1]? = some 43 ∨ (c ++ r1)[j + 1]? = some 45 then j + 1 + 1
      else j + 1) = i at h
    have hij : j + 1 ≤ i := by
      rw [← hi]
      split_ifs <;> omega
    cases hc : (c ++ r1)[i]? with
    | none => rw [hc] at h; simp at h
    | some b =>
      rw [hc] at h
      cases hd : isDigit b
      · simp [hd] at h
      · simp only [hd, Bool.not_true, Bool.false_eq_true, if_false, Option.some.injEq] at h
        have hge := digitsLoop_ge (c ++ r1) (i + 1)
        rw [getElem?_append_both c r1 r2 j (by omega), if_pos he]
        simp only []
        rw [getElem?_append_both c r1 r2 (j + 1) (by omega), hi,
          getElem?_append_both c r1 r2 i (by omega), hc]
        simp only [hd, Bool.not_true, Bool.false_eq_true, if_false, Option.some.injEq]
        rw [digitsLoop_stable c r1 r2 h2 (i + 1) (by omega)]
        exact h
  · rw [if_neg he] at h
    simp only [Option.some.injEq] at h
    subst h
    have heb : ¬ ((c ++ r2)[j]? = some 101 ∨ (c ++ r2)[j]? = some 69) := by
      rcases Nat.lt_or_ge j c.length with hlt | hge
      · rw [getElem?_append_both c r1 r2 j hlt]
        exact he
      · have hjc : j = c.length := by omega
        subst hjc
        rw [List.getElem?_append_right (le_refl _), Nat.sub_self]
        intro hh
        rcases hh with hh | hh
        · exact (h2 101 (by rw [List.head?_eq_getElem?]; exact hh)).2.2.1 rfl
        · exact (h2 69 (by rw [List.head?_eq_getElem?]; exact hh)).2.2.2 rfl
    rw [if_neg heb]

theorem parseNumber_follows (lib : Strconv) (r1 r2 c st : List Nat) (top : Nat)
    (h2 : endsNumber r2) :
    Res.follows r1 r2 (parseNumber lib ⟨c ++ r1, st, top⟩)
      (parseNumber lib ⟨c ++ r2, st, top⟩) := by
  intro x q h hlen
  unfold parseNumber at h ⊢
  simp only [] at h ⊢
  cases hn : ((parseNumberInt (c ++ r1) (if (c ++ r1)[0]? = some 45 then 1 else 0)).bind
      (parseNumberFrac (c ++ r1))).bind (parseNumberExp (c ++ r1)) with
  | none => rw [hn] at h; simp at h
  | some k =>
    rw [hn] at h
    simp only [] at h
    obtain ⟨i2, hi2, hexp⟩ := Option.bind_eq_some.1 hn
    obtain ⟨i1, hint, hfrac⟩ := Option.bind_eq_some.1 hi2
    have g1 := parseNumberInt_gt _ _ _ hint
    have g2 := parseNumberFrac_ge _ _ _ hfrac
    have g3 := parseNumberExp_ge _ _ _ hexp
    have l1 := parseNumberInt_le _ _ _ hint
    have l2 := parseNumberFrac_le _ _ _ hfrac l1
    have l3 := parseNumberExp_le _ _ _ hexp l2
    rw [List.length_append] at l3
    have hk : k ≤ c.length := by
      rcases hpf : lib.ParseFloat (List.take k (c ++ r1)) with ⟨n, e⟩
      rw [hpf] at h
      have hq : q.json = List.drop k (c ++ r1) := by
        cases e with
        | none =>
          simp only [Res.ret.injEq, true_and] at h
          rw [← h.2]
        | some er =>
          cases er with
          | ErrRange => simp at h
          | ErrSyntax =>
            simp only [Res.ret.injEq, true_and] at h
            rw [← h.2]
      rw [hq, List.length_drop, List.length_append] at hlen
      omega
    have hn2 : ((parseNumberInt (c ++ r2) (if (c ++ r2)[0]? = some 45 then 1 else 0)).bind
        (parseNumberFrac (c ++ r2))).bind (parseNumberExp (c ++ r2)) = some k := by
      rw [getElem?_append_both c r1 r2 0 (by omega),
        parseNumberInt_stable c r1 r2 h2 _ i1 hint (by omega)]
      simp only [Option.some_bind]
      rw [parseNumberFrac_stable c r1 r2 h2 i1 i2 hfrac (by omega)]
      simp only [Option.some_bind]
      exact parseNumberExp_stable c r1 r2 h2 i2 k hexp hk
    rw [hn2]
    simp only []
    rw [List.take_append_of_le_length hk] at h
    rw [List.take_append_of_le_length hk]
    rw [List.drop_append_of_le_length hk] at h
    rw [List.drop_append_of_le_length hk]
    rcases hpf : lib.ParseFloat (List.take k c) with ⟨n, e⟩
    rw [hpf] at h
    cases e with
    | none =>
      simp only [Res.ret.injEq, true_and] at h
      obtain ⟨hx, hq⟩ := h
      subst hx
      subst hq
      exact ⟨List.drop k c, rfl, rfl⟩
    | some er =>
      cases er with
      | ErrRange => simp at h
      | ErrSyntax =>
        simp only [Res.ret.injEq, true_and] at h
        obtain ⟨hx, hq⟩ := h
        subst hx
        subst hq
        exact ⟨List.drop k c, rfl, rfl⟩

theorem parseWhiteSpaceLoop_split (c r1 r2 : List Nat)
    (h : r1.length < (parseWhiteSpaceLoop (c ++ r1)).length) :
    parseWhiteSpaceLoop c ≠ [] ∧
      parseWhiteSpaceLoop (c ++ r1) = parseWhiteSpaceLoop c ++ r1 ∧
      parseWhiteSpaceLoop (c ++ r2) = parseWhiteSpaceLoop c ++ r2 := by
  have hc : parseWhiteSpaceLoop c ≠ [] := by
    intro hc
    rw [parseWhiteSpaceLoop_append, if_pos hc] at h
    have := parseWhiteSpaceLoop_length r1
    omega
  exact ⟨hc, by rw [parseWhiteSpaceLoop_append, if_neg hc],
    by rw [parseWhiteSpaceLoop_append, if_neg hc]⟩

theorem parseWhiteSpaceLoop_fixed (c r : List Nat) (hr : parseWhiteSpaceLoop r = r) :
    parseWhiteSpaceLoop (c ++ r) = parseWhiteSpaceLoop c ++ r := by
  rw [parseWhiteSpaceLoop_append]
  by_cases hc : parseWhiteSpaceLoop c = []
  · rw [if_pos hc, hc, hr]
    rfl
  · rw [if_neg hc]

theorem parseWhiteSpaceLoop_step (c r1 r2 : List Nat) (d : Nat) (rest : List Nat)
    (h : parseWhiteSpaceLoop (c ++ r1) = d :: rest) (hlen : r1.length ≤ rest.length) :
    ∃ c', rest = c' ++ r1 ∧ parseWhiteSpaceLoop (c ++ r2) = d :: (c' ++ r2) ∧
      c'.length < c.length := by
  obtain ⟨hc, e1, e2⟩ := parseWhiteSpaceLoop_split c r1 r2
    (by rw [h]; simp only [List.length_cons]; omega)
  obtain ⟨d', c', hd⟩ := List.exists_cons_of_ne_nil hc
  have hl := parseWhiteSpaceLoop_length c
  rw [hd] at e1 e2 hl
  rw [e1, List.cons_append] at h
  injection h with h1 h2
  subst h1
  refine ⟨c', h2.symm, e2, ?_⟩
  simp only [List.length_cons] at hl
  omega

/-- The first round of a `parseArray` loop that returns without error: the
element is parsed, a delimiter `d` follows the white space after it, and the
loop ends no earlier than after `d`. -/
theorem parseArrayLoop_step (pv : Parser → Res Value) (n : Nat)
    (hpv : ∀ q : Parser, q.json.length ≤ n → (pv q).within q.json.length)
    (fuel : Nat) (p : Parser) (a : List Value) (x : Value) (q : Parser)
    (hn : p.json.length ≤ n) (hf : p.json.length < fuel)
    (h : parseArrayLoop pv fuel p a = .ret x none q) :
    ∃ e q1 d rest, pv p = .ret e none q1 ∧ q1.json.length ≤ p.json.length ∧
      parseWhiteSpaceLoop q1.json = d :: rest ∧ q.json.length ≤ rest.length := by
  cases fuel with
  | zero => omega
  | succ fuel =>
    simp only [parseArrayLoop] at h
    have hx := hpv p hn
    cases hr : pv p with
    | fault w => rw [hr] at h; simp at h
    | timeout => rw [hr] at h; simp at h
    | ret e err q1 =>
      rw [hr] at h hx
      simp only [Res.within] at hx
      cases err with
      | some er => simp at h
      | none =>
        simp only [Parser.parseWhiteSpace] at h
        cases hj : parseWhiteSpaceLoop q1.json with
        | nil => rw [hj] at h; simp at h
        | cons d rest =>
          rw [hj] at h
          simp only [] at h
          have hw := parseWhiteSpaceLoop_length q1.json
          rw [hj, List.length_cons] at hw
          refine ⟨e, q1, d, rest, rfl, hx, hj, ?_⟩
          by_cases h44 : d = 44
          · rw [if_pos h44] at h
            have hwr := parseWhiteSpaceLoop_length rest
            have := within_ret (parseArrayLoop_within pv n hpv fuel
              ⟨parseWhiteSpaceLoop rest, q1.stack, q1.top⟩ (a ++ [e])
              (by simp only []; omega) (by simp only []; omega)) h
            simp only [] at this
            omega
          · rw [if_neg h44] at h
            by_cases h93 : d = 93
            · rw [if_pos h93] at h
              injection h with _ _ hq
              subst hq
              exact le_refl _
            · rw [if_neg h93] at h
              simp at h

theorem parseArrayLoop_follows (pv1 pv2 : Parser → Res Value) (r1 r2 : List Nat) (m : Nat)
    (hw1 : ∀ q : Parser, q.json.length ≤ m + r1.length → (pv1 q).within q.json.length)
    (hf : ∀ (c st : List Nat) (top : Nat), c ≠ [] → c.length ≤ m →
      Res.follows r1 r2 (pv1 ⟨c ++ r1, st, top⟩) (pv2 ⟨c ++ r2, st, top⟩)) :
    ∀ (fuel1 fuel2 : Nat) (c st : List Nat) (top : Nat) (a : List Value), c.length ≤ m →
      (c ++ r1).length < fuel1 → c.length < fuel2 →
      Res.follows r1 r2 (parseArrayLoop pv1 fuel1 ⟨c ++ r1, st, top⟩ a)
        (parseArrayLoop pv2 fuel2 ⟨c ++ r2, st, top⟩ a) := by
  intro fuel1
  induction fuel1 with
  | zero => intro fuel2 c st top a _ h; omega
  | succ f1 ih =>
    intro fuel2 c st top a hm hf1 hf2 x q h hlen
    obtain ⟨e, q1, d, rest, hr, hq1, hj, hb⟩ := parseArrayLoop_step pv1 (m + r1.length) hw1
      (f1 + 1) ⟨c ++ r1, st, top⟩ a x q (by simp only [List.length_append]; omega) hf1 h
    have hwl := parseWhiteSpaceLoop_length q1.json
    rw [hj, List.length_cons] at hwl
    simp only [List.length_append] at hq1 hf1
    have hc : c ≠ [] := by
      rintro rfl
      simp only [List.length_nil] at hq1
      omega
    obtain ⟨c1, hc1, hrun⟩ := hf c st top hc hm e q1 hr (by omega)
    rw [hc1] at hj
    obtain ⟨c1', hrest, hws2, hlt⟩ := parseWhiteSpaceLoop_step c1 r1 r2 d rest hj (by omega)
    have hc1len : c1.length ≤ c.length := by
      rw [hc1, List.length_append] at hq1
      omega
    obtain ⟨f2, rfl⟩ : ∃ f2, fuel2 = f2 + 1 := ⟨fuel2 - 1, by omega⟩
    simp only [parseArrayLoop] at h ⊢
    rw [hr] at h
    rw [hrun]
    simp only [Parser.parseWhiteSpace] at h ⊢
    rw [hc1, hj] at h
    rw [hws2]
    simp only [] at h ⊢
    subst hrest
    by_cases h44 : d = 44
    · rw [if_pos h44] at h ⊢
      obtain ⟨e', q1', d', rest', _, hq1', hj', hb'⟩ := parseArrayLoop_step pv1 (m + r1.length)
        hw1 f1 ⟨parseWhiteSpaceLoop (c1' ++ r1), q1.stack, q1.top⟩ (a ++ [e]) x q
        (by
          have := parseWhiteSpaceLoop_length (c1' ++ r1)
          simp only [List.length_append] at this ⊢
          omega)
        (by
          have := parseWhiteSpaceLoop_length (c1' ++ r1)
          simp only [List.length_append] at this ⊢
          omega) h
      have hwl' := parseWhiteSpaceLoop_length q1'.json
      rw [hj', List.length_cons] at hwl'
      simp only [] at hq1'
      obtain ⟨hne, e1, e2⟩ := parseWhiteSpaceLoop_split c1' r1 r2 (by omega)
      rw [e1] at h
      rw [e2]
      have hl3 := parseWhiteSpaceLoop_length c1'
      exact ih f2 (parseWhiteSpaceLoop c1') q1.stack q1.top (a ++ [e]) (by omega)
        (by simp only [List.length_append]; omega) (by omega) x q h hlen
    · rw [if_neg h44] at h ⊢
      by_cases h93 : d = 93
      · rw [if_pos h93] at h ⊢
        simp only [Res.ret.injEq, true_and] at h
        obtain ⟨hx, hq⟩ := h
        subst hx
        subst hq
        exact ⟨c1', rfl, rfl⟩
      · rw [if_neg h93] at h
        simp at h

theorem parseArrayLoop_lt (pv : Parser → Res Value) (n : Nat)
    (hpv : ∀ q : Parser, q.json.length ≤ n → (pv q).within q.json.length)
    (fuel : Nat) (p : Parser) (a : List Value) (x : Value) (q : Parser)
    (hn : p.json.length ≤ n) (hf : p.json.length < fuel)
    (h : parseArrayLoop pv fuel p a = .ret x none q) : q.json.length < p.json.length := by
  obtain ⟨e, q1, d, rest, _, hq1, hj, hb⟩ := parseArrayLoop_step pv n hpv fuel p a x q hn hf h
  have hwl := parseWhiteSpaceLoop_length q1.json
  rw [hj, List.length_cons] at hwl
  omega

theorem parseArray_follows (pv1 pv2 : Parser → Res Value) (r1 r2 : List Nat) (m : Nat)
    (hw1 : ∀ q : Parser, q.json.length ≤ m + r1.length → (pv1 q).within q.json.length)
    (hf : ∀ (c st : List Nat) (top : Nat), c ≠ [] → c.length ≤ m →
      Res.follows r1 r2 (pv1 ⟨c ++ r1, st, top⟩) (pv2 ⟨c ++ r2, st, top⟩))
    (ch : Nat) (ct st : List Nat) (top : Nat) (hm : ct.length ≤ m) :
    Res.follows r1 r2 (parseArray pv1 ⟨ch :: ct ++ r1, st, top⟩)
      (parseArray pv2 ⟨ch :: ct ++ r2, st, top⟩) := by
  intro x q h hlen
  simp only [List.cons_append, parseArray, Parser.parseWhiteSpace] at h ⊢
  by_cases h91 : ch = 91
  · rw [if_neg (not_not.2 h91)] at h ⊢
    have hwl := parseWhiteSpaceLoop_length (ct ++ r1)
    rw [List.length_append] at hwl
    have key : r1.length < (parseWhiteSpaceLoop (ct ++ r1)).length := by
      by_cases h93 : (parseWhiteSpaceLoop (ct ++ r1)).head? = some 93
      · rw [if_pos h93] at h
        injection h with _ _ hq
        subst hq
        simp only [List.length_tail] at hlen
        cases hj : parseWhiteSpaceLoop (ct ++ r1) with
        | nil => rw [hj] at h93; simp at h93
        | cons d w =>
          rw [hj] at hlen
          simp only [List.length_cons] at hlen ⊢
          omega
      · rw [if_neg h93] at h
        have := parseArrayLoop_lt pv1 (m + r1.length) hw1 _ _ _ x q
          (by simp only []; omega) (Nat.lt_succ_self _) h
        simp only [] at this
        omega
    obtain ⟨hne, e1, e2⟩ := parseWhiteSpaceLoop_split ct r1 r2 key
    obtain ⟨d, w, hd⟩ := List.exists_cons_of_ne_nil hne
    have hlw := parseWhiteSpaceLoop_length ct
    rw [hd] at e1 e2 hlw
    rw [e1] at h
    rw [e2]
    simp only [List.cons_append, List.head?_cons, Option.some.injEq, List.tail_cons] at h ⊢
    simp only [List.length_cons] at hlw
    by_cases h93 : d = 93
    · rw [if_pos h93] at h ⊢
      simp only [Res.ret.injEq, true_and] at h
      obtain ⟨hx, hq⟩ := h
      subst hx
      subst hq
      exact ⟨w, rfl, rfl⟩
    · rw [if_neg h93] at h ⊢
      exact parseArrayLoop_follows pv1 pv2 r1 r2 m hw1 hf _ _ (d :: w) st top []
        (by simp only [List.length_cons]; omega) (Nat.lt_succ_self _)
        (by simp only [List.length_cons, List.length_append]; omega) x q h hlen
  · rw [if_pos h91] at h
    simp at h

/-- The first round of a `parseObject` loop that returns without error: the
key and the value are parsed, a delimiter `d` follows the white space after
the value, and the loop goes on after a comma or ends at the bracket. -/
theorem parseObjectLoop_step (pv : Parser → Res Value) (n : Nat)
    (hpv : ∀ q : Parser, q.json.length ≤ n → (pv q).within q.json.length)
    (fuel : Nat) (p : Parser) (o : List KV) (x : Value) (q : Parser)
    (hn : p.json.length ≤ n) (hf : p.json.length < fuel)
    (h : parseObjectLoop pv fuel p o = .ret x none q) :
    ∃ s q1 vv q2 d rest, p.json.head? = some 34 ∧ parseStringRaw p = .ret s none q1 ∧
      (parseWhiteSpaceLoop q1.json).head? = some 58 ∧
      pv ⟨parseWhiteSpaceLoop (parseWhiteSpaceLoop q1.json).tail, q1.stack, q1.top⟩ =
        .ret vv none q2 ∧
      parseWhiteSpaceLoop q2.json = d :: rest ∧
      q2.json.length ≤ (parseWhiteSpaceLoop (parseWhiteSpaceLoop q1.json).tail).length ∧
      q.json.length ≤ rest.length ∧
      ((d = 44 ∧ parseObjectLoop pv (fuel - 1) ⟨parseWhiteSpaceLoop rest, q2.stack, q2.top⟩
          (o ++ [(s, vv)]) = .ret x none q) ∨
        (d = 125 ∧ x = Value.mk [] 0 [] (o ++ [(s, vv)]) OBJECT ∧
          q = ⟨rest, q2.stack, q2.top⟩)) := by
  cases fuel with
  | zero => omega
  | succ fuel =>
    simp only [parseObjectLoop, Parser.parseWhiteSpace, Nat.add_sub_cancel] at h ⊢
    by_cases h34 : p.json.head? = some 34
    · rw [if_neg (not_not.2 h34)] at h
      cases hr : parseStringRaw p with
      | fault w => rw [hr] at h; simp at h
      | timeout => rw [hr] at h; simp at h
      | ret s err q1 =>
        rw [hr] at h
        cases err with
        | some er => simp at h
        | none =>
          simp only [] at h
          have hl1 := parseStringRaw_lt p s q1 hr
          by_cases h58 : (parseWhiteSpaceLoop q1.json).head? = some 58
          · rw [if_neg (not_not.2 h58)] at h
            have hl2 := parseWhiteSpaceLoop_length q1.json
            have hl3 := parseWhiteSpaceLoop_length (parseWhiteSpaceLoop q1.json).tail
            rw [List.length_tail] at hl3
            have hy := hpv
              ⟨parseWhiteSpaceLoop (parseWhiteSpaceLoop q1.json).tail, q1.stack, q1.top⟩
              (by simp only []; omega)
            cases hr2 : pv
              ⟨parseWhiteSpaceLoop (parseWhiteSpaceLoop q1.json).tail, q1.stack, q1.top⟩ with
            | fault w => rw [hr2] at h; simp at h
            | timeout => rw [hr2] at h; simp at h
            | ret vv err2 q2 =>
              rw [hr2] at h hy
              simp only [Res.within] at hy
              cases err2 with
              | some er => simp at h
              | none =>
                simp only [] at h
                cases hj : parseWhiteSpaceLoop q2.json with
                | nil => rw [hj] at h; simp at h
                | cons d rest =>
                  rw [hj] at h
                  simp only [] at h
                  have hl4 := parseWhiteSpaceLoop_length q2.json
                  rw [hj, List.length_cons] at hl4
                  by_cases h44 : d = 44
                  · rw [if_pos h44] at h
                    have hl5 := parseWhiteSpaceLoop_length rest
                    have := within_ret (parseObjectLoop_within pv n hpv fuel
                      ⟨parseWhiteSpaceLoop rest, q2.stack, q2.top⟩ (o ++ [(s, vv)])
                      (by simp only []; omega) (by simp only []; omega)) h
                    simp only [] at this
                    exact ⟨s, q1, vv, q2, d, rest, h34, rfl, h58, hr2, hj, hy, by omega,
                      Or.inl ⟨h44, h⟩⟩
                  · rw [if_neg h44] at h
                    by_cases h125 : d = 125
                    · rw [if_pos h125] at h
                      simp only [Res.ret.injEq, true_and] at h
                      exact ⟨s, q1, vv, q2, d, rest, h34, rfl, h58, hr2, hj, hy,
                        by rw [← h.2], Or.inr ⟨h125, h.1.symm, h.2.symm⟩⟩
                    · rw [if_neg h125] at h
                      simp at h
          · rw [if_pos h58] at h
            simp at h
    · rw [if_pos h34] at h
      simp at h

theorem parseObjectLoop_lt (pv : Parser → Res Value) (n : Nat)
    (hpv : ∀ q : Parser, q.json.length ≤ n → (pv q).within q.json.length)
    (fuel : Nat) (p : Parser) (o : List KV) (x : Value) (q : Parser)
    (hn : p.json.length ≤ n) (hf : p.json.length < fuel)
    (h : parseObjectLoop pv fuel p o = .ret x none q) : q.json.length < p.json.length := by
  obtain ⟨s, q1, vv, q2, d, rest, _, hr, _, _, hj, hq2, hb, _⟩ :=
    parseObjectLoop_step pv n hpv fuel p o x q hn hf h
  have hl1 := parseStringRaw_lt p s q1 hr
  have hl2 := parseWhiteSpaceLoop_length q1.json
  have hl3 := parseWhiteSpaceLoop_length (parseWhiteSpaceLoop q1.json).tail
  rw [List.length_tail] at hl3
  have hl4 := parseWhiteSpaceLoop_length q2.json
  rw [hj, List.length_cons] at hl4
  omega

end goson

namespace goson

open Type_ Err

theorem parseObjectLoop_follows (pv1 pv2 : Parser → Res Value) (r1 r2 : List Nat) (m : Nat)
    (hw1 : ∀ q : Parser, q.json.length ≤ m + r1.length → (pv1 q).within q.json.length)
    (hf : ∀ (c st : List Nat) (top : Nat), c ≠ [] → c.length ≤ m →
      Res.follows r1 r2 (pv1 ⟨c ++ r1, st, top⟩) (pv2 ⟨c ++ r2, st, top⟩)) :
    ∀ (fuel1 fuel2 : Nat) (c st : List Nat) (top : Nat) (o : List KV), c.length ≤ m →
      (c ++ r1).length < fuel1 → c.length < fuel2 →
      Res.follows r1 r2 (parseObjectLoop pv1 fuel1 ⟨c ++ r1, st, top⟩ o)
        (parseObjectLoop pv2 fuel2 ⟨c ++ r2, st, top⟩ o) := by
  intro fuel1
  induction fuel1 with
  | zero => intro fuel2 c st top o _ h; omega
  | succ f1 ih =>
    intro fuel2 c st top o hm hf1 hf2 x q h hlen
    obtain ⟨s, q1, vv, q2, d, rest, h34, hr, h58, hr2, hj, hq2, hb, hfin⟩ :=
      parseObjectLoop_step pv1 (m + r1.length) hw1 (f1 + 1) ⟨c ++ r1, st, top⟩ o x q
        (by simp only [List.length_append]; omega) hf1 h
    simp only [Nat.add_sub_cancel] at hfin
    have hl1 := parseStringRaw_lt _ s q1 hr
    have hl2 := parseWhiteSpaceLoop_length q1.json
    have hl3 := parseWhiteSpaceLoop_length (parseWhiteSpaceLoop q1.json).tail
    rw [List.length_tail] at hl3
    have hl4 := parseWhiteSpaceLoop_length q2.json
    rw [hj, List.length_cons] at hl4
    simp only [List.length_append] at hl1 hf1
    obtain ⟨c1, hc1, hrun1⟩ := parseStringRaw_follows r1 r2 c st top s q1 hr (by omega)
    have hc1len : c1.length + 2 ≤ c.length := by
      rw [hc1, List.length_append] at hl1
      omega
    rw [hc1] at h58 hr2 hq2 hl2 hl3
    obtain ⟨hne1, e1, e1'⟩ := parseWhiteSpaceLoop_split c1 r1 r2 (by omega)
    obtain ⟨d1, w1, hd1⟩ := List.exists_cons_of_ne_nil hne1
    have hlw1 := parseWhiteSpaceLoop_length c1
    rw [hd1] at e1 e1' hlw1
    rw [e1] at h58 hr2 hq2 hl3
    simp only [List.cons_append, List.head?_cons, Option.some.injEq, List.tail_cons,
      List.length_cons] at h58 hr2 hq2 hl3 hlw1
    obtain ⟨hne2, e2, e2'⟩ := parseWhiteSpaceLoop_split w1 r1 r2 (by omega)
    rw [e2] at hr2 hq2
    have hlw2 := parseWhiteSpaceLoop_length w1
    obtain ⟨c2, hc2, hrun2⟩ := hf (parseWhiteSpaceLoop w1) q1.stack q1.top hne2 (by omega)
      vv q2 hr2 (by omega)
    rw [hc2] at hj
    obtain ⟨c2', hrest, hws2, hlt⟩ := parseWhiteSpaceLoop_step c2 r1 r2 d rest hj (by omega)
    have hc2len : c2.length ≤ (parseWhiteSpaceLoop w1).length := by
      rw [hc2] at hq2
      simp only [List.length_append] at hq2
      omega
    have h34' : (c ++ r2).head? = some 34 := by
      cases c with
      | nil => simp at hc1len
      | cons ch ct => simpa using h34
    obtain ⟨f2, rfl⟩ : ∃ f2, fuel2 = f2 + 1 := ⟨fuel2 - 1, by omega⟩
    simp only [parseObjectLoop, Parser.parseWhiteSpace]
    rw [if_neg (not_not.2 h34'), hrun1]
    simp only []
    rw [e1']
    simp only [List.cons_append, List.head?_cons, List.tail_cons]
    rw [if_neg (not_not.2 (by rw [h58])), e2', hrun2]
    simp only []
    rw [hws2]
    simp only []
    subst hrest
    rcases hfin with ⟨h44, hloop⟩ | ⟨h125, hx, hq⟩
    · rw [if_pos h44]
      have hl5 := parseWhiteSpaceLoop_length (c2' ++ r1)
      rw [List.length_append] at hl5
      have hlt' := parseObjectLoop_lt pv1 (m + r1.length) hw1 f1
        ⟨parseWhiteSpaceLoop (c2' ++ r1), q2.stack, q2.top⟩ _ x q
        (by simp only []; omega) (by simp only []; omega) hloop
      simp only [] at hlt'
      obtain ⟨hne3, e3, e3'⟩ := parseWhiteSpaceLoop_split c2' r1 r2 (by omega)
      rw [e3] at hloop
      rw [e3']
      have hl6 := parseWhiteSpaceLoop_length c2'
      exact ih f2 (parseWhiteSpaceLoop c2') q2.stack q2.top _ (by omega)
        (by simp only [List.length_append]; omega) (by omega) x q hloop hlen
    · have h44 : ¬ d = 44 := by omega
      rw [if_neg h44, if_pos h125]
      subst hx
      subst hq
      exact ⟨c2', rfl, rfl⟩

theorem parseObject_follows (pv1 pv2 : Parser → Res Value) (r1 r2 : List Nat) (m : Nat)
    (hw1 : ∀ q : Parser, q.json.length ≤ m + r1.length → (pv1 q).within q.json.length)
    (hf : ∀ (c st : List Nat) (top : Nat), c ≠ [] → c.length ≤ m →
      Res.follows r1 r2 (pv1 ⟨c ++ r1, st, top⟩) (pv2 ⟨c ++ r2, st, top⟩))
    (ch : Nat) (ct st : List Nat) (top : Nat) (hm : ct.length ≤ m) :
    Res.follows r1 r2 (parseObject pv1 ⟨ch :: ct ++ r1, st, top⟩)
      (parseObject pv2 ⟨ch :: ct ++ r2, st, top⟩) := by
  intro x q h hlen
  simp only [List.cons_append, parseObject, Parser.parseWhiteSpace] at h ⊢
  by_cases h123 : ch = 123
  · rw [if_neg (not_not.2 h123)] at h ⊢
    have hwl := parseWhiteSpaceLoop_length (ct ++ r1)
    rw [List.length_append] at hwl
    have key : r1.length < (parseWhiteSpaceLoop (ct ++ r1)).length := by
      by_cases h125 : (parseWhiteSpaceLoop (ct ++ r1)).head? = some 125
      · rw [if_pos h125] at h
        injection h with _ _ hq
        subst hq
        simp only [List.length_tail] at hlen
        cases hj : parseWhiteSpaceLoop (ct ++ r1) with
        | nil => rw [hj] at h125; simp at h125
        | cons d w =>
          rw [hj] at hlen
          simp only [List.length_cons] at hlen ⊢
          omega
      · rw [if_neg h125] at h
        have := parseObjectLoop_lt pv1 (m + r1.length) hw1 _ _ _ x q
          (by simp only []; omega) (Nat.lt_succ_self _) h
        simp only [] at this
        omega
    obtain ⟨hne, e1, e2⟩ := parseWhiteSpaceLoop_split ct r1 r2 key
    obtain ⟨d, w, hd⟩ := List.exists_cons_of_ne_nil hne
    have hlw := parseWhiteSpaceLoop_length ct
    rw [hd] at e1 e2 hlw
    rw [e1] at h
    rw [e2]
    simp only [List.cons_append, List.head?_cons, Option.some.injEq, List.tail_cons] at h ⊢
    simp only [List.length_cons] at hlw
    by_cases h125 : d = 125
    · rw [if_pos h125] at h ⊢
      simp only [Res.ret.injEq, true_and] at h
      obtain ⟨hx, hq⟩ := h
      subst hx
      subst hq
      exact ⟨w, rfl, rfl⟩
    · rw [if_neg h125] at h ⊢
      exact parseObjectLoop_follows pv1 pv2 r1 r2 m hw1 hf _ _ (d :: w) st top []
        (by simp only [List.length_cons]; omega) (Nat.lt_succ_self _)
        (by simp only [List.length_cons, List.length_append]; omega) x q h hlen
  · rw [if_pos h123] at h
    simp at h

/-- With enough fuel on both sides, a `parseValue` that returns without error
on `c ++ r1` and leaves at least `r1` unread returns the same value on
`c ++ r2` and leaves `r2` behind what it left of `c`, provided `r2` does not
continue a number. -/
theorem parseValue_follows (lib : Strconv) (r1 r2 : List Nat) (h2 : endsNumber r2) :
    ∀ (f1 f2 : Nat) (c st : List Nat) (top : Nat), c ≠ [] → (c ++ r1).length < f1 →
      (c ++ r2).length < f2 →
      Res.follows r1 r2 (parseValue lib f1 ⟨c ++ r1, st, top⟩)
        (parseValue lib f2 ⟨c ++ r2, st, top⟩) := by
  intro f1
  induction f1 with
  | zero => intro f2 c st top _ h; omega
  | succ f1 ih =>
    intro f2 c st top hc hf1 hf2
    obtain ⟨g2, rfl⟩ : ∃ g2, f2 = g2 + 1 := ⟨f2 - 1, by omega⟩
    obtain ⟨ch, ct, rfl⟩ := List.exists_cons_of_ne_nil hc
    simp only [List.cons_append, List.length_cons, List.length_append] at hf1 hf2
    have hw1 : ∀ q : Parser, q.json.length ≤ ct.length + r1.length →
        (parseValue lib f1 q).within q.json.length :=
      fun q hq => parseValue_within lib f1 q (by omega)
    have hf : ∀ (c st : List Nat) (top : Nat), c ≠ [] → c.length ≤ ct.length →
        Res.follows r1 r2 (parseValue lib f1 ⟨c ++ r1, st, top⟩)
          (parseValue lib g2 ⟨c ++ r2, st, top⟩) :=
      fun c st top hc hcl => ih g2 c st top hc
        (by simp only [List.length_append]; omega) (by simp only [List.length_append]; omega)
    simp only [List.cons_append, parseValue]
    split_ifs
    · exact parseLiteral_follows r1 r2 (ch :: ct) st top _ _
    · exact parseLiteral_follows r1 r2 (ch :: ct) st top _ _
    · exact parseLiteral_follows r1 r2 (ch :: ct) st top _ _
    · exact parseString_follows r1 r2 (ch :: ct) st top
    · exact parseArray_follows _ _ r1 r2 ct.length hw1 hf ch ct st top (le_refl _)
    · exact parseObject_follows _ _ r1 r2 ct.length hw1 hf ch ct st top (le_refl _)
    · exact parseNumber_follows lib r1 r2 (ch :: ct) st top h2

/-- A `Parse` that returns without error: `parseValue` returned on the text
after its leading white space, only white space was left, and the scratch
buffer was empty. -/
theorem Parse_ok_inv (lib : Strconv) (s : List Nat) (v : Value) (p : Parser)
    (h : Parse lib s = .ret v none p) :
    ∃ q, parseValue lib (s.length + 1) ⟨parseWhiteSpaceLoop s, [], 0⟩ = .ret v none q ∧
      parseWhiteSpaceLoop q.json = [] ∧ q.top = 0 ∧ p = ⟨[], [], 0⟩ := by
  unfold Parse Parser.Parse Parser.zero at h
  simp only [Parser.parseWhiteSpace] at h
  cases hr : parseValue lib (s.length + 1) ⟨parseWhiteSpaceLoop s, [], 0⟩ with
  | fault w => rw [hr] at h; simp at h
  | timeout => rw [hr] at h; simp at h
  | ret v1 err q =>
    rw [hr] at h
    cases err with
    | some er =>
      simp only [] at h
      split_ifs at h
      simp at h
    | none =>
      simp only [] at h
      by_cases hl : (parseWhiteSpaceLoop q.json).length ≠ 0
      · rw [if_pos hl] at h
        simp at h
      · rw [if_neg hl] at h
        by_cases htop : q.top ≠ 0
        · rw [if_pos htop] at h
          simp at h
        · rw [if_neg htop] at h
          simp only [Res.ret.injEq, true_and] at h
          have hl0 : parseWhiteSpaceLoop q.json = [] := by
            simpa using hl
          have ht0 : q.top = 0 := by
            simpa using htop
          refine ⟨q, ?_, hl0, ht0, ?_⟩
          · rw [h.1]
          · rw [← h.2, hl0, ht0]

/-- The rest of `Parse` after a `parseValue` that returned without error. -/
theorem Parse_of_parseValue (lib : Strconv) (s : List Nat) (v : Value) (q : Parser)
    (hr : parseValue lib (s.length + 1) ⟨parseWhiteSpaceLoop s, [], 0⟩ = .ret v none q) :
    Parse lib s =
      if (parseWhiteSpaceLoop q.json).length ≠ 0 then
        .ret Value.zero (some ErrParseRootNotSingular) ⟨parseWhiteSpaceLoop q.json, q.stack, q.top⟩
      else if q.top ≠ 0 then .fault .StackNotEmpty
      else .ret v none ⟨parseWhiteSpaceLoop q.json, [], q.top⟩ := by
  unfold Parse Parser.Parse Parser.zero
  simp only [Parser.parseWhiteSpace]
  rw [hr]

theorem parseWhiteSpaceLoop_not_white (s : List Nat) (h : ∃ b ∈ s, ¬ isWhite b) :
    parseWhiteSpaceLoop s ≠ [] := by
  induction s with
  | nil =>
    obtain ⟨b, hb, _⟩ := h
    simp at hb
  | cons c tl ih =>
    simp only [parseWhiteSpaceLoop]
    by_cases hc : c = 32 ∨ c = 9 ∨ c = 10 ∨ c = 13
    · rw [if_pos hc]
      apply ih
      obtain ⟨b, hb, hnb⟩ := h
      rcases List.mem_cons.1 hb with rfl | hb
      · exact (hnb hc).elim
      · exact ⟨b, hb, hnb⟩
    · rw [if_neg hc]
      simp

theorem parseWhiteSpaceLoop_head (b : Nat) (t : List Nat) (hb : ¬ isWhite b) :
    parseWhiteSpaceLoop (b :: t) = b :: t := by
  simp only [parseWhiteSpaceLoop]
  exact if_neg hb

theorem endsNumber_white (r : List Nat) (h : ∀ b, r.head? = some b → isWhite b) :
    endsNumber r := by
  intro b hb
  rcases h b hb with rfl | rfl | rfl | rfl <;> decide

theorem endsNumber_of_white (w : List Nat) (hw : ∀ x ∈ w, isWhite x) : endsNumber w := by
  apply endsNumber_white
  intro x hx
  cases w with
  | nil => simp at hx
  | cons y tl =>
    simp only [List.head?_cons, Option.some.injEq] at hx
    subst hx
    exact hw _ (List.mem_cons_self _ _)

theorem parseWhiteSpaceLoop_white_append (w r : List Nat) (hw : parseWhiteSpaceLoop w = []) :
    parseWhiteSpaceLoop (w ++ r) = parseWhiteSpaceLoop r := by
  rw [parseWhiteSpaceLoop_append, if_pos hw]

/-- C19. When `Parse` returns a value and no error on a text `s` that holds a
byte other than white space, then on `s`, a space and a further text that
begins with a byte other than white space it returns the zero value and
`ErrParseRootNotSingular`; and on `s` between two texts of white space only it
returns the same value as on `s`, and no error. -/
theorem Parse_root_singular (lib : Strconv) (s w1 w2 t : List Nat) (b : Nat) (v : Value)
    (p : Parser) (hs : ∃ x ∈ s, ¬ isWhite x) (h : Parse lib s = .ret v none p)
    (hb : ¬ isWhite b) (hw1 : ∀ x ∈ w1, isWhite x) (hw2 : ∀ x ∈ w2, isWhite x) :
    (∃ q, Parse lib (s ++ [32] ++ b :: t) =
        .ret Value.zero (some ErrParseRootNotSingular) q) ∧
      Parse lib (w1 ++ s ++ w2) = .ret v none p := by
  obtain ⟨q, hr, hq, htop, hp⟩ := Parse_ok_inv lib s v p h
  have hne := parseWhiteSpaceLoop_not_white s hs
  have hl := parseWhiteSpaceLoop_length s
  have hr0 : parseValue lib (s.length + 1) ⟨parseWhiteSpaceLoop s ++ [], [], 0⟩ =
      .ret v none q := by
    rw [List.append_nil]
    exact hr
  constructor
  · have e : parseWhiteSpaceLoop (s ++ [32] ++ b :: t) =
        parseWhiteSpaceLoop s ++ ([32] ++ b :: t) := by
      rw [List.append_assoc, parseWhiteSpaceLoop_append, if_neg hne]
    obtain ⟨c2, hc2, hrun⟩ := parseValue_follows lib [] ([32] ++ b :: t)
      (endsNumber_white _ (fun x hx => by
        simp only [List.singleton_append, List.head?_cons, Option.some.injEq] at hx
        subst hx
        exact Or.inl rfl))
      (s.length + 1) ((s ++ [32] ++ b :: t).length + 1) (parseWhiteSpaceLoop s) [] 0 hne
      (by simp only [List.length_append, List.length_nil]; omega)
      (by simp only [List.length_append, List.length_cons, List.length_nil]; omega)
      v q hr0 (Nat.zero_le _)
    rw [← e] at hrun
    rw [Parse_of_parseValue lib _ v _ hrun]
    simp only []
    rw [List.append_nil] at hc2
    have e2 : parseWhiteSpaceLoop (c2 ++ ([32] ++ b :: t)) = b :: t := by
      rw [parseWhiteSpaceLoop_white_append c2 _ (hc2 ▸ hq),
        parseWhiteSpaceLoop_white_append [32] _ rfl, parseWhiteSpaceLoop_head b t hb]
    rw [e2, if_pos (by simp)]
    exact ⟨_, rfl⟩
  · have e : parseWhiteSpaceLoop (w1 ++ s ++ w2) = parseWhiteSpaceLoop s ++ w2 := by
      rw [List.append_assoc, parseWhiteSpaceLoop_white_append w1 _
        (parseWhiteSpaceLoop_white w1 hw1), parseWhiteSpaceLoop_append, if_neg hne]
    obtain ⟨c2, hc2, hrun⟩ := parseValue_follows lib [] w2 (endsNumber_of_white w2 hw2)
      (s.length + 1) ((w1 ++ s ++ w2).length + 1) (parseWhiteSpaceLoop s) [] 0 hne
      (by simp only [List.length_append, List.length_nil]; omega)
      (by simp only [List.length_append]; omega)
      v q hr0 (Nat.zero_le _)
    rw [← e] at hrun
    rw [Parse_of_parseValue lib _ v _ hrun]
    simp only []
    rw [List.append_nil] at hc2
    have e2 : parseWhiteSpaceLoop (c2 ++ w2) = [] := by
      rw [parseWhiteSpaceLoop_white_append c2 _ (hc2 ▸ hq), parseWhiteSpaceLoop_white w2 hw2]
    rw [e2, if_neg (by simp), if_neg (by simp [htop]), hp, htop]

/-- Instance of `Parse_root_singular`: the text `[1]`, followed by a space and
`x`, and between a space and a line feed. -/
theorem Parse_root_singular_witness :
    (∃ q, Parse (Strconv.mk (fun _ => (0, none)) (fun _ => [])) ([91, 49, 93] ++ [32] ++ 120 :: []) =
        .ret Value.zero (some ErrParseRootNotSingular) q) ∧
      Parse (Strconv.mk (fun _ => (0, none)) (fun _ => [])) ([32] ++ [91, 49, 93] ++ [10]) =
        .ret (Value.mk [] 0 [Value.mk [] 0 [] [] NUMBER] [] ARRAY) none ⟨[], [], 0⟩ :=
  Parse_root_singular (Strconv.mk (fun _ => (0, none)) (fun _ => [])) [91, 49, 93] [32] [10] []
    120 (Value.mk [] 0 [Value.mk [] 0 [] [] NUMBER] [] ARRAY) ⟨[], [], 0⟩
    ⟨91, by simp, by simp [isWhite]⟩ rfl (by simp [isWhite]) (by simp [isWhite])
    (by simp [isWhite])

end goson

namespace goson

open Type_ Err

theorem parseValue_bracket (lib : Strconv) (f : Nat) (st : List Nat) (top : Nat) :
    parseValue lib (f + 1) ⟨[93], st, top⟩ =
      .ret Value.zero (some ErrParseInvalidValue) ⟨[93], st, top⟩ := by
  rfl

theorem parseValue_array (lib : Strconv) (f : Nat) (j st : List Nat) (top : Nat) :
    parseValue lib (f + 1) ⟨91 :: j, st, top⟩ =
      parseArray (parseValue lib f) ⟨91 :: j, st, top⟩ := by
  rfl

/-- The rest of `Parse` after a `parseValue` that returned an error. -/
theorem Parse_of_parseValue_err (lib : Strconv) (s : List Nat) (v : Value) (e : Err)
    (q : Parser)
    (hr : parseValue lib (s.length + 1) ⟨parseWhiteSpaceLoop s, [], 0⟩ = .ret v (some e) q) :
    Parse lib s =
      if q.top ≠ 0 then .fault .StackNotEmpty else .ret v (some e) ⟨q.json, [], q.top⟩ := by
  unfold Parse Parser.Parse Parser.zero
  simp only [Parser.parseWhiteSpace]
  rw [hr]

/-- A `parseArray` loop that returns without error at the closing bracket that
ends the text returns `ErrParseInvalidValue` at that bracket when a comma
stands before it. -/
theorem parseArrayLoop_trailing (pv1 pv2 : Parser → Res Value) (m : Nat)
    (hw1 : ∀ q : Parser, q.json.length ≤ m + 1 → (pv1 q).within q.json.length)
    (hf : ∀ (c st : List Nat) (top : Nat), c ≠ [] → c.length ≤ m →
      Res.follows [93] [44, 93] (pv1 ⟨c ++ [93], st, top⟩) (pv2 ⟨c ++ [44, 93], st, top⟩))
    (h1 : ∀ (st : List Nat) (top : Nat) (x : Value) (q : Parser),
      pv1 ⟨[93], st, top⟩ ≠ .ret x none q)
    (h2 : ∀ (st : List Nat) (top : Nat), pv2 ⟨[93], st, top⟩ =
      .ret Value.zero (some ErrParseInvalidValue) ⟨[93], st, top⟩) :
    ∀ (fuel1 fuel2 : Nat) (c st : List Nat) (top : Nat) (a : List Value) (x : Value)
      (q : Parser), c.length ≤ m → (c ++ [93]).length < fuel1 → c.length + 1 < fuel2 →
      parseArrayLoop pv1 fuel1 ⟨c ++ [93], st, top⟩ a = .ret x none q →
      parseWhiteSpaceLoop q.json = [] →
      parseArrayLoop pv2 fuel2 ⟨c ++ [44, 93], st, top⟩ a =
        .ret Value.zero (some ErrParseInvalidValue) ⟨[93], q.stack, q.top⟩ := by
  intro fuel1
  induction fuel1 with
  | zero => intro fuel2 c st top a x q _ h; omega
  | succ f1 ih =>
    intro fuel2 c st top a x q hm hf1 hf2 h hq
    obtain ⟨e, q1, d, rest, hr, hq1, hj, hb⟩ := parseArrayLoop_step pv1 (m + 1) hw1 (f1 + 1)
      ⟨c ++ [93], st, top⟩ a x q
      (by simp only [List.length_append, List.length_cons, List.length_nil]; omega) hf1 h
    have hc : c ≠ [] := by
      rintro rfl
      exact h1 st top e q1 hr
    have hcl : 0 < c.length := List.length_pos.2 hc
    have hwl := parseWhiteSpaceLoop_length q1.json
    rw [hj, List.length_cons] at hwl
    simp only [List.length_append, List.length_cons, List.length_nil] at hq1 hf1
    obtain ⟨c1, hc1, hrun⟩ := hf c st top hc hm e q1 hr
      (by simp only [List.length_cons, List.length_nil]; omega)
    have hc1len : c1.length ≤ c.length := by
      rw [hc1] at hq1
      simp only [List.length_append, List.length_cons, List.length_nil] at hq1
      omega
    have e1 : parseWhiteSpaceLoop (c1 ++ [93]) = parseWhiteSpaceLoop c1 ++ [93] :=
      parseWhiteSpaceLoop_fixed c1 [93] rfl
    have e2 : parseWhiteSpaceLoop (c1 ++ [44, 93]) = parseWhiteSpaceLoop c1 ++ [44, 93] :=
      parseWhiteSpaceLoop_fixed c1 [44, 93] rfl
    obtain ⟨f2, rfl⟩ : ∃ f2, fuel2 = f2 + 1 := ⟨fuel2 - 1, by omega⟩
    simp only [parseArrayLoop] at h ⊢
    rw [hr] at h
    rw [hrun]
    simp only [Parser.parseWhiteSpace] at h ⊢
    rw [hc1, e1] at h
    rw [e2]
    have hlw := parseWhiteSpaceLoop_length c1
    cases hw : parseWhiteSpaceLoop c1 with
    | nil =>
      rw [hw] at h
      simp only [List.nil_append] at h ⊢
      simp only [if_true] at h ⊢
      injection h with _ _ hq'
      subst hq'
      obtain ⟨f3, rfl⟩ : ∃ f3, f2 = f3 + 1 := ⟨f2 - 1, by omega⟩
      have e3 : parseWhiteSpaceLoop [93] = [93] := rfl
      rw [e3]
      simp only [parseArrayLoop]
      rw [h2]
    | cons d' c1' =>
      rw [hw] at h hlw
      simp only [List.cons_append] at h ⊢
      simp only [List.length_cons] at hlw
      by_cases h44 : d' = 44
      · rw [if_pos h44] at h ⊢
        rw [parseWhiteSpaceLoop_fixed c1' [93] rfl] at h
        rw [parseWhiteSpaceLoop_fixed c1' [44, 93] rfl]
        have hl2 := parseWhiteSpaceLoop_length c1'
        exact ih f2 (parseWhiteSpaceLoop c1') q1.stack q1.top (a ++ [e]) x q (by omega)
          (by simp only [List.length_append, List.length_cons, List.length_nil]; omega)
          (by omega) h hq
      · rw [if_neg h44] at h ⊢
        by_cases h93 : d' = 93
        · rw [if_pos h93] at h
          simp only [Res.ret.injEq, true_and] at h
          obtain ⟨_, hq'⟩ := h
          subst hq'
          simp only [] at hq
          rw [parseWhiteSpaceLoop_fixed c1' [93] rfl] at hq
          simp at hq
        · rw [if_neg h93] at h
          simp at h

/-- C20. When `Parse` returns an array with at least one element, and no
error, on a text `[` s `]`, then on the text `[` s `,]` it returns the zero
value and `ErrParseInvalidValue`: the comma before the closing bracket is
reported as an invalid value, not as a missing comma or bracket. -/
theorem Parse_trailing_comma (lib : Strconv) (s : List Nat) (v : Value) (p : Parser)
    (h : Parse lib ([91] ++ s ++ [93]) = .ret v none p) (ht : v.t = ARRAY) (ha : v.a ≠ []) :
    Parse lib ([91] ++ s ++ [44, 93]) =
      .ret Value.zero (some ErrParseInvalidValue) ⟨[93], [], 0⟩ := by
  obtain ⟨q, hr, hq, htop, hp⟩ := Parse_ok_inv lib _ v p h
  have t1 : [91] ++ s ++ [93] = 91 :: (s ++ [93]) := rfl
  have t2 : [91] ++ s ++ [44, 93] = 91 :: (s ++ [44, 93]) := rfl
  have hnw : ¬ isWhite 91 := by simp [isWhite]
  rw [t1, parseWhiteSpaceLoop_head 91 _ hnw, List.length_cons, parseValue_array] at hr
  simp only [parseArray, Parser.parseWhiteSpace] at hr
  rw [if_neg (by decide), parseWhiteSpaceLoop_fixed s [93] rfl] at hr
  have hlw := parseWhiteSpaceLoop_length s
  cases hw : parseWhiteSpaceLoop s with
  | nil =>
    rw [hw] at hr
    simp only [List.nil_append, List.head?_cons, if_true] at hr
    injection hr with hv
    subst hv
    exact (ha rfl).elim
  | cons d w =>
    rw [hw] at hr hlw
    simp only [List.cons_append, List.head?_cons, Option.some.injEq] at hr
    simp only [List.length_cons] at hlw
    by_cases h93 : d = 93
    · rw [if_pos h93] at hr
      injection hr with hv
      subst hv
      exact (ha rfl).elim
    · rw [if_neg h93] at hr
      have hw1 : ∀ q : Parser, q.json.length ≤ s.length + 1 →
          (parseValue lib ((s ++ [93]).length + 1) q).within q.json.length :=
        fun q hq => parseValue_within lib _ q
          (by simp only [List.length_append, List.length_cons, List.length_nil]; omega)
      have hen : endsNumber [44, 93] := by
        intro b hb
        simp only [List.head?_cons, Option.some.injEq] at hb
        subst hb
        decide
      have hfol : ∀ (c st : List Nat) (top : Nat), c ≠ [] → c.length ≤ s.length →
          Res.follows [93] [44, 93]
            (parseValue lib ((s ++ [93]).length + 1) ⟨c ++ [93], st, top⟩)
            (parseValue lib ((s ++ [44, 93]).length + 1) ⟨c ++ [44, 93], st, top⟩) := by
        intro c st top hc hcl
        have g1 : (c ++ [93]).length < (s ++ [93]).length + 1 := by
          simp only [List.length_append, List.length_cons, List.length_nil]
          omega
        have g2 : (c ++ [44, 93]).length < (s ++ [44, 93]).length + 1 := by
          simp only [List.length_append, List.length_cons, List.length_nil]
          omega
        exact parseValue_follows lib [93] [44, 93] hen _ _ c st top hc g1 g2
      have hb1 : ∀ (st : List Nat) (top : Nat) (x : Value) (q : Parser),
          parseValue lib ((s ++ [93]).length + 1) ⟨[93], st, top⟩ ≠ .ret x none q := by
        intro st top x q hh
        rw [parseValue_bracket] at hh
        simp at hh
      have hb2 : ∀ (st : List Nat) (top : Nat),
          parseValue lib ((s ++ [44, 93]).length + 1) ⟨[93], st, top⟩ =
            .ret Value.zero (some ErrParseInvalidValue) ⟨[93], st, top⟩ :=
        fun st top => parseValue_bracket lib _ st top
      have hr' : parseArrayLoop (parseValue lib ((s ++ [93]).length + 1))
          ((d :: (w ++ [93])).length + 1) ⟨(d :: w) ++ [93], [], 0⟩ [] = .ret v none q := hr
      have g0 : (d :: w).length ≤ s.length := by
        simp only [List.length_cons]
        omega
      have g1 : ((d :: w) ++ [93]).length < (d :: (w ++ [93])).length + 1 := by
        simp only [List.length_cons, List.length_append, List.length_nil]
        omega
      have g2 : (d :: w).length + 1 < (d :: (w ++ [44, 93])).length + 1 := by
        simp only [List.length_cons, List.length_append, List.length_nil]
        omega
      have hloop : parseArrayLoop (parseValue lib ((s ++ [44, 93]).length + 1))
          ((d :: (w ++ [44, 93])).length + 1) ⟨(d :: w) ++ [44, 93], [], 0⟩ [] =
          .ret Value.zero (some ErrParseInvalidValue) ⟨[93], q.stack, q.top⟩ :=
        parseArrayLoop_trailing _ _ s.length hw1 hfol hb1 hb2 _ _ (d :: w) [] 0 [] v q g0 g1 g2
          hr' hq
      have hrun : parseValue lib (([91] ++ s ++ [44, 93]).length + 1)
          ⟨parseWhiteSpaceLoop ([91] ++ s ++ [44, 93]), [], 0⟩ =
          .ret Value.zero (some ErrParseInvalidValue) ⟨[93], q.stack, q.top⟩ := by
        rw [t2, parseWhiteSpaceLoop_head 91 _ hnw, List.length_cons, parseValue_array]
        simp only [parseArray, Parser.parseWhiteSpace]
        rw [if_neg (by decide), parseWhiteSpaceLoop_fixed s [44, 93] rfl, hw]
        simp only [List.cons_append, List.head?_cons, Option.some.injEq]
        rw [if_neg h93]
        exact hloop
      rw [Parse_of_parseValue_err lib _ _ _ _ hrun]
      simp only []
      rw [if_neg (by simp [htop]), htop]

/-- Instance of `Parse_trailing_comma`: the text `[null, false]` gives an
array of two elements, the text `[null, false,]` an invalid value. -/
theorem Parse_trailing_comma_witness :
    Parse (Strconv.mk (fun _ => (0, none)) (fun _ => []))
        ([91] ++ [110, 117, 108, 108, 44, 32, 102, 97, 108, 115, 101] ++ [44, 93]) =
      .ret Value.zero (some ErrParseInvalidValue) ⟨[93], [], 0⟩ :=
  Parse_trailing_comma (Strconv.mk (fun _ => (0, none)) (fun _ => []))
    [110, 117, 108, 108, 44, 32, 102, 97, 108, 115, 101]
    (Value.mk [] 0 [Value.mk [] 0 [] [] NULL, Value.mk [] 0 [] [] FALSE] [] ARRAY) ⟨[], [], 0⟩
    rfl rfl (List.cons_ne_nil _ _)

end goson

namespace goson

open Type_ Err

/-! ## Getters -/

/-- C24. The getters check the tag: `getNumber` returns no error exactly on
the tag `NUMBER`, and then the stored number; `getString` exactly on the tag
`STRING`, and then the stored text; `getBoolean` exactly on the tags `TRUE`
and `FALSE`, and then `true` for `TRUE` and `false` for `FALSE`;
`getArrayElement` and `getObjectValue` return the zero value and a type error
on every other tag than `ARRAY` and `OBJECT`, whatever the index or the key;
and after `setNumber(x)`, `setString(s)` or `setBoolean(b)` on any value the
getter of that type returns `x`, `s` or `b`, and no error. -/
theorem getters_spec (v : Value) (x : Nat) (s : List Nat) (b : Bool) (index : Int)
    (key : List Nat) :
    ((getNumber v).2 = none ↔ v.t = NUMBER) ∧ (v.t = NUMBER → getNumber v = (v.n, none)) ∧
    ((getString v).2 = none ↔ v.t = STRING) ∧ (v.t = STRING → getString v = (v.s, none)) ∧
    ((getBoolean v).2 = none ↔ (v.t = TRUE ∨ v.t = FALSE)) ∧
    (v.t = TRUE → getBoolean v = (true, none)) ∧
    (v.t = FALSE → getBoolean v = (false, none)) ∧
    (v.t ≠ ARRAY →
      getArrayElement v index = .done (Value.zero, some (Errorf "value type is not array"))) ∧
    (v.t ≠ OBJECT →
      getObjectValue v key = (Value.zero, some (Errorf "value type is not object"))) ∧
    getNumber (v.setNumber x) = (x, none) ∧ getString (v.setString s) = (s, none) ∧
    getBoolean (v.setBoolean b) = (b, none) := by
  cases v with
  | mk s0 n0 a0 o0 t0 =>
    refine ⟨?_, ?_, ?_, ?_, ?_, ?_, ?_, ?_, ?_, ?_, ?_, ?_⟩
    · cases t0 <;> simp [getNumber, Value.t]
    · intro h
      simp only [Value.t] at h
      subst h
      rfl
    · cases t0 <;> simp [getString, Value.t]
    · intro h
      simp only [Value.t] at h
      subst h
      rfl
    · cases t0 <;> simp [getBoolean, Value.t]
    · intro h
      simp only [Value.t] at h
      subst h
      rfl
    · intro h
      simp only [Value.t] at h
      subst h
      rfl
    · intro h
      unfold getArrayElement
      rw [if_pos h]
    · intro h
      unfold getObjectValue
      rw [if_pos h]
    · cases t0 <;> rfl
    · cases t0 <;> rfl
    · cases t0 <;> cases b <;> rfl

/-! ## stringifyString and the escape map -/

/-- On a scalar value the body of the loop of `stringifyString` appends the
image under the escape map. -/
theorem stringifyRune_eq_escapeMap (c : Nat) (hc : isScalar c) :
    stringifyRune c = escapeMap c := by
  unfold stringifyRune escapeMap
  by_cases h1 : c = 34
  · rw [if_pos h1, if_pos h1]
  rw [if_neg h1, if_neg h1]
  by_cases h2 : c = 92
  · rw [if_pos h2, if_pos h2]
  rw [if_neg h2, if_neg h2]
  by_cases h3 : c = 8
  · rw [if_pos h3, if_pos h3]
  rw [if_neg h3, if_neg h3]
  by_cases h4 : c = 12
  · rw [if_pos h4, if_pos h4]
  rw [if_neg h4, if_neg h4]
  by_cases h5 : c = 10
  · rw [if_pos h5, if_pos h5]
  rw [if_neg h5, if_neg h5]
  by_cases h6 : c = 13
  · rw [if_pos h6, if_pos h6]
  rw [if_neg h6, if_neg h6]
  by_cases h7 : c = 9
  · rw [if_pos h7, if_pos h7]
  rw [if_neg h7, if_neg h7]
  by_cases h8 : c < 0x20
  · rw [if_pos h8, if_pos h8]
    have e1 : c / 4096 % 16 = 0 := by omega
    have e2 : c / 256 % 16 = 0 := by omega
    have e3 : c / 16 % 16 = c / 16 := by omega
    have e4 : c % 16 < 16 := by omega
    simp only [sprintfU04X, e1, e2, e3, upperHexDigit, hexChar, if_true]
    simp
  · rw [if_neg h8, if_neg h8]
    exact EncodeRune_eq_utf8Bytes c hc

theorem stringifyStringLoop_flatMap (cs : List Nat) (h : ∀ c ∈ cs, isScalar c) :
    stringifyStringLoop (cs.flatMap utf8Bytes) 0 = cs.flatMap escapeMap := by
  induction cs with
  | nil => rfl
  | cons c cs ih =>
    have hc := h c (List.mem_cons_self _ _)
    rw [List.flatMap_cons, List.flatMap_cons, stringifyStringLoop_utf8Bytes c hc,
      stringifyRune_eq_escapeMap c hc, ih (fun x hx => h x (List.mem_cons_of_mem _ hx))]

theorem hexChar_bounds (d : Nat) (hd : d < 16) :
    0x20 ≤ hexChar true d ∧ hexChar true d ≠ 34 ∧ hexChar true d ≠ 92 := by
  unfold hexChar
  split_ifs <;> omega

/-- No byte of an image under the escape map is a control character. -/
theorem escapeMap_no_control (c : Nat) (hc : isScalar c) : ∀ b ∈ escapeMap c, 0x20 ≤ b := by
  unfold escapeMap
  by_cases h8 : c < 0x20
  · have b1 := hexChar_bounds (c / 16) (by omega)
    have b2 := hexChar_bounds (c % 16) (by omega)
    split_ifs <;> intro b hb <;> simp at hb <;> omega
  · have hp : ∀ b ∈ utf8Bytes c, 0x20 ≤ b := by
      obtain ⟨s1, s2⟩ := hc
      unfold utf8Bytes
      split_ifs <;> intro b hb <;> simp at hb <;> omega
    split_ifs <;> first | exact hp | (intro b hb; simp at hb; omega)

theorem unescapedQuote_plain (b : Nat) (tail : List Nat) (h1 : b ≠ 34) (h2 : b ≠ 92) :
    unescapedQuote (b :: tail) = unescapedQuote tail := by
  cases tail with
  | nil => simp [unescapedQuote, h1]
  | cons d rest => simp [unescapedQuote, h1, h2]

theorem unescapedQuote_plain_append (bs : List Nat) (tail : List Nat)
    (h : ∀ b ∈ bs, b ≠ 34 ∧ b ≠ 92) :
    unescapedQuote (bs ++ tail) = unescapedQuote tail := by
  induction bs with
  | nil => rfl
  | cons b bs ih =>
    obtain ⟨h1, h2⟩ := h b (List.mem_cons_self _ _)
    rw [List.cons_append, unescapedQuote_plain b _ h1 h2,
      ih (fun x hx => h x (List.mem_cons_of_mem _ hx))]

theorem unescapedQuote_escape (d : Nat) (tail : List Nat) :
    unescapedQuote (92 :: d :: tail) = unescapedQuote tail := by
  simp [unescapedQuote]

/-- An image under the escape map holds no quote that is not escaped, and
ends outside an escape. -/
theorem unescapedQuote_escapeMap (c : Nat) (hc : isScalar c) (tail : List Nat) :
    unescapedQuote (escapeMap c ++ tail) = unescapedQuote tail := by
  unfold escapeMap
  by_cases h1 : c = 34
  · rw [if_pos h1]; exact unescapedQuote_escape _ _
  rw [if_neg h1]
  by_cases h2 : c = 92
  · rw [if_pos h2]; exact unescapedQuote_escape _ _
  rw [if_neg h2]
  by_cases h3 : c = 8
  · rw [if_pos h3]; exact unescapedQuote_escape _ _
  rw [if_neg h3]
  by_cases h4 : c = 12
  · rw [if_pos h4]; exact unescapedQuote_escape _ _
  rw [if_neg h4]
  by_cases h5 : c = 10
  · rw [if_pos h5]; exact unescapedQuote_escape _ _
  rw [if_neg h5]
  by_cases h6 : c = 13
  · rw [if_pos h6]; exact unescapedQuote_escape _ _
  rw [if_neg h6]
  by_cases h7 : c = 9
  · rw [if_pos h7]; exact unescapedQuote_escape _ _
  rw [if_neg h7]
  by_cases h8 : c < 0x20
  · rw [if_pos h8]
    have b1 := hexChar_bounds (c / 16) (by omega)
    have b2 := hexChar_bounds (c % 16) (by omega)
    show unescapedQuote (92 :: 117 :: ([48, 48, hexChar true (c / 16), hexChar true (c % 16)]
      ++ tail)) = unescapedQuote tail
    rw [unescapedQuote_escape]
    apply unescapedQuote_plain_append
    intro b hb
    simp only [List.mem_cons, List.mem_singleton, List.not_mem_nil, or_false] at hb
    rcases hb with rfl | rfl | rfl | rfl
    · exact ⟨by decide, by decide⟩
    · exact ⟨by decide, by decide⟩
    · exact ⟨b1.2.1, b1.2.2⟩
    · exact ⟨b2.2.1, b2.2.2⟩
  · rw [if_neg h8]
    apply unescapedQuote_plain_append
    intro b hb
    have := utf8Bytes_plain c hc (by omega) h1 h2 b hb
    exact ⟨this.2.1, this.2.2⟩

theorem unescapedQuote_flatMap (cs : List Nat) (h : ∀ c ∈ cs, isScalar c) :
    unescapedQuote (cs.flatMap escapeMap) = false := by
  induction cs with
  | nil => rfl
  | cons c cs ih =>
    rw [List.flatMap_cons, unescapedQuote_escapeMap c (h c (List.mem_cons_self _ _)),
      ih (fun x hx => h x (List.mem_cons_of_mem _ hx))]

/-- C23. For every sequence `cs` of code points (Unicode scalar values),
`stringifyString` of its UTF-8 text is a quote, the images of the code points
under the escape map, in order, and a quote; between the two quotes there is
no control character and no quote that is not escaped. -/
theorem stringifyString_escapeMap (cs : List Nat) (h : ∀ c ∈ cs, isScalar c) :
    stringifyString (cs.flatMap utf8Bytes) = [34] ++ cs.flatMap escapeMap ++ [34] ∧
      (∀ b ∈ cs.flatMap escapeMap, 0x20 ≤ b) ∧
      unescapedQuote (cs.flatMap escapeMap) = false := by
  refine ⟨?_, ?_, unescapedQuote_flatMap cs h⟩
  · unfold stringifyString
    rw [stringifyStringLoop_flatMap cs h]
  · intro b hb
    obtain ⟨c, hc, hbc⟩ := List.mem_flatMap.1 hb
    exact escapeMap_no_control c (h c hc) b hbc

/-- Instance of `stringifyString_escapeMap`: the code points quote, `/`,
U+0001, line feed, U+007F, U+00E9 and U+1D11E. -/
theorem stringifyString_escapeMap_witness :
    stringifyString ([34, 47, 1, 10, 127, 0xE9, 0x1D11E].flatMap utf8Bytes) =
        [34] ++ [34, 47, 1, 10, 127, 0xE9, 0x1D11E].flatMap escapeMap ++ [34] ∧
      (∀ b ∈ [34, 47, 1, 10, 127, 0xE9, 0x1D11E].flatMap escapeMap, 0x20 ≤ b) ∧
      unescapedQuote ([34, 47, 1, 10, 127, 0xE9, 0x1D11E].flatMap escapeMap) = false :=
  stringifyString_escapeMap [34, 47, 1, 10, 127, 0xE9, 0x1D11E] (by
    intro c hc
    simp only [List.mem_cons, List.mem_singleton, List.not_mem_nil, or_false] at hc
    unfold isScalar
    rcases hc with rfl | rfl | rfl | rfl | rfl | rfl | rfl <;> omega)

end goson

namespace goson

open Type_ Err

/-! ## Numbers with a leading zero, and texts that open no value -/

theorem isDigit_range (b : Nat) (h : isDigit b = true) : 48 ≤ b ∧ b ≤ 57 := by
  simp only [isDigit, isDigit1To9, Bool.or_eq_true, beq_iff_eq, Bool.and_eq_true,
    decide_eq_true_eq] at h
  omega

theorem isDigit_false (b : Nat) (h : isDigit b = false) : b < 48 ∨ 57 < b := by
  simp only [isDigit, isDigit1To9, Bool.or_eq_false_iff, beq_eq_false_iff_ne,
    Bool.and_eq_false_iff, decide_eq_false_iff_not] at h
  omega

/-- On a text that begins with a byte that opens no literal, string, array or
object, `parseValue` is `parseNumber`. -/
theorem parseValue_number (lib : Strconv) (f c : Nat) (u st : List Nat) (top : Nat)
    (h : c ≠ 116 ∧ c ≠ 102 ∧ c ≠ 110 ∧ c ≠ 34 ∧ c ≠ 91 ∧ c ≠ 123) :
    parseValue lib (f + 1) ⟨c :: u, st, top⟩ = parseNumber lib ⟨c :: u, st, top⟩ := by
  obtain ⟨h1, h2, h3, h4, h5, h6⟩ := h
  simp only [parseValue]
  rw [if_neg h1, if_neg h2, if_neg h3, if_neg h4, if_neg h5, if_neg h6]

/-- After a leading `0` the number ends where a digit follows. -/
theorem parseNumber_zero (lib : Strconv) (b : Nat) (t st : List Nat) (top : Nat)
    (hb : isDigit b = true) (h0 : (lib.ParseFloat [48]).2 ≠ some NumError.ErrRange) :
    parseNumber lib ⟨48 :: b :: t, st, top⟩ =
      .ret (Value.mk [] (lib.ParseFloat [48]).1 [] [] NUMBER) none ⟨b :: t, st, top⟩ := by
  have hr := isDigit_range b hb
  have h46 : ¬ b = 46 := by omega
  have h101 : ¬ (b = 101 ∨ b = 69) := by omega
  have e : ((parseNumberInt (48 :: b :: t) (if (48 :: b :: t)[0]? = some 45 then 1 else 0)).bind
      (parseNumberFrac (48 :: b :: t))).bind (parseNumberExp (48 :: b :: t)) = some 1 := by
    simp [parseNumberInt, parseNumberFrac, parseNumberExp, h46, h101]
  unfold parseNumber
  simp only []
  rw [e]
  simp only [List.take_succ_cons, List.take_zero, List.drop_succ_cons, List.drop_zero]

/-- After a leading `-0` the number ends where a digit follows. -/
theorem parseNumber_minus_zero (lib : Strconv) (b : Nat) (t st : List Nat) (top : Nat)
    (hb : isDigit b = true) (h0 : (lib.ParseFloat [45, 48]).2 ≠ some NumError.ErrRange) :
    parseNumber lib ⟨45 :: 48 :: b :: t, st, top⟩ =
      .ret (Value.mk [] (lib.ParseFloat [45, 48]).1 [] [] NUMBER) none ⟨b :: t, st, top⟩ := by
  have hr := isDigit_range b hb
  have h46 : ¬ b = 46 := by omega
  have h101 : ¬ (b = 101 ∨ b = 69) := by omega
  have e : ((parseNumberInt (45 :: 48 :: b :: t)
      (if (45 :: 48 :: b :: t)[0]? = some 45 then 1 else 0)).bind
      (parseNumberFrac (45 :: 48 :: b :: t))).bind (parseNumberExp (45 :: 48 :: b :: t)) =
      some 2 := by
    simp [parseNumberInt, parseNumberFrac, parseNumberExp, h46, h101]
  unfold parseNumber
  simp only []
  rw [e]
  simp only [List.take_succ_cons, List.take_zero, List.drop_succ_cons, List.drop_zero]

/-- A text that begins with neither `-` nor a digit is no number. -/
theorem parseNumber_invalid (lib : Strconv) (c : Nat) (u st : List Nat) (top : Nat)
    (h45 : c ≠ 45) (hd : isDigit c = false) :
    parseNumber lib ⟨c :: u, st, top⟩ =
      .ret Value.zero (some ErrParseInvalidValue) ⟨c :: u, st, top⟩ := by
  have hr := isDigit_false c hd
  have h48 : ¬ c = 48 := by omega
  have h19 : isDigit1To9 c = false := by
    simp only [isDigit1To9, Bool.and_eq_false_iff, decide_eq_false_iff_not]
    omega
  have e : ((parseNumberInt (c :: u) (if (c :: u)[0]? = some 45 then 1 else 0)).bind
      (parseNumberFrac (c :: u))).bind (parseNumberExp (c :: u)) = none := by
    simp [parseNumberInt, h45, h48, h19]
  unfold parseNumber
  simp only []
  rw [e]

/-- C21. For every text that begins with a decimal digit, `Parse` on `0`
followed by that text and on `-0` followed by that text returns the zero value
and `ErrParseRootNotSingular`, the number ending after the `0` (provided
`strconv.ParseFloat` reports no range error on `0` and `-0`); and on every text
whose first byte is not white space and is none of `t`, `f`, `n`, the quote,
`[`, `\x7b`, `-` and the digits, `Parse` returns the zero value and
`ErrParseInvalidValue`. -/
theorem Parse_leading_zero (lib : Strconv) (b : Nat) (t : List Nat) (c : Nat) (u : List Nat)
    (hb : isDigit b = true)
    (h0 : (lib.ParseFloat [48]).2 ≠ some NumError.ErrRange)
    (hm0 : (lib.ParseFloat [45, 48]).2 ≠ some NumError.ErrRange)
    (hw : ¬ isWhite c)
    (hc : c ≠ 116 ∧ c ≠ 102 ∧ c ≠ 110 ∧ c ≠ 34 ∧ c ≠ 91 ∧ c ≠ 123 ∧ c ≠ 45)
    (hd : isDigit c = false) :
    Parse lib ([48] ++ b :: t) =
        .ret Value.zero (some ErrParseRootNotSingular) ⟨b :: t, [], 0⟩ ∧
      Parse lib ([45, 48] ++ b :: t) =
        .ret Value.zero (some ErrParseRootNotSingular) ⟨b :: t, [], 0⟩ ∧
      Parse lib (c :: u) = .ret Value.zero (some ErrParseInvalidValue) ⟨c :: u, [], 0⟩ := by
  have hr := isDigit_range b hb
  have hbw : ¬ isWhite b := by
    unfold isWhite
    omega
  have hwb : parseWhiteSpaceLoop (b :: t) = b :: t := parseWhiteSpaceLoop_head b t hbw
  refine ⟨?_, ?_, ?_⟩
  · have hrun : parseValue lib (([48] ++ b :: t).length + 1)
        ⟨parseWhiteSpaceLoop ([48] ++ b :: t), [], 0⟩ =
        .ret (Value.mk [] (lib.ParseFloat [48]).1 [] [] NUMBER) none ⟨b :: t, [], 0⟩ := by
      rw [List.singleton_append, parseWhiteSpaceLoop_head 48 _ (by simp [isWhite]),
        parseValue_number lib _ 48 _ [] 0 (by decide)]
      exact parseNumber_zero lib b t [] 0 hb h0
    rw [Parse_of_parseValue lib _ _ _ hrun]
    simp only []
    rw [hwb, if_pos (by simp)]
  · have hrun : parseValue lib (([45, 48] ++ b :: t).length + 1)
        ⟨parseWhiteSpaceLoop ([45, 48] ++ b :: t), [], 0⟩ =
        .ret (Value.mk [] (lib.ParseFloat [45, 48]).1 [] [] NUMBER) none ⟨b :: t, [], 0⟩ := by
      rw [List.cons_append, List.singleton_append,
        parseWhiteSpaceLoop_head 45 _ (by simp [isWhite]),
        parseValue_number lib _ 45 _ [] 0 (by decide)]
      exact parseNumber_minus_zero lib b t [] 0 hb hm0
    rw [Parse_of_parseValue lib _ _ _ hrun]
    simp only []
    rw [hwb, if_pos (by simp)]
  · have hrun : parseValue lib ((c :: u).length + 1) ⟨parseWhiteSpaceLoop (c :: u), [], 0⟩ =
        .ret Value.zero (some ErrParseInvalidValue) ⟨c :: u, [], 0⟩ := by
      rw [parseWhiteSpaceLoop_head c u hw,
        parseValue_number lib _ c u [] 0 ⟨hc.1, hc.2.1, hc.2.2.1, hc.2.2.2.1, hc.2.2.2.2.1,
          hc.2.2.2.2.2.1⟩]
      exact parseNumber_invalid lib c u [] 0 hc.2.2.2.2.2.2 hd
    rw [Parse_of_parseValue_err lib _ _ _ _ hrun]
    simp

/-- Instance of `Parse_leading_zero`: the texts `0123`, `-0123` and `+1`. -/
theorem Parse_leading_zero_witness :
    Parse (Strconv.mk (fun _ => (0, none)) (fun _ => [])) ([48] ++ 49 :: [50, 51]) =
        .ret Value.zero (some ErrParseRootNotSingular) ⟨49 :: [50, 51], [], 0⟩ ∧
      Parse (Strconv.mk (fun _ => (0, none)) (fun _ => [])) ([45, 48] ++ 49 :: [50, 51]) =
        .ret Value.zero (some ErrParseRootNotSingular) ⟨49 :: [50, 51], [], 0⟩ ∧
      Parse (Strconv.mk (fun _ => (0, none)) (fun _ => [])) (43 :: [49]) =
        .ret Value.zero (some ErrParseInvalidValue) ⟨43 :: [49], [], 0⟩ :=
  Parse_leading_zero (Strconv.mk (fun _ => (0, none)) (fun _ => [])) 49 [50, 51] 43 [49]
    rfl (by simp) (by simp) (by simp [isWhite]) (by decide) rfl

/-! ## A key is missing -/

theorem parseValue_brace (lib : Strconv) (f : Nat) (st : List Nat) (top : Nat) :
    parseValue lib (f + 1) ⟨[125], st, top⟩ =
      .ret Value.zero (some ErrParseInvalidValue) ⟨[125], st, top⟩ := by
  rfl

theorem parseValue_object (lib : Strconv) (f : Nat) (j st : List Nat) (top : Nat) :
    parseValue lib (f + 1) ⟨123 :: j, st, top⟩ =
      parseObject (parseValue lib f) ⟨123 :: j, st, top⟩ := by
  rfl

/-- A `parseObject` loop that returns without error at the closing bracket
that ends the text returns `ErrParseMissKey` when a comma stands in the place
of the bracket and, after white space, no quote follows. -/
theorem parseObjectLoop_trailing (pv1 pv2 : Parser → Res Value) (m : Nat) (r2 r : List Nat)
    (hw1 : ∀ q : Parser, q.json.length ≤ m + 1 → (pv1 q).within q.json.length)
    (hf : ∀ (c st : List Nat) (top : Nat), c ≠ [] → c.length ≤ m →
      Res.follows [125] (44 :: r2) (pv1 ⟨c ++ [125], st, top⟩) (pv2 ⟨c ++ 44 :: r2, st, top⟩))
    (h1 : ∀ (st : List Nat) (top : Nat) (x : Value) (q : Parser),
      pv1 ⟨[125], st, top⟩ ≠ .ret x none q)
    (hr2 : parseWhiteSpaceLoop r2 = r) (hr : r.head? ≠ some 34) :
    ∀ (fuel1 fuel2 : Nat) (c st : List Nat) (top : Nat) (o : List KV) (x : Value)
      (q : Parser), c.length ≤ m → (c ++ [125]).length < fuel1 → c.length + 1 < fuel2 →
      parseObjectLoop pv1 fuel1 ⟨c ++ [125], st, top⟩ o = .ret x none q →
      parseWhiteSpaceLoop q.json = [] →
      parseObjectLoop pv2 fuel2 ⟨c ++ 44 :: r2, st, top⟩ o =
        .ret Value.zero (some ErrParseMissKey) ⟨r, q.stack, q.top⟩ := by
  have hR : parseWhiteSpaceLoop (44 :: r2) = 44 :: r2 :=
    parseWhiteSpaceLoop_head 44 r2 (by simp [isWhite])
  have hB : parseWhiteSpaceLoop [125] = [125] := rfl
  intro fuel1
  induction fuel1 with
  | zero => intro fuel2 c st top o x q _ h; omega
  | succ f1 ih =>
    intro fuel2 c st top o x q hm hf1 hf2 h hq
    obtain ⟨s, q1, vv, q2, d, rest, h34, hr1, h58, hrv, hj, hq2, hb, hfin⟩ :=
      parseObjectLoop_step pv1 (m + 1) hw1 (f1 + 1) ⟨c ++ [125], st, top⟩ o x q
        (by simp only [List.length_append, List.length_cons, List.length_nil]; omega) hf1 h
    simp only [Nat.add_sub_cancel] at hfin
    have hl1 := parseStringRaw_lt _ s q1 hr1
    have hl2 := parseWhiteSpaceLoop_length q1.json
    have hl4 := parseWhiteSpaceLoop_length q2.json
    rw [hj, List.length_cons] at hl4
    simp only [List.length_append, List.length_cons, List.length_nil] at hl1 hf1
    have hq1ne : 1 ≤ q1.json.length := by
      cases hh : parseWhiteSpaceLoop q1.json with
      | nil => rw [hh] at h58; simp at h58
      | cons a b =>
        rw [hh] at hl2
        simp only [List.length_cons] at hl2
        omega
    obtain ⟨c1, hc1, hrun1⟩ := parseStringRaw_follows [125] (44 :: r2) c st top s q1 hr1
      (by simpa using hq1ne)
    have hc1len : c1.length + 2 ≤ c.length := by
      rw [hc1] at hl1
      simp only [List.length_append, List.length_cons, List.length_nil] at hl1
      omega
    rw [hc1, parseWhiteSpaceLoop_fixed c1 [125] hB] at h58 hrv hq2
    have e1' := parseWhiteSpaceLoop_fixed c1 (44 :: r2) hR
    have hlw1 := parseWhiteSpaceLoop_length c1
    cases hd1 : parseWhiteSpaceLoop c1 with
    | nil => rw [hd1] at h58; simp at h58
    | cons d1 w1 =>
      rw [hd1] at h58 hrv hq2 e1' hlw1
      simp only [List.cons_append, List.head?_cons, Option.some.injEq, List.tail_cons,
        List.length_cons] at h58 hrv hq2 hlw1
      rw [parseWhiteSpaceLoop_fixed w1 [125] hB] at hrv hq2
      have e2' := parseWhiteSpaceLoop_fixed w1 (44 :: r2) hR
      have hlw2 := parseWhiteSpaceLoop_length w1
      have hne2 : parseWhiteSpaceLoop w1 ≠ [] := by
        intro hz
        rw [hz] at hrv
        exact h1 _ _ _ _ hrv
      obtain ⟨c2, hc2, hrun2⟩ := hf (parseWhiteSpaceLoop w1) q1.stack q1.top hne2 (by omega)
        vv q2 hrv (by simp only [List.length_cons, List.length_nil]; omega)
      have hc2len : c2.length ≤ (parseWhiteSpaceLoop w1).length := by
        rw [hc2] at hq2
        simp only [List.length_append, List.length_cons, List.length_nil] at hq2
        omega
      rw [hc2, parseWhiteSpaceLoop_fixed c2 [125] hB] at hj
      have e3' := parseWhiteSpaceLoop_fixed c2 (44 :: r2) hR
      have hlw3 := parseWhiteSpaceLoop_length c2
      have h34' : (c ++ 44 :: r2).head? = some 34 := by
        cases c with
        | nil => simp at hc1len
        | cons ch ct => simpa using h34
      obtain ⟨f2, rfl⟩ : ∃ f2, fuel2 = f2 + 1 := ⟨fuel2 - 1, by omega⟩
      simp only [parseObjectLoop, Parser.parseWhiteSpace]
      rw [if_neg (not_not.2 h34'), hrun1]
      simp only []
      rw [e1']
      simp only [List.cons_append, List.head?_cons, List.tail_cons]
      rw [if_neg (not_not.2 (by rw [h58])), e2', hrun2]
      simp only []
      rw [e3']
      cases hd2 : parseWhiteSpaceLoop c2 with
      | nil =>
        rw [hd2] at hj
        simp only [List.nil_append, List.cons.injEq] at hj
        obtain ⟨hd, hrest⟩ := hj
        subst hd
        subst hrest
        rcases hfin with ⟨h44, _⟩ | ⟨_, _, hqq⟩
        · exact absurd h44 (by decide)
        · subst hqq
          simp only [List.nil_append, if_true]
          obtain ⟨f3, rfl⟩ : ∃ f3, f2 = f3 + 1 := ⟨f2 - 1, by omega⟩
          rw [hr2]
          simp only [parseObjectLoop]
          rw [if_pos hr]
      | cons d' c2' =>
        rw [hd2] at hj hlw3
        simp only [List.cons_append, List.cons.injEq] at hj
        obtain ⟨hd, hrest⟩ := hj
        subst hd
        subst hrest
        simp only [List.cons_append, List.length_cons] at hlw3 ⊢
        rcases hfin with ⟨h44, hloop⟩ | ⟨_, _, hqq⟩
        · rw [if_pos h44]
          rw [parseWhiteSpaceLoop_fixed c2' [125] hB] at hloop
          rw [parseWhiteSpaceLoop_fixed c2' (44 :: r2) hR]
          have hl6 := parseWhiteSpaceLoop_length c2'
          have g0 : (parseWhiteSpaceLoop c2').length ≤ m := by omega
          have g1 : (parseWhiteSpaceLoop c2' ++ [125]).length < f1 := by
            simp only [List.length_append, List.length_cons, List.length_nil]
            omega
          have g2 : (parseWhiteSpaceLoop c2').length + 1 < f2 := by omega
          exact ih f2 (parseWhiteSpaceLoop c2') q2.stack q2.top _ x q g0 g1 g2 hloop hq
        · subst hqq
          simp only [] at hq
          rw [parseWhiteSpaceLoop_fixed c2' [125] hB] at hq
          simp at hq

/-- C22. For every text `\x7b` `w` `r` where `w` is the white space after the
bracket (white space only) and `r`, the text from the would-be key on, is
empty or begins with a character that is not white space, not the quote and
not `\x7d`, `Parse` returns the zero value and `ErrParseMissKey`, with `r` left
unread; and so it does on every text `\x7b` `m` `,` `w` `r` with such `w` and
`r`, where `m` is a text of members the parser accepts: `Parse` returns an
Object with at least one entry, and no error, on `\x7b` `m` `\x7d`. -/
theorem Parse_miss_key (lib : Strconv) (w r m : List Nat) (v : Value) (p : Parser)
    (hw : ∀ x ∈ w, isWhite x)
    (hr : ∀ c, r.head? = some c → ¬ isWhite c ∧ c ≠ 34 ∧ c ≠ 125)
    (hm : Parse lib ([123] ++ m ++ [125]) = .ret v none p) (hv : v.o ≠ []) :
    Parse lib ([123] ++ w ++ r) = .ret Value.zero (some ErrParseMissKey) ⟨r, [], 0⟩ ∧
      Parse lib ([123] ++ m ++ [44] ++ w ++ r) =
        .ret Value.zero (some ErrParseMissKey) ⟨r, [], 0⟩ := by
  have hnw : ¬ isWhite 123 := by simp [isWhite]
  have hwr : parseWhiteSpaceLoop r = r := by
    cases r with
    | nil => rfl
    | cons c t => exact parseWhiteSpaceLoop_head c t (hr c rfl).1
  have hwwr : parseWhiteSpaceLoop (w ++ r) = r := by
    rw [parseWhiteSpaceLoop_white_append w r (parseWhiteSpaceLoop_white w hw), hwr]
  have h34 : r.head? ≠ some 34 := fun hh => (hr 34 hh).2.1 rfl
  have h125 : ¬ r.head? = some 125 := fun hh => (hr 125 hh).2.2 rfl
  constructor
  · have t1 : [123] ++ w ++ r = 123 :: (w ++ r) := by simp
    have hrun : parseValue lib (([123] ++ w ++ r).length + 1)
        ⟨parseWhiteSpaceLoop ([123] ++ w ++ r), [], 0⟩ =
        .ret Value.zero (some ErrParseMissKey) ⟨r, [], 0⟩ := by
      rw [t1, parseWhiteSpaceLoop_head 123 _ hnw, List.length_cons, parseValue_object]
      simp only [parseObject, Parser.parseWhiteSpace]
      rw [if_neg (by decide), hwwr, if_neg h125]
      simp only [parseObjectLoop]
      rw [if_pos h34]
    rw [Parse_of_parseValue_err lib _ _ _ _ hrun]
    simp
  · obtain ⟨q, hrq, hq, htop, hp⟩ := Parse_ok_inv lib _ v p hm
    have t1 : [123] ++ m ++ [125] = 123 :: (m ++ [125]) := rfl
    have t2 : [123] ++ m ++ [44] ++ w ++ r = 123 :: (m ++ 44 :: (w ++ r)) := by simp
    have hR : parseWhiteSpaceLoop (44 :: (w ++ r)) = 44 :: (w ++ r) :=
      parseWhiteSpaceLoop_head 44 _ (by simp [isWhite])
    rw [t1, parseWhiteSpaceLoop_head 123 _ hnw, List.length_cons, parseValue_object] at hrq
    simp only [parseObject, Parser.parseWhiteSpace] at hrq
    rw [if_neg (by decide), parseWhiteSpaceLoop_fixed m [125] rfl] at hrq
    have hlw := parseWhiteSpaceLoop_length m
    cases hwm : parseWhiteSpaceLoop m with
    | nil =>
      rw [hwm] at hrq
      simp only [List.nil_append, List.head?_cons, if_true] at hrq
      injection hrq with hv2
      subst hv2
      exact (hv rfl).elim
    | cons d w2 =>
      rw [hwm] at hrq hlw
      simp only [List.cons_append, List.head?_cons, Option.some.injEq] at hrq
      simp only [List.length_cons] at hlw
      by_cases hd : d = 125
      · rw [if_pos hd] at hrq
        injection hrq with hv2
        subst hv2
        exact (hv rfl).elim
      · rw [if_neg hd] at hrq
        have hw1 : ∀ q : Parser, q.json.length ≤ m.length + 1 →
            (parseValue lib ((m ++ [125]).length + 1) q).within q.json.length := by
          intro q hq
          have g : q.json.length < (m ++ [125]).length + 1 := by
            simp only [List.length_append, List.length_cons, List.length_nil]
            omega
          exact parseValue_within lib _ q g
        have hen : endsNumber (44 :: (w ++ r)) := by
          intro b hb
          simp only [List.head?_cons, Option.some.injEq] at hb
          subst hb
          decide
        have hfol : ∀ (c st : List Nat) (top : Nat), c ≠ [] → c.length ≤ m.length →
            Res.follows [125] (44 :: (w ++ r))
              (parseValue lib ((m ++ [125]).length + 1) ⟨c ++ [125], st, top⟩)
              (parseValue lib ((m ++ 44 :: (w ++ r)).length + 1)
                ⟨c ++ 44 :: (w ++ r), st, top⟩) := by
          intro c st top hc hcl
          have g1 : (c ++ [125]).length < (m ++ [125]).length + 1 := by
            simp only [List.length_append, List.length_cons, List.length_nil]
            omega
          have g2 : (c ++ 44 :: (w ++ r)).length < (m ++ 44 :: (w ++ r)).length + 1 := by
            simp only [List.length_append, List.length_cons]
            omega
          exact parseValue_follows lib [125] (44 :: (w ++ r)) hen _ _ c st top hc g1 g2
        have hb1 : ∀ (st : List Nat) (top : Nat) (x : Value) (q : Parser),
            parseValue lib ((m ++ [125]).length + 1) ⟨[125], st, top⟩ ≠ .ret x none q := by
          intro st top x q hh
          rw [parseValue_brace] at hh
          simp at hh
        have hr' : parseObjectLoop (parseValue lib ((m ++ [125]).length + 1))
            ((d :: (w2 ++ [125])).length + 1) ⟨(d :: w2) ++ [125], [], 0⟩ [] =
            .ret v none q := hrq
        have g0 : (d :: w2).length ≤ m.length := by
          simp only [List.length_cons]
          omega
        have g1 : ((d :: w2) ++ [125]).length < (d :: (w2 ++ [125])).length + 1 := by
          simp only [List.length_cons, List.length_append, List.length_nil]
          omega
        have g2 : (d :: w2).length + 1 < (d :: (w2 ++ 44 :: (w ++ r))).length + 1 := by
          simp only [List.length_cons, List.length_append]
          omega
        have hloop : parseObjectLoop (parseValue lib ((m ++ 44 :: (w ++ r)).length + 1))
            ((d :: (w2 ++ 44 :: (w ++ r))).length + 1) ⟨(d :: w2) ++ 44 :: (w ++ r), [], 0⟩ [] =
            .ret Value.zero (some ErrParseMissKey) ⟨r, q.stack, q.top⟩ :=
          parseObjectLoop_trailing _ _ m.length (w ++ r) r hw1 hfol hb1 hwwr h34 _ _ (d :: w2)
            [] 0 [] v q g0 g1 g2 hr' hq
        have hrun : parseValue lib (([123] ++ m ++ [44] ++ w ++ r).length + 1)
            ⟨parseWhiteSpaceLoop ([123] ++ m ++ [44] ++ w ++ r), [], 0⟩ =
            .ret Value.zero (some ErrParseMissKey) ⟨r, q.stack, q.top⟩ := by
          rw [t2, parseWhiteSpaceLoop_head 123 _ hnw, List.length_cons, parseValue_object]
          simp only [parseObject, Parser.parseWhiteSpace]
          rw [if_neg (by decide), parseWhiteSpaceLoop_fixed m (44 :: (w ++ r)) hR, hwm]
          simp only [List.cons_append, List.head?_cons, Option.some.injEq]
          rw [if_neg hd]
          exact hloop
        rw [Parse_of_parseValue_err lib _ _ _ _ hrun]
        simp only []
        rw [if_neg (by simp [htop]), htop]

/-- Instance of `Parse_miss_key`: the texts `\x7b 1:1,` (a space before the
`1`) and `\x7b"a":true, ?`. -/
theorem Parse_miss_key_witness :
    Parse (Strconv.mk (fun _ => (0, none)) (fun _ => []))
        ([123] ++ [32] ++ [49, 58, 49, 44]) =
      .ret Value.zero (some ErrParseMissKey) ⟨[49, 58, 49, 44], [], 0⟩ ∧
    Parse (Strconv.mk (fun _ => (0, none)) (fun _ => []))
        ([123] ++ [34, 97, 34, 58, 116, 114, 117, 101] ++ [44] ++ [32] ++ [49, 58, 49, 44]) =
      .ret Value.zero (some ErrParseMissKey) ⟨[49, 58, 49, 44], [], 0⟩ :=
  Parse_miss_key (Strconv.mk (fun _ => (0, none)) (fun _ => [])) [32] [49, 58, 49, 44]
    [34, 97, 34, 58, 116, 114, 117, 101]
    (Value.mk [] 0 [] [([97], Value.mk [] 0 [] [] TRUE)] OBJECT) ⟨[], [], 0⟩
    (by simp [isWhite])
    (by
      intro c hc
      simp only [List.head?_cons, Option.some.injEq] at hc
      subst hc
      simp [isWhite])
    rfl (List.cons_ne_nil _ _)

end goson

namespace goson

open Type_ Err

/-! ## The scratch buffer -/

theorem parseHex4Loop_state : ∀ (k u : Nat) (p : Parser) (x : Nat) (e : Option Err)
    (q : Parser), parseHex4Loop k u p = .ret x e q → q.stack = p.stack ∧ q.top = p.top := by
  intro k
  induction k with
  | zero =>
    intro u p x e q h
    simp only [parseHex4Loop] at h
    injection h with _ _ hq
    subst hq
    exact ⟨rfl, rfl⟩
  | succ k ih =>
    intro u p x e q h
    obtain ⟨json, st, top⟩ := p
    cases json with
    | nil =>
      simp only [parseHex4Loop] at h
      injection h with _ _ hq
      subst hq
      exact ⟨rfl, rfl⟩
    | cons ch rest =>
      simp only [parseHex4Loop] at h
      split_ifs at h
      · exact ih _ ⟨rest, st, top⟩ x e q h
      · exact ih _ ⟨rest, st, top⟩ x e q h
      · exact ih _ ⟨rest, st, top⟩ x e q h
      · injection h with _ _ hq
        subst hq
        exact ⟨rfl, rfl⟩

theorem parseHex4_state (p : Parser) (x : Nat) (e : Option Err) (q : Parser)
    (h : parseHex4 p = .ret x e q) : q.stack = p.stack ∧ q.top = p.top :=
  parseHex4Loop_state 4 0 p x e q h

/-- The low-surrogate branch leaves the buffer as it is when it returns no
error, and the occupancy at the mark when it returns an error. -/
theorem parseSurrogate_state (head h : Nat) (p : Parser) (x : Nat) (e : Option Err)
    (q : Parser) (hr : parseSurrogate head h p = .ret x e q) :
    (e = none → q.stack = p.stack ∧ q.top = p.top) ∧ (e ≠ none → q.top = head) := by
  obtain ⟨json, st, top⟩ := p
  unfold parseSurrogate at hr
  cases json with
  | nil => simp at hr
  | cons ch rest =>
    simp only [] at hr
    by_cases h92 : ch ≠ 92
    · rw [if_pos h92] at hr
      injection hr with _ he hq
      subst hq
      subst he
      exact ⟨fun hh => by simp at hh, fun _ => rfl⟩
    · rw [if_neg h92] at hr
      cases rest with
      | nil => simp at hr
      | cons ch2 rest2 =>
        simp only [] at hr
        by_cases h117 : ch2 ≠ 117
        · rw [if_pos h117] at hr
          injection hr with _ he hq
          subst hq
          subst he
          exact ⟨fun hh => by simp at hh, fun _ => rfl⟩
        · rw [if_neg h117] at hr
          cases hx : parseHex4 ⟨rest2, st, top⟩ with
          | fault w => rw [hx] at hr; simp at hr
          | timeout => rw [hx] at hr; simp at hr
          | ret u e1 q1 =>
            rw [hx] at hr
            have hs := parseHex4_state _ u e1 q1 hx
            cases e1 with
            | some er =>
              simp only [] at hr
              injection hr with _ he hq
              subst hq
              subst he
              exact ⟨fun hh => by simp at hh, fun _ => rfl⟩
            | none =>
              simp only [] at hr
              by_cases hlow : ¬ (0xDC00 ≤ u ∧ u ≤ 0xDFFF)
              · rw [if_pos hlow] at hr
                injection hr with _ he hq
                subst hq
                subst he
                exact ⟨fun hh => by simp at hh, fun _ => rfl⟩
              · rw [if_neg hlow] at hr
                injection hr with _ he hq
                subst hq
                subst he
                exact ⟨fun _ => hs, fun hh => (hh rfl).elim⟩

/-- The escape branch appends bytes to the buffer and counts them when it
returns no error, and leaves the occupancy at the mark when it returns an
error. -/
theorem parseEscape_state (head ch : Nat) (p : Parser) (x : Unit) (e : Option Err)
    (q : Parser) (hr : parseEscape head ch p = .ret x e q) :
    (e = none → ∃ bs, q.stack = p.stack ++ bs ∧ q.top = p.top + bs.length) ∧
      (e ≠ none → q.top = head) := by
  have push : ∀ b : Nat, Res.ret () none (p.push b) = Res.ret x e q →
      (e = none → ∃ bs, q.stack = p.stack ++ bs ∧ q.top = p.top + bs.length) ∧
        (e ≠ none → q.top = head) := by
    intro b hb
    injection hb with _ he hq
    subst hq
    subst he
    exact ⟨fun _ => ⟨[b], rfl, rfl⟩, fun hh => (hh rfl).elim⟩
  have enc : ∀ (u : Nat) (p1 : Parser), p1.stack = p.stack → p1.top = p.top →
      Res.ret () none (p1.encodeUTF8 u) = Res.ret x e q →
      (e = none → ∃ bs, q.stack = p.stack ++ bs ∧ q.top = p.top + bs.length) ∧
        (e ≠ none → q.top = head) := by
    intro u p1 h1 h2 hb
    injection hb with _ he hq
    subst hq
    subst he
    refine ⟨fun _ => ⟨EncodeRune u, ?_, ?_⟩, fun hh => (hh rfl).elim⟩
    · simp only [Parser.encodeUTF8, Parser.pushs, h1]
    · simp only [Parser.encodeUTF8, Parser.pushs, h2]
  by_cases hu : ch = 117
  · subst hu
    rw [parseEscape_u] at hr
    cases hx : parseHex4 p with
    | fault w => rw [hx] at hr; simp at hr
    | timeout => rw [hx] at hr; simp at hr
    | ret u e1 q1 =>
      rw [hx] at hr
      have hs := parseHex4_state _ u e1 q1 hx
      cases e1 with
      | some er =>
        simp only [] at hr
        injection hr with _ he hq
        subst hq
        subst he
        exact ⟨fun hh => by simp at hh, fun _ => rfl⟩
      | none =>
        simp only [] at hr
        by_cases hhigh : 0xD800 ≤ u ∧ u ≤ 0xDBFF
        · rw [if_pos hhigh] at hr
          cases hy : parseSurrogate head u q1 with
          | fault w => rw [hy] at hr; simp at hr
          | timeout => rw [hy] at hr; simp at hr
          | ret u2 e2 q2 =>
            rw [hy] at hr
            have hs2 := parseSurrogate_state head u q1 u2 e2 q2 hy
            cases e2 with
            | some er =>
              simp only [] at hr
              injection hr with _ he hq
              subst hq
              subst he
              exact ⟨fun hh => by simp at hh, fun _ => hs2.2 (by simp)⟩
            | none =>
              simp only [] at hr
              have h3 := hs2.1 rfl
              exact enc u2 q2 (h3.1.trans hs.1) (h3.2.trans hs.2) hr
        · rw [if_neg hhigh] at hr
          exact enc u q1 hs.1 hs.2 hr
  · unfold parseEscape at hr
    rw [if_neg hu] at hr
    split_ifs at hr
    · exact push _ hr
    · exact push _ hr
    · exact push _ hr
    · exact push _ hr
    · exact push _ hr
    · exact push _ hr
    · exact push _ hr
    · exact push _ hr
    · injection hr with _ he hq
      subst hq
      subst he
      exact ⟨fun hh => by simp at hh, fun _ => rfl⟩

/-- Every return of the loop of `parseStringRaw` leaves the occupancy at the
mark `head`; a return without error, on a buffer that held as many bytes as
were counted, leaves the buffer cut back to the mark. -/
theorem parseStringRawLoop_state (head : Nat) :
    ∀ (fuel : Nat) (json st : List Nat) (top : Nat) (x : List Nat) (e : Option Err)
      (q : Parser), parseStringRawLoop head fuel ⟨json, st, top⟩ = .ret x e q → head ≤ top →
      q.top = head ∧ (e = none → st.length = top → q.stack = st.take head) := by
  intro fuel
  induction fuel with
  | zero => intro json st top x e q h; simp [parseStringRawLoop] at h
  | succ fuel ih =>
    intro json st top x e q h hh
    cases json with
    | nil => simp [parseStringRawLoop] at h
    | cons ch rest =>
      simp only [parseStringRawLoop] at h
      by_cases c1 : rest.length = 0 ∧ ch ≠ 34
      · rw [if_pos c1] at h
        injection h with _ he hq
        subst hq
        subst he
        exact ⟨rfl, fun hn => by simp at hn⟩
      rw [if_neg c1] at h
      by_cases c2 : ch = 34
      · rw [if_pos c2] at h
        simp only [Parser.pop] at h
        split_ifs at h
        simp only [Res.ret.injEq] at h
        obtain ⟨_, he, hq⟩ := h
        subst hq
        subst he
        have e1 : top - (top - head) = head := by omega
        exact ⟨e1, fun _ _ => by rw [e1]⟩
      rw [if_neg c2] at h
      by_cases c3 : ch = 92
      · rw [if_pos c3] at h
        cases rest with
        | nil => simp at h
        | cons ch2 rest2 =>
          simp only [] at h
          cases hr : parseEscape head ch2 ⟨rest2, st, top⟩ with
          | fault w => rw [hr] at h; simp at h
          | timeout => rw [hr] at h; simp at h
          | ret u e1 q1 =>
            rw [hr] at h
            have hs := parseEscape_state head ch2 _ u e1 q1 hr
            cases e1 with
            | some er =>
              simp only [] at h
              injection h with _ he hq
              subst hq
              subst he
              exact ⟨hs.2 (by simp), fun hn => by simp at hn⟩
            | none =>
              simp only [] at h
              obtain ⟨bs, hb1, hb2⟩ := hs.1 rfl
              have hb1' : q1.stack = st ++ bs := hb1
              have hb2' : q1.top = top + bs.length := hb2
              obtain ⟨j1, s1, t1⟩ := q1
              have hb1'' : s1 = st ++ bs := hb1'
              have hb2'' : t1 = top + bs.length := hb2'
              subst hb1''
              subst hb2''
              have := ih j1 (st ++ bs) (top + bs.length) x e q h (by omega)
              refine ⟨this.1, fun hn hl => ?_⟩
              rw [this.2 hn (by rw [List.length_append]; omega)]
              exact List.take_append_of_le_length (by omega)
      rw [if_neg c3] at h
      by_cases c4 : ch < 0x20
      · rw [if_pos c4] at h
        injection h with _ he hq
        subst hq
        subst he
        exact ⟨rfl, fun hn => by simp at hn⟩
      rw [if_neg c4] at h
      have := ih rest (st ++ [ch]) (top + 1) x e q h (by omega)
      refine ⟨this.1, fun hn hl => ?_⟩
      rw [this.2 hn (by rw [List.length_append, List.length_singleton]; omega)]
      exact List.take_append_of_le_length (by omega)

/-- Every return of `parseStringRaw`, with an error or without, leaves the
occupancy of the scratch buffer as it was when the string started; a return
without error, on a buffer that held as many bytes as were counted, leaves the
buffer as it was. -/
theorem parseStringRaw_state (p : Parser) (x : List Nat) (e : Option Err) (q : Parser)
    (h : parseStringRaw p = .ret x e q) :
    q.top = p.top ∧ (e = none → p.stack.length = p.top → q.stack = p.stack) := by
  obtain ⟨json, st, top⟩ := p
  unfold parseStringRaw at h
  by_cases c1 : json.length ≠ 0 ∧ json.head? ≠ some 34
  · rw [if_pos c1] at h
    injection h with _ he hq
    subst hq
    subst he
    exact ⟨rfl, fun hn => by simp at hn⟩
  · rw [if_neg c1] at h
    cases json with
    | nil => simp at h
    | cons c rest =>
      simp only [] at h
      by_cases c2 : rest.length = 0
      · rw [if_pos c2] at h
        injection h with _ he hq
        subst hq
        subst he
        exact ⟨rfl, fun hn => by simp at hn⟩
      · rw [if_neg c2] at h
        have := parseStringRawLoop_state top _ rest st top x e q h (le_refl _)
        refine ⟨this.1, fun hn hl => ?_⟩
        have hl' : st.length = top := hl
        rw [this.2 hn hl', ← hl']
        exact List.take_length st

theorem parseString_buffer : keepsBuffer parseString := by
  intro p x e q h
  unfold parseString at h
  cases hr : parseStringRaw p with
  | fault w => rw [hr] at h; simp at h
  | timeout => rw [hr] at h; simp at h
  | ret s e1 q1 =>
    rw [hr] at h
    have hs := parseStringRaw_state p s e1 q1 hr
    cases e1 with
    | some er =>
      simp only [] at h
      injection h with _ he hq
      subst hq
      subst he
      exact ⟨hs.1, fun hn => by simp at hn⟩
    | none =>
      simp only [] at h
      injection h with _ he hq
      subst hq
      subst he
      exact ⟨hs.1, fun _ hl => hs.2 rfl hl⟩

theorem parseLiteral_buffer (json : List Nat) (t : Type_) :
    keepsBuffer (fun p => parseLiteral p json t) := by
  intro p x e q h
  simp only [parseLiteral] at h
  split_ifs at h
  · injection h with _ _ hq
    subst hq
    exact ⟨rfl, fun _ _ => rfl⟩
  · injection h with _ _ hq
    subst hq
    exact ⟨rfl, fun _ _ => rfl⟩

theorem parseNumber_buffer (lib : Strconv) : keepsBuffer (parseNumber lib) := by
  intro p x e q h
  unfold parseNumber at h
  simp only [] at h
  cases hn : ((parseNumberInt p.json (if p.json[0]? = some 45 then 1 else 0)).bind
      (parseNumberFrac p.json)).bind (parseNumberExp p.json) with
  | none =>
    rw [hn] at h
    injection h with _ _ hq
    subst hq
    exact ⟨rfl, fun _ _ => rfl⟩
  | some k =>
    rw [hn] at h
    simp only [] at h
    rcases hpf : lib.ParseFloat (List.take k p.json) with ⟨n, er⟩
    rw [hpf] at h
    cases er with
    | none =>
      injection h with _ _ hq
      subst hq
      exact ⟨rfl, fun _ _ => rfl⟩
    | some er2 =>
      cases er2 with
      | ErrRange =>
        injection h with _ _ hq
        subst hq
        exact ⟨rfl, fun _ _ => rfl⟩
      | ErrSyntax =>
        injection h with _ _ hq
        subst hq
        exact ⟨rfl, fun _ _ => rfl⟩

theorem parseArrayLoop_buffer (pv : Parser → Res Value) (hpv : keepsBuffer pv) :
    ∀ (fuel : Nat) (a : List Value), keepsBuffer (fun p => parseArrayLoop pv fuel p a) := by
  intro fuel
  induction fuel with
  | zero => intro a p x e q h; simp [parseArrayLoop] at h
  | succ fuel ih =>
    intro a p x e q h
    simp only [parseArrayLoop] at h
    cases hr : pv p with
    | fault w => rw [hr] at h; simp at h
    | timeout => rw [hr] at h; simp at h
    | ret v1 e1 q1 =>
      rw [hr] at h
      have hs := hpv p v1 e1 q1 hr
      cases e1 with
      | some er =>
        simp only [] at h
        injection h with _ he hq
        subst hq
        subst he
        exact ⟨hs.1, fun hn => by simp at hn⟩
      | none =>
        simp only [Parser.parseWhiteSpace] at h
        cases hj : parseWhiteSpaceLoop q1.json with
        | nil =>
          rw [hj] at h
          simp only [] at h
          injection h with _ he hq
          subst hq
          subst he
          exact ⟨hs.1, fun hn => by simp at hn⟩
        | cons d rest =>
          rw [hj] at h
          simp only [] at h
          by_cases h44 : d = 44
          · rw [if_pos h44] at h
            have h2 := ih (a ++ [v1]) ⟨parseWhiteSpaceLoop rest, q1.stack, q1.top⟩ x e q h
            have h21 : q.top = q1.top := h2.1
            have h22 : e = none → q1.stack.length = q1.top → q.stack = q1.stack := h2.2
            refine ⟨h21.trans hs.1, fun hn hl => ?_⟩
            have hs2 := hs.2 rfl hl
            rw [h22 hn (by rw [hs2, hs.1]; exact hl), hs2]
          · rw [if_neg h44] at h
            by_cases h93 : d = 93
            · rw [if_pos h93] at h
              injection h with _ he hq
              subst hq
              subst he
              exact ⟨hs.1, fun _ hl => hs.2 rfl hl⟩
            · rw [if_neg h93] at h
              injection h with _ he hq
              subst hq
              subst he
              exact ⟨hs.1, fun hn => by simp at hn⟩

theorem parseArray_buffer (pv : Parser → Res Value) (hpv : keepsBuffer pv) :
    keepsBuffer (parseArray pv) := by
  intro p x e q h
  obtain ⟨json, st, top⟩ := p
  cases json with
  | nil =>
    simp only [parseArray] at h
    injection h with _ _ hq
    subst hq
    exact ⟨rfl, fun _ _ => rfl⟩
  | cons c rest =>
    simp only [parseArray, Parser.parseWhiteSpace] at h
    by_cases h91 : c = 91
    · rw [if_neg (not_not.2 h91)] at h
      by_cases h93 : (parseWhiteSpaceLoop rest).head? = some 93
      · rw [if_pos h93] at h
        injection h with _ _ hq
        subst hq
        exact ⟨rfl, fun _ _ => rfl⟩
      · rw [if_neg h93] at h
        exact parseArrayLoop_buffer pv hpv _ [] ⟨parseWhiteSpaceLoop rest, st, top⟩ x e q h
    · rw [if_pos h91] at h
      injection h with _ _ hq
      subst hq
      exact ⟨rfl, fun _ _ => rfl⟩

theorem parseObjectLoop_buffer (pv : Parser → Res Value) (hpv : keepsBuffer pv) :
    ∀ (fuel : Nat) (o : List KV), keepsBuffer (fun p => parseObjectLoop pv fuel p o) := by
  intro fuel
  induction fuel with
  | zero => intro o p x e q h; simp [parseObjectLoop] at h
  | succ fuel ih =>
    intro o p x e q h
    simp only [parseObjectLoop, Parser.parseWhiteSpace] at h
    by_cases h34 : p.json.head? = some 34
    · rw [if_neg (not_not.2 h34)] at h
      cases hr : parseStringRaw p with
      | fault w => rw [hr] at h; simp at h
      | timeout => rw [hr] at h; simp at h
      | ret s e1 q1 =>
        rw [hr] at h
        have hs := parseStringRaw_state p s e1 q1 hr
        cases e1 with
        | some er =>
          simp only [] at h
          injection h with _ he hq
          subst hq
          subst he
          exact ⟨hs.1, fun hn => by simp at hn⟩
        | none =>
          simp only [] at h
          by_cases h58 : (parseWhiteSpaceLoop q1.json).head? = some 58
          · rw [if_neg (not_not.2 h58)] at h
            cases hr2 : pv
              ⟨parseWhiteSpaceLoop (parseWhiteSpaceLoop q1.json).tail, q1.stack, q1.top⟩ with
            | fault w => rw [hr2] at h; simp at h
            | timeout => rw [hr2] at h; simp at h
            | ret vv e2 q2 =>
              rw [hr2] at h
              have hv := hpv _ vv e2 q2 hr2
              have hv1 : q2.top = q1.top := hv.1
              have hv2 : e2 = none → q1.stack.length = q1.top → q2.stack = q1.stack := hv.2
              cases e2 with
              | some er =>
                simp only [] at h
                injection h with _ he hq
                subst hq
                subst he
                exact ⟨hv1.trans hs.1, fun hn => by simp at hn⟩
              | none =>
                simp only [] at h
                have keep : p.stack.length = p.top → q2.stack = p.stack ∧
                    q2.stack.length = q2.top := by
                  intro hl
                  have a1 := hs.2 rfl hl
                  have a2 := hv2 rfl (by rw [a1, hs.1]; exact hl)
                  exact ⟨a2.trans a1, by rw [a2, a1, hv1, hs.1]; exact hl⟩
                cases hj : parseWhiteSpaceLoop q2.json with
                | nil =>
                  rw [hj] at h
                  simp only [] at h
                  injection h with _ he hq
                  subst hq
                  subst he
                  exact ⟨hv1.trans hs.1, fun hn => by simp at hn⟩
                | cons d rest =>
                  rw [hj] at h
                  simp only [] at h
                  by_cases h44 : d = 44
                  · rw [if_pos h44] at h
                    have h2 := ih (o ++ [(s, vv)]) ⟨parseWhiteSpaceLoop rest, q2.stack, q2.top⟩
                      x e q h
                    have h21 : q.top = q2.top := h2.1
                    have h22 : e = none → q2.stack.length = q2.top → q.stack = q2.stack :=
                      h2.2
                    refine ⟨h21.trans (hv1.trans hs.1), fun hn hl => ?_⟩
                    rw [h22 hn (keep hl).2, (keep hl).1]
                  · rw [if_neg h44] at h
                    by_cases h125 : d = 125
                    · rw [if_pos h125] at h
                      injection h with _ he hq
                      subst hq
                      subst he
                      exact ⟨hv1.trans hs.1, fun _ hl => (keep hl).1⟩
                    · rw [if_neg h125] at h
                      injection h with _ he hq
                      subst hq
                      subst he
                      exact ⟨hv1.trans hs.1, fun hn => by simp at hn⟩
          · rw [if_pos h58] at h
            injection h with _ he hq
            subst hq
            subst he
            exact ⟨hs.1, fun hn => by simp at hn⟩
    · rw [if_pos h34] at h
      injection h with _ he hq
      subst hq
      subst he
      exact ⟨rfl, fun hn => by simp at hn⟩

theorem parseObject_buffer (pv : Parser → Res Value) (hpv : keepsBuffer pv) :
    keepsBuffer (parseObject pv) := by
  intro p x e q h
  obtain ⟨json, st, top⟩ := p
  cases json with
  | nil =>
    simp only [parseObject] at h
    injection h with _ _ hq
    subst hq
    exact ⟨rfl, fun _ _ => rfl⟩
  | cons c rest =>
    simp only [parseObject, Parser.parseWhiteSpace] at h
    by_cases h123 : c = 123
    · rw [if_neg (not_not.2 h123)] at h
      by_cases h125 : (parseWhiteSpaceLoop rest).head? = some 125
      · rw [if_pos h125] at h
        injection h with _ _ hq
        subst hq
        exact ⟨rfl, fun _ _ => rfl⟩
      · rw [if_neg h125] at h
        exact parseObjectLoop_buffer pv hpv _ [] ⟨parseWhiteSpaceLoop rest, st, top⟩ x e q h
    · rw [if_pos h123] at h
      injection h with _ _ hq
      subst hq
      exact ⟨rfl, fun _ _ => rfl⟩

/-- The method `parseValue` returns with the occupancy of the scratch buffer
it was called with, and without error it leaves the buffer as it was. -/
theorem parseValue_buffer (lib : Strconv) : ∀ fuel : Nat, keepsBuffer (parseValue lib fuel) := by
  intro fuel
  induction fuel with
  | zero => intro p x e q h; simp [parseValue] at h
  | succ fuel ih =>
    intro p x e q h
    obtain ⟨json, st, top⟩ := p
    cases json with
    | nil =>
      simp only [parseValue] at h
      injection h with _ _ hq
      subst hq
      exact ⟨rfl, fun _ _ => rfl⟩
    | cons c rest =>
      simp only [parseValue] at h
      split_ifs at h
      · exact parseLiteral_buffer _ _ _ x e q h
      · exact parseLiteral_buffer _ _ _ x e q h
      · exact parseLiteral_buffer _ _ _ x e q h
      · exact parseString_buffer _ x e q h
      · exact parseArray_buffer _ ih _ x e q h
      · exact parseObject_buffer _ ih _ x e q h
      · exact parseNumber_buffer lib _ x e q h

end goson

namespace goson

open Type_ Err

/-! ## The assertion at the start of a string literal never fails -/

theorem parseStringRawChecked_eq (p : Parser) (h : p.top = 0) :
    parseStringRawChecked p = parseStringRaw p := by
  unfold parseStringRawChecked
  rw [if_neg (by simp [h])]

theorem parseStringChecked_eq (p : Parser) (h : p.top = 0) :
    parseStringChecked p = parseString p := by
  unfold parseStringChecked parseString
  rewrite [parseStringRawChecked_eq p h]
  rfl

/-- Two methods that agree on a parser with an empty scratch buffer give the
same `parseArray` loop on such a parser, when the second keeps the buffer. -/
theorem parseArrayLoop_agree (pv1 pv2 : Parser → Res Value)
    (hag : ∀ p : Parser, p.top = 0 → pv1 p = pv2 p) (hk : keepsBuffer pv2) :
    ∀ (fuel : Nat) (p : Parser) (a : List Value), p.top = 0 →
      parseArrayLoop pv1 fuel p a = parseArrayLoop pv2 fuel p a := by
  intro fuel
  induction fuel with
  | zero => intro p a _; rfl
  | succ fuel ih =>
    intro p a hp
    simp only [parseArrayLoop]
    rw [hag p hp]
    cases hr : pv2 p with
    | fault w => rfl
    | timeout => rfl
    | ret v1 e1 q1 =>
      have hs := (hk p v1 e1 q1 hr).1
      cases e1 with
      | some er => rfl
      | none =>
        simp only [Parser.parseWhiteSpace]
        cases hj : parseWhiteSpaceLoop q1.json with
        | nil => rfl
        | cons d rest =>
          simp only []
          by_cases h44 : d = 44
          · rw [if_pos h44, if_pos h44]
            exact ih _ _ (hs.trans hp)
          · rw [if_neg h44, if_neg h44]

theorem parseArray_agree (pv1 pv2 : Parser → Res Value)
    (hag : ∀ p : Parser, p.top = 0 → pv1 p = pv2 p) (hk : keepsBuffer pv2) (p : Parser)
    (hp : p.top = 0) : parseArray pv1 p = parseArray pv2 p := by
  obtain ⟨json, st, top⟩ := p
  cases json with
  | nil => rfl
  | cons c rest =>
    simp only [parseArray, Parser.parseWhiteSpace]
    by_cases h91 : c = 91
    · rw [if_neg (not_not.2 h91), if_neg (not_not.2 h91)]
      by_cases h93 : (parseWhiteSpaceLoop rest).head? = some 93
      · rw [if_pos h93, if_pos h93]
      · rw [if_neg h93, if_neg h93]
        exact parseArrayLoop_agree pv1 pv2 hag hk _ _ _ hp
    · rw [if_pos h91, if_pos h91]

theorem parseObjectLoopChecked_eq (pv1 pv2 : Parser → Res Value)
    (hag : ∀ p : Parser, p.top = 0 → pv1 p = pv2 p) (hk : keepsBuffer pv2) :
    ∀ (fuel : Nat) (p : Parser) (o : List KV), p.top = 0 →
      parseObjectLoopChecked pv1 fuel p o = parseObjectLoop pv2 fuel p o := by
  intro fuel
  induction fuel with
  | zero => intro p o _; rfl
  | succ fuel ih =>
    intro p o hp
    simp only [parseObjectLoopChecked, parseObjectLoop, Parser.parseWhiteSpace]
    rw [parseStringRawChecked_eq p hp]
    by_cases h34 : p.json.head? = some 34
    · rw [if_neg (not_not.2 h34), if_neg (not_not.2 h34)]
      cases hr : parseStringRaw p with
      | fault w => rfl
      | timeout => rfl
      | ret s e1 q1 =>
        have hs := (parseStringRaw_state p s e1 q1 hr).1
        cases e1 with
        | some er => rfl
        | none =>
          simp only []
          by_cases h58 : (parseWhiteSpaceLoop q1.json).head? = some 58
          · rw [if_neg (not_not.2 h58), if_neg (not_not.2 h58)]
            have hq1 : q1.top = 0 := hs.trans hp
            rw [hag ⟨parseWhiteSpaceLoop (parseWhiteSpaceLoop q1.json).tail, q1.stack, q1.top⟩
              hq1]
            cases hr2 : pv2
              ⟨parseWhiteSpaceLoop (parseWhiteSpaceLoop q1.json).tail, q1.stack, q1.top⟩ with
            | fault w => rfl
            | timeout => rfl
            | ret vv e2 q2 =>
              have hv : q2.top = q1.top := (hk _ vv e2 q2 hr2).1
              cases e2 with
              | some er => rfl
              | none =>
                simp only []
                cases hj : parseWhiteSpaceLoop q2.json with
                | nil => rfl
                | cons d rest =>
                  simp only []
                  by_cases h44 : d = 44
                  · rw [if_pos h44, if_pos h44]
                    exact ih _ _ (hv.trans hq1)
                  · rw [if_neg h44, if_neg h44]
          · rw [if_pos h58, if_pos h58]
    · rw [if_pos h34, if_pos h34]

theorem parseObjectChecked_eq (pv1 pv2 : Parser → Res Value)
    (hag : ∀ p : Parser, p.top = 0 → pv1 p = pv2 p) (hk : keepsBuffer pv2) (p : Parser)
    (hp : p.top = 0) : parseObjectChecked pv1 p = parseObject pv2 p := by
  obtain ⟨json, st, top⟩ := p
  cases json with
  | nil => rfl
  | cons c rest =>
    simp only [parseObjectChecked, parseObject, Parser.parseWhiteSpace]
    by_cases h123 : c = 123
    · rw [if_neg (not_not.2 h123), if_neg (not_not.2 h123)]
      by_cases h125 : (parseWhiteSpaceLoop rest).head? = some 125
      · rw [if_pos h125, if_pos h125]
      · rw [if_neg h125, if_neg h125]
        exact parseObjectLoopChecked_eq pv1 pv2 hag hk _ _ _ hp
    · rw [if_pos h123, if_pos h123]

/-- On a parser with an empty scratch buffer the assertions of
`parseValueChecked` never fail: it is `parseValue`. -/
theorem parseValueChecked_eq (lib : Strconv) : ∀ (fuel : Nat) (p : Parser), p.top = 0 →
    parseValueChecked lib fuel p = parseValue lib fuel p := by
  intro fuel
  induction fuel with
  | zero => intro p _; rfl
  | succ fuel ih =>
    intro p hp
    obtain ⟨json, st, top⟩ := p
    cases json with
    | nil => rfl
    | cons c rest =>
      simp only [parseValueChecked, parseValue]
      split_ifs
      · rfl
      · rfl
      · rfl
      · exact parseStringChecked_eq _ hp
      · exact parseArray_agree _ _ ih (parseValue_buffer lib fuel) _ hp
      · exact parseObjectChecked_eq _ _ ih (parseValue_buffer lib fuel) _ hp
      · rfl

theorem ParseChecked_eq (lib : Strconv) (s : List Nat) : ParseChecked lib s = Parse lib s := by
  unfold ParseChecked Parse Parser.ParseChecked Parser.Parse Parser.zero
  simp only [Parser.parseWhiteSpace]
  rewrite [parseValueChecked_eq lib _ _ rfl]
  rfl

/-! ## The panics inside `parseValue` are panics of indexing and slicing -/

theorem parseHex4Loop_no_fault : ∀ (k u : Nat) (p : Parser) (w : Panic),
    parseHex4Loop k u p ≠ .fault w := by
  intro k
  induction k with
  | zero => intro u p w h; simp [parseHex4Loop] at h
  | succ k ih =>
    intro u p w h
    obtain ⟨json, st, top⟩ := p
    cases json with
    | nil => simp [parseHex4Loop] at h
    | cons ch rest =>
      simp only [parseHex4Loop] at h
      split_ifs at h
      · exact ih _ _ w h
      · exact ih _ _ w h
      · exact ih _ _ w h

theorem parseSurrogate_fault (head h : Nat) (p : Parser) (w : Panic)
    (hr : parseSurrogate head h p = .fault w) : w ≠ .StackNotEmpty := by
  obtain ⟨json, st, top⟩ := p
  unfold parseSurrogate at hr
  cases json with
  | nil =>
    injection hr with hw
    subst hw
    decide
  | cons ch rest =>
    simp only [] at hr
    by_cases h92 : ch ≠ 92
    · rw [if_pos h92] at hr
      simp at hr
    · rw [if_neg h92] at hr
      cases rest with
      | nil =>
        injection hr with hw
        subst hw
        decide
      | cons ch2 rest2 =>
        simp only [] at hr
        by_cases h117 : ch2 ≠ 117
        · rw [if_pos h117] at hr
          simp at hr
        · rw [if_neg h117] at hr
          cases hx : parseHex4 ⟨rest2, st, top⟩ with
          | fault w2 => exact (parseHex4Loop_no_fault 4 0 _ w2 hx).elim
          | timeout => rw [hx] at hr; simp at hr
          | ret u e1 q1 =>
            rw [hx] at hr
            cases e1 with
            | some er => simp at hr
            | none =>
              simp only [] at hr
              split_ifs at hr

theorem parseEscape_fault (head ch : Nat) (p : Parser) (w : Panic)
    (hr : parseEscape head ch p = .fault w) : w ≠ .StackNotEmpty := by
  by_cases hu : ch = 117
  · subst hu
    rw [parseEscape_u] at hr
    cases hx : parseHex4 p with
    | fault w2 => exact (parseHex4Loop_no_fault 4 0 _ w2 hx).elim
    | timeout => rw [hx] at hr; simp at hr
    | ret u e1 q1 =>
      rw [hx] at hr
      cases e1 with
      | some er => simp at hr
      | none =>
        simp only [] at hr
        by_cases hhigh : 0xD800 ≤ u ∧ u ≤ 0xDBFF
        · rw [if_pos hhigh] at hr
          cases hy : parseSurrogate head u q1 with
          | fault w2 =>
            rw [hy] at hr
            injection hr with hw
            subst hw
            exact parseSurrogate_fault head u q1 w2 hy
          | timeout => rw [hy] at hr; simp at hr
          | ret u2 e2 q2 =>
            rw [hy] at hr
            cases e2 with
            | some er => simp at hr
            | none => simp at hr
        · rw [if_neg hhigh] at hr
          simp at hr
  · unfold parseEscape at hr
    rw [if_neg hu] at hr
    split_ifs at hr

theorem parseStringRawLoop_fault (head : Nat) : ∀ (fuel : Nat) (p : Parser) (w : Panic),
    parseStringRawLoop head fuel p = .fault w → w ≠ .StackNotEmpty := by
  intro fuel
  induction fuel with
  | zero => intro p w h; simp [parseStringRawLoop] at h
  | succ fuel ih =>
    intro p w h
    obtain ⟨json, st, top⟩ := p
    cases json with
    | nil =>
      simp only [parseStringRawLoop] at h
      injection h with hw
      subst hw
      decide
    | cons ch rest =>
      simp only [parseStringRawLoop] at h
      by_cases c1 : rest.length = 0 ∧ ch ≠ 34
      · rw [if_pos c1] at h
        simp at h
      rw [if_neg c1] at h
      by_cases c2 : ch = 34
      · rw [if_pos c2] at h
        simp only [Parser.pop] at h
        split_ifs at h
        injection h with hw
        subst hw
        decide
      rw [if_neg c2] at h
      by_cases c3 : ch = 92
      · rw [if_pos c3] at h
        cases rest with
        | nil =>
          injection h with hw
          subst hw
          decide
        | cons ch2 rest2 =>
          simp only [] at h
          cases hr : parseEscape head ch2 ⟨rest2, st, top⟩ with
          | fault w2 =>
            rw [hr] at h
            injection h with hw
            subst hw
            exact parseEscape_fault head ch2 _ w2 hr
          | timeout => rw [hr] at h; simp at h
          | ret u e1 q1 =>
            rw [hr] at h
            cases e1 with
            | some er => simp at h
            | none => exact ih q1 w h
      rw [if_neg c3] at h
      by_cases c4 : ch < 0x20
      · rw [if_pos c4] at h
        simp at h
      rw [if_neg c4] at h
      exact ih _ w h

theorem parseStringRaw_fault (p : Parser) (w : Panic) (h : parseStringRaw p = .fault w) :
    w ≠ .StackNotEmpty := by
  obtain ⟨json, st, top⟩ := p
  unfold parseStringRaw at h
  by_cases c1 : json.length ≠ 0 ∧ json.head? ≠ some 34
  · rw [if_pos c1] at h
    simp at h
  · rw [if_neg c1] at h
    cases json with
    | nil =>
      injection h with hw
      subst hw
      decide
    | cons c rest =>
      simp only [] at h
      by_cases c2 : rest.length = 0
      · rw [if_pos c2] at h
        simp at h
      · rw [if_neg c2] at h
        exact parseStringRawLoop_fault top _ _ w h

theorem parseString_fault (p : Parser) (w : Panic) (h : parseString p = .fault w) :
    w ≠ .StackNotEmpty := by
  unfold parseString at h
  cases hr : parseStringRaw p with
  | fault w2 =>
    rw [hr] at h
    injection h with hw
    subst hw
    exact parseStringRaw_fault p w2 hr
  | timeout => rw [hr] at h; simp at h
  | ret s e1 q1 =>
    rw [hr] at h
    cases e1 with
    | some er => simp at h
    | none => simp at h

theorem parseArrayLoop_fault (pv : Parser → Res Value)
    (hpv : ∀ (p : Parser) (w : Panic), pv p = .fault w → w ≠ .StackNotEmpty) :
    ∀ (fuel : Nat) (p : Parser) (a : List Value) (w : Panic),
      parseArrayLoop pv fuel p a = .fault w → w ≠ .StackNotEmpty := by
  intro fuel
  induction fuel with
  | zero => intro p a w h; simp [parseArrayLoop] at h
  | succ fuel ih =>
    intro p a w h
    simp only [parseArrayLoop] at h
    cases hr : pv p with
    | fault w2 =>
      rw [hr] at h
      injection h with hw
      subst hw
      exact hpv p w2 hr
    | timeout => rw [hr] at h; simp at h
    | ret v1 e1 q1 =>
      rw [hr] at h
      cases e1 with
      | some er => simp at h
      | none =>
        simp only [Parser.parseWhiteSpace] at h
        cases hj : parseWhiteSpaceLoop q1.json with
        | nil => rw [hj] at h; simp at h
        | cons d rest =>
          rw [hj] at h
          simp only [] at h
          by_cases h44 : d = 44
          · rw [if_pos h44] at h
            exact ih _ _ w h
          · rw [if_neg h44] at h
            split_ifs at h

theorem parseArray_fault (pv : Parser → Res Value)
    (hpv : ∀ (p : Parser) (w : Panic), pv p = .fault w → w ≠ .StackNotEmpty) (p : Parser)
    (w : Panic) (h : parseArray pv p = .fault w) : w ≠ .StackNotEmpty := by
  obtain ⟨json, st, top⟩ := p
  cases json with
  | nil => simp [parseArray] at h
  | cons c rest =>
    simp only [parseArray, Parser.parseWhiteSpace] at h
    by_cases h91 : c = 91
    · rw [if_neg (not_not.2 h91)] at h
      by_cases h93 : (parseWhiteSpaceLoop rest).head? = some 93
      · rw [if_pos h93] at h
        simp at h
      · rw [if_neg h93] at h
        exact parseArrayLoop_fault pv hpv _ _ _ w h
    · rw [if_pos h91] at h
      simp at h

theorem parseObjectLoop_fault (pv : Parser → Res Value)
    (hpv : ∀ (p : Parser) (w : Panic), pv p = .fault w → w ≠ .StackNotEmpty) :
    ∀ (fuel : Nat) (p : Parser) (o : List KV) (w : Panic),
      parseObjectLoop pv fuel p o = .fault w → w ≠ .StackNotEmpty := by
  intro fuel
  induction fuel with
  | zero => intro p o w h; simp [parseObjectLoop] at h
  | succ fuel ih =>
    intro p o w h
    simp only [parseObjectLoop, Parser.parseWhiteSpace] at h
    by_cases h34 : p.json.head? = some 34
    · rw [if_neg (not_not.2 h34)] at h
      cases hr : parseStringRaw p with
      | fault w2 =>
        rw [hr] at h
        injection h with hw
        subst hw
        exact parseStringRaw_fault p w2 hr
      | timeout => rw [hr] at h; simp at h
      | ret s e1 q1 =>
        rw [hr] at h
        cases e1 with
        | some er => simp at h
        | none =>
          simp only [] at h
          by_cases h58 : (parseWhiteSpaceLoop q1.json).head? = some 58
          · rw [if_neg (not_not.2 h58)] at h
            cases hr2 : pv
              ⟨parseWhiteSpaceLoop (parseWhiteSpaceLoop q1.json).tail, q1.stack, q1.top⟩ with
            | fault w2 =>
              rw [hr2] at h
              injection h with hw
              subst hw
              exact hpv _ w2 hr2
            | timeout => rw [hr2] at h; simp at h
            | ret vv e2 q2 =>
              rw [hr2] at h
              cases e2 with
              | some er => simp at h
              | none =>
                simp only [] at h
                cases hj : parseWhiteSpaceLoop q2.json with
                | nil => rw [hj] at h; simp at h
                | cons d rest =>
                  rw [hj] at h
                  simp only [] at h
                  by_cases h44 : d = 44
                  · rw [if_pos h44] at h
                    exact ih _ _ w h
                  · rw [if_neg h44] at h
                    split_ifs at h
          · rw [if_pos h58] at h
            simp at h
    · rw [if_pos h34] at h
      simp at h

theorem parseObject_fault (pv : Parser → Res Value)
    (hpv : ∀ (p : Parser) (w : Panic), pv p = .fault w → w ≠ .StackNotEmpty) (p : Parser)
    (w : Panic) (h : parseObject pv p = .fault w) : w ≠ .StackNotEmpty := by
  obtain ⟨json, st, top⟩ := p
  cases json with
  | nil => simp [parseObject] at h
  | cons c rest =>
    simp only [parseObject, Parser.parseWhiteSpace] at h
    by_cases h123 : c = 123
    · rw [if_neg (not_not.2 h123)] at h
      by_cases h125 : (parseWhiteSpaceLoop rest).head? = some 125
      · rw [if_pos h125] at h
        simp at h
      · rw [if_neg h125] at h
        exact parseObjectLoop_fault pv hpv _ _ _ w h
    · rw [if_pos h123] at h
      simp at h

theorem parseLiteral_no_fault (p : Parser) (json : List Nat) (t : Type_) (w : Panic) :
    parseLiteral p json t ≠ .fault w := by
  unfold parseLiteral
  split_ifs <;> simp

theorem parseNumber_no_fault (lib : Strconv) (p : Parser) (w : Panic) :
    parseNumber lib p ≠ .fault w := by
  intro h
  have hx := parseNumber_within lib p
  rw [h] at hx
  unfold parseNumber at h
  simp only [] at h
  cases hn : ((parseNumberInt p.json (if p.json[0]? = some 45 then 1 else 0)).bind
      (parseNumberFrac p.json)).bind (parseNumberExp p.json) with
  | none => rw [hn] at h; simp at h
  | some k =>
    rw [hn] at h
    simp only [] at h
    rcases hpf : lib.ParseFloat (List.take k p.json) with ⟨n, er⟩
    rw [hpf] at h
    cases er with
    | none => simp at h
    | some er2 =>
      cases er2 with
      | ErrRange => simp at h
      | ErrSyntax => simp at h

/-- A panic inside `parseValue` is a panic of indexing or slicing, never the
panic of the end-of-parse check. -/
theorem parseValue_fault (lib : Strconv) : ∀ (fuel : Nat) (p : Parser) (w : Panic),
    parseValue lib fuel p = .fault w → w ≠ .StackNotEmpty := by
  intro fuel
  induction fuel with
  | zero => intro p w h; simp [parseValue] at h
  | succ fuel ih =>
    intro p w h
    obtain ⟨json, st, top⟩ := p
    cases json with
    | nil => simp [parseValue] at h
    | cons c rest =>
      simp only [parseValue] at h
      split_ifs at h
      · exact (parseLiteral_no_fault _ _ _ w h).elim
      · exact (parseLiteral_no_fault _ _ _ w h).elim
      · exact (parseLiteral_no_fault _ _ _ w h).elim
      · exact parseString_fault _ w h
      · exact parseArray_fault _ ih _ w h
      · exact parseObject_fault _ ih _ w h
      · exact (parseNumber_no_fault lib _ w h).elim

/-! ## The scratch buffer at the end of `Parse` -/

/-- The state in which `parseValue` returns to `Parse`: the counter is 0, and on
success the buffer is empty. -/
theorem parseValue_root_state (lib : Strconv) (s : List Nat) (v : Value) (e : Option Err)
    (q : Parser)
    (h : parseValue lib (s.length + 1) ⟨parseWhiteSpaceLoop s, [], 0⟩ = .ret v e q) :
    q.top = 0 ∧ (e = none → q.stack = []) := by
  have hb := parseValue_buffer lib (s.length + 1) ⟨parseWhiteSpaceLoop s, [], 0⟩ v e q h
  exact ⟨hb.1, fun he => hb.2 he rfl⟩

theorem Parse_unfold (lib : Strconv) (s : List Nat) :
    Parse lib s =
      match parseValue lib (s.length + 1) ⟨parseWhiteSpaceLoop s, [], 0⟩ with
      | .fault w => .fault w
      | .timeout => .timeout
      | .ret v (some err) p =>
        if p.top ≠ 0 then .fault .StackNotEmpty else .ret v (some err) ⟨p.json, [], p.top⟩
      | .ret v none p =>
        if (parseWhiteSpaceLoop p.json).length ≠ 0 then
          .ret Value.zero (some ErrParseRootNotSingular) ⟨parseWhiteSpaceLoop p.json, p.stack, p.top⟩
        else if p.top ≠ 0 then .fault .StackNotEmpty
        else .ret v none ⟨parseWhiteSpaceLoop p.json, [], p.top⟩ := by
  rfl

/-- The check at the end of `Parse` never fires. -/
theorem Parse_no_assert (lib : Strconv) (s : List Nat) : Parse lib s ≠ .fault .StackNotEmpty := by
  intro h
  rw [Parse_unfold] at h
  cases hr : parseValue lib (s.length + 1) ⟨parseWhiteSpaceLoop s, [], 0⟩ with
  | fault w =>
    rw [hr] at h
    injection h with hw
    exact parseValue_fault lib _ _ w hr hw
  | timeout => rw [hr] at h; simp at h
  | ret v1 e1 q1 =>
    rw [hr] at h
    have ht := (parseValue_root_state lib s v1 e1 q1 hr).1
    cases e1 with
    | some er =>
      simp only [] at h
      rw [if_neg (not_not.2 ht)] at h
      simp at h
    | none =>
      simp only [] at h
      by_cases hl : (parseWhiteSpaceLoop q1.json).length ≠ 0
      · rw [if_pos hl] at h
        simp at h
      · rw [if_neg hl, if_neg (not_not.2 ht)] at h
        simp at h

/-- A parser that returned from `Parse` holds an empty buffer and a zero
counter. -/
theorem Parse_final_state (lib : Strconv) (s : List Nat) (v : Value) (e : Option Err)
    (q : Parser) (h : Parse lib s = .ret v e q) : q.stack = [] ∧ q.top = 0 := by
  rw [Parse_unfold] at h
  cases hr : parseValue lib (s.length + 1) ⟨parseWhiteSpaceLoop s, [], 0⟩ with
  | fault w => rw [hr] at h; simp at h
  | timeout => rw [hr] at h; simp at h
  | ret v1 e1 q1 =>
    rw [hr] at h
    have hs := parseValue_root_state lib s v1 e1 q1 hr
    cases e1 with
    | some er =>
      simp only [] at h
      rw [if_neg (not_not.2 hs.1)] at h
      injection h with _ _ hq
      subst hq
      exact ⟨rfl, hs.1⟩
    | none =>
      simp only [] at h
      by_cases hl : (parseWhiteSpaceLoop q1.json).length ≠ 0
      · rw [if_pos hl] at h
        injection h with _ _ hq
        subst hq
        exact ⟨hs.2 rfl, hs.1⟩
      · rw [if_neg hl, if_neg (not_not.2 hs.1)] at h
        injection h with _ _ hq
        subst hq
        exact ⟨rfl, hs.1⟩

/-- On a parser with an empty buffer and a zero counter `Parse` does what it
does on a fresh parser, whatever text the parser still holds. -/
theorem Parse_on_fresh (lib : Strconv) (p : Parser) (s : List Nat) (hs : p.stack = [])
    (ht : p.top = 0) : p.Parse lib s = Parse lib s := by
  obtain ⟨json, st, top⟩ := p
  simp only at hs ht
  subst hs
  subst ht
  rfl

/-- The text `"a\x"`: the bad escape is met with one byte in the buffer.
`parseValue` returns to `Parse` with the counter rewound to 0 and the byte
still in the buffer, so that `p.top` is 0 and `len(p.stack)` is 1 at the
end-of-parse check. -/
theorem Parse_error_keeps_bytes :
    parseValue (Strconv.mk (fun _ => (0, none)) (fun _ => []))
        ([34, 97, 92, 120, 34].length + 1) ⟨parseWhiteSpaceLoop [34, 97, 92, 120, 34], [], 0⟩
      = .ret Value.zero (some ErrParseInvalidStringEscape) ⟨[34], [97], 0⟩ ∧
    (⟨[34], [97], 0⟩ : Parser).top ≠ (⟨[34], [97], 0⟩ : Parser).stack.length ∧
    Parse (Strconv.mk (fun _ => (0, none)) (fun _ => [])) [34, 97, 92, 120, 34]
      = .ret Value.zero (some ErrParseInvalidStringEscape) ⟨[34], [], 0⟩ :=
  ⟨rfl, by decide, rfl⟩

/-- C26, amended. Scratch-buffer invariant: for every input text, when
`parseValue` returns to `Parse` (with or without an error) the occupancy
counter `p.top` is 0, and on the success path it is equal to `len(p.stack)`;
so `Parse` never raises the "stack is not empty" panic, and it returns or
panics on every text. The parser that asserts `p.top == 0` at the start of
every string literal does what `Parse` does, so no assertion fails. Every
return of `parseStringRaw`, error returns included, leaves the counter at the
mark taken at string start. -/
theorem Parse_scratch_buffer (lib : Strconv) (s : List Nat) :
    (∀ (v : Value) (e : Option Err) (q : Parser),
      parseValue lib (s.length + 1) ⟨parseWhiteSpaceLoop s, [], 0⟩ = .ret v e q →
        q.top = 0 ∧ (e = none → q.top = q.stack.length)) ∧
    Parse lib s ≠ .fault .StackNotEmpty ∧
    Parse lib s ≠ .timeout ∧
    ParseChecked lib s = Parse lib s ∧
    ParseChecked lib s ≠ .fault .StackNotEmpty ∧
    (∀ (p : Parser) (x : List Nat) (e : Option Err) (q : Parser),
      parseStringRaw p = .ret x e q → q.top = p.top) := by
  refine ⟨?_, Parse_no_assert lib s, Parse_ne_timeout lib s, ParseChecked_eq lib s, ?_, ?_⟩
  · intro v e q h
    have hs := parseValue_root_state lib s v e q h
    refine ⟨hs.1, fun he => ?_⟩
    rw [hs.1, hs.2 he]
    rfl
  · rw [ParseChecked_eq]
    exact Parse_no_assert lib s
  · intro p x e q h
    exact (parseStringRaw_state p x e q h).1

/-- C27. Parser reuse is state-independent: when `Parse(s1)` on a fresh parser
returns, with or without a parse error, the parser is left with an empty
buffer and a zero counter, and `Parse(s2)` on that parser gives what
`Parse(s2)` gives on a fresh parser: the same Value, the same error and the
same final state (or the same panic); this holds as well for every parser
with an empty buffer and a zero counter, so after any number of reuses. -/
theorem Parse_reuse (lib : Strconv) (s1 s2 : List Nat) (v : Value) (e : Option Err)
    (q : Parser) (h : Parse lib s1 = .ret v e q) :
    q.stack = [] ∧ q.top = 0 ∧ q.Parse lib s2 = Parse lib s2 ∧
    (∀ (p : Parser) (s : List Nat), p.stack = [] → p.top = 0 → p.Parse lib s = Parse lib s) := by
  have hq := Parse_final_state lib s1 v e q h
  exact ⟨hq.1, hq.2, Parse_on_fresh lib q s2 hq.1 hq.2,
    fun p s hs ht => Parse_on_fresh lib p s hs ht⟩

/-- Witness for `Parse_reuse`: `"a\x"` fails in the middle of a string literal,
and `"b"` is then parsed by the same parser. -/
theorem Parse_reuse_witness :
    Parse (Strconv.mk (fun _ => (0, none)) (fun _ => [])) [34, 97, 92, 120, 34]
      = .ret Value.zero (some ErrParseInvalidStringEscape) ⟨[34], [], 0⟩ ∧
    ((⟨[34], [], 0⟩ : Parser).stack = [] ∧ (⟨[34], [], 0⟩ : Parser).top = 0 ∧
      (⟨[34], [], 0⟩ : Parser).Parse (Strconv.mk (fun _ => (0, none)) (fun _ => [])) [34, 98, 34]
        = Parse (Strconv.mk (fun _ => (0, none)) (fun _ => [])) [34, 98, 34] ∧
      (∀ (p : Parser) (s : List Nat), p.stack = [] → p.top = 0 →
        p.Parse (Strconv.mk (fun _ => (0, none)) (fun _ => [])) s
          = Parse (Strconv.mk (fun _ => (0, none)) (fun _ => [])) s)) :=
  ⟨rfl, Parse_reuse (Strconv.mk (fun _ => (0, none)) (fun _ => [])) [34, 97, 92, 120, 34]
    [34, 98, 34] Value.zero (some ErrParseInvalidStringEscape) ⟨[34], [], 0⟩ rfl⟩

end goson

namespace goson

open Type_ Err

/-! ## Key uniqueness under the Object mutators -/

theorem setObjectValueLoop_keys (key : List Nat) (x : Value) :
    ∀ (o o2 : List KV), setObjectValueLoop key x o = some o2 →
      o2.map Prod.fst = o.map Prod.fst := by
  intro o
  induction o with
  | nil => intro o2 h; simp [setObjectValueLoop] at h
  | cons kv rest ih =>
    intro o2 h
    simp only [setObjectValueLoop] at h
    by_cases hk : kv.1 = key
    · rw [if_pos hk] at h
      simp only [Option.some.injEq] at h
      subst h
      simp [hk]
    · rw [if_neg hk] at h
      cases hr : setObjectValueLoop key x rest with
      | none => rw [hr] at h; simp at h
      | some r =>
        rw [hr] at h
        simp only [Option.map_some', Option.some.injEq] at h
        subst h
        simp [ih r hr]

theorem setObjectValueLoop_none (key : List Nat) (x : Value) :
    ∀ o : List KV, setObjectValueLoop key x o = none → ∀ kv ∈ o, kv.1 ≠ key := by
  intro o
  induction o with
  | nil => intro _ kv hkv; simp at hkv
  | cons e rest ih =>
    intro h kv hkv
    simp only [setObjectValueLoop] at h
    by_cases hk : e.1 = key
    · rw [if_pos hk] at h
      simp at h
    · rw [if_neg hk] at h
      rcases List.mem_cons.1 hkv with rfl | hm
      · exact hk
      · refine ih ?_ kv hm
        cases hr : setObjectValueLoop key x rest with
        | none => rfl
        | some r => rw [hr] at h; simp at h

/-- On an Object with pairwise distinct keys `setObjectValue` returns no
error and leaves an Object with pairwise distinct keys. -/
theorem setObjectValue_distinct (v : Value) (key : List Nat) (x : Value) (ht : v.t = OBJECT)
    (hd : distinctKeys v.o) :
    (setObjectValue v key x).2 = none ∧ (setObjectValue v key x).1.t = OBJECT ∧
      distinctKeys (setObjectValue v key x).1.o := by
  rw [setObjectValue_entries v key x ht]
  refine ⟨rfl, ?_, ?_⟩
  · simp only [Value.t_setO, ht]
  · simp only [Value.o_setO]
    cases hr : setObjectValueLoop key x v.o with
    | some o2 =>
      simp only [Option.getD_some]
      unfold distinctKeys at hd ⊢
      rw [setObjectValueLoop_keys key x v.o o2 hr]
      exact hd
    | none =>
      simp only [Option.getD_none]
      have hab := setObjectValueLoop_none key x v.o hr
      unfold distinctKeys at hd ⊢
      rw [List.map_append, List.map_singleton]
      refine List.Nodup.append hd (List.nodup_singleton _) ?_
      intro k hk1 hk2
      simp only [List.mem_singleton] at hk2
      subst hk2
      obtain ⟨kv, hkv, hkk⟩ := List.mem_map.1 hk1
      exact hab kv hkv hkk

theorem removeObjectValueLoop_lt (key : List Nat) :
    ∀ (o : List KV) (i : Nat), o ≠ [] → removeObjectValueLoop key o i < i + o.length := by
  intro o
  induction o with
  | nil => intro i h; exact (h rfl).elim
  | cons kv rest ih =>
    intro i _
    simp only [removeObjectValueLoop, List.length_cons]
    by_cases hk : kv.1 = key
    · rw [if_pos hk]
      omega
    · rw [if_neg hk]
      by_cases hr : rest = []
      · subst hr
        simp only [removeObjectValueLoop, List.length_nil]
        omega
      · have := ih (i + 1) hr
        omega

/-- On a non-empty Object with pairwise distinct keys `removeObjectValue`
returns no error, whatever the key, and leaves an Object with one entry less
and pairwise distinct keys. -/
theorem removeObjectValue_distinct (v : Value) (key : List Nat) (ht : v.t = OBJECT)
    (hd : distinctKeys v.o) (hne : v.o ≠ []) :
    ∃ v2, removeObjectValue v key = .done (v2, none) ∧ v2.t = OBJECT ∧ distinctKeys v2.o ∧
      v2.o.length + 1 = v.o.length := by
  have hlt := removeObjectValueLoop_lt key v.o 0 hne
  rw [Nat.zero_add] at hlt
  unfold removeObjectValue
  rw [if_neg (by simp [ht])]
  simp only []
  rw [if_neg (by omega)]
  refine ⟨_, rfl, ?_, ?_, ?_⟩
  · simp only [Value.t_setO, ht]
  · simp only [Value.o_setO]
    unfold distinctKeys at hd ⊢
    rw [← List.eraseIdx_eq_take_drop_succ]
    exact hd.sublist ((List.eraseIdx_sublist _ _).map _)
  · simp only [Value.o_setO, List.length_append, List.length_take, List.length_drop]
    omega

/-- On the empty Object `removeObjectValue` panics, whatever the key. -/
theorem removeObjectValue_empty (v : Value) (key : List Nat) (ht : v.t = OBJECT)
    (he : v.o = []) : removeObjectValue v key = .fault := by
  unfold removeObjectValue
  rw [if_neg (by simp [ht]), he]
  rfl

mutual
/-- The function `copy` returns, on every tree, a value of the same tag whose
keys are pairwise distinct. -/
theorem copy_distinct : ∀ v : Value, ∃ c, v.copy = .done c ∧ c.t = v.t ∧ distinctKeys c.o
  | .mk s n a o t => by
    cases t
    · exact ⟨_, rfl, rfl, List.nodup_nil⟩
    · exact ⟨_, rfl, rfl, List.nodup_nil⟩
    · exact ⟨_, rfl, rfl, List.nodup_nil⟩
    · exact ⟨_, rfl, rfl, List.nodup_nil⟩
    · exact ⟨_, rfl, rfl, List.nodup_nil⟩
    · obtain ⟨c, hc, h1, h2⟩ := copyArrayLoop_total a []
      refine ⟨c, ?_, h1, ?_⟩
      · simp only [Value.copy]
        exact hc
      · rw [h2]
        exact List.nodup_nil
    · obtain ⟨c, hc, h1, h2⟩ := copyObjectLoop_total o [] List.nodup_nil
      refine ⟨c, ?_, h1, h2⟩
      simp only [Value.copy]
      exact hc
/-- The loop of `copy` over the elements returns an Array. -/
theorem copyArrayLoop_total : ∀ (a acc : List Value),
    ∃ c, copyArrayLoop (Value.mk [] 0 acc [] ARRAY) acc.length a = .done c ∧ c.t = ARRAY ∧
      c.o = []
  | [], acc => ⟨_, rfl, rfl, rfl⟩
  | e :: es, acc => by
    obtain ⟨c, hc, _, _⟩ := copy_distinct e
    have h1 := insertArrayElement_at (Value.mk [] 0 acc [] ARRAY) c acc.length rfl (le_refl _)
    obtain ⟨r, hr, h2, h3⟩ := copyArrayLoop_total es (acc ++ [c])
    simp only [Value.a, List.take_length, List.drop_length, Value.setA] at h1
    simp only [List.length_append, List.length_singleton] at hr
    exact ⟨r, by simp only [copyArrayLoop, hc, h1]; exact hr, h2, h3⟩
/-- The loop of `copy` over the entries returns an Object with pairwise
distinct keys. -/
theorem copyObjectLoop_total : ∀ (o acc : List (List Nat × Value)), distinctKeys acc →
    ∃ c, copyObjectLoop (Value.mk [] 0 [] acc OBJECT) o = .done c ∧ c.t = OBJECT ∧
      distinctKeys c.o
  | [], acc, hd => ⟨_, rfl, rfl, hd⟩
  | (k, v) :: es, acc, hd => by
    obtain ⟨c, hc, _, _⟩ := copy_distinct v
    have hs := setObjectValue_distinct (Value.mk [] 0 [] acc OBJECT) k c rfl hd
    have he := setObjectValue_entries (Value.mk [] 0 [] acc OBJECT) k c rfl
    rw [he] at hs
    simp only [Value.setO, Value.o] at hs he
    obtain ⟨r, hr, h2, h3⟩ := copyObjectLoop_total es _ hs.2.2
    exact ⟨r, by simp only [copyObjectLoop, hc, he]; exact hr, h2, h3⟩
end

/-- C25. Key uniqueness is an invariant of the Object mutators. For every
Object `v` whose keys are pairwise distinct: `setObjectValue(k, x)` returns no
error and leaves an Object with pairwise distinct keys; every
`removeObjectValue(k)` that returns leaves, with no error, an Object with
pairwise distinct keys, and the call returns on every Object that holds an
entry (on the empty Object it panics and nothing is assigned);
`clearObject()` returns no error and leaves the empty Object; `copy()` returns
an Object with pairwise distinct keys. And for every tree `w` whose objects
all have distinct keys `copy()` returns the same tree, tags, payloads, keys
and order, so that the text of the copy is the text of `w`. -/
theorem object_mutators_distinct_keys (lib : Strconv) (v : Value) (k : List Nat) (x w : Value)
    (ht : v.t = OBJECT) (hd : distinctKeys v.o) (hw : uniqueKeys w) :
    ((setObjectValue v k x).2 = none ∧ (setObjectValue v k x).1.t = OBJECT ∧
      distinctKeys (setObjectValue v k x).1.o) ∧
    (∀ r : Value × Option Err, removeObjectValue v k = .done r →
      r.2 = none ∧ r.1.t = OBJECT ∧ distinctKeys r.1.o) ∧
    (v.o ≠ [] → ∃ v2, removeObjectValue v k = .done (v2, none) ∧
      v2.o.length + 1 = v.o.length) ∧
    (v.o = [] → removeObjectValue v k = .fault) ∧
    (∃ v2, clearObject v = (v2, none) ∧ v2.t = OBJECT ∧ v2.o = [] ∧ distinctKeys v2.o) ∧
    (∃ c, v.copy = .done c ∧ c.t = OBJECT ∧ distinctKeys c.o) ∧
    (∃ c, w.copy = .done c ∧ sameTree w c ∧ stringifyValue lib c = stringifyValue lib w) := by
  refine ⟨setObjectValue_distinct v k x ht hd, ?_, ?_, removeObjectValue_empty v k ht, ?_, ?_,
    ⟨w.normal, copy_normal w hw, sameTree_normal w, stringifyValue_normal lib w⟩⟩
  · intro r hr
    by_cases hne : v.o = []
    · rw [removeObjectValue_empty v k ht hne] at hr
      exact Exec.noConfusion hr
    · obtain ⟨v2, h1, h2, h3, _⟩ := removeObjectValue_distinct v k ht hd hne
      rw [h1] at hr
      injection hr with hr
      subst hr
      exact ⟨rfl, h2, h3⟩
  · intro hne
    obtain ⟨v2, h1, _, _, h4⟩ := removeObjectValue_distinct v k ht hd hne
    exact ⟨v2, h1, h4⟩
  · refine ⟨v.setO [], ?_, ?_, ?_, ?_⟩
    · unfold clearObject
      rw [if_neg (by simp [ht])]
    · simp only [Value.t_setO, ht]
    · simp only [Value.o_setO]
    · simp only [Value.o_setO]
      exact List.nodup_nil
  · obtain ⟨c, h1, h2, h3⟩ := copy_distinct v
    exact ⟨c, h1, h2.trans ht, h3⟩

/-- Instance of `object_mutators_distinct_keys`: the Object with the entries
`(a, null)` and `(b, true)`, the key `c`, which the Object does not hold, and
the zero value. -/
theorem object_mutators_distinct_keys_witness :
    (Value.mk [] 0 [] [([97], Value.zero), ([98], Value.mk [] 0 [] [] TRUE)] OBJECT).t = OBJECT ∧
    distinctKeys
      (Value.mk [] 0 [] [([97], Value.zero), ([98], Value.mk [] 0 [] [] TRUE)] OBJECT).o ∧
    uniqueKeys (Value.mk [] 0 [] [([97], Value.zero), ([98], Value.mk [] 0 [] [] TRUE)] OBJECT) ∧
    setObjectValue
        (Value.mk [] 0 [] [([97], Value.zero), ([98], Value.mk [] 0 [] [] TRUE)] OBJECT)
        [99] Value.zero =
      (Value.mk [] 0 []
        [([97], Value.zero), ([98], Value.mk [] 0 [] [] TRUE), ([99], Value.zero)] OBJECT,
        none) ∧
    removeObjectValue
        (Value.mk [] 0 [] [([97], Value.zero), ([98], Value.mk [] 0 [] [] TRUE)] OBJECT) [99] =
      .done (Value.mk [] 0 [] [([98], Value.mk [] 0 [] [] TRUE)] OBJECT, none) ∧
    (∀ r : Value × Option Err,
      removeObjectValue
          (Value.mk [] 0 [] [([97], Value.zero), ([98], Value.mk [] 0 [] [] TRUE)] OBJECT)
          [99] = .done r →
        r.2 = none ∧ r.1.t = OBJECT ∧ distinctKeys r.1.o) :=
  ⟨rfl, by simp [distinctKeys, Value.o], by simp [uniqueKeys, uniqueKeysObject, distinctKeys, Value.zero],
    rfl, rfl,
    (object_mutators_distinct_keys (Strconv.mk (fun _ => (0, none)) (fun _ => []))
      (Value.mk [] 0 [] [([97], Value.zero), ([98], Value.mk [] 0 [] [] TRUE)] OBJECT) [99]
      Value.zero
      (Value.mk [] 0 [] [([97], Value.zero), ([98], Value.mk [] 0 [] [] TRUE)] OBJECT)
      rfl (by simp [distinctKeys, Value.o])
      (by simp [uniqueKeys, uniqueKeysObject, distinctKeys, Value.zero])).2.1⟩

/-! ## A key repeated in the text of an object -/

/-- A number of one digit from `1` to `9` ends at a comma or a closing
bracket. -/
theorem parseNumber_digit (lib : Strconv) (d c : Nat) (t st : List Nat) (top : Nat)
    (hd : isDigit1To9 d = true) (hc : c = 44 ∨ c = 125)
    (h0 : (lib.ParseFloat [d]).2 ≠ some NumError.ErrRange) :
    parseNumber lib ⟨d :: c :: t, st, top⟩ =
      .ret (Value.mk [] (lib.ParseFloat [d]).1 [] [] NUMBER) none ⟨c :: t, st, top⟩ := by
  have hr : 49 ≤ d ∧ d ≤ 57 := by
    simp only [isDigit1To9, Bool.and_eq_true, decide_eq_true_eq] at hd
    omega
  have h45 : ¬ d = 45 := by omega
  have h48 : ¬ d = 48 := by omega
  have hcd : isDigit c = false := by
    rcases hc with rfl | rfl <;> rfl
  have h46 : ¬ c = 46 := by omega
  have h101 : ¬ (c = 101 ∨ c = 69) := by omega
  have e : ((parseNumberInt (d :: c :: t) (if (d :: c :: t)[0]? = some 45 then 1 else 0)).bind
      (parseNumberFrac (d :: c :: t))).bind (parseNumberExp (d :: c :: t)) = some 1 := by
    simp [parseNumberInt, parseNumberFrac, parseNumberExp, h45, h48, h46, h101, hd, digitsLoop,
      hcd]
  unfold parseNumber
  simp only []
  rw [e]
  simp only [List.take_succ_cons, List.take_zero, List.drop_succ_cons, List.drop_zero]

/-- The text `\x7b"a":1,"a":2\x7d` parses to an Object with two entries of key
`a`, whatever numbers the library reads. -/
theorem Parse_repeated_number_key (lib : Strconv)
    (h1 : (lib.ParseFloat [49]).2 ≠ some NumError.ErrRange)
    (h2 : (lib.ParseFloat [50]).2 ≠ some NumError.ErrRange) :
    Parse lib [123, 34, 97, 34, 58, 49, 44, 34, 97, 34, 58, 50, 125] =
      .ret (Value.mk [] 0 []
        [([97], Value.mk [] (lib.ParseFloat [49]).1 [] [] NUMBER),
          ([97], Value.mk [] (lib.ParseFloat [50]).1 [] [] NUMBER)] OBJECT) none ⟨[], [], 0⟩ := by
  have hv1 : parseValue lib 13 ⟨[49, 44, 34, 97, 34, 58, 50, 125], [], 0⟩ =
      .ret (Value.mk [] (lib.ParseFloat [49]).1 [] [] NUMBER) none
        ⟨[44, 34, 97, 34, 58, 50, 125], [], 0⟩ := by
    rw [parseValue_number lib 12 49 _ _ _ (by decide)]
    exact parseNumber_digit lib 49 44 _ _ _ rfl (Or.inl rfl) h1
  have hv2 : parseValue lib 13 ⟨[50, 125], [], 0⟩ =
      .ret (Value.mk [] (lib.ParseFloat [50]).1 [] [] NUMBER) none ⟨[125], [], 0⟩ := by
    rw [parseValue_number lib 12 50 _ _ _ (by decide)]
    exact parseNumber_digit lib 50 125 _ _ _ rfl (Or.inr rfl) h2
  have hrun : parseValue lib 14 ⟨[123, 34, 97, 34, 58, 49, 44, 34, 97, 34, 58, 50, 125], [], 0⟩ =
      .ret (Value.mk [] 0 []
        [([97], Value.mk [] (lib.ParseFloat [49]).1 [] [] NUMBER),
          ([97], Value.mk [] (lib.ParseFloat [50]).1 [] [] NUMBER)] OBJECT) none ⟨[], [], 0⟩ := by
    rw [parseValue_object]
    simp [parseObject, parseObjectLoop, parseStringRaw, parseStringRawLoop, Parser.pop,
      Parser.parseWhiteSpace, parseWhiteSpaceLoop, Parser.push, hv1, hv2]
  unfold Parse Parser.Parse Parser.zero
  simp [Parser.parseWhiteSpace, parseWhiteSpaceLoop, hrun]

/-- C6. A text that repeats a key inside one object yields an Object holding
two entries with that key: `\x7b"a":true,"a":false\x7d` parses, with every
number library, to the entries `(a, true)`, `(a, false)`, and the text
`\x7b"a":1,"a":2\x7d` to two entries of key `a` whenever `strconv.ParseFloat`
reports no range error on `1` and on `2`; `parseObject` appends each member
without a look at the keys it holds. The sibling path `setObjectValue` never
appends a key the Object holds: on the Object `(a, true)` it puts `false` in
place; and `isEqual`, which reads the first entry of a key, answers `true` on
the trees parsed from `\x7b"a":true,"a":false\x7d` and `\x7b"a":true,"a":null\x7d`. -/
theorem Parse_repeated_key :
    (∀ lib : Strconv,
      Parse lib [123, 34, 97, 34, 58, 116, 114, 117, 101, 44, 34, 97, 34, 58,
          102, 97, 108, 115, 101, 125] =
        .ret (Value.mk [] 0 []
          [([97], Value.mk [] 0 [] [] TRUE), ([97], Value.mk [] 0 [] [] FALSE)] OBJECT) none
          ⟨[], [], 0⟩) ∧
    ¬ distinctKeys [([97], Value.mk [] 0 [] [] TRUE), ([97], Value.mk [] 0 [] [] FALSE)] ∧
    (∀ lib : Strconv, (lib.ParseFloat [49]).2 ≠ some NumError.ErrRange →
      (lib.ParseFloat [50]).2 ≠ some NumError.ErrRange →
      Parse lib [123, 34, 97, 34, 58, 49, 44, 34, 97, 34, 58, 50, 125] =
          .ret (Value.mk [] 0 []
            [([97], Value.mk [] (lib.ParseFloat [49]).1 [] [] NUMBER),
              ([97], Value.mk [] (lib.ParseFloat [50]).1 [] [] NUMBER)] OBJECT) none
            ⟨[], [], 0⟩ ∧
        ¬ distinctKeys [([97], Value.mk [] (lib.ParseFloat [49]).1 [] [] NUMBER),
          ([97], Value.mk [] (lib.ParseFloat [50]).1 [] [] NUMBER)]) ∧
    setObjectValue (Value.mk [] 0 [] [([97], Value.mk [] 0 [] [] TRUE)] OBJECT) [97]
        (Value.mk [] 0 [] [] FALSE) =
      (Value.mk [] 0 [] [([97], Value.mk [] 0 [] [] FALSE)] OBJECT, none) ∧
    (∀ lib : Strconv,
      Parse lib [123, 34, 97, 34, 58, 116, 114, 117, 101, 44, 34, 97, 34, 58,
          110, 117, 108, 108, 125] =
        .ret (Value.mk [] 0 []
          [([97], Value.mk [] 0 [] [] TRUE), ([97], Value.mk [] 0 [] [] NULL)] OBJECT) none
          ⟨[], [], 0⟩) ∧
    isEqual
        (Value.mk [] 0 []
          [([97], Value.mk [] 0 [] [] TRUE), ([97], Value.mk [] 0 [] [] FALSE)] OBJECT)
        (Value.mk [] 0 []
          [([97], Value.mk [] 0 [] [] TRUE), ([97], Value.mk [] 0 [] [] NULL)] OBJECT) =
      .val true :=
  ⟨fun _ => rfl, by simp [distinctKeys], fun lib h1 h2 =>
      ⟨Parse_repeated_number_key lib h1 h2, by simp [distinctKeys]⟩,
    rfl, fun _ => rfl, rfl⟩

end goson
